import Mathlib

/-!
# CarpetX prolongation operators (`prolongate_3d_rf2.cxx`)

A shallow embedding of the factor-2 prolongation engine of CarpetX:
the coefficient tables `coeffs1d`, the 1D operators `interp1d`, the region
geometry (`CoarseBox`), the stencil-shift selection, the separable three-sweep
driver `interp`, and the choice of the operator by `get_interpolator`
(`driver.cxx`); of the arithmetic helpers, the index map of the container `rten`
(`rten.hxx`) and the integer power `pown` (`defs.hxx`).

Conventions of the embedding

* `CCTK_REAL` values are exact rationals (`ℚ`).  The shift search, where the outcome of
  a floating-point comparison selects the shift, also has a version with the rounding
  of every operation made explicit (`choose_stencil_shift_rounded`).
* A pointer `const T *crseptr` is the function `e ↦ crseptr[e]` on element
  offsets `e : ℤ`; an out-of-range access is not a crash of the model but is
  visible in the list of offsets that were dereferenced.
* Every 1D operator returns its value together with the offsets it read, in
  evaluation order.
* A template parameter `ORDER` is a natural number; a coefficient table that
  the source does not tabulate is the empty list.
-/

namespace CarpetX

/-! ## Enumerations -/

/-- Source: `centering_t`, with the enumerators that `operator<<` prints; the source
abbreviates them as `VC` (vertex) and `CC` (cell). -/
inductive centering_t where
  | vertex
  | cell
  deriving DecidableEq, Repr

/-- Source: `interpolation_t`, with the enumerators that `operator<<` prints; the source
abbreviates them as `POLY`, `HERMITE`, `CONS` and `ENO`. -/
inductive interpolation_t where
  | poly
  | hermite
  | cons
  | eno
  deriving DecidableEq, Repr

/-! ## 1D interpolation coefficients -/

/-- Source: `coeffs1d<VC, POLY, ORDER, T>::coeffs`. -/
def coeffs1d_VC_POLY : ℕ → List ℚ
  | 1 => [1 / 2, 1 / 2]
  | 3 => [-1 / 16, 9 / 16, 9 / 16, -1 / 16]
  | 5 => [3 / 256, -25 / 256, 75 / 128, 75 / 128, -25 / 256, 3 / 256]
  | 7 => [-5 / 2048, 49 / 2048, -245 / 2048, 1225 / 2048,
          1225 / 2048, -245 / 2048, 49 / 2048, -5 / 2048]
  | _ => []

/-- Source: `coeffs1d<CC, POLY, ORDER, T>::coeffs`. -/
def coeffs1d_CC_POLY : ℕ → List ℚ
  | 0 => [1 / 1]
  | 1 => [1 / 4, 3 / 4]
  | 2 => [5 / 32, 15 / 16, -3 / 32]
  | 3 => [-5 / 128, 35 / 128, 105 / 128, -7 / 128]
  | 4 => [-45 / 2048, 105 / 512, 945 / 1024, -63 / 512, 35 / 2048]
  | _ => []

/-- Source: `coeffs1d<VC, HERMITE, ORDER, T>::coeffs`, the initialisers as written.  The
table of order 1 is declared `std::array<T, 4>` with two initialisers, so its last two
elements are 0; the table of order 7 is declared `std::array<T, 6>` but has the eight
initialisers listed here.  `interp1d<VC, HERMITE, ORDER>` does not use these tables: it
takes its coefficients from `coeffs1d<VC, POLY, ORDER, T>`. -/
def coeffs1d_VC_HERMITE : ℕ → List ℚ
  | 1 => [1 / 2, 1 / 2, 0, 0]
  | 3 => [-1 / 16, 9 / 16, 9 / 16, -1 / 16]
  | 5 => [121 / 8192, -875 / 8192, 2425 / 4096, 2425 / 4096, -875 / 8192, 121 / 8192]
  | 7 => [-129 / 32768, 1127 / 36864, -6419 / 49152, 178115 / 294912,
          178115 / 294912, -6419 / 49152, 1127 / 36864, -129 / 32768]
  | _ => []

/-- Source: `coeffs1d<VC, CONS, ORDER, T>::coeffs0` (deprecated family). -/
def coeffs1d_VC_CONS_coeffs0 : ℕ → List ℚ
  | 0 => [1 / 1]
  | 1 => [1 / 1]
  | _ => []

/-- Source: `coeffs1d<VC, CONS, ORDER, T>::coeffs1` (deprecated family). -/
def coeffs1d_VC_CONS_coeffs1 : ℕ → List ℚ
  | 0 => []
  | 1 => [1 / 2, 1 / 2]
  | _ => []

/-- Source: `coeffs1d<CC, CONS, ORDER, T>::coeffs`. -/
def coeffs1d_CC_CONS : ℕ → List ℚ
  | 0 => [1 / 1]
  | 2 => [1 / 8, 1 / 1, -1 / 8]
  | 4 => [-3 / 128, 11 / 64, 1 / 1, -11 / 64, 3 / 128]
  | 6 => [5 / 1024, -11 / 256, 201 / 1024, 1 / 1, -201 / 1024, 11 / 256, -5 / 1024]
  | _ => []

/-- Source: `coeffs1d<CC, ENO, ORDER, T>::coeffs`, one row per candidate shift,
from the leftmost stencil to the rightmost one. -/
def coeffs1d_CC_ENO : ℕ → List (List ℚ)
  | 0 => [[1 / 1]]
  | 2 => [[-1 / 8, 1 / 2, 5 / 8],
          [1 / 8, 1 / 1, -1 / 8],
          [11 / 8, -1 / 2, 1 / 8]]
  | 4 => [[-7 / 128, 19 / 64, -11 / 16, 61 / 64, 63 / 128],
          [3 / 128, -9 / 64, 13 / 32, 49 / 64, -7 / 128],
          [-3 / 128, 11 / 64, 1 / 1, -11 / 64, 3 / 128],
          [7 / 128, 79 / 64, -13 / 32, 9 / 64, -3 / 128],
          [193 / 128, -61 / 64, 11 / 16, -19 / 64, 7 / 128]]
  | _ => []

/-! ## 1D interpolation operators -/

/-- The loop `for (int i = 0; i < n; ++i) y += term(i);` started from `init`:
the first component accumulates the value, the second one appends the
offsets that evaluating `term(i)` dereferences. -/
def accumulate (n : ℕ) (term : ℕ → ℚ × List ℤ) (init : ℚ × List ℤ) : ℚ × List ℤ :=
  (List.range n).foldl (fun acc i => (acc.1 + (term i).1, acc.2 ++ (term i).2)) init

/-- Source: `interp1d<VC, POLY, ORDER>::required_ghosts`. -/
def interp1d_VC_POLY_required_ghosts (ORDER : ℕ) : ℕ := (ORDER + 1) / 2

/-- Source: `interp1d<VC, POLY, ORDER>::operator()`.
`off = 0`: on a coarse point; `off = 1`: between coarse points. -/
def interp1d_VC_POLY (ORDER : ℕ) (crseptr : ℤ → ℚ) (di : ℤ) (_shift : ℤ) (off : ℤ) :
    ℚ × List ℤ :=
  if off = 0 then (crseptr 0, [0])
  else
    let cs := coeffs1d_VC_POLY ORDER
    let i0 : ℤ := ((ORDER + 1) / 2 : ℕ) - off
    accumulate ((ORDER + 1) / 2)
      (fun i =>
        let i1 : ℤ := (ORDER : ℤ) - i
        (cs.getD i 0 * (crseptr (((i : ℤ) - i0) * di) + crseptr ((i1 - i0) * di)),
          [((i : ℤ) - i0) * di, (i1 - i0) * di]))
      (0, [])

/-- Source: `interp1d<CC, POLY, ORDER>::required_ghosts`. -/
def interp1d_CC_POLY_required_ghosts (ORDER : ℕ) : ℕ := (ORDER + 1) / 2

/-- Source: `interp1d<CC, POLY, ORDER>::operator()`.
`off = 0`: left sub-cell; `off = 1`: right sub-cell. -/
def interp1d_CC_POLY (ORDER : ℕ) (crseptr : ℤ → ℚ) (di : ℤ) (_shift : ℤ) (off : ℤ) :
    ℚ × List ℤ :=
  let cs := coeffs1d_CC_POLY ORDER
  let i0 : ℤ := ((ORDER + 1) / 2 : ℕ)
  if off = 0 then
    accumulate (ORDER + 1)
      (fun i => (cs.getD i 0 * crseptr (((i : ℤ) - i0) * di), [((i : ℤ) - i0) * di]))
      (0, [])
  else
    accumulate (ORDER + 1)
      (fun i =>
        (cs.getD (ORDER - i) 0 *
            crseptr (((i : ℤ) - i0 + (if ORDER % 2 ≠ 0 then 1 else 0)) * di),
          [((i : ℤ) - i0 + (if ORDER % 2 ≠ 0 then 1 else 0)) * di]))
      (0, [])

/-- Source: `interp1d<VC, HERMITE, ORDER>::required_ghosts`. -/
def interp1d_VC_HERMITE_required_ghosts (ORDER : ℕ) : ℕ := (ORDER + 1) / 2

/-- Source: `interp1d<VC, HERMITE, ORDER>::operator()`.  The coefficients are
taken from `coeffs1d<VC, POLY, ORDER, T>`, as in the source. -/
def interp1d_VC_HERMITE (ORDER : ℕ) (crseptr : ℤ → ℚ) (di : ℤ) (_shift : ℤ) (off : ℤ) :
    ℚ × List ℤ :=
  if off = 0 then (crseptr 0, [0])
  else
    let cs := coeffs1d_VC_POLY ORDER
    let i0 : ℤ := ((ORDER + 1) / 2 : ℕ) - off
    accumulate ((ORDER + 1) / 2)
      (fun i =>
        let i1 : ℤ := (ORDER : ℤ) - i
        (cs.getD i 0 * (crseptr (((i : ℤ) - i0) * di) + crseptr ((i1 - i0) * di)),
          [((i : ℤ) - i0) * di, (i1 - i0) * di]))
      (0, [])

/-- Source: `interp1d<VC, CONS, ORDER>::required_ghosts` (`0; // TODO: fix this`). -/
def interp1d_VC_CONS_required_ghosts (_ORDER : ℕ) : ℕ := 0

/-- Source: `interp1d<VC, CONS, ORDER>::operator()` (deprecated family). -/
def interp1d_VC_CONS (ORDER : ℕ) (crseptr : ℤ → ℚ) (di : ℤ) (_shift : ℤ) (off : ℤ) :
    ℚ × List ℤ :=
  if off = 0 then
    let i0 : ℤ := (ORDER / 2 : ℕ)
    let cs := coeffs1d_VC_CONS_coeffs0 ORDER
    accumulate (ORDER / 2 * 2 + 1)
      (fun i => (cs.getD i 0 * crseptr (((i : ℤ) - i0) * di), [((i : ℤ) - i0) * di]))
      (0, [])
  else
    let i0 : ℤ := ((ORDER + 1) / 2 : ℕ)
    let cs := coeffs1d_VC_CONS_coeffs1 ORDER
    accumulate ((ORDER + 1) / 2 * 2)
      (fun i => (cs.getD i 0 * crseptr (((i : ℤ) - i0) * di), [((i : ℤ) - i0) * di]))
      (0, [])

/-- Source: `interp1d<CC, CONS, ORDER>::required_ghosts`. -/
def interp1d_CC_CONS_required_ghosts (ORDER : ℕ) : ℕ := (ORDER + 1) / 2

/-- Source: `interp1d<CC, CONS, ORDER>::operator()`.
`off = 0`: left sub-cell; `off = 1`: right sub-cell. -/
def interp1d_CC_CONS (ORDER : ℕ) (crseptr : ℤ → ℚ) (di : ℤ) (_shift : ℤ) (off : ℤ) :
    ℚ × List ℤ :=
  let cs := coeffs1d_CC_CONS ORDER
  let i0 : ℤ := ((ORDER + 1) / 2 : ℕ)
  if off = 0 then
    accumulate (ORDER / 2)
      (fun i =>
        let i1 : ℤ := (ORDER : ℤ) - i
        (cs.getD i 0 * (crseptr (((i : ℤ) - i0) * di) - crseptr ((i1 - i0) * di)),
          [((i : ℤ) - i0) * di, (i1 - i0) * di]))
      (cs.getD (ORDER / 2) 0 * crseptr ((((ORDER / 2 : ℕ) : ℤ) - i0) * di),
        [(((ORDER / 2 : ℕ) : ℤ) - i0) * di])
  else
    accumulate (ORDER / 2)
      (fun i =>
        let i1 : ℤ := (ORDER : ℤ) - i
        (cs.getD i 0 * (crseptr ((i1 - i0) * di) - crseptr (((i : ℤ) - i0) * di)),
          [(i1 - i0) * di, ((i : ℤ) - i0) * di]))
      (cs.getD (ORDER / 2) 0 * crseptr ((((ORDER / 2 : ℕ) : ℤ) - i0) * di),
        [(((ORDER / 2 : ℕ) : ℤ) - i0) * di])

/-- Source: `interp1d<CC, ENO, ORDER>::required_ghosts`. -/
def interp1d_CC_ENO_required_ghosts (ORDER : ℕ) : ℕ := ORDER

/-- Source: `interp1d<CC, ENO, ORDER>::operator()`.  The row
`css[ORDER / 2 + (off == 0 ? +1 : -1) * shift]` is looked up with an integer
index; an index outside the table yields the empty row. -/
def interp1d_CC_ENO (ORDER : ℕ) (crseptr : ℤ → ℚ) (di : ℤ) (shift : ℤ) (off : ℤ) :
    ℚ × List ℤ :=
  let css := coeffs1d_CC_ENO ORDER
  let row : ℤ := ((ORDER / 2 : ℕ) : ℤ) + (if off = 0 then 1 else -1) * shift
  let cs : List ℚ := if 0 ≤ row then css.getD row.toNat [] else []
  let i0 : ℤ :=
    (if off = 0 then (((ORDER + 1) / 2 : ℕ) : ℤ) else (ORDER : ℤ) - ((ORDER + 1) / 2 : ℕ)) - shift
  if off = 0 then
    accumulate (ORDER + 1)
      (fun i => (cs.getD i 0 * crseptr (((i : ℤ) - i0) * di), [((i : ℤ) - i0) * di]))
      (0, [])
  else
    accumulate (ORDER + 1)
      (fun i => (cs.getD (ORDER - i) 0 * crseptr (((i : ℤ) - i0) * di), [((i : ℤ) - i0) * di]))
      (0, [])

/-- Dispatch on the `interp1d<CENT, INTP, ORDER>` specialisations of the source.  The
combinations (cell, hermite) and (vertex, eno) have no specialisation and cannot be
instantiated; they are given a result that reads nothing. -/
def interp1d (CENT : centering_t) (INTP : interpolation_t) (ORDER : ℕ) (crseptr : ℤ → ℚ)
    (di : ℤ) (shift : ℤ) (off : ℤ) : ℚ × List ℤ :=
  match CENT, INTP with
  | .vertex, .poly => interp1d_VC_POLY ORDER crseptr di shift off
  | .cell, .poly => interp1d_CC_POLY ORDER crseptr di shift off
  | .vertex, .hermite => interp1d_VC_HERMITE ORDER crseptr di shift off
  | .vertex, .cons => interp1d_VC_CONS ORDER crseptr di shift off
  | .cell, .cons => interp1d_CC_CONS ORDER crseptr di shift off
  | .cell, .eno => interp1d_CC_ENO ORDER crseptr di shift off
  | .cell, .hermite => (0, [])
  | .vertex, .eno => (0, [])

/-- Source: `interp1d<CENT, INTP, ORDER>::required_ghosts`. -/
def interp1d_required_ghosts (CENT : centering_t) (INTP : interpolation_t) (ORDER : ℕ) : ℕ :=
  match CENT, INTP with
  | .vertex, .poly => interp1d_VC_POLY_required_ghosts ORDER
  | .cell, .poly => interp1d_CC_POLY_required_ghosts ORDER
  | .vertex, .hermite => interp1d_VC_HERMITE_required_ghosts ORDER
  | .vertex, .cons => interp1d_VC_CONS_required_ghosts ORDER
  | .cell, .cons => interp1d_CC_CONS_required_ghosts ORDER
  | .cell, .eno => interp1d_CC_ENO_required_ghosts ORDER
  | .cell, .hermite => 0
  | .vertex, .eno => 0

/-! ## Divided differences (ENO smoothness indicator) -/

/-- Source: `divided_difference_weights<N>::weights`. -/
def divided_difference_weights : ℕ → List ℤ
  | 1 => [1]
  | 2 => [-1, 1]
  | 3 => [1, -2, 1]
  | 4 => [-1, 3, -3, 1]
  | 5 => [1, -4, 6, -4, 1]
  | 6 => [-1, 5, -10, 10, -5, 1]
  | 7 => [1, -6, 15, -20, 15, -6, 1]
  | _ => []

/-- Source: `divided_difference_1d<ENO, ORDER>::operator()`; `ORDER` is even by the
`static_assert`, so only the symmetric branch of the `if constexpr` exists. -/
def divided_difference_1d_ENO (ORDER : ℕ) (ptr : ℤ → ℚ) (di : ℤ) : ℚ × List ℤ :=
  let ws := divided_difference_weights (ORDER + 1)
  let i0 : ℤ := (ORDER / 2 : ℕ)
  let dd := accumulate (ORDER / 2)
    (fun i =>
      let i1 : ℤ := (ORDER : ℤ) - i
      (((ws.getD i 0 : ℤ) : ℚ) * (ptr (((i : ℤ) - i0) * di) + ptr ((i1 - i0) * di)),
        [((i : ℤ) - i0) * di, (i1 - i0) * di]))
    (((ws.getD (ORDER / 2) 0 : ℤ) : ℚ) * ptr (0 * di), [0 * di])
  (|dd.1|, dd.2)

/-- Source: `divided_difference_1d<INTP, ORDER>::operator()`: the generic template returns
0 and reads nothing; only the ENO family is specialised. -/
def divided_difference_1d (INTP : interpolation_t) (ORDER : ℕ) (ptr : ℤ → ℚ) (di : ℤ) :
    ℚ × List ℤ :=
  match INTP with
  | .eno => divided_difference_1d_ENO ORDER ptr di
  | _ => (0, [])

/-! ## Region and index geometry

`amrex::IntVect`, `amrex::Box` and `amrex::FArrayBox` belong to the AMReX library, whose
headers are not among the sources.  They are modelled after the spec's notion of a
region, "an axis-aligned integer box (inclusive low/high per axis)", with the library's
per-axis index type and its Fortran-order linearisation. -/

/-- Modelled from the spec: AMReX `IntVect` (library type, not among the sources): three
integer components. -/
structure IntVect where
  x : ℤ
  y : ℤ
  z : ℤ
  deriving DecidableEq, Repr

/-- Modelled from the spec: AMReX `IntVect::getVect()[d]` (not among the sources). -/
def IntVect.getVect (v : IntVect) : ℕ → ℤ
  | 0 => v.x
  | 1 => v.y
  | _ => v.z

/-- The assignment `v.getVect()[d] = a`. -/
def IntVect.setVect (v : IntVect) (d : ℕ) (a : ℤ) : IntVect :=
  match d with
  | 0 => { v with x := a }
  | 1 => { v with y := a }
  | _ => { v with z := a }

/-- Modelled from the spec: AMReX `IndexType` (library type, not among the sources): per
axis, `true` for a nodal (vertex) index and `false` for a cell index. -/
structure IndexType where
  x : Bool
  y : Bool
  z : Bool
  deriving DecidableEq, Repr

/-- The flag of axis `d`. -/
def IndexType.nodal (t : IndexType) : ℕ → Bool
  | 0 => t.x
  | 1 => t.y
  | _ => t.z

/-- Modelled from the spec: AMReX `Box` (library type, not among the sources): inclusive
lower corner `smallend`, inclusive upper corner `bigend`, index type `btype`. -/
structure Box where
  smallend : IntVect
  bigend : IntVect
  btype : IndexType
  deriving DecidableEq, Repr

/-- Modelled from the spec: AMReX `Box::ok()` (not among the sources): the box is not
empty. -/
def Box.ok (b : Box) : Prop :=
  b.smallend.x ≤ b.bigend.x ∧ b.smallend.y ≤ b.bigend.y ∧ b.smallend.z ≤ b.bigend.z

instance (b : Box) : Decidable b.ok := by
  unfold Box.ok
  infer_instance

/-- Modelled from the spec: AMReX `Box::length(d)` (not among the sources): the number of
indices along axis `d`. -/
def Box.length (b : Box) (d : ℕ) : ℤ := b.bigend.getVect d - b.smallend.getVect d + 1

/-- Modelled from the spec: AMReX `Box::numPts()` (not among the sources): the number of
points, 0 for an empty box. -/
def Box.numPts (b : Box) : ℤ :=
  if b.ok then b.length 0 * b.length 1 * b.length 2 else 0

/-- Modelled from the spec: AMReX `Box::index(v)` (not among the sources): offset of `v`
in the Fortran-order linearisation of the box. -/
def Box.index (b : Box) (v : IntVect) : ℤ :=
  (v.x - b.smallend.x) + b.length 0 * (v.y - b.smallend.y) +
    b.length 0 * b.length 1 * (v.z - b.smallend.z)

/-- Modelled from the spec: AMReX `Box::contains(v)` (not among the sources). -/
def Box.contains (b : Box) (v : IntVect) : Prop :=
  (b.smallend.x ≤ v.x ∧ b.smallend.y ≤ v.y ∧ b.smallend.z ≤ v.z) ∧
    (v.x ≤ b.bigend.x ∧ v.y ≤ b.bigend.y ∧ v.z ≤ b.bigend.z)

instance (b : Box) (v : IntVect) : Decidable (b.contains v) := by
  unfold Box.contains
  infer_instance

/-- Modelled from the spec: AMReX `Box::operator&` (not among the sources): intersection
of boxes of one index type. -/
def Box.inter (a b : Box) : Box :=
  { smallend := ⟨max a.smallend.x b.smallend.x, max a.smallend.y b.smallend.y,
      max a.smallend.z b.smallend.z⟩
    bigend := ⟨min a.bigend.x b.bigend.x, min a.bigend.y b.bigend.y,
      min a.bigend.z b.bigend.z⟩
    btype := a.btype }

/-- Modelled from the spec: AMReX `Box::setRange(d, sm_index, n_cells)` (not among the
sources): axis `d` becomes `sm_index … sm_index + n_cells - 1`. -/
def Box.setRange (b : Box) (d : ℕ) (sm_index n_cells : ℤ) : Box :=
  { b with
    smallend := b.smallend.setVect d sm_index
    bigend := b.bigend.setVect d (sm_index + n_cells - 1) }

/-- Modelled from the spec: AMReX `Box::grow(d, n)` (not among the sources): grow by `n`
on both sides of axis `d`. -/
def Box.grow (b : Box) (d : ℕ) (n : ℤ) : Box :=
  { b with
    smallend := b.smallend.setVect d (b.smallend.getVect d - n)
    bigend := b.bigend.setVect d (b.bigend.getVect d + n) }

/-- Modelled from the spec: AMReX `coarsen(int i, int ratio)` (not among the sources):
division rounding towards minus infinity. -/
def coarsen (i ratio : ℤ) : ℤ := Int.fdiv i ratio

/-- Modelled from the spec: AMReX `coarsen(const Box&, int ratio)` (not among the
sources): both corners are coarsened; on a nodal axis whose upper index is not a multiple
of the ratio the coarsened upper index is raised by one, as the library does. -/
def Box.coarsen (b : Box) (ratio : ℤ) : Box :=
  let up : ℕ → ℤ := fun d =>
    CarpetX.coarsen (b.bigend.getVect d) ratio +
      (if b.btype.nodal d = true ∧ b.bigend.getVect d % ratio ≠ 0 then 1 else 0)
  { smallend := ⟨CarpetX.coarsen b.smallend.x ratio, CarpetX.coarsen b.smallend.y ratio,
      CarpetX.coarsen b.smallend.z ratio⟩
    bigend := ⟨up 0, up 1, up 2⟩
    btype := b.btype }

/-- The integers `lo, lo + 1, …, hi` in increasing order: the values taken by the loop
variable of `for (int i = lo; i <= hi; ++i)`. -/
def intRange (lo hi : ℤ) : List ℤ :=
  (List.range (hi + 1 - lo).toNat).map (fun (n : ℕ) => lo + (n : ℤ))

/-- The indices of a box in the order of the loop nest
`for k … for j … for i …` (axis 0 fastest). -/
def Box.points (b : Box) : List IntVect :=
  (intRange b.smallend.z b.bigend.z).flatMap fun k =>
    (intRange b.smallend.y b.bigend.y).flatMap fun j =>
      (intRange b.smallend.x b.bigend.x).map fun i => ⟨i, j, k⟩

/-- Modelled from the spec: `div_floor` of the header `div.hxx`, which is not among the
sources; the kernel comment `fineind = 2 * coarseind + off` fixes it as the division
rounding towards minus infinity. -/
def div_floor (i n : ℤ) : ℤ := Int.fdiv i n

/-- The expression `x & 0x1` on a two's-complement `int`: the least significant bit. -/
def and_0x1 (x : ℤ) : ℤ := x % 2

/-- The conversion `uint8_t(s)` of an `int`: reduction modulo 2^8. -/
def uint8_t (s : ℤ) : ℕ := (s % 256).toNat

/-- The conversion `int8_t(x)` of an `int`: the low byte read as a signed number. -/
def int8_t (x : ℤ) : ℤ := (x + 128) % 256 - 128

/-- Source: the packed shift stored by `interp`,
`int(uint8_t(s[0]) << 0x00) | int(uint8_t(s[1]) << 0x08) | int(uint8_t(s[2]) << 0x10)`. -/
def pack_shifts (min_shift : IntVect) : ℤ :=
  (((uint8_t min_shift.x <<< 0) ||| (uint8_t min_shift.y <<< 8) |||
    (uint8_t min_shift.z <<< 16) : ℕ) : ℤ)

/-- Source: the shift extracted by the kernel of `interp3d`,
`int8_t(shifts >> (D == 0 ? 0x00 : D == 1 ? 0x08 : 0x10))`. -/
def unpack_shift (shifts : ℤ) (D : ℕ) : ℤ :=
  int8_t (shifts >>> (if D = 0 then 0 else if D = 1 then 8 else 16))

/-- Componentwise `a[d] <= b[d]` for `d = 0, 1, 2`: the conjunction of the assertions of a
loop `for (int d = 0; d < 3; ++d) assert(a[d] <= b[d]);`. -/
def IntVect.allLE (a b : IntVect) : Prop := a.x ≤ b.x ∧ a.y ≤ b.y ∧ a.z ≤ b.z

instance (a b : IntVect) : Decidable (a.allLE b) := by
  unfold IntVect.allLE
  infer_instance

/-! ## Memory, accesses and failures

Each array is a function from element indices to values, in an address space of its
own.  `FArrayBox::dataPtr(n)` is the element index `n * box.numPts()`. -/

/-- Modelled from the spec: AMReX `FArrayBox` (library type, not among the sources): the
box and the elements of all components. -/
structure FArrayBox where
  box : Box
  data : ℤ → ℚ

/-- Modelled from the spec: AMReX `FArrayBox::dataPtr(n)` (not among the sources): index
of the first element of component `n`. -/
def FArrayBox.dataPtr (f : FArrayBox) (n : ℕ) : ℤ := (n : ℤ) * f.box.numPts

/-- The arrays touched by `interp`. -/
inductive Buffer where
  | crse
  | fine
  | tmp0
  | tmp1
  | divided_differences
  | stencil_shifts
  deriving DecidableEq, Repr

/-- One memory access: the array and the element index. -/
inductive Access where
  | read (b : Buffer) (a : ℤ)
  | write (b : Buffer) (a : ℤ)
  deriving DecidableEq, Repr

/-- The assertions of `CoarseBox`, `interp` and `interp3d` that can fail.  Assertions
inside `#ifdef CCTK_DEBUG` are not part of the production build and are left out, and so
are the assertions `box.index(IntVect(1, 0, 0)) - box.index(IntVect(0, 0, 0)) == 1`, which
hold for every box (`Box.index_unit_stride`), and the assertions `assert(crseptr)`,
`assert(fineptr)` that a pointer is not null: the arrays of the model always exist. -/
inductive Failure where
  /-- Source: `assert(ratio.getVect()[d] == 2)` -/
  | ratio_is_2
  /-- Source: `assert(actual_comp == 0)` -/
  | actual_comp_is_0
  /-- Source: `assert(actual_state == 0)` -/
  | actual_state_is_0
  /-- Source: `assert(target_region == fine_region)` -/
  | target_region_eq_fine_region
  /-- Source: `assert(targets[dim - 1] == target_region)` -/
  | targets_last_eq_target_region
  /-- Source: `assert(crsebox.contains(ind))` in the divided-difference loop -/
  | crsebox_contains_ind
  /-- Source: `assert(crsebox.ok())` -/
  | crsebox_ok
  /-- Source: `assert(finebox.ok())` -/
  | finebox_ok
  /-- Source: `assert(targetbox.ok())` -/
  | targetbox_ok
  /-- Source: `assert(di > 0)` -/
  | di_positive
  /-- Source: `assert(crseind.getVect()[d] >= crsebox.loVect()[d])` -/
  | crseind_ge_crsebox_lo
  /-- Source: `assert(targetbox.loVect()[d] >= finebox.loVect()[d])` -/
  | targetbox_lo_ge_finebox_lo
  /-- Source: `assert(crseind.getVect()[d] <= crsebox.hiVect()[d])` -/
  | crseind_le_crsebox_hi
  /-- Source: `assert(targetbox.hiVect()[d] <= finebox.hiVect()[d])` -/
  | targetbox_hi_le_finebox_hi
  deriving DecidableEq, Repr

/-- Contents of the freshly allocated device vectors of `interp`, which the source does
not initialise. -/
structure Scratch where
  tmp0 : ℤ → ℚ
  tmp1 : ℤ → ℚ
  divided_differences : ℤ → ℚ
  stencil_shifts : ℤ → ℤ

/-! ## The 3D kernel: one sweep along direction `D` -/

/-- What one call `kernel(i, j, k)` of `interp3d` does: the value stored, the element
indices read from the shift map and from the source array, and the element index of
the destination that is written. -/
structure KernelStep where
  res : ℚ
  shift_reads : List ℤ
  crse_reads : List ℤ
  store : ℤ

/-- Source: `ci`, `cj`, `ck` of the kernel of `interp3d`: the coarse index along the sweep
direction `D` and the loop index along the other two. -/
def interp3d_crseind (D : ℕ) (i j k : ℤ) : IntVect :=
  ⟨if D = 0 then div_floor i 2 else i, if D = 1 then div_floor j 2 else j,
    if D = 2 then div_floor k 2 else k⟩

/-- Source: `off` of the kernel of `interp3d`. -/
def interp3d_off (D : ℕ) (i j k : ℤ) : ℤ :=
  and_0x1 (if D = 0 then i else if D = 1 then j else k)

/-- Source: `ptr` of the kernel of `interp3d`, as an element index of the source array:
`&crseptr[crsed0 + ck * crsedk + cj * crsedj + ci * crsedi]`. -/
def interp3d_ptr (D : ℕ) (crseptr : ℤ) (crsebox : Box) (i j k : ℤ) : ℤ :=
  let crsed0 := crsebox.index ⟨0, 0, 0⟩
  let crsedi : ℤ := 1
  let crsedj := crsebox.index ⟨0, 1, 0⟩ - crsed0
  let crsedk := crsebox.index ⟨0, 0, 1⟩ - crsed0
  let c := interp3d_crseind D i j k
  crseptr + (crsed0 + c.z * crsedk + c.y * crsedj + c.x * crsedi)

/-- Source: the element of the shift map that the kernel of `interp3d` reads,
`stencil_shifts_ptr[shiftd0 + sk * shiftdk + sj * shiftdj + si * shiftdi]`, as an element
index. -/
def interp3d_shiftind (D : ℕ) (stencil_shifts_ptr : ℤ) (stencil_shifts_box : Box)
    (i j k : ℤ) : ℤ :=
  let shiftbox := stencil_shifts_box
  let shiftd0 := shiftbox.index ⟨0, 0, 0⟩
  let shiftdi : ℤ := 1
  let shiftdj := shiftbox.index ⟨0, 1, 0⟩ - shiftd0
  let shiftdk := shiftbox.index ⟨0, 0, 1⟩ - shiftd0
  let si := if 0 > D then i else div_floor i 2
  let sj := if 1 > D then j else div_floor j 2
  let sk := if 2 > D then k else div_floor k 2
  stencil_shifts_ptr + (shiftd0 + sk * shiftdk + sj * shiftdj + si * shiftdi)

/-- Source: `shift` of the kernel of `interp3d`: 0 unless `USE_SHIFT`, else the byte of
direction `D` of the packed shift read from the shift map. -/
def interp3d_shift (D : ℕ) (USE_SHIFT : Bool) (shifts : ℤ → ℤ) (stencil_shifts_ptr : ℤ)
    (stencil_shifts_box : Box) (i j k : ℤ) : ℤ :=
  if USE_SHIFT = true then
    unpack_shift (shifts (interp3d_shiftind D stencil_shifts_ptr stencil_shifts_box i j k)) D
  else 0

/-- Source: the lambda `kernel` of `interp3d<CENT, INTP, ORDER, D, USE_SHIFT>`.
`crse`, `shifts` are the arrays that `crseptr`, `stencil_shifts_ptr` point into, and
`crseptr`, `stencil_shifts_ptr`, `fineptr` are element indices.  For `D = 0` the source
evaluates the operator for both offsets and selects one. -/
def interp3d_kernel (CENT : centering_t) (INTP : interpolation_t) (ORDER : ℕ) (D : ℕ)
    (USE_SHIFT : Bool) (crse : ℤ → ℚ) (crseptr : ℤ) (crsebox : Box) (shifts : ℤ → ℤ)
    (stencil_shifts_ptr : ℤ) (stencil_shifts_box : Box) (fineptr : ℤ) (finebox : Box)
    (di : ℤ) (i j k : ℤ) : KernelStep :=
  let fined0 := finebox.index ⟨0, 0, 0⟩
  let finedi : ℤ := 1
  let finedj := finebox.index ⟨0, 1, 0⟩ - fined0
  let finedk := finebox.index ⟨0, 0, 1⟩ - fined0
  let off := interp3d_off D i j k
  let shift := interp3d_shift D USE_SHIFT shifts stencil_shifts_ptr stencil_shifts_box i j k
  let ptr := interp3d_ptr D crseptr crsebox i j k
  let res0 := interp1d CENT INTP ORDER (fun e => crse (ptr + e)) di shift 0
  let res1 := interp1d CENT INTP ORDER (fun e => crse (ptr + e)) di shift 1
  let resoff := interp1d CENT INTP ORDER (fun e => crse (ptr + e)) di shift off
  { res := if D = 0 then (if off = 0 then res0.1 else res1.1) else resoff.1
    shift_reads :=
      if USE_SHIFT = true then
        [interp3d_shiftind D stencil_shifts_ptr stencil_shifts_box i j k]
      else []
    crse_reads := (if D = 0 then res0.2 ++ res1.2 else resoff.2).map (fun e => ptr + e)
    store := fineptr + (fined0 + k * finedk + j * finedj + i * finedi) }

/-- The accesses of one kernel call, in program order. -/
def KernelStep.accesses (src dst : Buffer) (s : KernelStep) : List Access :=
  s.shift_reads.map (Access.read Buffer.stencil_shifts) ++ s.crse_reads.map (Access.read src) ++
    [Access.write dst s.store]

/-- Source: the stride `di` of `interp3d`: the distance in the coarse array between two
neighbours along direction `D`. -/
def interp3d_di (D : ℕ) (crsebox finebox : Box) : ℤ :=
  let first_crseind := finebox.smallend
  let next_crseind := first_crseind.setVect D (first_crseind.getVect D + 1)
  if D = 0 then 1 else crsebox.index next_crseind - crsebox.index first_crseind

/-- Source: the assertions at the head of `interp3d`, in program order; the result is the
first assertion that fails, if any. -/
def interp3d_asserts (CENT : centering_t) (INTP : interpolation_t) (ORDER : ℕ) (D : ℕ)
    (crsebox finebox targetbox : Box) : Option Failure :=
  if ¬ crsebox.ok then some .crsebox_ok
  else if ¬ finebox.ok then some .finebox_ok
  else if ¬ targetbox.ok then some .targetbox_ok
  else if ¬ interp3d_di D crsebox finebox > 0 then some .di_positive
  else
    let required_ghosts : ℤ := (interp1d_required_ghosts CENT INTP ORDER : ℕ)
    let crseind_lo := targetbox.smallend.setVect D
      (coarsen (targetbox.smallend.getVect D) 2 - required_ghosts)
    let crseind_hi := targetbox.bigend.setVect D
      (coarsen (targetbox.bigend.getVect D) 2 + required_ghosts)
    if ¬ crsebox.smallend.allLE crseind_lo then some .crseind_ge_crsebox_lo
    else if ¬ finebox.smallend.allLE targetbox.smallend then some .targetbox_lo_ge_finebox_lo
    else if ¬ crseind_hi.allLE crsebox.bigend then some .crseind_le_crsebox_hi
    else if ¬ targetbox.bigend.allLE finebox.bigend then some .targetbox_hi_le_finebox_hi
    else none

/-- Source: the loop nest of `interp3d` that calls `kernel(i, j, k)` for every index of
`targetbox` (CPU version): the destination array after the loop and the accesses. -/
def interp3d_loop (CENT : centering_t) (INTP : interpolation_t) (ORDER : ℕ) (D : ℕ)
    (USE_SHIFT : Bool) (src : Buffer) (crse : ℤ → ℚ) (crseptr : ℤ) (crsebox : Box)
    (shifts : ℤ → ℤ) (stencil_shifts_ptr : ℤ) (stencil_shifts_box : Box) (dst : Buffer)
    (fine : ℤ → ℚ) (fineptr : ℤ) (finebox targetbox : Box) : (ℤ → ℚ) × List Access :=
  targetbox.points.foldl
    (fun (st : (ℤ → ℚ) × List Access) (p : IntVect) =>
      let s := interp3d_kernel CENT INTP ORDER D USE_SHIFT crse crseptr crsebox shifts
        stencil_shifts_ptr stencil_shifts_box fineptr finebox (interp3d_di D crsebox finebox)
        p.x p.y p.z
      (Function.update st.1 s.store s.res, st.2 ++ s.accesses src dst))
    (fine, [])

/-- Source: `interp3d<CENT, INTP, ORDER, D, USE_SHIFT>`.  `src` and `dst` name the arrays
behind `crseptr` and `fineptr`; the result is the destination array after the sweep and
the accesses made, or the assertion that failed.  The self-test `test_interp1d` that
runs on first use is not part of the model. -/
def interp3d (CENT : centering_t) (INTP : interpolation_t) (ORDER : ℕ) (D : ℕ)
    (USE_SHIFT : Bool) (src : Buffer) (crse : ℤ → ℚ) (crseptr : ℤ) (crsebox : Box)
    (shifts : ℤ → ℤ) (stencil_shifts_ptr : ℤ) (stencil_shifts_box : Box) (dst : Buffer)
    (fine : ℤ → ℚ) (fineptr : ℤ) (finebox targetbox : Box) :
    Except Failure ((ℤ → ℚ) × List Access) :=
  match interp3d_asserts CENT INTP ORDER D crsebox finebox targetbox with
  | some failure => .error failure
  | none =>
    .ok (interp3d_loop CENT INTP ORDER D USE_SHIFT src crse crseptr crsebox shifts
      stencil_shifts_ptr stencil_shifts_box dst fine fineptr finebox targetbox)

/-! ## The operator `prolongate_3d_rf2` -/

/-- Source: the template arguments of
`prolongate_3d_rf2<CENTI, CENTJ, CENTK, INTPI, INTPJ, INTPK, ORDERI, ORDERJ, ORDERK>`. -/
structure prolongate_3d_rf2 where
  CENTI : centering_t
  CENTJ : centering_t
  CENTK : centering_t
  INTPI : interpolation_t
  INTPJ : interpolation_t
  INTPK : interpolation_t
  ORDERI : ℕ
  ORDERJ : ℕ
  ORDERK : ℕ
  deriving DecidableEq, Repr

/-- The centering of axis `d`. -/
def prolongate_3d_rf2.CENT (op : prolongate_3d_rf2) : ℕ → centering_t
  | 0 => op.CENTI
  | 1 => op.CENTJ
  | _ => op.CENTK

/-- The interpolation family of axis `d`. -/
def prolongate_3d_rf2.INTP (op : prolongate_3d_rf2) : ℕ → interpolation_t
  | 0 => op.INTPI
  | 1 => op.INTPJ
  | _ => op.INTPK

/-- Source: `order[d]` in `interp`. -/
def prolongate_3d_rf2.order (op : prolongate_3d_rf2) : ℕ → ℕ
  | 0 => op.ORDERI
  | 1 => op.ORDERJ
  | _ => op.ORDERK

/-- Source: `required_ghosts[d]` in `CoarseBox`: the ghost width of axis `d`, taken from
that axis's own `interp1d`. -/
def prolongate_3d_rf2.required_ghosts (op : prolongate_3d_rf2) (d : ℕ) : ℕ :=
  interp1d_required_ghosts (op.CENT d) (op.INTP d) (op.order d)

/-- Source: `use_shift[d]` in `interp`, i.e. `INTP == ENO && ORDER > 0` of axis `d`. -/
def prolongate_3d_rf2.use_shift (op : prolongate_3d_rf2) (d : ℕ) : Bool :=
  decide (op.INTP d = interpolation_t.eno) && decide (op.order d > 0)

/-- Source: `USE_SHIFT` in `interp`. -/
def prolongate_3d_rf2.USE_SHIFT (op : prolongate_3d_rf2) : Bool :=
  op.use_shift 0 || op.use_shift 1 || op.use_shift 2

/-- Source: `prolongate_3d_rf2::CoarseBox(const amrex::Box &fine, const amrex::IntVect &ratio)`. -/
def CoarseBox (op : prolongate_3d_rf2) (fine : Box) (ratio : IntVect) : Except Failure Box :=
  if ¬ (ratio.getVect 0 = 2 ∧ ratio.getVect 1 = 2 ∧ ratio.getVect 2 = 2) then
    .error .ratio_is_2
  else
    .ok ((List.range 3).foldl (fun crse d => crse.grow d (op.required_ghosts d))
      (fine.coarsen 2))

/-- Source: `prolongate_3d_rf2::CoarseBox(const amrex::Box &fine, const int ratio)`. -/
def CoarseBox_int (op : prolongate_3d_rf2) (fine : Box) (ratio : ℤ) : Except Failure Box :=
  CoarseBox op fine ⟨ratio, ratio, ratio⟩

/-! ## Stencil-shift selection (ENO) -/

/-- Source: the candidate loop nest `for dk … for dj … for di …` of `interp`, with the
radii `diradius`, `djradius`, `dkradius` in `radius`. -/
def shift_candidates (radius : IntVect) : List IntVect :=
  (intRange (-radius.z) radius.z).flatMap fun dk =>
    (intRange (-radius.y) radius.y).flatMap fun dj =>
      (intRange (-radius.x) radius.x).map fun di => ⟨di, dj, dk⟩

/-- The running minimum of the shift search: `min_shift`, `min_dd` (`none` stands for the
initial value `1 / CCTK_REAL(0)`, plus infinity) and the elements of the
divided-difference array read so far. -/
structure ShiftSearch where
  min_shift : IntVect
  min_dd : Option ℚ
  reads : List ℤ

/-- The comparison `a < min_dd` where `min_dd` may be plus infinity. -/
def lt_min_dd (a : ℚ) : Option ℚ → Bool
  | none => true
  | some m => decide (a < m)

/-- Source: the body of the loop "Choose stencil shift" of `interp` for one coarse index
`ind`, in exact arithmetic: the penalty constant `CCTK_REAL(0.1)` is the rational 1/10 and
no operation is rounded.  The same loop in the rounded arithmetic of `CCTK_REAL` is
`choose_stencil_shift_rounded`. -/
def choose_stencil_shift (diffptr : ℤ → ℚ) (diffbox : Box) (radius : IntVect)
    (ind : IntVect) : ShiftSearch :=
  (shift_candidates radius).foldl
    (fun st shift =>
      let ind1 : IntVect := ⟨ind.x + shift.x, ind.y + shift.y, ind.z + shift.z⟩
      let penalty : ℚ := ((|shift.x| + |shift.y| + |shift.z| : ℤ) : ℚ) * (1 / 10)
      let dd := diffptr (diffbox.index ind1)
      if lt_min_dd ((1 + penalty) * dd) st.min_dd = true then
        { min_shift := shift, min_dd := some dd, reads := st.reads ++ [diffbox.index ind1] }
      else { st with reads := st.reads ++ [diffbox.index ind1] })
    { min_shift := ⟨0, 0, 0⟩, min_dd := none, reads := [] }

/-- The arrays written by the shift-selection stage, and the accesses made so far. -/
structure EnoState where
  divided_differences : ℤ → ℚ
  stencil_shifts : ℤ → ℤ
  log : List Access

/-- Source: `diffbox` in `interp`: the source region, widened by `order[d] / 2` on both
sides of every axis that uses shifts. -/
def diffbox_of (op : prolongate_3d_rf2) (source_region : Box) : Box :=
  (List.range 3).foldl
    (fun diffbox d =>
      if op.use_shift d = true then
        diffbox.setRange d (diffbox.smallend.getVect d - ((op.order d / 2 : ℕ) : ℤ))
          (diffbox.length d + 2 * ((op.order d / 2 : ℕ) : ℤ))
      else diffbox)
    source_region

/-- Source: the loop "Calculate divided differences" of `interp` for one component, over
the indices `inds` of `diffbox` still to be visited. -/
def divided_differences_loop (op : prolongate_3d_rf2) (crse : ℤ → ℚ) (crseptr : ℤ)
    (crsebox diffbox : Box) : List IntVect → EnoState → Except Failure EnoState
  | [], st => .ok st
  | ind :: inds, st =>
    if ¬ crsebox.contains ind then .error .crsebox_contains_ind
    else
      let crsed0 := crsebox.index ⟨0, 0, 0⟩
      let crsedi : ℤ := 1
      let crsedj := crsebox.index ⟨0, 1, 0⟩ - crsed0
      let crsedk := crsebox.index ⟨0, 0, 1⟩ - crsed0
      let ptr := crseptr + crsebox.index ind
      let ddi := divided_difference_1d op.INTPI op.ORDERI (fun e => crse (ptr + e)) crsedi
      let ddj := divided_difference_1d op.INTPJ op.ORDERJ (fun e => crse (ptr + e)) crsedj
      let ddk := divided_difference_1d op.INTPK op.ORDERK (fun e => crse (ptr + e)) crsedk
      divided_differences_loop op crse crseptr crsebox diffbox inds
        { st with
          divided_differences :=
            Function.update st.divided_differences (diffbox.index ind) (ddi.1 + ddj.1 + ddk.1)
          log := st.log ++ (ddi.2 ++ ddj.2 ++ ddk.2).map (fun e => Access.read Buffer.crse (ptr + e))
            ++ [Access.write Buffer.divided_differences (diffbox.index ind)] }

/-- Source: the loop "Choose stencil shift" of `interp` for one component: the packed
shift of `ind` is stored at `shiftptr[diffbox.index(ind)]`. -/
def choose_shifts_loop (op : prolongate_3d_rf2) (shiftptr : ℤ) (source_region diffbox : Box)
    (st : EnoState) : EnoState :=
  let radius : IntVect :=
    ⟨if op.use_shift 0 = true then ((op.ORDERI / 2 : ℕ) : ℤ) else 0,
      if op.use_shift 1 = true then ((op.ORDERJ / 2 : ℕ) : ℤ) else 0,
      if op.use_shift 2 = true then ((op.ORDERK / 2 : ℕ) : ℤ) else 0⟩
  source_region.points.foldl
    (fun st ind =>
      let s := choose_stencil_shift st.divided_differences diffbox radius ind
      { st with
        stencil_shifts :=
          Function.update st.stencil_shifts (shiftptr + diffbox.index ind) (pack_shifts s.min_shift)
        log := st.log ++ s.reads.map (Access.read Buffer.divided_differences) ++
          [Access.write Buffer.stencil_shifts (shiftptr + diffbox.index ind)] })
    st

/-- Source: the block "Find ENO stencil offsets" of `interp`, for the components
`comps` still to be processed. -/
def eno_stage (op : prolongate_3d_rf2) (crse : FArrayBox) (crse_comp : ℕ)
    (source_region : Box) : List ℕ → EnoState → Except Failure EnoState
  | [], st => .ok st
  | comp :: comps, st =>
    let diffbox := diffbox_of op source_region
    let stencil_shifts_box := source_region
    match divided_differences_loop op crse.data (crse.dataPtr (crse_comp + comp)) crse.box
        diffbox diffbox.points st with
    | .error f => .error f
    | .ok st1 =>
      eno_stage op crse crse_comp source_region comps
        (choose_shifts_loop op ((comp : ℤ) * stencil_shifts_box.numPts) source_region diffbox st1)

/-! ## The driver `interp` -/

/-- A loop `for (int comp = 0; comp < ncomp; ++comp) interp3d<…>(…);` over the components
`comps` still to be processed: `sweep comp dst` is the call for component `comp` on the
destination array `dst`.  When an assertion fails the destination array reached so far
is reported with the failure. -/
def for_comps (sweep : ℕ → (ℤ → ℚ) → Except Failure ((ℤ → ℚ) × List Access)) :
    List ℕ → (ℤ → ℚ) × List Access → Except (Failure × (ℤ → ℚ)) ((ℤ → ℚ) × List Access)
  | [], st => .ok st
  | comp :: comps, st =>
    match sweep comp st.1 with
    | .error f => .error (f, st.1)
    | .ok r => for_comps sweep comps (r.1, st.2 ++ r.2)

/-- How a call of `interp` ends: it returns, leaving the destination elements `fine` after
the accesses `log`; or an assertion fails and the process aborts, the destination
elements being `fine` at that moment. -/
inductive Outcome where
  | completed (fine : ℤ → ℚ) (log : List Access)
  | aborted (failure : Failure) (fine : ℤ → ℚ)

/-- The destination elements an outcome leaves behind. -/
def Outcome.fine : Outcome → ℤ → ℚ
  | .completed fine _ => fine
  | .aborted _ fine => fine

/-- The accesses of a completed call (empty for an aborted one). -/
def Outcome.log : Outcome → List Access
  | .completed _ log => log
  | .aborted _ _ => []

/-- The assertion that failed, if the call aborted. -/
def Outcome.failure : Outcome → Option Failure
  | .completed _ _ => none
  | .aborted failure _ => some failure

/-- Source: `targets[d]` in `interp`, for `d = 0, 1, 2`. -/
def targets (source_region target_region : Box) : ℕ → Box
  | 0 => source_region.setRange 0 (target_region.smallend.getVect 0) (target_region.length 0)
  | d + 1 =>
    (targets source_region target_region d).setRange (d + 1)
      (target_region.smallend.getVect (d + 1)) (target_region.length (d + 1))

/-- Source: the block "Find ENO stencil offsets" of `interp`: skipped unless some axis
uses shifts (`if constexpr (USE_SHIFT)`). -/
def interp_eno (op : prolongate_3d_rf2) (crse : FArrayBox) (crse_comp ncomp : ℕ)
    (source_region : Box) (scratch : Scratch) : Except Failure EnoState :=
  if op.USE_SHIFT = true then
    eno_stage op crse crse_comp source_region (List.range ncomp)
      ⟨scratch.divided_differences, scratch.stencil_shifts, []⟩
  else .ok ⟨scratch.divided_differences, scratch.stencil_shifts, []⟩

/-- Source: the call of `interp3d` in the loop "Interpolate in the x-direction" of
`interp`, for component `comp`: from the coarse array into `tmp0`. -/
def interp_x (op : prolongate_3d_rf2) (crse : FArrayBox) (crse_comp : ℕ)
    (stencil_shifts : ℤ → ℤ) (source_region target_region : Box) (comp : ℕ) (tmp0 : ℤ → ℚ) :
    Except Failure ((ℤ → ℚ) × List Access) :=
  let stencil_shifts_box := source_region
  let targets := targets source_region target_region
  interp3d op.CENTI op.INTPI op.ORDERI 0 (op.use_shift 0) Buffer.crse crse.data
    (crse.dataPtr (crse_comp + comp)) crse.box stencil_shifts
    ((comp : ℤ) * stencil_shifts_box.numPts) stencil_shifts_box Buffer.tmp0 tmp0
    ((comp : ℤ) * (targets 0).numPts) (targets 0) (targets 0)

/-- Source: the call of `interp3d` in the loop "Interpolate in the y-direction" of
`interp`, for component `comp`: from `tmp0` into `tmp1`. -/
def interp_y (op : prolongate_3d_rf2) (tmp0 : ℤ → ℚ) (stencil_shifts : ℤ → ℤ)
    (source_region target_region : Box) (comp : ℕ) (tmp1 : ℤ → ℚ) :
    Except Failure ((ℤ → ℚ) × List Access) :=
  let stencil_shifts_box := source_region
  let targets := targets source_region target_region
  interp3d op.CENTJ op.INTPJ op.ORDERJ 1 (op.use_shift 1) Buffer.tmp0 tmp0
    ((comp : ℤ) * (targets 0).numPts) (targets 0) stencil_shifts
    ((comp : ℤ) * stencil_shifts_box.numPts) stencil_shifts_box Buffer.tmp1 tmp1
    ((comp : ℤ) * (targets 1).numPts) (targets 1) (targets 1)

/-- Source: the call of `interp3d` in the last loop of `interp` (the sweep in the
z-direction), for component `comp`: from `tmp1` into the destination array. -/
def interp_z (op : prolongate_3d_rf2) (tmp1 : ℤ → ℚ) (stencil_shifts : ℤ → ℤ)
    (fine : FArrayBox) (fine_comp : ℕ) (source_region target_region : Box) (comp : ℕ)
    (dst : ℤ → ℚ) : Except Failure ((ℤ → ℚ) × List Access) :=
  let stencil_shifts_box := source_region
  let targets := targets source_region target_region
  interp3d op.CENTK op.INTPK op.ORDERK 2 (op.use_shift 2) Buffer.tmp1 tmp1
    ((comp : ℤ) * (targets 1).numPts) (targets 1) stencil_shifts
    ((comp : ℤ) * stencil_shifts_box.numPts) stencil_shifts_box Buffer.fine dst
    (fine.dataPtr (fine_comp + comp)) fine.box target_region

/-- Source: `prolongate_3d_rf2::interp` (production build, CPU).  The arguments
`crse_geom`, `fine_geom`, `bcr` and `gpu_or_cpu` are not used by the source and are
left out; `scratch` holds the initial contents of the device vectors. -/
def interp (op : prolongate_3d_rf2) (crse : FArrayBox) (crse_comp : ℕ) (fine : FArrayBox)
    (fine_comp ncomp : ℕ) (fine_region : Box) (ratio : IntVect)
    (actual_comp actual_state : ℤ) (scratch : Scratch) : Outcome :=
  if ¬ (ratio.getVect 0 = 2 ∧ ratio.getVect 1 = 2 ∧ ratio.getVect 2 = 2) then
    .aborted .ratio_is_2 fine.data
  else if ¬ actual_comp = 0 then .aborted .actual_comp_is_0 fine.data
  else if ¬ actual_state = 0 then .aborted .actual_state_is_0 fine.data
  else
    let target_region := fine_region.inter fine.box
    if ¬ target_region = fine_region then .aborted .target_region_eq_fine_region fine.data
    else
      match CoarseBox_int op target_region 2 with
      | .error f => .aborted f fine.data
      | .ok source_region =>
        if ¬ targets source_region target_region 2 = target_region then
          .aborted .targets_last_eq_target_region fine.data
        else
          match interp_eno op crse crse_comp ncomp source_region scratch with
          | .error f => .aborted f fine.data
          | .ok eno =>
            match for_comps
                (interp_x op crse crse_comp eno.stencil_shifts source_region target_region)
                (List.range ncomp) (scratch.tmp0, eno.log) with
            | .error e => .aborted e.1 fine.data
            | .ok x =>
              match for_comps (interp_y op x.1 eno.stencil_shifts source_region target_region)
                  (List.range ncomp) (scratch.tmp1, x.2) with
              | .error e => .aborted e.1 fine.data
              | .ok y =>
                match for_comps
                    (interp_z op y.1 eno.stencil_shifts fine fine_comp source_region
                      target_region)
                    (List.range ncomp) (fine.data, y.2) with
                | .error e => .aborted e.1 e.2
                | .ok z => .completed z.1 z.2

/-! ## Global instances of the operator (in source order) -/

def prolongate_3d_rf2_c000_o1 : prolongate_3d_rf2 :=
  ⟨.vertex, .vertex, .vertex, .poly, .poly, .poly, 1, 1, 1⟩
def prolongate_3d_rf2_c001_o1 : prolongate_3d_rf2 :=
  ⟨.vertex, .vertex, .cell, .poly, .poly, .poly, 1, 1, 1⟩
def prolongate_3d_rf2_c010_o1 : prolongate_3d_rf2 :=
  ⟨.vertex, .cell, .vertex, .poly, .poly, .poly, 1, 1, 1⟩
def prolongate_3d_rf2_c011_o1 : prolongate_3d_rf2 :=
  ⟨.vertex, .cell, .cell, .poly, .poly, .poly, 1, 1, 1⟩
def prolongate_3d_rf2_c100_o1 : prolongate_3d_rf2 :=
  ⟨.cell, .vertex, .vertex, .poly, .poly, .poly, 1, 1, 1⟩
def prolongate_3d_rf2_c101_o1 : prolongate_3d_rf2 :=
  ⟨.cell, .vertex, .cell, .poly, .poly, .poly, 1, 1, 1⟩
def prolongate_3d_rf2_c110_o1 : prolongate_3d_rf2 :=
  ⟨.cell, .cell, .vertex, .poly, .poly, .poly, 1, 1, 1⟩
def prolongate_3d_rf2_c111_o1 : prolongate_3d_rf2 :=
  ⟨.cell, .cell, .cell, .poly, .poly, .poly, 1, 1, 1⟩
def prolongate_3d_rf2_c000_o3 : prolongate_3d_rf2 :=
  ⟨.vertex, .vertex, .vertex, .poly, .poly, .poly, 3, 3, 3⟩
def prolongate_3d_rf2_c001_o3 : prolongate_3d_rf2 :=
  ⟨.vertex, .vertex, .cell, .poly, .poly, .poly, 3, 3, 3⟩
def prolongate_3d_rf2_c010_o3 : prolongate_3d_rf2 :=
  ⟨.vertex, .cell, .vertex, .poly, .poly, .poly, 3, 3, 3⟩
def prolongate_3d_rf2_c011_o3 : prolongate_3d_rf2 :=
  ⟨.vertex, .cell, .cell, .poly, .poly, .poly, 3, 3, 3⟩
def prolongate_3d_rf2_c100_o3 : prolongate_3d_rf2 :=
  ⟨.cell, .vertex, .vertex, .poly, .poly, .poly, 3, 3, 3⟩
def prolongate_3d_rf2_c101_o3 : prolongate_3d_rf2 :=
  ⟨.cell, .vertex, .cell, .poly, .poly, .poly, 3, 3, 3⟩
def prolongate_3d_rf2_c110_o3 : prolongate_3d_rf2 :=
  ⟨.cell, .cell, .vertex, .poly, .poly, .poly, 3, 3, 3⟩
def prolongate_3d_rf2_c111_o3 : prolongate_3d_rf2 :=
  ⟨.cell, .cell, .cell, .poly, .poly, .poly, 3, 3, 3⟩
def prolongate_cons_3d_rf2_c000_o0 : prolongate_3d_rf2 :=
  ⟨.vertex, .vertex, .vertex, .cons, .cons, .cons, 0, 0, 0⟩
def prolongate_cons_3d_rf2_c001_o0 : prolongate_3d_rf2 :=
  ⟨.vertex, .vertex, .cell, .cons, .cons, .cons, 0, 0, 0⟩
def prolongate_cons_3d_rf2_c010_o0 : prolongate_3d_rf2 :=
  ⟨.vertex, .cell, .vertex, .cons, .cons, .cons, 0, 0, 0⟩
def prolongate_cons_3d_rf2_c011_o0 : prolongate_3d_rf2 :=
  ⟨.vertex, .cell, .cell, .cons, .cons, .cons, 0, 0, 0⟩
def prolongate_cons_3d_rf2_c100_o0 : prolongate_3d_rf2 :=
  ⟨.cell, .vertex, .vertex, .cons, .cons, .cons, 0, 0, 0⟩
def prolongate_cons_3d_rf2_c101_o0 : prolongate_3d_rf2 :=
  ⟨.cell, .vertex, .cell, .cons, .cons, .cons, 0, 0, 0⟩
def prolongate_cons_3d_rf2_c110_o0 : prolongate_3d_rf2 :=
  ⟨.cell, .cell, .vertex, .cons, .cons, .cons, 0, 0, 0⟩
def prolongate_cons_3d_rf2_c111_o0 : prolongate_3d_rf2 :=
  ⟨.cell, .cell, .cell, .cons, .cons, .cons, 0, 0, 0⟩
def prolongate_cons_3d_rf2_c000_o1 : prolongate_3d_rf2 :=
  ⟨.vertex, .vertex, .vertex, .cons, .cons, .cons, 1, 1, 1⟩
def prolongate_cons_3d_rf2_c001_o1 : prolongate_3d_rf2 :=
  ⟨.vertex, .vertex, .cell, .cons, .cons, .cons, 1, 1, 2⟩
def prolongate_cons_3d_rf2_c010_o1 : prolongate_3d_rf2 :=
  ⟨.vertex, .cell, .vertex, .cons, .cons, .cons, 1, 2, 1⟩
def prolongate_cons_3d_rf2_c011_o1 : prolongate_3d_rf2 :=
  ⟨.vertex, .cell, .cell, .cons, .cons, .cons, 1, 2, 2⟩
def prolongate_cons_3d_rf2_c100_o1 : prolongate_3d_rf2 :=
  ⟨.cell, .vertex, .vertex, .cons, .cons, .cons, 2, 1, 1⟩
def prolongate_cons_3d_rf2_c101_o1 : prolongate_3d_rf2 :=
  ⟨.cell, .vertex, .cell, .cons, .cons, .cons, 2, 1, 2⟩
def prolongate_cons_3d_rf2_c110_o1 : prolongate_3d_rf2 :=
  ⟨.cell, .cell, .vertex, .cons, .cons, .cons, 2, 2, 1⟩
def prolongate_cons_3d_rf2_c111_o1 : prolongate_3d_rf2 :=
  ⟨.cell, .cell, .cell, .cons, .cons, .cons, 2, 2, 2⟩
def prolongate_ddf_3d_rf2_c000_o1 : prolongate_3d_rf2 :=
  ⟨.vertex, .vertex, .vertex, .poly, .poly, .poly, 1, 1, 1⟩
def prolongate_ddf_3d_rf2_c001_o1 : prolongate_3d_rf2 :=
  ⟨.vertex, .vertex, .cell, .poly, .poly, .cons, 1, 1, 0⟩
def prolongate_ddf_3d_rf2_c010_o1 : prolongate_3d_rf2 :=
  ⟨.vertex, .cell, .vertex, .poly, .cons, .poly, 1, 0, 1⟩
def prolongate_ddf_3d_rf2_c011_o1 : prolongate_3d_rf2 :=
  ⟨.vertex, .cell, .cell, .poly, .cons, .cons, 1, 0, 0⟩
def prolongate_ddf_3d_rf2_c100_o1 : prolongate_3d_rf2 :=
  ⟨.cell, .vertex, .vertex, .cons, .poly, .poly, 0, 1, 1⟩
def prolongate_ddf_3d_rf2_c101_o1 : prolongate_3d_rf2 :=
  ⟨.cell, .vertex, .cell, .cons, .poly, .cons, 0, 1, 0⟩
def prolongate_ddf_3d_rf2_c110_o1 : prolongate_3d_rf2 :=
  ⟨.cell, .cell, .vertex, .cons, .cons, .poly, 0, 0, 1⟩
def prolongate_ddf_3d_rf2_c111_o1 : prolongate_3d_rf2 :=
  ⟨.cell, .cell, .cell, .cons, .cons, .cons, 0, 0, 0⟩
def prolongate_ddf_3d_rf2_c000_o3 : prolongate_3d_rf2 :=
  ⟨.vertex, .vertex, .vertex, .poly, .poly, .poly, 3, 3, 3⟩
def prolongate_ddf_3d_rf2_c001_o3 : prolongate_3d_rf2 :=
  ⟨.vertex, .vertex, .cell, .poly, .poly, .cons, 3, 3, 2⟩
def prolongate_ddf_3d_rf2_c010_o3 : prolongate_3d_rf2 :=
  ⟨.vertex, .cell, .vertex, .poly, .cons, .poly, 3, 2, 3⟩
def prolongate_ddf_3d_rf2_c011_o3 : prolongate_3d_rf2 :=
  ⟨.vertex, .cell, .cell, .poly, .cons, .cons, 3, 2, 2⟩
def prolongate_ddf_3d_rf2_c100_o3 : prolongate_3d_rf2 :=
  ⟨.cell, .vertex, .vertex, .cons, .poly, .poly, 2, 3, 3⟩
def prolongate_ddf_3d_rf2_c101_o3 : prolongate_3d_rf2 :=
  ⟨.cell, .vertex, .cell, .cons, .poly, .cons, 2, 3, 2⟩
def prolongate_ddf_3d_rf2_c110_o3 : prolongate_3d_rf2 :=
  ⟨.cell, .cell, .vertex, .cons, .cons, .poly, 2, 2, 3⟩
def prolongate_ddf_3d_rf2_c111_o3 : prolongate_3d_rf2 :=
  ⟨.cell, .cell, .cell, .cons, .cons, .cons, 2, 2, 2⟩
def prolongate_ddf_3d_rf2_c000_o5 : prolongate_3d_rf2 :=
  ⟨.vertex, .vertex, .vertex, .poly, .poly, .poly, 5, 5, 5⟩
def prolongate_ddf_3d_rf2_c001_o5 : prolongate_3d_rf2 :=
  ⟨.vertex, .vertex, .cell, .poly, .poly, .cons, 5, 5, 4⟩
def prolongate_ddf_3d_rf2_c010_o5 : prolongate_3d_rf2 :=
  ⟨.vertex, .cell, .vertex, .poly, .cons, .poly, 5, 4, 5⟩
def prolongate_ddf_3d_rf2_c011_o5 : prolongate_3d_rf2 :=
  ⟨.vertex, .cell, .cell, .poly, .cons, .cons, 5, 4, 4⟩
def prolongate_ddf_3d_rf2_c100_o5 : prolongate_3d_rf2 :=
  ⟨.cell, .vertex, .vertex, .cons, .poly, .poly, 4, 5, 5⟩
def prolongate_ddf_3d_rf2_c101_o5 : prolongate_3d_rf2 :=
  ⟨.cell, .vertex, .cell, .cons, .poly, .cons, 4, 5, 4⟩
def prolongate_ddf_3d_rf2_c110_o5 : prolongate_3d_rf2 :=
  ⟨.cell, .cell, .vertex, .cons, .cons, .poly, 4, 4, 5⟩
def prolongate_ddf_3d_rf2_c111_o5 : prolongate_3d_rf2 :=
  ⟨.cell, .cell, .cell, .cons, .cons, .cons, 4, 4, 4⟩
def prolongate_ddf_3d_rf2_c000_o7 : prolongate_3d_rf2 :=
  ⟨.vertex, .vertex, .vertex, .poly, .poly, .poly, 7, 7, 7⟩
def prolongate_ddf_3d_rf2_c001_o7 : prolongate_3d_rf2 :=
  ⟨.vertex, .vertex, .cell, .poly, .poly, .cons, 7, 7, 6⟩
def prolongate_ddf_3d_rf2_c010_o7 : prolongate_3d_rf2 :=
  ⟨.vertex, .cell, .vertex, .poly, .cons, .poly, 7, 6, 7⟩
def prolongate_ddf_3d_rf2_c011_o7 : prolongate_3d_rf2 :=
  ⟨.vertex, .cell, .cell, .poly, .cons, .cons, 7, 6, 6⟩
def prolongate_ddf_3d_rf2_c100_o7 : prolongate_3d_rf2 :=
  ⟨.cell, .vertex, .vertex, .cons, .poly, .poly, 6, 7, 7⟩
def prolongate_ddf_3d_rf2_c101_o7 : prolongate_3d_rf2 :=
  ⟨.cell, .vertex, .cell, .cons, .poly, .cons, 6, 7, 6⟩
def prolongate_ddf_3d_rf2_c110_o7 : prolongate_3d_rf2 :=
  ⟨.cell, .cell, .vertex, .cons, .cons, .poly, 6, 6, 7⟩
def prolongate_ddf_3d_rf2_c111_o7 : prolongate_3d_rf2 :=
  ⟨.cell, .cell, .cell, .cons, .cons, .cons, 6, 6, 6⟩
def prolongate_ddf_eno_3d_rf2_c000_o1 : prolongate_3d_rf2 :=
  ⟨.vertex, .vertex, .vertex, .poly, .poly, .poly, 1, 1, 1⟩
def prolongate_ddf_eno_3d_rf2_c001_o1 : prolongate_3d_rf2 :=
  ⟨.vertex, .vertex, .cell, .poly, .poly, .eno, 1, 1, 0⟩
def prolongate_ddf_eno_3d_rf2_c010_o1 : prolongate_3d_rf2 :=
  ⟨.vertex, .cell, .vertex, .poly, .eno, .poly, 1, 0, 1⟩
def prolongate_ddf_eno_3d_rf2_c011_o1 : prolongate_3d_rf2 :=
  ⟨.vertex, .cell, .cell, .poly, .eno, .eno, 1, 0, 0⟩
def prolongate_ddf_eno_3d_rf2_c100_o1 : prolongate_3d_rf2 :=
  ⟨.cell, .vertex, .vertex, .eno, .poly, .poly, 0, 1, 1⟩
def prolongate_ddf_eno_3d_rf2_c101_o1 : prolongate_3d_rf2 :=
  ⟨.cell, .vertex, .cell, .eno, .poly, .eno, 0, 1, 0⟩
def prolongate_ddf_eno_3d_rf2_c110_o1 : prolongate_3d_rf2 :=
  ⟨.cell, .cell, .vertex, .eno, .eno, .poly, 0, 0, 1⟩
def prolongate_ddf_eno_3d_rf2_c111_o1 : prolongate_3d_rf2 :=
  ⟨.cell, .cell, .cell, .eno, .eno, .eno, 0, 0, 0⟩
def prolongate_ddf_eno_3d_rf2_c000_o3 : prolongate_3d_rf2 :=
  ⟨.vertex, .vertex, .vertex, .poly, .poly, .poly, 3, 3, 3⟩
def prolongate_ddf_eno_3d_rf2_c001_o3 : prolongate_3d_rf2 :=
  ⟨.vertex, .vertex, .cell, .poly, .poly, .eno, 3, 3, 2⟩
def prolongate_ddf_eno_3d_rf2_c010_o3 : prolongate_3d_rf2 :=
  ⟨.vertex, .cell, .vertex, .poly, .eno, .poly, 3, 2, 3⟩
def prolongate_ddf_eno_3d_rf2_c011_o3 : prolongate_3d_rf2 :=
  ⟨.vertex, .cell, .cell, .poly, .eno, .eno, 3, 2, 2⟩
def prolongate_ddf_eno_3d_rf2_c100_o3 : prolongate_3d_rf2 :=
  ⟨.cell, .vertex, .vertex, .eno, .poly, .poly, 2, 3, 3⟩
def prolongate_ddf_eno_3d_rf2_c101_o3 : prolongate_3d_rf2 :=
  ⟨.cell, .vertex, .cell, .eno, .poly, .eno, 2, 3, 2⟩
def prolongate_ddf_eno_3d_rf2_c110_o3 : prolongate_3d_rf2 :=
  ⟨.cell, .cell, .vertex, .eno, .eno, .poly, 2, 2, 3⟩
def prolongate_ddf_eno_3d_rf2_c111_o3 : prolongate_3d_rf2 :=
  ⟨.cell, .cell, .cell, .eno, .eno, .eno, 2, 2, 2⟩
def prolongate_ddf_eno_3d_rf2_c000_o5 : prolongate_3d_rf2 :=
  ⟨.vertex, .vertex, .vertex, .poly, .poly, .poly, 5, 5, 5⟩
def prolongate_ddf_eno_3d_rf2_c001_o5 : prolongate_3d_rf2 :=
  ⟨.vertex, .vertex, .cell, .poly, .poly, .eno, 5, 5, 4⟩
def prolongate_ddf_eno_3d_rf2_c010_o5 : prolongate_3d_rf2 :=
  ⟨.vertex, .cell, .vertex, .poly, .eno, .poly, 5, 4, 5⟩
def prolongate_ddf_eno_3d_rf2_c011_o5 : prolongate_3d_rf2 :=
  ⟨.vertex, .cell, .cell, .poly, .eno, .eno, 5, 4, 4⟩
def prolongate_ddf_eno_3d_rf2_c100_o5 : prolongate_3d_rf2 :=
  ⟨.cell, .vertex, .vertex, .eno, .poly, .poly, 4, 5, 5⟩
def prolongate_ddf_eno_3d_rf2_c101_o5 : prolongate_3d_rf2 :=
  ⟨.cell, .vertex, .cell, .eno, .poly, .eno, 4, 5, 4⟩
def prolongate_ddf_eno_3d_rf2_c110_o5 : prolongate_3d_rf2 :=
  ⟨.cell, .cell, .vertex, .eno, .eno, .poly, 4, 4, 5⟩
def prolongate_ddf_eno_3d_rf2_c111_o5 : prolongate_3d_rf2 :=
  ⟨.cell, .cell, .cell, .eno, .eno, .eno, 4, 4, 4⟩
def prolongate_ddfh_3d_rf2_c000_o1 : prolongate_3d_rf2 :=
  ⟨.vertex, .vertex, .vertex, .hermite, .hermite, .hermite, 1, 1, 1⟩
def prolongate_ddfh_3d_rf2_c001_o1 : prolongate_3d_rf2 :=
  ⟨.vertex, .vertex, .cell, .hermite, .hermite, .cons, 1, 1, 0⟩
def prolongate_ddfh_3d_rf2_c010_o1 : prolongate_3d_rf2 :=
  ⟨.vertex, .cell, .vertex, .hermite, .cons, .hermite, 1, 0, 1⟩
def prolongate_ddfh_3d_rf2_c011_o1 : prolongate_3d_rf2 :=
  ⟨.vertex, .cell, .cell, .hermite, .cons, .cons, 1, 0, 0⟩
def prolongate_ddfh_3d_rf2_c100_o1 : prolongate_3d_rf2 :=
  ⟨.cell, .vertex, .vertex, .cons, .hermite, .hermite, 0, 1, 1⟩
def prolongate_ddfh_3d_rf2_c101_o1 : prolongate_3d_rf2 :=
  ⟨.cell, .vertex, .cell, .cons, .hermite, .cons, 0, 1, 0⟩
def prolongate_ddfh_3d_rf2_c110_o1 : prolongate_3d_rf2 :=
  ⟨.cell, .cell, .vertex, .cons, .cons, .hermite, 0, 0, 1⟩
def prolongate_ddfh_3d_rf2_c111_o1 : prolongate_3d_rf2 :=
  ⟨.cell, .cell, .cell, .cons, .cons, .cons, 0, 0, 0⟩
def prolongate_ddfh_3d_rf2_c000_o3 : prolongate_3d_rf2 :=
  ⟨.vertex, .vertex, .vertex, .hermite, .hermite, .hermite, 3, 3, 3⟩
def prolongate_ddfh_3d_rf2_c001_o3 : prolongate_3d_rf2 :=
  ⟨.vertex, .vertex, .cell, .hermite, .hermite, .cons, 3, 3, 2⟩
def prolongate_ddfh_3d_rf2_c010_o3 : prolongate_3d_rf2 :=
  ⟨.vertex, .cell, .vertex, .hermite, .cons, .hermite, 3, 2, 3⟩
def prolongate_ddfh_3d_rf2_c011_o3 : prolongate_3d_rf2 :=
  ⟨.vertex, .cell, .cell, .hermite, .cons, .cons, 3, 2, 2⟩
def prolongate_ddfh_3d_rf2_c100_o3 : prolongate_3d_rf2 :=
  ⟨.cell, .vertex, .vertex, .cons, .hermite, .hermite, 2, 3, 3⟩
def prolongate_ddfh_3d_rf2_c101_o3 : prolongate_3d_rf2 :=
  ⟨.cell, .vertex, .cell, .cons, .hermite, .cons, 2, 3, 2⟩
def prolongate_ddfh_3d_rf2_c110_o3 : prolongate_3d_rf2 :=
  ⟨.cell, .cell, .vertex, .cons, .cons, .hermite, 2, 2, 3⟩
def prolongate_ddfh_3d_rf2_c111_o3 : prolongate_3d_rf2 :=
  ⟨.cell, .cell, .cell, .cons, .cons, .cons, 2, 2, 2⟩
def prolongate_ddfh_3d_rf2_c000_o5 : prolongate_3d_rf2 :=
  ⟨.vertex, .vertex, .vertex, .hermite, .hermite, .hermite, 5, 5, 5⟩
def prolongate_ddfh_3d_rf2_c001_o5 : prolongate_3d_rf2 :=
  ⟨.vertex, .vertex, .cell, .hermite, .hermite, .cons, 5, 5, 4⟩
def prolongate_ddfh_3d_rf2_c010_o5 : prolongate_3d_rf2 :=
  ⟨.vertex, .cell, .vertex, .hermite, .cons, .hermite, 5, 4, 5⟩
def prolongate_ddfh_3d_rf2_c011_o5 : prolongate_3d_rf2 :=
  ⟨.vertex, .cell, .cell, .hermite, .cons, .cons, 5, 4, 4⟩
def prolongate_ddfh_3d_rf2_c100_o5 : prolongate_3d_rf2 :=
  ⟨.cell, .vertex, .vertex, .cons, .hermite, .hermite, 4, 5, 5⟩
def prolongate_ddfh_3d_rf2_c101_o5 : prolongate_3d_rf2 :=
  ⟨.cell, .vertex, .cell, .cons, .hermite, .cons, 4, 5, 4⟩
def prolongate_ddfh_3d_rf2_c110_o5 : prolongate_3d_rf2 :=
  ⟨.cell, .cell, .vertex, .cons, .cons, .hermite, 4, 4, 5⟩
def prolongate_ddfh_3d_rf2_c111_o5 : prolongate_3d_rf2 :=
  ⟨.cell, .cell, .cell, .cons, .cons, .cons, 4, 4, 4⟩

/-- All global instances of `prolongate_3d_rf2` defined by the source, in source order. -/
def instances : List prolongate_3d_rf2 :=
  [prolongate_3d_rf2_c000_o1, prolongate_3d_rf2_c001_o1, prolongate_3d_rf2_c010_o1,
    prolongate_3d_rf2_c011_o1, prolongate_3d_rf2_c100_o1, prolongate_3d_rf2_c101_o1,
    prolongate_3d_rf2_c110_o1, prolongate_3d_rf2_c111_o1, prolongate_3d_rf2_c000_o3,
    prolongate_3d_rf2_c001_o3, prolongate_3d_rf2_c010_o3, prolongate_3d_rf2_c011_o3,
    prolongate_3d_rf2_c100_o3, prolongate_3d_rf2_c101_o3, prolongate_3d_rf2_c110_o3,
    prolongate_3d_rf2_c111_o3, prolongate_cons_3d_rf2_c000_o0,
    prolongate_cons_3d_rf2_c001_o0, prolongate_cons_3d_rf2_c010_o0,
    prolongate_cons_3d_rf2_c011_o0, prolongate_cons_3d_rf2_c100_o0,
    prolongate_cons_3d_rf2_c101_o0, prolongate_cons_3d_rf2_c110_o0,
    prolongate_cons_3d_rf2_c111_o0, prolongate_cons_3d_rf2_c000_o1,
    prolongate_cons_3d_rf2_c001_o1, prolongate_cons_3d_rf2_c010_o1,
    prolongate_cons_3d_rf2_c011_o1, prolongate_cons_3d_rf2_c100_o1,
    prolongate_cons_3d_rf2_c101_o1, prolongate_cons_3d_rf2_c110_o1,
    prolongate_cons_3d_rf2_c111_o1, prolongate_ddf_3d_rf2_c000_o1,
    prolongate_ddf_3d_rf2_c001_o1, prolongate_ddf_3d_rf2_c010_o1,
    prolongate_ddf_3d_rf2_c011_o1, prolongate_ddf_3d_rf2_c100_o1,
    prolongate_ddf_3d_rf2_c101_o1, prolongate_ddf_3d_rf2_c110_o1,
    prolongate_ddf_3d_rf2_c111_o1, prolongate_ddf_3d_rf2_c000_o3,
    prolongate_ddf_3d_rf2_c001_o3, prolongate_ddf_3d_rf2_c010_o3,
    prolongate_ddf_3d_rf2_c011_o3, prolongate_ddf_3d_rf2_c100_o3,
    prolongate_ddf_3d_rf2_c101_o3, prolongate_ddf_3d_rf2_c110_o3,
    prolongate_ddf_3d_rf2_c111_o3, prolongate_ddf_3d_rf2_c000_o5,
    prolongate_ddf_3d_rf2_c001_o5, prolongate_ddf_3d_rf2_c010_o5,
    prolongate_ddf_3d_rf2_c011_o5, prolongate_ddf_3d_rf2_c100_o5,
    prolongate_ddf_3d_rf2_c101_o5, prolongate_ddf_3d_rf2_c110_o5,
    prolongate_ddf_3d_rf2_c111_o5, prolongate_ddf_3d_rf2_c000_o7,
    prolongate_ddf_3d_rf2_c001_o7, prolongate_ddf_3d_rf2_c010_o7,
    prolongate_ddf_3d_rf2_c011_o7, prolongate_ddf_3d_rf2_c100_o7,
    prolongate_ddf_3d_rf2_c101_o7, prolongate_ddf_3d_rf2_c110_o7,
    prolongate_ddf_3d_rf2_c111_o7, prolongate_ddf_eno_3d_rf2_c000_o1,
    prolongate_ddf_eno_3d_rf2_c001_o1, prolongate_ddf_eno_3d_rf2_c010_o1,
    prolongate_ddf_eno_3d_rf2_c011_o1, prolongate_ddf_eno_3d_rf2_c100_o1,
    prolongate_ddf_eno_3d_rf2_c101_o1, prolongate_ddf_eno_3d_rf2_c110_o1,
    prolongate_ddf_eno_3d_rf2_c111_o1, prolongate_ddf_eno_3d_rf2_c000_o3,
    prolongate_ddf_eno_3d_rf2_c001_o3, prolongate_ddf_eno_3d_rf2_c010_o3,
    prolongate_ddf_eno_3d_rf2_c011_o3, prolongate_ddf_eno_3d_rf2_c100_o3,
    prolongate_ddf_eno_3d_rf2_c101_o3, prolongate_ddf_eno_3d_rf2_c110_o3,
    prolongate_ddf_eno_3d_rf2_c111_o3, prolongate_ddf_eno_3d_rf2_c000_o5,
    prolongate_ddf_eno_3d_rf2_c001_o5, prolongate_ddf_eno_3d_rf2_c010_o5,
    prolongate_ddf_eno_3d_rf2_c011_o5, prolongate_ddf_eno_3d_rf2_c100_o5,
    prolongate_ddf_eno_3d_rf2_c101_o5, prolongate_ddf_eno_3d_rf2_c110_o5,
    prolongate_ddf_eno_3d_rf2_c111_o5, prolongate_ddfh_3d_rf2_c000_o1,
    prolongate_ddfh_3d_rf2_c001_o1, prolongate_ddfh_3d_rf2_c010_o1,
    prolongate_ddfh_3d_rf2_c011_o1, prolongate_ddfh_3d_rf2_c100_o1,
    prolongate_ddfh_3d_rf2_c101_o1, prolongate_ddfh_3d_rf2_c110_o1,
    prolongate_ddfh_3d_rf2_c111_o1, prolongate_ddfh_3d_rf2_c000_o3,
    prolongate_ddfh_3d_rf2_c001_o3, prolongate_ddfh_3d_rf2_c010_o3,
    prolongate_ddfh_3d_rf2_c011_o3, prolongate_ddfh_3d_rf2_c100_o3,
    prolongate_ddfh_3d_rf2_c101_o3, prolongate_ddfh_3d_rf2_c110_o3,
    prolongate_ddfh_3d_rf2_c111_o3, prolongate_ddfh_3d_rf2_c000_o5,
    prolongate_ddfh_3d_rf2_c001_o5, prolongate_ddfh_3d_rf2_c010_o5,
    prolongate_ddfh_3d_rf2_c011_o5, prolongate_ddfh_3d_rf2_c100_o5,
    prolongate_ddfh_3d_rf2_c101_o5, prolongate_ddfh_3d_rf2_c110_o5,
    prolongate_ddfh_3d_rf2_c111_o5]

/-! ## Choice of the operator by the driver (`driver.cxx`) -/

/-- Source: `enum class interp_t { unset, interpolate, conservative, ddf }` of
`get_interpolator`. -/
inductive interp_t where
  | unset
  | interpolate
  | conservative
  | ddf
  deriving DecidableEq, Repr

/-- The two ways in which `get_interpolator` terminates the run. -/
inductive get_interpolator_failure where
  /-- Source: `assert(0)` for a `prolongation_type` that is none of the three keywords -/
  | assert_0
  /-- Source: `CCTK_VERROR("Unsupported combination of prolongation_type …")` -/
  | unsupported_combination
  deriving DecidableEq, Repr

/-- Source: `get_interpolator(const array<int, dim> indextype)` of `driver.cxx`.  The
parameters `prolongation_type` and `prolongation_order` of the thorn and the function-local
`static interp_t interp` are explicit: `interp` is the value of the static variable before
the call (`unset` at the first call), and the result carries the operator returned
together with the value of the static variable after the call.  `CCTK_EQUALS` is the
comparison of the keyword with the string literal; the index types are 0 or 1 and are
modelled as natural numbers; a `switch` without matching `case` falls through to the
error at the end of the function. -/
def get_interpolator (interp : interp_t) (prolongation_type : String)
    (prolongation_order : ℤ) (indextype : ℕ × ℕ × ℕ) :
    Except get_interpolator_failure (prolongate_3d_rf2 × interp_t) :=
  let interp1 : Option interp_t :=
    if interp = interp_t.unset then
      if prolongation_type = "interpolate" then some interp_t.interpolate
      else if prolongation_type = "conservative" then some interp_t.conservative
      else if prolongation_type = "ddf" then some interp_t.ddf
      else none
    else some interp
  match interp1 with
  | none => .error .assert_0
  | some interp =>
    let key := (indextype.1 <<< 2) ||| (indextype.2.1 <<< 1) ||| (indextype.2.2 <<< 0)
    match interp with
    | .interpolate =>
      match key with
      | 0 =>
        match prolongation_order with
        | 1 => .ok (prolongate_3d_rf2_c000_o1, interp)
        | 3 => .ok (prolongate_3d_rf2_c000_o3, interp)
        | _ => .error .unsupported_combination
      | 1 =>
        match prolongation_order with
        | 1 => .ok (prolongate_3d_rf2_c001_o1, interp)
        | 3 => .ok (prolongate_3d_rf2_c001_o3, interp)
        | _ => .error .unsupported_combination
      | 2 =>
        match prolongation_order with
        | 1 => .ok (prolongate_3d_rf2_c010_o1, interp)
        | 3 => .ok (prolongate_3d_rf2_c010_o3, interp)
        | _ => .error .unsupported_combination
      | 3 =>
        match prolongation_order with
        | 1 => .ok (prolongate_3d_rf2_c011_o1, interp)
        | 3 => .ok (prolongate_3d_rf2_c011_o3, interp)
        | _ => .error .unsupported_combination
      | 4 =>
        match prolongation_order with
        | 1 => .ok (prolongate_3d_rf2_c100_o1, interp)
        | 3 => .ok (prolongate_3d_rf2_c100_o3, interp)
        | _ => .error .unsupported_combination
      | 5 =>
        match prolongation_order with
        | 1 => .ok (prolongate_3d_rf2_c101_o1, interp)
        | 3 => .ok (prolongate_3d_rf2_c101_o3, interp)
        | _ => .error .unsupported_combination
      | 6 =>
        match prolongation_order with
        | 1 => .ok (prolongate_3d_rf2_c110_o1, interp)
        | 3 => .ok (prolongate_3d_rf2_c110_o3, interp)
        | _ => .error .unsupported_combination
      | 7 =>
        match prolongation_order with
        | 1 => .ok (prolongate_3d_rf2_c111_o1, interp)
        | 3 => .ok (prolongate_3d_rf2_c111_o3, interp)
        | _ => .error .unsupported_combination
      | _ => .error .unsupported_combination
    | .conservative =>
      match key with
      | 0 =>
        match prolongation_order with
        | 1 => .ok (prolongate_cons_3d_rf2_c000_o0, interp)
        | _ => .error .unsupported_combination
      | 1 =>
        match prolongation_order with
        | 1 => .ok (prolongate_cons_3d_rf2_c001_o0, interp)
        | _ => .error .unsupported_combination
      | 2 =>
        match prolongation_order with
        | 1 => .ok (prolongate_cons_3d_rf2_c010_o0, interp)
        | _ => .error .unsupported_combination
      | 3 =>
        match prolongation_order with
        | 1 => .ok (prolongate_cons_3d_rf2_c011_o0, interp)
        | _ => .error .unsupported_combination
      | 4 =>
        match prolongation_order with
        | 1 => .ok (prolongate_cons_3d_rf2_c100_o0, interp)
        | _ => .error .unsupported_combination
      | 5 =>
        match prolongation_order with
        | 1 => .ok (prolongate_cons_3d_rf2_c101_o0, interp)
        | _ => .error .unsupported_combination
      | 6 =>
        match prolongation_order with
        | 1 => .ok (prolongate_cons_3d_rf2_c110_o0, interp)
        | _ => .error .unsupported_combination
      | 7 =>
        match prolongation_order with
        | 1 => .ok (prolongate_cons_3d_rf2_c111_o0, interp)
        | _ => .error .unsupported_combination
      | _ => .error .unsupported_combination
    | .ddf =>
      match key with
      | 0 => .ok (prolongate_ddf_3d_rf2_c000_o1, interp)
      | 1 => .ok (prolongate_ddf_3d_rf2_c001_o1, interp)
      | 2 => .ok (prolongate_ddf_3d_rf2_c010_o1, interp)
      | 3 => .ok (prolongate_ddf_3d_rf2_c011_o1, interp)
      | 4 => .ok (prolongate_ddf_3d_rf2_c100_o1, interp)
      | 5 => .ok (prolongate_ddf_3d_rf2_c101_o1, interp)
      | 6 => .ok (prolongate_ddf_3d_rf2_c110_o1, interp)
      | 7 => .ok (prolongate_ddf_3d_rf2_c111_o1, interp)
      | _ => .error .unsupported_combination
    | .unset => .error .unsupported_combination

/-- Source: `diradius`, `djradius`, `dkradius` of `interp`: the search radius of an axis is
`ORDER / 2` if the axis uses shifts (`USE_SHIFTI ? ORDERI / 2 : 0`) and 0 otherwise. -/
def shift_radius (op : prolongate_3d_rf2) : IntVect :=
  ⟨if op.use_shift 0 = true then ((op.ORDERI / 2 : ℕ) : ℤ) else 0,
    if op.use_shift 1 = true then ((op.ORDERJ / 2 : ℕ) : ℤ) else 0,
    if op.use_shift 2 = true then ((op.ORDERK / 2 : ℕ) : ℤ) else 0⟩

/-! ## Sums written out in full and finite differences (spec-side definitions) -/

/-- The sum written out in full, `Σ_{i=0..ORDER} cs[i] * u[(i - i0) * di]`, which the loops
over half of a symmetric table abbreviate (the loop `y1` of the debug build and the
commented-out loops of the source). -/
def full_sum (ORDER : ℕ) (cs : List ℚ) (i0 : ℤ) (u : ℤ → ℚ) (di : ℤ) : ℚ :=
  ((List.range (ORDER + 1)).map (fun i => cs.getD i 0 * u (((i : ℤ) - i0) * di))).sum

/-- The `k`-th finite difference of a sequence of samples, taken forwards from index `a`:
the difference of order 0 is the sample, and the difference of order `k + 1` is the
difference of two neighbouring differences of order `k`. -/
def finite_difference : ℕ → (ℤ → ℚ) → ℤ → ℚ
  | 0, u, a => u a
  | k + 1, u, a => finite_difference k u (a + 1) - finite_difference k u a

/-! ## The Riemann-tensor container `rten` (`rten.hxx`)

The template `rten<T, D, dnup1, dnup2, dnup3, dnup4>` stores `N` independent components
in `vect<T, N> elts`.  The array is modelled as a function from element index to value,
the `int` arithmetic of the index computation in `ℤ` with the division of C++ (rounding
towards zero): for indices in range no intermediate value exceeds the products
`D * (D - 1)` and `N0 * (N0 + 1)` formed by the constant expressions `N0` and `N`
(`rten_ind_products`).  The assertions of the debug build are not part of the production
code. -/

/-- Source: `rten::N0 = D * (D - 1) / 2`. -/
def rten.N0 (D : ℤ) : ℤ := (D * (D - 1)).tdiv 2

/-- Source: `rten::N = N0 * (N0 + 1) / 2`. -/
def rten.N (D : ℤ) : ℤ := (rten.N0 D * (rten.N0 D + 1)).tdiv 2

/-- Source: `rten::ind(i, j, k, l)`. -/
def rten.ind (D : ℤ) (i j k l : ℤ) : ℤ :=
  if i = j ∨ k = l then 0
  else
    let i1 := min i j
    let j1 := max i j
    let k1 := min k l
    let l1 := max k l
    let ij := (i1 * (2 * D - 3 - i1)).tdiv 2 + j1 - 1
    let kl := (k1 * (2 * D - 3 - k1)).tdiv 2 + l1 - 1
    let ij1 := min ij kl
    let kl1 := max ij kl
    let n := (ij1 * (2 * rten.N0 D - 1 - ij1)).tdiv 2 + kl1
    n

/-- Source: `rten::sign(i, j, k, l)`. -/
def rten.sign (i j k l : ℤ) : ℤ :=
  if i = j ∨ k = l then 0
  else if decide (i < j) = decide (k < l) then 1 else -1

/-- Source: `rten::loop(f)`: the index quadruples for which `f` is called, in the order of
the calls. -/
def rten.loop (D : ℤ) : List (ℤ × ℤ × ℤ × ℤ) :=
  (intRange 0 (D - 1)).flatMap fun i =>
    (intRange (i + 1) (D - 1)).flatMap fun j =>
      (intRange 0 (D - 1)).flatMap fun k =>
        (intRange (k + 1) (D - 1)).flatMap fun l =>
          if D * i + j ≤ D * k + l then [(i, j, k, l)] else []

/-- Source: `struct rten`, with its only data member `elts`. -/
structure rten (T : Type) (D : ℤ) where
  elts : ℤ → T

/-- Source: `rten::operator()(i, j, k, l)`: `sign(i, j, k, l) * elts[ind(i, j, k, l)]`. -/
def rten.call {T : Type} [Ring T] {D : ℤ} (r : rten T D) (i j k l : ℤ) : T :=
  ((rten.sign i j k l : ℤ) : T) * r.elts (rten.ind D i j k l)

/-- Source: `rten::set(i, j, k, l, x)`: `elts[ind(i, j, k, l)] = x`. -/
def rten.set {T : Type} {D : ℤ} (r : rten T D) (i j k l : ℤ) (x : T) : rten T D :=
  ⟨Function.update r.elts (rten.ind D i j k l) x⟩

/-- The canonical index quadruples of the container: `i < j`, `k < l` and
`D * i + j ≤ D * k + l`, all indices in `[0, D)`. -/
def rten.canonical (D : ℤ) (i j k l : ℤ) : Prop :=
  0 ≤ i ∧ i < j ∧ j < D ∧ 0 ≤ k ∧ k < l ∧ l < D ∧ D * i + j ≤ D * k + l

instance (D i j k l : ℤ) : Decidable (rten.canonical D i j k l) := by
  unfold rten.canonical
  infer_instance

/-- The packed index of the entry `(a, b)`, `a ≤ b`, of a symmetric `M × M` table stored
by rows without the part below the diagonal; both stages of `rten::ind` have this form. -/
def triangle_index (M a b : ℤ) : ℤ := a * (2 * M - 1 - a) / 2 + b

/-! ## Integer powers (`defs.hxx`) -/

/-- Source: the loop `while (n) { if (n & 1) r *= y; y *= y; n >>= 1; }` of
`detail::pown`, started in the state `(r, y, n)`: the value of `r` when the loop ends, or
`none` if it has not ended after `fuel` iterations.  `n & 1` is the lowest bit of the
two's-complement `int` and `n >>= 1` the arithmetic shift. -/
def detail.pown_loop {T : Type} [Mul T] : ℕ → T → T → ℤ → Option T
  | 0, r, _, n => if n = 0 then some r else none
  | fuel + 1, r, y, n =>
    if n = 0 then some r
    else detail.pown_loop fuel (if and_0x1 n ≠ 0 then r * y else r) (y * y) (n >>> (1 : ℕ))

/-- Source: `detail::pown(const T x, int n)`: `T r{1}; T y{x};`, the loop, `return r`. -/
def detail.pown {T : Type} [Mul T] [One T] (fuel : ℕ) (x : T) (n : ℤ) : Option T :=
  detail.pown_loop fuel 1 x n

/-- Source: `pown(const T x, const int n)`:
`n >= 0 ? detail::pown(x, n) : 1 / detail::pown(x, -n)`. -/
def pown {T : Type} [Mul T] [One T] [Div T] (fuel : ℕ) (x : T) (n : ℤ) : Option T :=
  if n ≥ 0 then detail.pown fuel x n else (detail.pown fuel x (-n)).map (fun p => 1 / p)

/-! ## The shift search in the arithmetic of `CCTK_REAL`

The test `(1 + penalty) * dd < min_dd` of the shift search is a comparison of
floating-point values, and its outcome selects the shift.  The definitions below make
the rounding of the three operations that feed the test explicit. -/

/-- The arithmetic of `CCTK_REAL` as far as the shift search uses it: `fl` maps the exact
result of one arithmetic operation to the value the machine returns for it (the rounding
of the floating-point format), and `tenth` is the value of the constant
`CCTK_REAL(0.1)`. -/
structure RealArithmetic where
  fl : ℚ → ℚ
  tenth : ℚ

/-- Arithmetic without rounding: every result is exact and `CCTK_REAL(0.1)` is 1/10. -/
def RealArithmetic.exact : RealArithmetic := ⟨fun x => x, 1 / 10⟩

/-- What the shift search needs of a rounding: it is monotone, it returns 0 and 1 for the
exact results 0 and 1, and the constant `CCTK_REAL(0.1)` is not negative.  Every rounding
mode of IEEE 754 has these properties. -/
def RealArithmetic.rounds (A : RealArithmetic) : Prop :=
  (∀ x y : ℚ, x ≤ y → A.fl x ≤ A.fl y) ∧ A.fl 0 = 0 ∧ A.fl 1 = 1 ∧ 0 ≤ A.tenth

/-- Source: the value `(1 + penalty) * dd` of the shift search for the candidate `shift`,
as the machine computes it: `penalty = (abs(di) + abs(dj) + abs(dk)) * CCTK_REAL(0.1)`
(the integer sum is converted exactly), then `1 + penalty`, then the product with `dd`,
each operation rounded. -/
def penalised_dd (A : RealArithmetic) (shift : IntVect) (dd : ℚ) : ℚ :=
  let penalty : ℚ := A.fl (((|shift.x| + |shift.y| + |shift.z| : ℤ) : ℚ) * A.tenth)
  A.fl (A.fl (1 + penalty) * dd)

/-- Source: the body of the loop "Choose stencil shift" of `interp` for one coarse index
`ind`, in the arithmetic `A` of `CCTK_REAL`. -/
def choose_stencil_shift_rounded (A : RealArithmetic) (diffptr : ℤ → ℚ) (diffbox : Box)
    (radius : IntVect) (ind : IntVect) : ShiftSearch :=
  (shift_candidates radius).foldl
    (fun st shift =>
      let ind1 : IntVect := ⟨ind.x + shift.x, ind.y + shift.y, ind.z + shift.z⟩
      let dd := diffptr (diffbox.index ind1)
      if lt_min_dd (penalised_dd A shift dd) st.min_dd = true then
        { min_shift := shift, min_dd := some dd, reads := st.reads ++ [diffbox.index ind1] }
      else { st with reads := st.reads ++ [diffbox.index ind1] })
    { min_shift := ⟨0, 0, 0⟩, min_dd := none, reads := [] }

/-- Rounding of a rational number to the nearest integer, ties to the even integer. -/
def round_half_even (q : ℚ) : ℤ :=
  if q - ⌊q⌋ < 1 / 2 then ⌊q⌋
  else if 1 / 2 < q - ⌊q⌋ then ⌊q⌋ + 1
  else if ⌊q⌋ % 2 = 0 then ⌊q⌋ else ⌊q⌋ + 1

/-- Rounding of a rational number that is not negative to 53 significant bits, to
nearest, ties to even: the significand `x / 2 ^ e` with `e = ⌊log₂ x⌋ - 52` is rounded to
an integer. -/
def binary64_round_nonneg (x : ℚ) : ℚ :=
  (round_half_even (x / 2 ^ (Int.log 2 x - 52)) : ℚ) * 2 ^ (Int.log 2 x - 52)

/-- The rounding of IEEE 754 binary64 (`double`) in the default mode, round to nearest,
ties to even, for results in the normal range (no overflow, no subnormal numbers). -/
def binary64_round (x : ℚ) : ℚ :=
  if x < 0 then -binary64_round_nonneg (-x) else binary64_round_nonneg x

/-- The arithmetic of `CCTK_REAL = double`: binary64 rounding, and the `double` nearest to
0.1, which is `3602879701896397 / 2 ^ 55`. -/
def RealArithmetic.binary64 : RealArithmetic :=
  ⟨binary64_round, 3602879701896397 / 36028797018963968⟩

/-! ## Theorems -/

theorem accumulate_fst (n : ℕ) (term : ℕ → ℚ × List ℤ) (init : ℚ × List ℤ) :
    (accumulate n term init).1 = init.1 + ((List.range n).map (fun i => (term i).1)).sum := by
  unfold accumulate
  induction n with
  | zero => simp
  | succ n ih => simp [List.range_succ, ih, add_assoc]

theorem accumulate_snd (n : ℕ) (term : ℕ → ℚ × List ℤ) (init : ℚ × List ℤ) :
    (accumulate n term init).2 = init.2 ++ (List.range n).flatMap (fun i => (term i).2) := by
  unfold accumulate
  induction n with
  | zero => simp
  | succ n ih => simp [List.range_succ, ih]

/-- Exact samples of degree at most `n`: evaluation is a sum of `n + 1` monomials. -/
theorem eval_eq_sum_of_natDegree_le (p : Polynomial ℚ) (n : ℕ) (hp : p.natDegree ≤ n) (x : ℚ) :
    p.eval x = ∑ k in Finset.range (n + 1), p.coeff k * x ^ k :=
  Polynomial.eval_eq_sum_range' (Nat.lt_succ_of_le hp) x

/-- C1: polynomial exactness of the vertex-centred polynomial operator. -/
theorem interp1d_VC_POLY_exact (ORDER : ℕ) (hO : ORDER = 1 ∨ ORDER = 3 ∨ ORDER = 5 ∨ ORDER = 7)
    (p : Polynomial ℚ) (hp : p.natDegree ≤ ORDER) :
    (interp1d_VC_POLY ORDER (fun m => p.eval (m : ℚ)) 1 0 0).1 = p.eval 0 ∧
      (interp1d_VC_POLY ORDER (fun m => p.eval (m : ℚ)) 1 0 1).1 = p.eval (1 / 2) := by
  refine ⟨by simp [interp1d_VC_POLY], ?_⟩
  rcases hO with h | h | h | h <;> subst h
  all_goals
    simp only [interp1d_VC_POLY, one_ne_zero, if_false, accumulate_fst,
      eval_eq_sum_of_natDegree_le p _ hp, coeffs1d_VC_POLY]
    norm_num [Finset.sum_range_succ, List.range_succ]
    ring

theorem interp1d_VC_POLY_exact_witness :
    ((3 : ℕ) = 1 ∨ (3 : ℕ) = 3 ∨ (3 : ℕ) = 5 ∨ (3 : ℕ) = 7) ∧
      (Polynomial.X ^ 3 : Polynomial ℚ).natDegree ≤ 3 ∧
      ((interp1d_VC_POLY 3 (fun m => (Polynomial.X ^ 3 : Polynomial ℚ).eval (m : ℚ)) 1 0 0).1 =
          (Polynomial.X ^ 3 : Polynomial ℚ).eval 0 ∧
        (interp1d_VC_POLY 3 (fun m => (Polynomial.X ^ 3 : Polynomial ℚ).eval (m : ℚ)) 1 0 1).1 =
          (Polynomial.X ^ 3 : Polynomial ℚ).eval (1 / 2)) :=
  ⟨by decide, Polynomial.natDegree_X_pow_le 3,
    interp1d_VC_POLY_exact 3 (by decide) (Polynomial.X ^ 3) (Polynomial.natDegree_X_pow_le 3)⟩

/-- Every offset read by the cell-centred polynomial operator with stride 1 is within
`required_ghosts` of the centre, for every order and both offsets. -/
theorem interp1d_CC_POLY_reads_le (ORDER : ℕ) (u : ℤ → ℚ) (shift off : ℤ) (e : ℤ)
    (he : e ∈ (interp1d_CC_POLY ORDER u 1 shift off).2) :
    |e| ≤ (interp1d_CC_POLY_required_ghosts ORDER : ℤ) := by
  unfold interp1d_CC_POLY at he
  unfold interp1d_CC_POLY_required_ghosts
  rw [abs_le]
  by_cases h0 : off = 0
  · simp only [h0, if_true, accumulate_snd, List.nil_append, List.mem_flatMap, List.mem_range,
      List.mem_singleton, mul_one] at he
    obtain ⟨i, hi, rfl⟩ := he
    constructor <;> omega
  · simp only [h0, if_false, accumulate_snd, List.nil_append, List.mem_flatMap, List.mem_range,
      List.mem_singleton, mul_one] at he
    obtain ⟨i, hi, rfl⟩ := he
    constructor <;> split_ifs <;> omega

/-- C2: polynomial exactness of the cell-centred polynomial operator on cell-centre
samples `u[m] = p(m + 1/2)`: offset 0 gives `p(1/4)`, offset 1 gives `p(3/4)`, and
every offset read is at most `required_ghosts = (ORDER + 1) / 2` away from the centre. -/
theorem interp1d_CC_POLY_exact (ORDER : ℕ) (hO : ORDER ≤ 4)
    (p : Polynomial ℚ) (hp : p.natDegree ≤ ORDER) :
    (interp1d_CC_POLY ORDER (fun m => p.eval ((m : ℚ) + 1 / 2)) 1 0 0).1 = p.eval (1 / 4) ∧
      (interp1d_CC_POLY ORDER (fun m => p.eval ((m : ℚ) + 1 / 2)) 1 0 1).1 = p.eval (3 / 4) ∧
      (∀ off : ℤ, off = 0 ∨ off = 1 →
        ∀ e ∈ (interp1d_CC_POLY ORDER (fun m => p.eval ((m : ℚ) + 1 / 2)) 1 0 off).2,
          |e| ≤ (interp1d_CC_POLY_required_ghosts ORDER : ℤ)) := by
  have hO5 : ORDER = 0 ∨ ORDER = 1 ∨ ORDER = 2 ∨ ORDER = 3 ∨ ORDER = 4 := by omega
  refine ⟨?_, ?_, ?_⟩
  · rcases hO5 with h | h | h | h | h <;> subst h
    all_goals
      simp only [interp1d_CC_POLY, if_true, accumulate_fst,
        eval_eq_sum_of_natDegree_le p _ hp, coeffs1d_CC_POLY]
      norm_num [Finset.sum_range_succ, List.range_succ]
      try ring
  · rcases hO5 with h | h | h | h | h <;> subst h
    all_goals
      simp only [interp1d_CC_POLY, one_ne_zero, if_false, accumulate_fst,
        eval_eq_sum_of_natDegree_le p _ hp, coeffs1d_CC_POLY]
      norm_num [Finset.sum_range_succ, List.range_succ]
      try ring
  · intro off _ e he
    exact interp1d_CC_POLY_reads_le ORDER _ 0 off e he

theorem interp1d_CC_POLY_exact_witness :
    (2 : ℕ) ≤ 4 ∧ (Polynomial.X ^ 2 : Polynomial ℚ).natDegree ≤ 2 ∧
      ((interp1d_CC_POLY 2
            (fun m => (Polynomial.X ^ 2 : Polynomial ℚ).eval ((m : ℚ) + 1 / 2)) 1 0 0).1 =
          (Polynomial.X ^ 2 : Polynomial ℚ).eval (1 / 4) ∧
        (interp1d_CC_POLY 2
            (fun m => (Polynomial.X ^ 2 : Polynomial ℚ).eval ((m : ℚ) + 1 / 2)) 1 0 1).1 =
          (Polynomial.X ^ 2 : Polynomial ℚ).eval (3 / 4) ∧
        (∀ off : ℤ, off = 0 ∨ off = 1 →
          ∀ e ∈ (interp1d_CC_POLY 2
              (fun m => (Polynomial.X ^ 2 : Polynomial ℚ).eval ((m : ℚ) + 1 / 2)) 1 0 off).2,
            |e| ≤ (interp1d_CC_POLY_required_ghosts 2 : ℤ))) :=
  ⟨by decide, Polynomial.natDegree_X_pow_le 2,
    interp1d_CC_POLY_exact 2 (by decide) (Polynomial.X ^ 2) (Polynomial.natDegree_X_pow_le 2)⟩

/-- C3: conservation of the cell-centred conservative operator.  For every even
tabulated order and every input the two sub-cell outputs average back to `crseptr[0]`;
in particular, when `u[m] = F(m + 1) - F(m)` is the average over the cell `[m, m + 1]` of
the polynomial `F.derivative` of degree at most `ORDER`, the sum `y0 * dx + y1 * dx` with
`dx = 1 / 2` is the integral `F(1) - F(0)` over the coarse cell. -/
theorem interp1d_CC_CONS_conservation (ORDER : ℕ)
    (hO : ORDER = 0 ∨ ORDER = 2 ∨ ORDER = 4 ∨ ORDER = 6) (shift : ℤ) :
    (∀ (u : ℤ → ℚ) (di : ℤ),
        (interp1d_CC_CONS ORDER u di shift 0).1 / 2 +
          (interp1d_CC_CONS ORDER u di shift 1).1 / 2 = u 0) ∧
      (∀ F : Polynomial ℚ, F.natDegree ≤ ORDER + 1 →
        (interp1d_CC_CONS ORDER (fun m => F.eval ((m : ℚ) + 1) - F.eval (m : ℚ)) 1 shift 0).1 *
            (1 / 2) +
          (interp1d_CC_CONS ORDER (fun m => F.eval ((m : ℚ) + 1) - F.eval (m : ℚ)) 1 shift 1).1 *
            (1 / 2) = F.eval 1 - F.eval 0) := by
  have key : ∀ (u : ℤ → ℚ) (di : ℤ),
      (interp1d_CC_CONS ORDER u di shift 0).1 / 2 +
        (interp1d_CC_CONS ORDER u di shift 1).1 / 2 = u 0 := by
    intro u di
    rcases hO with h | h | h | h <;> subst h
    all_goals
      simp only [interp1d_CC_CONS, one_ne_zero, if_false, if_true, accumulate_fst,
        coeffs1d_CC_CONS]
      norm_num [List.range_succ]
      try ring
  refine ⟨key, ?_⟩
  intro F _
  have h := key (fun m => F.eval ((m : ℚ) + 1) - F.eval (m : ℚ)) 1
  simp only [Int.cast_zero, zero_add] at h
  rw [← h]
  ring

theorem interp1d_CC_CONS_conservation_witness :
    ((2 : ℕ) = 0 ∨ (2 : ℕ) = 2 ∨ (2 : ℕ) = 4 ∨ (2 : ℕ) = 6) ∧
      ((∀ (u : ℤ → ℚ) (di : ℤ),
          (interp1d_CC_CONS 2 u di 0 0).1 / 2 + (interp1d_CC_CONS 2 u di 0 1).1 / 2 = u 0) ∧
        (∀ F : Polynomial ℚ, F.natDegree ≤ 2 + 1 →
          (interp1d_CC_CONS 2 (fun m => F.eval ((m : ℚ) + 1) - F.eval (m : ℚ)) 1 0 0).1 *
              (1 / 2) +
            (interp1d_CC_CONS 2 (fun m => F.eval ((m : ℚ) + 1) - F.eval (m : ℚ)) 1 0 1).1 *
              (1 / 2) = F.eval 1 - F.eval 0)) :=
  ⟨by decide, interp1d_CC_CONS_conservation 2 (by decide) 0⟩

/-- Every offset read by the ENO operator with stride 1 and a shift of magnitude at most
`ORDER / 2` is within `required_ghosts = ORDER` of the centre cell. -/
theorem interp1d_CC_ENO_reads_le (ORDER : ℕ) (u : ℤ → ℚ) (shift off : ℤ)
    (hlo : -((ORDER / 2 : ℕ) : ℤ) ≤ shift) (hhi : shift ≤ ((ORDER / 2 : ℕ) : ℤ)) (e : ℤ)
    (he : e ∈ (interp1d_CC_ENO ORDER u 1 shift off).2) :
    |e| ≤ (interp1d_CC_ENO_required_ghosts ORDER : ℤ) := by
  unfold interp1d_CC_ENO at he
  unfold interp1d_CC_ENO_required_ghosts
  rw [abs_le]
  by_cases h0 : off = 0
  · simp only [h0, if_true, accumulate_snd, List.nil_append, List.mem_flatMap, List.mem_range,
      List.mem_singleton, mul_one] at he
    obtain ⟨i, hi, rfl⟩ := he
    constructor <;> omega
  · simp only [h0, if_false, accumulate_snd, List.nil_append, List.mem_flatMap, List.mem_range,
      List.mem_singleton, mul_one] at he
    obtain ⟨i, hi, rfl⟩ := he
    constructor <;> omega

/-- C4: conservation of the ENO operator for every admissible shift.  The two sub-cell
outputs computed with the same shift average back to `crseptr[0]` (discrete
conservation); for cell averages `u[m] = F(m + 1) - F(m)` of the polynomial
`F.derivative` of degree at most `ORDER` the sum `y0 * dx + y1 * dx` with `dx = 1 / 2` is
the integral `F(1) - F(0)` over the coarse cell (continuum conservation); and with
stride 1 no offset read is farther than `required_ghosts = ORDER` from the centre. -/
theorem interp1d_CC_ENO_conservation (ORDER : ℕ) (hO : ORDER = 0 ∨ ORDER = 2 ∨ ORDER = 4)
    (shift : ℤ) (hlo : -((ORDER / 2 : ℕ) : ℤ) ≤ shift) (hhi : shift ≤ ((ORDER / 2 : ℕ) : ℤ)) :
    (∀ (u : ℤ → ℚ) (di : ℤ),
        (interp1d_CC_ENO ORDER u di shift 0).1 / 2 +
          (interp1d_CC_ENO ORDER u di shift 1).1 / 2 = u 0) ∧
      (∀ F : Polynomial ℚ, F.natDegree ≤ ORDER + 1 →
        (interp1d_CC_ENO ORDER (fun m => F.eval ((m : ℚ) + 1) - F.eval (m : ℚ)) 1 shift 0).1 *
            (1 / 2) +
          (interp1d_CC_ENO ORDER (fun m => F.eval ((m : ℚ) + 1) - F.eval (m : ℚ)) 1 shift 1).1 *
            (1 / 2) = F.eval 1 - F.eval 0) ∧
      (∀ (u : ℤ → ℚ) (off : ℤ), off = 0 ∨ off = 1 →
        ∀ e ∈ (interp1d_CC_ENO ORDER u 1 shift off).2,
          |e| ≤ (interp1d_CC_ENO_required_ghosts ORDER : ℤ)) := by
  have key : ∀ (u : ℤ → ℚ) (di : ℤ),
      (interp1d_CC_ENO ORDER u di shift 0).1 / 2 +
        (interp1d_CC_ENO ORDER u di shift 1).1 / 2 = u 0 := by
    intro u di
    have hs : (ORDER = 0 ∧ shift = 0) ∨
        (ORDER = 2 ∧ (shift = -1 ∨ shift = 0 ∨ shift = 1)) ∨
        (ORDER = 4 ∧ (shift = -2 ∨ shift = -1 ∨ shift = 0 ∨ shift = 1 ∨ shift = 2)) := by
      rcases hO with h | h | h <;> subst h <;> omega
    rcases hs with ⟨h, k⟩ | ⟨h, k | k | k⟩ | ⟨h, k | k | k | k | k⟩ <;> subst h <;> subst k
    all_goals
      simp only [interp1d_CC_ENO, one_ne_zero, if_false, if_true, accumulate_fst,
        coeffs1d_CC_ENO]
      norm_num [List.range_succ, show Int.toNat 2 = 2 from rfl, show Int.toNat 3 = 3 from rfl,
        show Int.toNat 4 = 4 from rfl]
      try ring
  refine ⟨key, ?_, ?_⟩
  · intro F _
    have h := key (fun m => F.eval ((m : ℚ) + 1) - F.eval (m : ℚ)) 1
    simp only [Int.cast_zero, zero_add] at h
    rw [← h]
    ring
  · intro u off _ e he
    exact interp1d_CC_ENO_reads_le ORDER u shift off hlo hhi e he


theorem interp1d_CC_ENO_conservation_witness :
    ((2 : ℕ) = 0 ∨ (2 : ℕ) = 2 ∨ (2 : ℕ) = 4) ∧ -(((2 : ℕ) / 2 : ℕ) : ℤ) ≤ (-1 : ℤ) ∧
      (-1 : ℤ) ≤ (((2 : ℕ) / 2 : ℕ) : ℤ) ∧
      ((∀ (u : ℤ → ℚ) (di : ℤ),
          (interp1d_CC_ENO 2 u di (-1) 0).1 / 2 + (interp1d_CC_ENO 2 u di (-1) 1).1 / 2 = u 0) ∧
        (∀ F : Polynomial ℚ, F.natDegree ≤ 2 + 1 →
          (interp1d_CC_ENO 2 (fun m => F.eval ((m : ℚ) + 1) - F.eval (m : ℚ)) 1 (-1) 0).1 *
              (1 / 2) +
            (interp1d_CC_ENO 2 (fun m => F.eval ((m : ℚ) + 1) - F.eval (m : ℚ)) 1 (-1) 1).1 *
              (1 / 2) = F.eval 1 - F.eval 0) ∧
        (∀ (u : ℤ → ℚ) (off : ℤ), off = 0 ∨ off = 1 →
          ∀ e ∈ (interp1d_CC_ENO 2 u 1 (-1) off).2,
            |e| ≤ (interp1d_CC_ENO_required_ghosts 2 : ℤ))) :=
  ⟨by decide, by decide, by decide,
    interp1d_CC_ENO_conservation 2 (by decide) (-1) (by decide) (by decide)⟩

/-- C5: polynomial exactness of the vertex-centred Hermite operator on samples
`u[m] = p(m)`: offset 0 gives `p(0)` and offset 1 gives `p(1/2)`. -/
theorem interp1d_VC_HERMITE_exact (ORDER : ℕ) (hO : ORDER = 1 ∨ ORDER = 3 ∨ ORDER = 5)
    (p : Polynomial ℚ) (hp : p.natDegree ≤ ORDER) (shift : ℤ) :
    (interp1d_VC_HERMITE ORDER (fun m => p.eval (m : ℚ)) 1 shift 0).1 = p.eval 0 ∧
      (interp1d_VC_HERMITE ORDER (fun m => p.eval (m : ℚ)) 1 shift 1).1 = p.eval (1 / 2) := by
  refine ⟨by simp [interp1d_VC_HERMITE], ?_⟩
  rcases hO with h | h | h <;> subst h
  all_goals
    simp only [interp1d_VC_HERMITE, one_ne_zero, if_false, accumulate_fst,
      eval_eq_sum_of_natDegree_le p _ hp, coeffs1d_VC_POLY]
    norm_num [Finset.sum_range_succ, List.range_succ]
    ring

theorem interp1d_VC_HERMITE_exact_witness :
    ((5 : ℕ) = 1 ∨ (5 : ℕ) = 3 ∨ (5 : ℕ) = 5) ∧
      (Polynomial.X ^ 5 : Polynomial ℚ).natDegree ≤ 5 ∧
      ((interp1d_VC_HERMITE 5 (fun m => (Polynomial.X ^ 5 : Polynomial ℚ).eval (m : ℚ)) 1 0 0).1 =
          (Polynomial.X ^ 5 : Polynomial ℚ).eval 0 ∧
        (interp1d_VC_HERMITE 5 (fun m => (Polynomial.X ^ 5 : Polynomial ℚ).eval (m : ℚ)) 1 0 1).1 =
          (Polynomial.X ^ 5 : Polynomial ℚ).eval (1 / 2)) :=
  ⟨by decide, Polynomial.natDegree_X_pow_le 5,
    interp1d_VC_HERMITE_exact 5 (by decide) (Polynomial.X ^ 5) (Polynomial.natDegree_X_pow_le 5) 0⟩

/-- C6: identity shortcut.  For vertex centering with the poly or hermite family, every
order, stride, shift and input, offset 0 returns `crseptr[0]` and the only offset
dereferenced is 0. -/
theorem interp1d_VC_off0_identity (ORDER : ℕ) (crseptr : ℤ → ℚ) (di shift : ℤ) :
    interp1d_VC_POLY ORDER crseptr di shift 0 = (crseptr 0, [0]) ∧
      interp1d_VC_HERMITE ORDER crseptr di shift 0 = (crseptr 0, [0]) := by
  simp [interp1d_VC_POLY, interp1d_VC_HERMITE]

/-! ### Loops over integer ranges and boxes -/

theorem mem_intRange (lo hi i : ℤ) : i ∈ intRange lo hi ↔ lo ≤ i ∧ i ≤ hi := by
  unfold intRange
  simp only [List.mem_map, List.mem_range]
  constructor
  · rintro ⟨n, hn, rfl⟩
    omega
  · intro h
    refine ⟨(i - lo).toNat, ?_, ?_⟩ <;> omega

theorem nodup_intRange (lo hi : ℤ) : (intRange lo hi).Nodup := by
  unfold intRange
  refine List.Nodup.map ?_ (List.nodup_range _)
  intro a b h
  simpa using h

theorem Box.mem_points (b : Box) (p : IntVect) : p ∈ b.points ↔ b.contains p := by
  unfold Box.points Box.contains
  simp only [List.mem_flatMap, List.mem_map, mem_intRange]
  constructor
  · rintro ⟨k, hk, j, hj, i, hi, rfl⟩
    exact ⟨⟨hi.1, hj.1, hk.1⟩, hi.2, hj.2, hk.2⟩
  · rintro ⟨⟨h1, h2, h3⟩, h4, h5, h6⟩
    exact ⟨p.z, ⟨h3, h6⟩, p.y, ⟨h2, h5⟩, p.x, ⟨h1, h4⟩, rfl⟩

theorem Box.nodup_points (b : Box) : b.points.Nodup := by
  unfold Box.points
  rw [List.nodup_flatMap]
  refine ⟨fun k _ => ?_, ?_⟩
  · rw [List.nodup_flatMap]
    refine ⟨fun j _ => ?_, ?_⟩
    · refine List.Nodup.map ?_ (nodup_intRange _ _)
      intro a c h
      exact congrArg IntVect.x h
    · refine List.Pairwise.imp_of_mem ?_ (nodup_intRange b.smallend.y b.bigend.y)
      intro j j' _ _ hne
      simp only [Function.onFun, List.disjoint_left, List.mem_map]
      rintro p ⟨i, _, rfl⟩ ⟨i', _, h⟩
      exact hne (congrArg IntVect.y h).symm
  · refine List.Pairwise.imp_of_mem ?_ (nodup_intRange b.smallend.z b.bigend.z)
    intro k k' _ _ hne
    simp only [Function.onFun, List.disjoint_left, List.mem_flatMap, List.mem_map]
    rintro p ⟨j, _, i, _, rfl⟩ ⟨j', _, i', _, h⟩
    exact hne (congrArg IntVect.z h).symm

theorem Box.ok_of_contains (b : Box) (p : IntVect) (h : b.contains p) : b.ok := by
  unfold Box.contains at h
  unfold Box.ok
  omega

/-- The strided address computed by the kernels is `Box::index`. -/
theorem Box.index_strided (b : Box) (i j k : ℤ) :
    b.index ⟨0, 0, 0⟩ + k * (b.index ⟨0, 0, 1⟩ - b.index ⟨0, 0, 0⟩) +
      j * (b.index ⟨0, 1, 0⟩ - b.index ⟨0, 0, 0⟩) + i * 1 = b.index ⟨i, j, k⟩ := by
  simp only [Box.index]
  ring

/-- The assertions `box.index(IntVect(1, 0, 0)) - box.index(IntVect(0, 0, 0)) == 1` of the
source hold for every box. -/
theorem Box.index_unit_stride (b : Box) : b.index ⟨1, 0, 0⟩ - b.index ⟨0, 0, 0⟩ = 1 := by
  simp only [Box.index]
  ring

theorem Box.index_bounds (b : Box) (p : IntVect) (h : b.contains p) :
    0 ≤ b.index p ∧ b.index p < b.numPts := by
  have hok := b.ok_of_contains p h
  unfold Box.contains at h
  obtain ⟨⟨h1, h2, h3⟩, h4, h5, h6⟩ := h
  simp only [Box.numPts, hok, if_true, Box.index, Box.length, IntVect.getVect]
  have hx0 : 0 ≤ p.x - b.smallend.x := by omega
  have hy0 : 0 ≤ p.y - b.smallend.y := by omega
  have hz0 : 0 ≤ p.z - b.smallend.z := by omega
  have hL0 : 0 < b.bigend.x - b.smallend.x + 1 := by omega
  have hL1 : 0 < b.bigend.y - b.smallend.y + 1 := by omega
  have hx1 : p.x - b.smallend.x + 1 ≤ b.bigend.x - b.smallend.x + 1 := by omega
  have hy1 : p.y - b.smallend.y + 1 ≤ b.bigend.y - b.smallend.y + 1 := by omega
  have hz1 : p.z - b.smallend.z + 1 ≤ b.bigend.z - b.smallend.z + 1 := by omega
  constructor
  · positivity
  · have e1 : (b.bigend.x - b.smallend.x + 1) * (p.y - b.smallend.y + 1) ≤
        (b.bigend.x - b.smallend.x + 1) * (b.bigend.y - b.smallend.y + 1) :=
      mul_le_mul_of_nonneg_left hy1 hL0.le
    have e2 : (b.bigend.x - b.smallend.x + 1) * (b.bigend.y - b.smallend.y + 1) *
        (p.z - b.smallend.z + 1) ≤
        (b.bigend.x - b.smallend.x + 1) * (b.bigend.y - b.smallend.y + 1) *
          (b.bigend.z - b.smallend.z + 1) :=
      mul_le_mul_of_nonneg_left hz1 (mul_pos hL0 hL1).le
    nlinarith

theorem mixed_radix_inj (L a a' c c' : ℤ) (ha : 0 ≤ a) (haL : a < L) (ha' : 0 ≤ a')
    (haL' : a' < L) (h : a + L * c = a' + L * c') : a = a' ∧ c = c' := by
  have hL : 0 < L := by omega
  have h1 : (a + L * c) % L = (a' + L * c') % L := by rw [h]
  rw [Int.add_mul_emod_self_left, Int.add_mul_emod_self_left, Int.emod_eq_of_lt ha haL,
    Int.emod_eq_of_lt ha' haL'] at h1
  refine ⟨h1, ?_⟩
  subst h1
  have h2 : L * c = L * c' := by omega
  exact mul_left_cancel₀ hL.ne' h2

theorem Box.index_inj (b : Box) (p q : IntVect) (hp : b.contains p) (hq : b.contains q)
    (h : b.index p = b.index q) : p = q := by
  unfold Box.contains at hp hq
  obtain ⟨⟨h1, h2, h3⟩, h4, h5, h6⟩ := hp
  obtain ⟨⟨g1, g2, g3⟩, g4, g5, g6⟩ := hq
  simp only [Box.index, Box.length, IntVect.getVect] at h
  have hL0 : 0 < b.bigend.x - b.smallend.x + 1 := by omega
  have hL1 : 0 < b.bigend.y - b.smallend.y + 1 := by omega
  have key := mixed_radix_inj (b.bigend.x - b.smallend.x + 1) (p.x - b.smallend.x)
    (q.x - b.smallend.x)
    ((p.y - b.smallend.y) + (b.bigend.y - b.smallend.y + 1) * (p.z - b.smallend.z))
    ((q.y - b.smallend.y) + (b.bigend.y - b.smallend.y + 1) * (q.z - b.smallend.z))
    (by omega) (by omega) (by omega) (by omega) (by linear_combination h)
  obtain ⟨k1, k2⟩ := key
  obtain ⟨k3, k4⟩ := mixed_radix_inj (b.bigend.y - b.smallend.y + 1) (p.y - b.smallend.y)
    (q.y - b.smallend.y) (p.z - b.smallend.z) (q.z - b.smallend.z)
    (by omega) (by omega) (by omega) (by omega) k2
  cases p
  cases q
  simp only [IntVect.mk.injEq] at *
  omega


/-! ### The sweep loop of `interp3d` -/

theorem sweep_foldl_log (src dst : Buffer) (step : IntVect → KernelStep) (pts : List IntVect)
    (st : (ℤ → ℚ) × List Access) :
    (pts.foldl (fun (st : (ℤ → ℚ) × List Access) (p : IntVect) =>
        (Function.update st.1 (step p).store (step p).res,
          st.2 ++ (step p).accesses src dst)) st).2 =
      st.2 ++ pts.flatMap (fun p => (step p).accesses src dst) := by
  induction pts generalizing st with
  | nil => simp
  | cons p pts ih => simp [List.foldl_cons, ih, List.flatMap_cons, List.append_assoc]

theorem sweep_foldl_frame (src dst : Buffer) (step : IntVect → KernelStep)
    (pts : List IntVect) (st : (ℤ → ℚ) × List Access) (a : ℤ)
    (ha : ∀ p ∈ pts, (step p).store ≠ a) :
    (pts.foldl (fun (st : (ℤ → ℚ) × List Access) (p : IntVect) =>
        (Function.update st.1 (step p).store (step p).res,
          st.2 ++ (step p).accesses src dst)) st).1 a = st.1 a := by
  induction pts generalizing st with
  | nil => simp
  | cons p pts ih =>
    rw [List.foldl_cons, ih _ (fun q hq => ha q (List.mem_cons_of_mem _ hq))]
    exact Function.update_noteq (ha p (List.mem_cons_self _ _)).symm _ _

theorem interp3d_kernel_store (CENT : centering_t) (INTP : interpolation_t) (ORDER D : ℕ)
    (USE_SHIFT : Bool) (crse : ℤ → ℚ) (crseptr : ℤ) (crsebox : Box)
    (shifts : ℤ → ℤ) (sptr : ℤ) (sbox : Box) (fineptr : ℤ) (finebox : Box) (di i j k : ℤ) :
    (interp3d_kernel CENT INTP ORDER D USE_SHIFT crse crseptr crsebox shifts sptr sbox
      fineptr finebox di i j k).store = fineptr + finebox.index ⟨i, j, k⟩ := by
  simp only [interp3d_kernel]
  rw [Box.index_strided]

theorem interp3d_loop_log (CENT : centering_t) (INTP : interpolation_t) (ORDER D : ℕ)
    (USE_SHIFT : Bool) (src : Buffer) (crse : ℤ → ℚ) (crseptr : ℤ) (crsebox : Box)
    (shifts : ℤ → ℤ) (sptr : ℤ) (sbox : Box) (dst : Buffer) (fine : ℤ → ℚ) (fineptr : ℤ)
    (finebox targetbox : Box) :
    (interp3d_loop CENT INTP ORDER D USE_SHIFT src crse crseptr crsebox shifts sptr sbox dst
      fine fineptr finebox targetbox).2 =
      targetbox.points.flatMap (fun p =>
        (interp3d_kernel CENT INTP ORDER D USE_SHIFT crse crseptr crsebox shifts sptr sbox
          fineptr finebox (interp3d_di D crsebox finebox) p.x p.y p.z).accesses src dst) := by
  unfold interp3d_loop
  rw [sweep_foldl_log]
  rfl

theorem interp3d_loop_frame (CENT : centering_t) (INTP : interpolation_t) (ORDER D : ℕ)
    (USE_SHIFT : Bool) (src : Buffer) (crse : ℤ → ℚ) (crseptr : ℤ) (crsebox : Box)
    (shifts : ℤ → ℤ) (sptr : ℤ) (sbox : Box) (dst : Buffer) (fine : ℤ → ℚ) (fineptr : ℤ)
    (finebox targetbox : Box) (a : ℤ)
    (ha : ∀ p, targetbox.contains p → fineptr + finebox.index p ≠ a) :
    (interp3d_loop CENT INTP ORDER D USE_SHIFT src crse crseptr crsebox shifts sptr sbox dst
      fine fineptr finebox targetbox).1 a = fine a := by
  unfold interp3d_loop
  rw [sweep_foldl_frame]
  intro p hp
  rw [interp3d_kernel_store]
  exact ha _ ((Box.mem_points _ _).1 hp)

theorem interp3d_ok (CENT : centering_t) (INTP : interpolation_t) (ORDER D : ℕ)
    (USE_SHIFT : Bool) (src : Buffer) (crse : ℤ → ℚ) (crseptr : ℤ) (crsebox : Box)
    (shifts : ℤ → ℤ) (sptr : ℤ) (sbox : Box) (dst : Buffer) (fine : ℤ → ℚ) (fineptr : ℤ)
    (finebox targetbox : Box) (r : (ℤ → ℚ) × List Access)
    (h : interp3d CENT INTP ORDER D USE_SHIFT src crse crseptr crsebox shifts sptr sbox dst
      fine fineptr finebox targetbox = .ok r) :
    interp3d_asserts CENT INTP ORDER D crsebox finebox targetbox = none ∧
      r = interp3d_loop CENT INTP ORDER D USE_SHIFT src crse crseptr crsebox shifts sptr sbox
        dst fine fineptr finebox targetbox := by
  unfold interp3d at h
  cases hc : interp3d_asserts CENT INTP ORDER D crsebox finebox targetbox with
  | some f => rw [hc] at h; cases h
  | none =>
    rw [hc] at h
    exact ⟨rfl, (Except.ok.inj h).symm⟩

theorem interp3d_asserts_none (CENT : centering_t) (INTP : interpolation_t) (ORDER D : ℕ)
    (crsebox finebox targetbox : Box)
    (h : interp3d_asserts CENT INTP ORDER D crsebox finebox targetbox = none) :
    crsebox.ok ∧ finebox.ok ∧ targetbox.ok ∧ interp3d_di D crsebox finebox > 0 ∧
      crsebox.smallend.allLE (targetbox.smallend.setVect D
        (coarsen (targetbox.smallend.getVect D) 2 -
          (interp1d_required_ghosts CENT INTP ORDER : ℕ))) ∧
      finebox.smallend.allLE targetbox.smallend ∧
      (targetbox.bigend.setVect D
        (coarsen (targetbox.bigend.getVect D) 2 +
          (interp1d_required_ghosts CENT INTP ORDER : ℕ))).allLE crsebox.bigend ∧
      targetbox.bigend.allLE finebox.bigend := by
  unfold interp3d_asserts at h
  by_cases h1 : crsebox.ok
  swap
  · simp [h1] at h
  by_cases h2 : finebox.ok
  swap
  · simp [h1, h2] at h
  by_cases h3 : targetbox.ok
  swap
  · simp [h1, h2, h3] at h
  by_cases h4 : interp3d_di D crsebox finebox > 0
  swap
  · simp [h1, h2, h3, h4] at h
  simp only [h1, h2, h3, h4, not_true_eq_false, if_false] at h
  split_ifs at h with h5 h6 h7 h8
  simp only [not_not] at h5 h6 h7 h8
  exact ⟨h1, h2, h3, h4, h5, h6, h7, h8⟩

/-! ### Loops over components -/

theorem for_comps_log_forall (Q : Access → Prop)
    (sweep : ℕ → (ℤ → ℚ) → Except Failure ((ℤ → ℚ) × List Access)) (comps : List ℕ)
    (st r : (ℤ → ℚ) × List Access) (h : for_comps sweep comps st = .ok r)
    (h0 : ∀ ev ∈ st.2, Q ev)
    (hs : ∀ c ∈ comps, ∀ m q, sweep c m = .ok q → ∀ ev ∈ q.2, Q ev) :
    ∀ ev ∈ r.2, Q ev := by
  induction comps generalizing st with
  | nil =>
    simp only [for_comps] at h
    cases h
    exact h0
  | cons c comps ih =>
    simp only [for_comps] at h
    cases hc : sweep c st.1 with
    | error f => rw [hc] at h; cases h
    | ok q =>
      rw [hc] at h
      refine ih _ h ?_ (fun c' hc' => hs c' (List.mem_cons_of_mem _ hc'))
      intro ev hev
      rcases List.mem_append.1 hev with h1 | h1
      · exact h0 ev h1
      · exact hs c (List.mem_cons_self _ _) _ _ hc ev h1

theorem for_comps_ok (sweep : ℕ → (ℤ → ℚ) → Except Failure ((ℤ → ℚ) × List Access))
    (L : ℕ → List Access) (W : ℕ → ℤ → Prop) (comps : List ℕ)
    (st r : (ℤ → ℚ) × List Access) (h : for_comps sweep comps st = .ok r)
    (hs : ∀ c ∈ comps, ∀ m q, sweep c m = .ok q →
      q.2 = L c ∧ ∀ a, ¬ W c a → q.1 a = m a) :
    r.2 = st.2 ++ comps.flatMap L ∧ ∀ a, (∀ c ∈ comps, ¬ W c a) → r.1 a = st.1 a := by
  induction comps generalizing st with
  | nil =>
    simp only [for_comps] at h
    cases h
    simp
  | cons c comps ih =>
    simp only [for_comps] at h
    cases hc : sweep c st.1 with
    | error f => rw [hc] at h; cases h
    | ok q =>
      rw [hc] at h
      obtain ⟨h1, h2⟩ := ih _ h (fun c' hc' => hs c' (List.mem_cons_of_mem _ hc'))
      obtain ⟨g1, g2⟩ := hs c (List.mem_cons_self _ _) _ _ hc
      refine ⟨?_, ?_⟩
      · rw [h1, g1]
        simp [List.flatMap_cons, List.append_assoc]
      · intro a ha
        rw [h2 a (fun c' hc' => ha c' (List.mem_cons_of_mem _ hc'))]
        exact g2 a (ha c (List.mem_cons_self _ _))

/-! ### Accesses of the shift-selection stage -/

theorem divided_differences_loop_log (Q : Access → Prop) (hr : ∀ b a, Q (Access.read b a))
    (hd : ∀ a, Q (Access.write Buffer.divided_differences a))
    (op : prolongate_3d_rf2) (crse : ℤ → ℚ) (crseptr : ℤ) (crsebox diffbox : Box)
    (inds : List IntVect) (st r : EnoState)
    (h : divided_differences_loop op crse crseptr crsebox diffbox inds st = .ok r)
    (h0 : ∀ ev ∈ st.log, Q ev) : ∀ ev ∈ r.log, Q ev := by
  induction inds generalizing st with
  | nil =>
    simp only [divided_differences_loop] at h
    cases h
    exact h0
  | cons ind inds ih =>
    simp only [divided_differences_loop] at h
    split_ifs at h with hc
    refine ih _ h ?_
    intro ev hev
    simp only [List.mem_append, List.mem_map, List.mem_singleton] at hev
    rcases hev with (h1 | ⟨e, _, rfl⟩) | rfl
    · exact h0 ev h1
    · exact hr _ _
    · exact hd _

theorem choose_shifts_loop_log (Q : Access → Prop) (hr : ∀ b a, Q (Access.read b a))
    (hs : ∀ a, Q (Access.write Buffer.stencil_shifts a))
    (op : prolongate_3d_rf2) (shiftptr : ℤ) (source_region diffbox : Box) (st : EnoState)
    (h0 : ∀ ev ∈ st.log, Q ev) :
    ∀ ev ∈ (choose_shifts_loop op shiftptr source_region diffbox st).log, Q ev := by
  unfold choose_shifts_loop
  generalize source_region.points = pts
  induction pts generalizing st with
  | nil => simpa using h0
  | cons p pts ih =>
    rw [List.foldl_cons]
    refine ih _ ?_
    intro ev hev
    simp only [List.mem_append, List.mem_map, List.mem_singleton] at hev
    rcases hev with (h1 | ⟨e, _, rfl⟩) | rfl
    · exact h0 ev h1
    · exact hr _ _
    · exact hs _

theorem eno_stage_log (Q : Access → Prop) (hr : ∀ b a, Q (Access.read b a))
    (hd : ∀ a, Q (Access.write Buffer.divided_differences a))
    (hs : ∀ a, Q (Access.write Buffer.stencil_shifts a))
    (op : prolongate_3d_rf2) (crse : FArrayBox) (crse_comp : ℕ) (source_region : Box)
    (comps : List ℕ) (st r : EnoState)
    (h : eno_stage op crse crse_comp source_region comps st = .ok r)
    (h0 : ∀ ev ∈ st.log, Q ev) : ∀ ev ∈ r.log, Q ev := by
  induction comps generalizing st with
  | nil =>
    simp only [eno_stage] at h
    cases h
    exact h0
  | cons c comps ih =>
    simp only [eno_stage] at h
    split at h
    · cases h
    · rename_i st1 hst1
      exact ih _ h (choose_shifts_loop_log Q hr hs op _ _ _ _
        (divided_differences_loop_log Q hr hd op _ _ _ _ _ _ _ hst1 h0))

theorem interp_eno_log (Q : Access → Prop) (hr : ∀ b a, Q (Access.read b a))
    (hd : ∀ a, Q (Access.write Buffer.divided_differences a))
    (hs : ∀ a, Q (Access.write Buffer.stencil_shifts a))
    (op : prolongate_3d_rf2) (crse : FArrayBox) (crse_comp ncomp : ℕ) (source_region : Box)
    (scratch : Scratch) (r : EnoState)
    (h : interp_eno op crse crse_comp ncomp source_region scratch = .ok r) :
    ∀ ev ∈ r.log, Q ev := by
  unfold interp_eno at h
  split_ifs at h
  · exact eno_stage_log Q hr hd hs op crse crse_comp source_region _ _ _ h (by simp)
  · cases h
    simp

theorem interp3d_log_forall (Q : Access → Prop) (hr : ∀ b a, Q (Access.read b a))
    (dst : Buffer) (hw : ∀ a, Q (Access.write dst a))
    (CENT : centering_t) (INTP : interpolation_t) (ORDER D : ℕ)
    (USE_SHIFT : Bool) (src : Buffer) (crse : ℤ → ℚ) (crseptr : ℤ) (crsebox : Box)
    (shifts : ℤ → ℤ) (sptr : ℤ) (sbox : Box) (fine : ℤ → ℚ) (fineptr : ℤ)
    (finebox targetbox : Box) (r : (ℤ → ℚ) × List Access)
    (h : interp3d CENT INTP ORDER D USE_SHIFT src crse crseptr crsebox shifts sptr sbox dst
      fine fineptr finebox targetbox = .ok r) : ∀ ev ∈ r.2, Q ev := by
  obtain ⟨_, rfl⟩ := interp3d_ok _ _ _ _ _ _ _ _ _ _ _ _ _ _ _ _ _ _ h
  rw [interp3d_loop_log]
  intro ev hev
  simp only [List.mem_flatMap, KernelStep.accesses, List.mem_append, List.mem_map,
    List.mem_singleton] at hev
  obtain ⟨p, _, (⟨e, _, rfl⟩ | ⟨e, _, rfl⟩) | rfl⟩ := hev
  · exact hr _ _
  · exact hr _ _
  · exact hw _

/-! ### Anatomy of a completed call of `interp` -/

theorem interp_completed (op : prolongate_3d_rf2) (crse : FArrayBox) (crse_comp : ℕ)
    (fine : FArrayBox) (fine_comp ncomp : ℕ) (fine_region : Box) (ratio : IntVect)
    (actual_comp actual_state : ℤ) (scratch : Scratch) (fine' : ℤ → ℚ) (log : List Access)
    (h : interp op crse crse_comp fine fine_comp ncomp fine_region ratio actual_comp
      actual_state scratch = .completed fine' log) :
    (ratio.getVect 0 = 2 ∧ ratio.getVect 1 = 2 ∧ ratio.getVect 2 = 2) ∧
      actual_comp = 0 ∧ actual_state = 0 ∧
      fine_region.inter fine.box = fine_region ∧
      ∃ (source_region : Box) (eno : EnoState) (x y : (ℤ → ℚ) × List Access),
        CoarseBox_int op fine_region 2 = .ok source_region ∧
        targets source_region fine_region 2 = fine_region ∧
        interp_eno op crse crse_comp ncomp source_region scratch = .ok eno ∧
        for_comps (interp_x op crse crse_comp eno.stencil_shifts source_region fine_region)
          (List.range ncomp) (scratch.tmp0, eno.log) = .ok x ∧
        for_comps (interp_y op x.1 eno.stencil_shifts source_region fine_region)
          (List.range ncomp) (scratch.tmp1, x.2) = .ok y ∧
        for_comps (interp_z op y.1 eno.stencil_shifts fine fine_comp source_region fine_region)
          (List.range ncomp) (fine.data, y.2) = .ok (fine', log) := by
  unfold interp at h
  split_ifs at h with h1 h2 h3
  simp only [not_not] at h1 h2 h3
  by_cases h4 : fine_region.inter fine.box = fine_region
  swap
  · simp only [h4, not_false_eq_true, if_true] at h
    cases h
  simp only [h4, not_true_eq_false, if_false] at h
  refine ⟨h1, h2, h3, h4, ?_⟩
  split at h
  · cases h
  rename_i source_region hsrc
  split_ifs at h with h5
  simp only [not_not] at h5
  split at h
  · cases h
  rename_i eno heno
  split at h
  · cases h
  rename_i x hx
  split at h
  · cases h
  rename_i y hy
  split at h
  · cases h
  rename_i z hz
  cases h
  exact ⟨source_region, eno, x, y, hsrc, h5, heno, hx, hy, hz⟩

theorem Box.contains_of_inter_eq (a b : Box) (h : a.inter b = a) (p : IntVect)
    (hp : a.contains p) : b.contains p := by
  have h1 := congrArg Box.smallend h
  have h2 := congrArg Box.bigend h
  simp only [Box.inter] at h1 h2
  have e1 := congrArg IntVect.x h1
  have e2 := congrArg IntVect.y h1
  have e3 := congrArg IntVect.z h1
  have e4 := congrArg IntVect.x h2
  have e5 := congrArg IntVect.y h2
  have e6 := congrArg IntVect.z h2
  simp only at e1 e2 e3 e4 e5 e6
  unfold Box.contains at hp ⊢
  omega

theorem count_write_accesses (src dst : Buffer) (s : KernelStep) (A : ℤ) :
    (s.accesses src dst).count (Access.write dst A) = [s.store].count A := by
  have h1 : (s.shift_reads.map (Access.read Buffer.stencil_shifts)).count
      (Access.write dst A) = 0 := by
    rw [List.count_eq_zero]
    simp
  have h2 : (s.crse_reads.map (Access.read src)).count (Access.write dst A) = 0 := by
    rw [List.count_eq_zero]
    simp
  simp only [KernelStep.accesses, List.count_append, h1, h2, zero_add]
  by_cases h : s.store = A
  · simp [h]
  · have h' : ¬ (Access.write dst s.store = Access.write dst A) := by
      intro hc
      exact h (Access.write.inj hc).2
    simp [List.count_cons, h, h']

theorem count_write_flatMap (src dst : Buffer) (step : IntVect → KernelStep)
    (pts : List IntVect) (A : ℤ) :
    (pts.flatMap (fun p => (step p).accesses src dst)).count (Access.write dst A) =
      (pts.map (fun p => (step p).store)).count A := by
  induction pts with
  | nil => simp
  | cons p pts ih =>
    rw [List.flatMap_cons, List.count_append, ih, count_write_accesses, List.map_cons,
      List.count_cons, List.count_cons]
    simp [add_comm]

theorem count_flatMap_comps (dst : Buffer) (L : ℕ → List Access) (S : ℕ → List ℤ) (A : ℤ)
    (comps : List ℕ) (h : ∀ c ∈ comps, (L c).count (Access.write dst A) = (S c).count A) :
    (comps.flatMap L).count (Access.write dst A) = (comps.flatMap S).count A := by
  induction comps with
  | nil => simp
  | cons c comps ih =>
    rw [List.flatMap_cons, List.flatMap_cons, List.count_append, List.count_append,
      h c (List.mem_cons_self _ _), ih (fun c' hc' => h c' (List.mem_cons_of_mem _ hc'))]

/-- The element indices of distinct (component, box index) pairs are distinct. -/
theorem FArrayBox.dataPtr_index_inj (f : FArrayBox) (c c' : ℕ) (p q : IntVect)
    (hp : f.box.contains p) (hq : f.box.contains q)
    (h : f.dataPtr c + f.box.index p = f.dataPtr c' + f.box.index q) : c = c' ∧ p = q := by
  obtain ⟨p0, p1⟩ := f.box.index_bounds p hp
  obtain ⟨q0, q1⟩ := f.box.index_bounds q hq
  unfold FArrayBox.dataPtr at h
  obtain ⟨k1, k2⟩ := mixed_radix_inj f.box.numPts (f.box.index p) (f.box.index q) c c' p0 p1
    q0 q1 (by linear_combination h)
  exact ⟨by exact_mod_cast k2, f.box.index_inj p q hp hq k1⟩

theorem nodup_stores (f : FArrayBox) (region : Box)
    (hsub : ∀ p, region.contains p → f.box.contains p) (fine_comp : ℕ) (comps : List ℕ)
    (hc : comps.Nodup) :
    (comps.flatMap (fun c =>
      region.points.map (fun p => f.dataPtr (fine_comp + c) + f.box.index p))).Nodup := by
  rw [List.nodup_flatMap]
  refine ⟨fun c _ => ?_, ?_⟩
  · refine List.Nodup.map_on ?_ region.nodup_points
    intro p hp q hq h
    exact (f.dataPtr_index_inj _ _ p q (hsub p ((Box.mem_points _ _).1 hp))
      (hsub q ((Box.mem_points _ _).1 hq)) h).2
  · refine List.Pairwise.imp_of_mem ?_ hc
    intro c c' _ _ hne
    simp only [Function.onFun, List.disjoint_left, List.mem_map]
    rintro a ⟨p, hp, rfl⟩ ⟨q, hq, h⟩
    have := (f.dataPtr_index_inj _ _ q p (hsub q ((Box.mem_points _ _).1 hq))
      (hsub p ((Box.mem_points _ _).1 hp)) h).1
    omega

/-- What the z-sweep of one component does to the destination. -/
theorem interp_z_ok (op : prolongate_3d_rf2) (tmp1 : ℤ → ℚ) (stencil_shifts : ℤ → ℤ)
    (fine : FArrayBox) (fine_comp : ℕ) (source_region target_region : Box) (comp : ℕ)
    (dst : ℤ → ℚ) (q : (ℤ → ℚ) × List Access)
    (h : interp_z op tmp1 stencil_shifts fine fine_comp source_region target_region comp dst =
      .ok q) :
    (∀ A, q.2.count (Access.write Buffer.fine A) =
        (target_region.points.map
          (fun p => fine.dataPtr (fine_comp + comp) + fine.box.index p)).count A) ∧
      ∀ a, ¬ (∃ p, target_region.contains p ∧
          a = fine.dataPtr (fine_comp + comp) + fine.box.index p) → q.1 a = dst a := by
  unfold interp_z at h
  obtain ⟨_, rfl⟩ := interp3d_ok _ _ _ _ _ _ _ _ _ _ _ _ _ _ _ _ _ _ h
  refine ⟨fun A => ?_, fun a ha => ?_⟩
  · rw [interp3d_loop_log, count_write_flatMap]
    simp only [interp3d_kernel_store]
  · apply interp3d_loop_frame
    intro p hp hc
    exact ha ⟨p, hp, hc.symm⟩

theorem for_comps_z (sweep : ℕ → (ℤ → ℚ) → Except Failure ((ℤ → ℚ) × List Access))
    (S : ℕ → List ℤ) (W : ℕ → ℤ → Prop) (comps : List ℕ)
    (st r : (ℤ → ℚ) × List Access) (h : for_comps sweep comps st = .ok r)
    (hs : ∀ c ∈ comps, ∀ m q, sweep c m = .ok q →
      (∀ A, q.2.count (Access.write Buffer.fine A) = (S c).count A) ∧
        ∀ a, ¬ W c a → q.1 a = m a) :
    (∀ A, r.2.count (Access.write Buffer.fine A) =
        st.2.count (Access.write Buffer.fine A) + (comps.flatMap S).count A) ∧
      ∀ a, (∀ c ∈ comps, ¬ W c a) → r.1 a = st.1 a := by
  induction comps generalizing st with
  | nil =>
    simp only [for_comps] at h
    cases h
    simp
  | cons c comps ih =>
    simp only [for_comps] at h
    cases hc : sweep c st.1 with
    | error f => rw [hc] at h; cases h
    | ok q =>
      rw [hc] at h
      obtain ⟨h1, h2⟩ := ih _ h (fun c' hc' => hs c' (List.mem_cons_of_mem _ hc'))
      obtain ⟨g1, g2⟩ := hs c (List.mem_cons_self _ _) _ _ hc
      refine ⟨fun A => ?_, fun a ha => ?_⟩
      · rw [h1 A, List.count_append, g1 A, List.flatMap_cons, List.count_append, add_assoc]
      · rw [h2 a (fun c' hc' => ha c' (List.mem_cons_of_mem _ hc'))]
        exact g2 a (ha c (List.mem_cons_self _ _))

/-- Access log and frame of a completed call of `interp` in the model (production build:
the `CCTK_DEBUG` blocks that pre-fill the target with NaN are not compiled), stores into
the scratch arrays left aside.  Every index of `fine_region` in
each of the components `fine_comp … fine_comp + ncomp - 1` of the destination is written
exactly once; no other element of the destination is written; every destination element
outside `fine_region` or in another component keeps its value; and no element of the
coarse array is written. -/
theorem interp_writes_exactly_fine_region (op : prolongate_3d_rf2) (crse : FArrayBox)
    (crse_comp : ℕ) (fine : FArrayBox) (fine_comp ncomp : ℕ) (fine_region : Box)
    (ratio : IntVect) (actual_comp actual_state : ℤ) (scratch : Scratch) (fine' : ℤ → ℚ)
    (log : List Access)
    (h : interp op crse crse_comp fine fine_comp ncomp fine_region ratio actual_comp
      actual_state scratch = .completed fine' log) :
    (∀ comp < ncomp, ∀ p, fine_region.contains p →
        log.count
          (Access.write Buffer.fine (fine.dataPtr (fine_comp + comp) + fine.box.index p)) = 1) ∧
      (∀ a, Access.write Buffer.fine a ∈ log →
        ∃ comp < ncomp, ∃ p, fine_region.contains p ∧
          a = fine.dataPtr (fine_comp + comp) + fine.box.index p) ∧
      (∀ a, (¬ ∃ comp < ncomp, ∃ p, fine_region.contains p ∧
          a = fine.dataPtr (fine_comp + comp) + fine.box.index p) → fine' a = fine.data a) ∧
      (∀ (c : ℕ) (q : IntVect), fine.box.contains q →
        ¬ ((fine_comp ≤ c ∧ c < fine_comp + ncomp) ∧ fine_region.contains q) →
        fine' (fine.dataPtr c + fine.box.index q) =
          fine.data (fine.dataPtr c + fine.box.index q)) ∧
      (∀ a, Access.write Buffer.crse a ∉ log) := by
  obtain ⟨_, _, _, hinter, source_region, eno, x, y, _, _, heno, hx, hy, hz⟩ :=
    interp_completed _ _ _ _ _ _ _ _ _ _ _ _ _ h
  have hsub : ∀ p, fine_region.contains p → fine.box.contains p :=
    Box.contains_of_inter_eq _ _ hinter
  -- the accesses before the z-sweep never write the destination or the coarse array
  have hQ : ∀ (b : Buffer), b = Buffer.fine ∨ b = Buffer.crse →
      ∀ ev ∈ y.2, ∀ a, ev ≠ Access.write b a := by
    intro b hb
    have hb0 : b ≠ Buffer.tmp0 := by rcases hb with rfl | rfl <;> decide
    have hb1 : b ≠ Buffer.tmp1 := by rcases hb with rfl | rfl <;> decide
    have hbd : b ≠ Buffer.divided_differences := by rcases hb with rfl | rfl <;> decide
    have hbs : b ≠ Buffer.stencil_shifts := by rcases hb with rfl | rfl <;> decide
    have hr : ∀ b' a', ∀ a, Access.read b' a' ≠ Access.write b a := by
      intro b' a' a hc
      cases hc
    have hw : ∀ b', b ≠ b' → ∀ a', ∀ a, Access.write b' a' ≠ Access.write b a := by
      intro b' hne a' a hc
      exact hne (Access.write.inj hc).1.symm
    have h1 := interp_eno_log (fun ev => ∀ a, ev ≠ Access.write b a) hr (hw _ hbd) (hw _ hbs)
      op crse crse_comp ncomp source_region scratch eno heno
    have h2 := for_comps_log_forall (fun ev => ∀ a, ev ≠ Access.write b a) _ _ _ _ hx h1
      (fun c _ m q hq => interp3d_log_forall _ hr Buffer.tmp0 (hw _ hb0)
        _ _ _ _ _ _ _ _ _ _ _ _ _ _ _ _ q hq)
    exact for_comps_log_forall (fun ev => ∀ a, ev ≠ Access.write b a) _ _ _ _ hy h2
      (fun c _ m q hq => interp3d_log_forall _ hr Buffer.tmp1 (hw _ hb1)
        _ _ _ _ _ _ _ _ _ _ _ _ _ _ _ _ q hq)
  have hy0 : ∀ A, y.2.count (Access.write Buffer.fine A) = 0 := by
    intro A
    rw [List.count_eq_zero]
    intro hc
    exact hQ Buffer.fine (Or.inl rfl) _ hc A rfl
  obtain ⟨hcount, hframe⟩ := for_comps_z _
    (fun c => fine_region.points.map
      (fun p => fine.dataPtr (fine_comp + c) + fine.box.index p))
    (fun c a => ∃ p, fine_region.contains p ∧
      a = fine.dataPtr (fine_comp + c) + fine.box.index p)
    _ _ _ hz (fun c _ m q hq => interp_z_ok _ _ _ _ _ _ _ _ _ _ hq)
  simp only [hy0, zero_add] at hcount
  have hmem : ∀ A, A ∈ (List.range ncomp).flatMap (fun c => fine_region.points.map
      (fun p => fine.dataPtr (fine_comp + c) + fine.box.index p)) ↔
      ∃ comp < ncomp, ∃ p, fine_region.contains p ∧
        A = fine.dataPtr (fine_comp + comp) + fine.box.index p := by
    intro A
    simp only [List.mem_flatMap, List.mem_range, List.mem_map, Box.mem_points]
    constructor
    · rintro ⟨c, hc, p, hp, rfl⟩
      exact ⟨c, hc, p, hp, rfl⟩
    · rintro ⟨c, hc, p, hp, rfl⟩
      exact ⟨c, hc, p, hp, rfl⟩
  have hgen : ∀ a, (¬ ∃ comp < ncomp, ∃ p, fine_region.contains p ∧
      a = fine.dataPtr (fine_comp + comp) + fine.box.index p) → fine' a = fine.data a := by
    intro a ha
    refine hframe a ?_
    intro c hc hW
    obtain ⟨p, hp, rfl⟩ := hW
    exact ha ⟨c, List.mem_range.1 hc, p, hp, rfl⟩
  refine ⟨?_, ?_, hgen, ?_, ?_⟩
  · intro comp hcomp p hp
    rw [hcount]
    exact List.count_eq_one_of_mem
      (nodup_stores fine fine_region hsub fine_comp _ (List.nodup_range ncomp))
      ((hmem _).2 ⟨comp, hcomp, p, hp, rfl⟩)
  · intro a ha
    have : 0 < log.count (Access.write Buffer.fine a) := List.count_pos_iff.2 ha
    rw [hcount] at this
    exact (hmem a).1 (List.count_pos_iff.1 this)
  · intro c q hq hnot
    apply hgen
    rintro ⟨comp, hcomp, p, hp, hc⟩
    obtain ⟨e1, e2⟩ := fine.dataPtr_index_inj _ _ q p hq (hsub p hp) hc
    subst e2
    exact hnot ⟨⟨by omega, by omega⟩, hp⟩
  · intro a ha
    have hr : ∀ b' a', ∀ a, Access.read b' a' ≠ Access.write Buffer.crse a := by
      intro b' a' a hc
      cases hc
    have hw : ∀ a', ∀ a, Access.write Buffer.fine a' ≠ Access.write Buffer.crse a := by
      intro a' a hc
      cases hc
    exact for_comps_log_forall (fun ev => ∀ a, ev ≠ Access.write Buffer.crse a) _ _ _ _ hz
      (hQ Buffer.crse (Or.inr rfl))
      (fun c _ m q hq => interp3d_log_forall _ hr Buffer.fine hw
        _ _ _ _ _ _ _ _ _ _ _ _ _ _ _ _ q hq) _ ha a rfl

set_option maxHeartbeats 4000000 in
theorem interp_writes_exactly_fine_region_witness :
    interp prolongate_3d_rf2_c000_o1
        ⟨⟨⟨-1, -1, -1⟩, ⟨2, 1, 1⟩, ⟨true, true, true⟩⟩, fun a => (a : ℚ)⟩ 0
        ⟨⟨⟨0, 0, 0⟩, ⟨1, 0, 0⟩, ⟨true, true, true⟩⟩, fun _ => 0⟩ 0 1
        ⟨⟨0, 0, 0⟩, ⟨1, 0, 0⟩, ⟨true, true, true⟩⟩ ⟨2, 2, 2⟩ 0 0
        ⟨fun _ => 0, fun _ => 0, fun _ => 0, fun _ => 0⟩ =
      Outcome.completed
        (interp prolongate_3d_rf2_c000_o1
          ⟨⟨⟨-1, -1, -1⟩, ⟨2, 1, 1⟩, ⟨true, true, true⟩⟩, fun a => (a : ℚ)⟩ 0
          ⟨⟨⟨0, 0, 0⟩, ⟨1, 0, 0⟩, ⟨true, true, true⟩⟩, fun _ => 0⟩ 0 1
          ⟨⟨0, 0, 0⟩, ⟨1, 0, 0⟩, ⟨true, true, true⟩⟩ ⟨2, 2, 2⟩ 0 0
          ⟨fun _ => 0, fun _ => 0, fun _ => 0, fun _ => 0⟩).fine
        (interp prolongate_3d_rf2_c000_o1
          ⟨⟨⟨-1, -1, -1⟩, ⟨2, 1, 1⟩, ⟨true, true, true⟩⟩, fun a => (a : ℚ)⟩ 0
          ⟨⟨⟨0, 0, 0⟩, ⟨1, 0, 0⟩, ⟨true, true, true⟩⟩, fun _ => 0⟩ 0 1
          ⟨⟨0, 0, 0⟩, ⟨1, 0, 0⟩, ⟨true, true, true⟩⟩ ⟨2, 2, 2⟩ 0 0
          ⟨fun _ => 0, fun _ => 0, fun _ => 0, fun _ => 0⟩).log ∧
      (∀ comp < 1, ∀ p, Box.contains ⟨⟨0, 0, 0⟩, ⟨1, 0, 0⟩, ⟨true, true, true⟩⟩ p →
        (interp prolongate_3d_rf2_c000_o1
          ⟨⟨⟨-1, -1, -1⟩, ⟨2, 1, 1⟩, ⟨true, true, true⟩⟩, fun a => (a : ℚ)⟩ 0
          ⟨⟨⟨0, 0, 0⟩, ⟨1, 0, 0⟩, ⟨true, true, true⟩⟩, fun _ => 0⟩ 0 1
          ⟨⟨0, 0, 0⟩, ⟨1, 0, 0⟩, ⟨true, true, true⟩⟩ ⟨2, 2, 2⟩ 0 0
          ⟨fun _ => 0, fun _ => 0, fun _ => 0, fun _ => 0⟩).log.count
            (Access.write Buffer.fine
              (FArrayBox.dataPtr ⟨⟨⟨0, 0, 0⟩, ⟨1, 0, 0⟩, ⟨true, true, true⟩⟩, fun _ => 0⟩
                  (0 + comp) +
                Box.index ⟨⟨0, 0, 0⟩, ⟨1, 0, 0⟩, ⟨true, true, true⟩⟩ p)) = 1) := by
  have h : interp prolongate_3d_rf2_c000_o1
        ⟨⟨⟨-1, -1, -1⟩, ⟨2, 1, 1⟩, ⟨true, true, true⟩⟩, fun a => (a : ℚ)⟩ 0
        ⟨⟨⟨0, 0, 0⟩, ⟨1, 0, 0⟩, ⟨true, true, true⟩⟩, fun _ => 0⟩ 0 1
        ⟨⟨0, 0, 0⟩, ⟨1, 0, 0⟩, ⟨true, true, true⟩⟩ ⟨2, 2, 2⟩ 0 0
        ⟨fun _ => 0, fun _ => 0, fun _ => 0, fun _ => 0⟩ =
      Outcome.completed
        (interp prolongate_3d_rf2_c000_o1
          ⟨⟨⟨-1, -1, -1⟩, ⟨2, 1, 1⟩, ⟨true, true, true⟩⟩, fun a => (a : ℚ)⟩ 0
          ⟨⟨⟨0, 0, 0⟩, ⟨1, 0, 0⟩, ⟨true, true, true⟩⟩, fun _ => 0⟩ 0 1
          ⟨⟨0, 0, 0⟩, ⟨1, 0, 0⟩, ⟨true, true, true⟩⟩ ⟨2, 2, 2⟩ 0 0
          ⟨fun _ => 0, fun _ => 0, fun _ => 0, fun _ => 0⟩).fine
        (interp prolongate_3d_rf2_c000_o1
          ⟨⟨⟨-1, -1, -1⟩, ⟨2, 1, 1⟩, ⟨true, true, true⟩⟩, fun a => (a : ℚ)⟩ 0
          ⟨⟨⟨0, 0, 0⟩, ⟨1, 0, 0⟩, ⟨true, true, true⟩⟩, fun _ => 0⟩ 0 1
          ⟨⟨0, 0, 0⟩, ⟨1, 0, 0⟩, ⟨true, true, true⟩⟩ ⟨2, 2, 2⟩ 0 0
          ⟨fun _ => 0, fun _ => 0, fun _ => 0, fun _ => 0⟩).log := rfl
  exact ⟨h, (interp_writes_exactly_fine_region _ _ _ _ _ _ _ _ _ _ _ _ _ h).1⟩

/-! ### Values stored by a completed call -/

/-- A sweep over distinct points with distinct store positions leaves at the store
position of every point the value computed for that point. -/
theorem sweep_foldl_value (src dst : Buffer) (step : IntVect → KernelStep)
    (pts : List IntVect) (st : (ℤ → ℚ) × List Access) (hnd : pts.Nodup)
    (hinj : ∀ p ∈ pts, ∀ q ∈ pts, (step p).store = (step q).store → p = q) :
    ∀ p ∈ pts,
      (pts.foldl (fun (st : (ℤ → ℚ) × List Access) (p : IntVect) =>
          (Function.update st.1 (step p).store (step p).res,
            st.2 ++ (step p).accesses src dst)) st).1 (step p).store = (step p).res := by
  induction pts generalizing st with
  | nil => intro p hp; cases hp
  | cons a pts ih =>
    intro p hp
    rw [List.foldl_cons]
    obtain ⟨ha, hnd1⟩ := List.nodup_cons.1 hnd
    rcases List.mem_cons.1 hp with rfl | hp1
    · rw [sweep_foldl_frame]
      · exact Function.update_same _ _ _
      · intro q hq hst
        have := hinj q (List.mem_cons_of_mem _ hq) p (List.mem_cons_self _ _) hst
        exact ha (this ▸ hq)
    · exact ih _ hnd1 (fun x hx y hy => hinj x (List.mem_cons_of_mem _ hx) y
        (List.mem_cons_of_mem _ hy)) p hp1

/-- After the loop nest of `interp3d`, the destination element of every index of
`targetbox` holds the value that the kernel computed for that index. -/
theorem interp3d_loop_value (CENT : centering_t) (INTP : interpolation_t) (ORDER D : ℕ)
    (USE_SHIFT : Bool) (src : Buffer) (crse : ℤ → ℚ) (crseptr : ℤ) (crsebox : Box)
    (shifts : ℤ → ℤ) (sptr : ℤ) (sbox : Box) (dst : Buffer) (fine : ℤ → ℚ) (fineptr : ℤ)
    (finebox targetbox : Box) (hsub : ∀ p, targetbox.contains p → finebox.contains p)
    (p : IntVect) (hp : targetbox.contains p) :
    (interp3d_loop CENT INTP ORDER D USE_SHIFT src crse crseptr crsebox shifts sptr sbox dst
      fine fineptr finebox targetbox).1 (fineptr + finebox.index p) =
      (interp3d_kernel CENT INTP ORDER D USE_SHIFT crse crseptr crsebox shifts sptr sbox
        fineptr finebox (interp3d_di D crsebox finebox) p.x p.y p.z).res := by
  unfold interp3d_loop
  have hs : ∀ q : IntVect,
      (interp3d_kernel CENT INTP ORDER D USE_SHIFT crse crseptr crsebox shifts sptr sbox
        fineptr finebox (interp3d_di D crsebox finebox) q.x q.y q.z).store =
        fineptr + finebox.index q :=
    fun q => interp3d_kernel_store _ _ _ _ _ _ _ _ _ _ _ _ _ _ q.x q.y q.z
  have h := sweep_foldl_value src dst
    (fun p => interp3d_kernel CENT INTP ORDER D USE_SHIFT crse crseptr crsebox shifts sptr sbox
      fineptr finebox (interp3d_di D crsebox finebox) p.x p.y p.z)
    targetbox.points (fine, []) targetbox.nodup_points
    (by
      intro a ha b hb hst
      simp only [hs] at hst
      exact finebox.index_inj a b (hsub a ((Box.mem_points _ _).1 ha))
        (hsub b ((Box.mem_points _ _).1 hb)) (by linarith))
    p ((Box.mem_points _ _).2 hp)
  rw [← hs p]
  exact h

/-- A loop over the components leaves unchanged what no component writes. -/
theorem for_comps_frame (sweep : ℕ → (ℤ → ℚ) → Except Failure ((ℤ → ℚ) × List Access))
    (W : ℕ → ℤ → Prop) (comps : List ℕ) (st r : (ℤ → ℚ) × List Access)
    (h : for_comps sweep comps st = .ok r)
    (hs : ∀ c ∈ comps, ∀ m q, sweep c m = .ok q → ∀ a, ¬ W c a → q.1 a = m a) :
    ∀ a, (∀ c ∈ comps, ¬ W c a) → r.1 a = st.1 a := by
  induction comps generalizing st with
  | nil =>
    simp only [for_comps] at h
    cases h
    exact fun a _ => rfl
  | cons c comps ih =>
    simp only [for_comps] at h
    split at h
    · cases h
    rename_i q hq
    intro a ha
    rw [ih _ h (fun c' hc' => hs c' (List.mem_cons_of_mem _ hc')) a
      (fun c' hc' => ha c' (List.mem_cons_of_mem _ hc'))]
    exact hs c (List.mem_cons_self _ _) _ _ hq a (ha c (List.mem_cons_self _ _))

/-- A loop over distinct components that write disjoint sets of elements leaves in
every element the value stored by the component that writes it. -/
theorem for_comps_value (sweep : ℕ → (ℤ → ℚ) → Except Failure ((ℤ → ℚ) × List Access))
    (W : ℕ → ℤ → Prop) (V : ℕ → ℤ → ℚ) (comps : List ℕ) (hnd : comps.Nodup)
    (hdisj : ∀ c ∈ comps, ∀ c' ∈ comps, c ≠ c' → ∀ a, W c a → ¬ W c' a)
    (st r : (ℤ → ℚ) × List Access) (h : for_comps sweep comps st = .ok r)
    (hs : ∀ c ∈ comps, ∀ m q, sweep c m = .ok q →
      (∀ a, W c a → q.1 a = V c a) ∧ ∀ a, ¬ W c a → q.1 a = m a) :
    ∀ c ∈ comps, ∀ a, W c a → r.1 a = V c a := by
  induction comps generalizing st with
  | nil => intro c hc; cases hc
  | cons c0 comps ih =>
    simp only [for_comps] at h
    split at h
    · cases h
    rename_i q hq
    obtain ⟨hc0, hnd1⟩ := List.nodup_cons.1 hnd
    intro c hc a ha
    rcases List.mem_cons.1 hc with rfl | hc1
    · rw [for_comps_frame sweep W comps _ r h
        (fun c' hc' m q' hq' => (hs c' (List.mem_cons_of_mem _ hc') m q' hq').2) a
        (fun c' hc' => hdisj c (List.mem_cons_self _ _) c' (List.mem_cons_of_mem _ hc')
          (fun e => hc0 (e ▸ hc')) a ha)]
      exact (hs c (List.mem_cons_self _ _) _ _ hq).1 a ha
    · exact ih hnd1 (fun x hx y hy => hdisj x (List.mem_cons_of_mem _ hx) y
        (List.mem_cons_of_mem _ hy)) _ h
        (fun c' hc' => hs c' (List.mem_cons_of_mem _ hc')) c hc1 a ha

/-- The values a completed call of `interp` leaves in the destination: the element of
every index `p` of `fine_region` in every component `fine_comp + comp` holds the value
that the kernel of the z-sweep computed for `p` from the result `tmp1` of the y-sweeps. -/
theorem interp_completed_fine_values (op : prolongate_3d_rf2) (crse : FArrayBox)
    (crse_comp : ℕ) (fine : FArrayBox) (fine_comp ncomp : ℕ) (fine_region : Box)
    (ratio : IntVect) (actual_comp actual_state : ℤ) (scratch : Scratch) (fine' : ℤ → ℚ)
    (log : List Access)
    (h : interp op crse crse_comp fine fine_comp ncomp fine_region ratio actual_comp
      actual_state scratch = .completed fine' log) :
    ∃ (source_region : Box) (eno : EnoState) (x y : (ℤ → ℚ) × List Access),
      CoarseBox_int op fine_region 2 = .ok source_region ∧
      interp_eno op crse crse_comp ncomp source_region scratch = .ok eno ∧
      for_comps (interp_x op crse crse_comp eno.stencil_shifts source_region fine_region)
        (List.range ncomp) (scratch.tmp0, eno.log) = .ok x ∧
      for_comps (interp_y op x.1 eno.stencil_shifts source_region fine_region)
        (List.range ncomp) (scratch.tmp1, x.2) = .ok y ∧
      ∀ comp < ncomp, ∀ p, fine_region.contains p →
        fine' (fine.dataPtr (fine_comp + comp) + fine.box.index p) =
          (interp3d_kernel op.CENTK op.INTPK op.ORDERK 2 (op.use_shift 2) y.1
            ((comp : ℤ) * (targets source_region fine_region 1).numPts)
            (targets source_region fine_region 1) eno.stencil_shifts
            ((comp : ℤ) * source_region.numPts) source_region
            (fine.dataPtr (fine_comp + comp)) fine.box
            (interp3d_di 2 (targets source_region fine_region 1) fine.box)
            p.x p.y p.z).res := by
  obtain ⟨_, _, _, hinter, source_region, eno, x, y, hsrc, _, heno, hx, hy, hz⟩ :=
    interp_completed _ _ _ _ _ _ _ _ _ _ _ _ _ h
  have hsub : ∀ p, fine_region.contains p → fine.box.contains p :=
    Box.contains_of_inter_eq _ _ hinter
  refine ⟨source_region, eno, x, y, hsrc, heno, hx, hy, ?_⟩
  intro comp hcomp p hp
  have key := for_comps_value
    (interp_z op y.1 eno.stencil_shifts fine fine_comp source_region fine_region)
    (fun c a => ∃ p, fine_region.contains p ∧
      a = fine.dataPtr (fine_comp + c) + fine.box.index p)
    (fun c a => (interp3d_loop op.CENTK op.INTPK op.ORDERK 2 (op.use_shift 2) Buffer.tmp1 y.1
      ((c : ℤ) * (targets source_region fine_region 1).numPts)
      (targets source_region fine_region 1) eno.stencil_shifts
      ((c : ℤ) * source_region.numPts) source_region Buffer.fine fine.data
      (fine.dataPtr (fine_comp + c)) fine.box fine_region).1 a)
    (List.range ncomp) (List.nodup_range ncomp)
    (by
      rintro c _ c' _ hne a ⟨p1, hp1, rfl⟩ ⟨p2, hp2, e⟩
      have := (fine.dataPtr_index_inj _ _ p1 p2 (hsub p1 hp1) (hsub p2 hp2) e).1
      omega)
    _ _ hz
    (by
      intro c _ m q hq
      refine ⟨?_, (interp_z_ok _ _ _ _ _ _ _ _ _ _ hq).2⟩
      rintro a ⟨p1, hp1, rfl⟩
      unfold interp_z at hq
      obtain ⟨_, rfl⟩ := interp3d_ok _ _ _ _ _ _ _ _ _ _ _ _ _ _ _ _ _ _ hq
      dsimp only
      rw [interp3d_loop_value _ _ _ _ _ _ _ _ _ _ _ _ _ _ _ _ _ hsub p1 hp1,
        interp3d_loop_value _ _ _ _ _ _ _ _ _ _ _ _ _ _ _ _ _ hsub p1 hp1])
    comp (List.mem_range.2 hcomp) _ ⟨p, hp, rfl⟩
  exact key.trans (interp3d_loop_value _ _ _ _ _ _ _ _ _ _ _ _ _ _ _ _ _ hsub p hp)

/-! ### Stores of the shift selection in a completed call -/

/-- The selection loop keeps the accesses made before it and stores one packed shift for
every index of the source region, at `shiftptr + diffbox.index(ind)`. -/
theorem choose_shifts_loop_stores (op : prolongate_3d_rf2) (shiftptr : ℤ)
    (source_region diffbox : Box) (st : EnoState) :
    (∀ ev ∈ st.log, ev ∈ (choose_shifts_loop op shiftptr source_region diffbox st).log) ∧
      ∀ ind ∈ source_region.points,
        Access.write Buffer.stencil_shifts (shiftptr + diffbox.index ind) ∈
          (choose_shifts_loop op shiftptr source_region diffbox st).log := by
  unfold choose_shifts_loop
  simp only
  generalize source_region.points = pts
  induction pts generalizing st with
  | nil => exact ⟨fun ev h => h, fun ind h => by cases h⟩
  | cons p pts ih =>
    rw [List.foldl_cons]
    obtain ⟨h1, h2⟩ := ih
      { st with
        stencil_shifts :=
          Function.update st.stencil_shifts (shiftptr + diffbox.index p)
            (pack_shifts (choose_stencil_shift st.divided_differences diffbox
              ⟨if op.use_shift 0 = true then ((op.ORDERI / 2 : ℕ) : ℤ) else 0,
                if op.use_shift 1 = true then ((op.ORDERJ / 2 : ℕ) : ℤ) else 0,
                if op.use_shift 2 = true then ((op.ORDERK / 2 : ℕ) : ℤ) else 0⟩ p).min_shift)
        log := st.log ++ (choose_stencil_shift st.divided_differences diffbox
              ⟨if op.use_shift 0 = true then ((op.ORDERI / 2 : ℕ) : ℤ) else 0,
                if op.use_shift 1 = true then ((op.ORDERJ / 2 : ℕ) : ℤ) else 0,
                if op.use_shift 2 = true then ((op.ORDERK / 2 : ℕ) : ℤ) else 0⟩ p).reads.map
            (Access.read Buffer.divided_differences) ++
          [Access.write Buffer.stencil_shifts (shiftptr + diffbox.index p)] }
    refine ⟨fun ev hev => h1 ev ?_, fun ind hind => ?_⟩
    · simp only [List.mem_append]
      exact Or.inl (Or.inl hev)
    · rcases List.mem_cons.1 hind with rfl | hind
      · apply h1
        simp
      · exact h2 ind hind

/-- The divided-difference loop keeps the accesses made before it. -/
theorem divided_differences_loop_log_sub (op : prolongate_3d_rf2) (crse : ℤ → ℚ)
    (crseptr : ℤ) (crsebox diffbox : Box) (inds : List IntVect) (st r : EnoState)
    (h : divided_differences_loop op crse crseptr crsebox diffbox inds st = .ok r) :
    ∀ ev ∈ st.log, ev ∈ r.log := by
  induction inds generalizing st with
  | nil =>
    simp only [divided_differences_loop] at h
    cases h
    exact fun ev h => h
  | cons ind inds ih =>
    simp only [divided_differences_loop] at h
    split_ifs at h
    intro ev hev
    refine ih _ h ev ?_
    simp only [List.mem_append]
    exact Or.inl (Or.inl hev)

/-- The shift-selection stage keeps the accesses made before it and stores, for every
component processed and every index of the source region, one packed shift at the
position `comp * numPts + diffbox.index(ind)` of the shift map. -/
theorem eno_stage_stores (op : prolongate_3d_rf2) (crse : FArrayBox) (crse_comp : ℕ)
    (source_region : Box) (comps : List ℕ) (st r : EnoState)
    (h : eno_stage op crse crse_comp source_region comps st = .ok r) :
    (∀ ev ∈ st.log, ev ∈ r.log) ∧
      ∀ comp ∈ comps, ∀ ind ∈ source_region.points,
        Access.write Buffer.stencil_shifts
          ((comp : ℤ) * source_region.numPts + (diffbox_of op source_region).index ind) ∈
            r.log := by
  induction comps generalizing st with
  | nil =>
    simp only [eno_stage] at h
    cases h
    exact ⟨fun ev h => h, fun comp hc => by cases hc⟩
  | cons c comps ih =>
    simp only [eno_stage] at h
    split at h
    · cases h
    rename_i st1 hdd
    obtain ⟨h1, h2⟩ := ih _ h
    obtain ⟨g1, g2⟩ := choose_shifts_loop_stores op ((c : ℤ) * source_region.numPts)
      source_region (diffbox_of op source_region) st1
    refine ⟨fun ev hev => h1 ev (g1 ev (divided_differences_loop_log_sub _ _ _ _ _ _ _ _ hdd
      ev hev)), fun comp hcomp ind hind => ?_⟩
    rcases List.mem_cons.1 hcomp with rfl | hcomp
    · exact h1 _ (g2 ind hind)
    · exact h2 comp hcomp ind hind

/-- A loop over the components keeps the accesses made before it. -/
theorem for_comps_log_sub (sweep : ℕ → (ℤ → ℚ) → Except Failure ((ℤ → ℚ) × List Access))
    (comps : List ℕ) (st r : (ℤ → ℚ) × List Access) (h : for_comps sweep comps st = .ok r) :
    ∀ ev ∈ st.2, ev ∈ r.2 := by
  induction comps generalizing st with
  | nil =>
    simp only [for_comps] at h
    cases h
    exact fun ev h => h
  | cons c comps ih =>
    simp only [for_comps] at h
    split at h
    · cases h
    intro ev hev
    exact ih _ h ev (List.mem_append_left _ hev)

/-- In a completed call of an operator that uses shifts, the packed shift of every index
`ind` of the source region and every component `comp` has been stored at the position
`comp * source_region.numPts() + diffbox.index(ind)` of the shift map. -/
theorem interp_completed_shift_stores (op : prolongate_3d_rf2) (crse : FArrayBox)
    (crse_comp : ℕ) (fine : FArrayBox) (fine_comp ncomp : ℕ) (fine_region : Box)
    (ratio : IntVect) (actual_comp actual_state : ℤ) (scratch : Scratch) (fine' : ℤ → ℚ)
    (log : List Access)
    (h : interp op crse crse_comp fine fine_comp ncomp fine_region ratio actual_comp
      actual_state scratch = .completed fine' log)
    (huse : op.USE_SHIFT = true) :
    ∃ source_region, CoarseBox_int op fine_region 2 = .ok source_region ∧
      ∀ comp < ncomp, ∀ ind, source_region.contains ind →
        Access.write Buffer.stencil_shifts
          ((comp : ℤ) * source_region.numPts + (diffbox_of op source_region).index ind) ∈
            log := by
  obtain ⟨_, _, _, _, source_region, eno, x, y, hsrc, _, heno, hx, hy, hz⟩ :=
    interp_completed _ _ _ _ _ _ _ _ _ _ _ _ _ h
  refine ⟨source_region, hsrc, fun comp hcomp ind hind => ?_⟩
  unfold interp_eno at heno
  rw [if_pos huse] at heno
  have h1 := (eno_stage_stores op crse crse_comp source_region _ _ _ heno).2 comp
    (List.mem_range.2 hcomp) ind ((Box.mem_points _ _).2 hind)
  have h2 := for_comps_log_sub _ _ _ _ hx _ h1
  have h3 := for_comps_log_sub _ _ _ _ hy _ h2
  exact for_comps_log_sub _ _ _ _ hz _ h3

set_option maxHeartbeats 4000000 in
/-- C10, evaluated at a failing input.  Instance `prolongate_ddf_eno_3d_rf2_c100_o3` (eno of
order 2 along x, poly of order 3 along y and z), one component, the target
`[0,0] × [0,0] × [0,0]` (cell-centred along x, nodal along y and z) and a coarse array
whose box `[-3,3] × [-2,2] × [-2,2]` is `diffbox`, whatever the data.  The source region
is `CoarseBox(target, 2) = [-2,2]³`, so the shift map is resized to `1 * 125` elements;
no assertion fails and the call completes; and the call has stored the packed shift of
the coarse index `(2, 2, 2)` at element 173 of the shift map, beyond its 125 elements. -/
theorem interp_overruns_stencil_shifts_ENO :
    ∀ (crsedata finedata : ℤ → ℚ) (scratch : Scratch),
      CoarseBox_int prolongate_ddf_eno_3d_rf2_c100_o3
          ⟨⟨0, 0, 0⟩, ⟨0, 0, 0⟩, ⟨false, true, true⟩⟩ 2 =
        .ok ⟨⟨-2, -2, -2⟩, ⟨2, 2, 2⟩, ⟨false, true, true⟩⟩ ∧
      (1 : ℤ) * Box.numPts ⟨⟨-2, -2, -2⟩, ⟨2, 2, 2⟩, ⟨false, true, true⟩⟩ = 125 ∧
      (interp prolongate_ddf_eno_3d_rf2_c100_o3
          ⟨⟨⟨-3, -2, -2⟩, ⟨3, 2, 2⟩, ⟨false, true, true⟩⟩, crsedata⟩ 0
          ⟨⟨⟨0, 0, 0⟩, ⟨0, 0, 0⟩, ⟨false, true, true⟩⟩, finedata⟩ 0 1
          ⟨⟨0, 0, 0⟩, ⟨0, 0, 0⟩, ⟨false, true, true⟩⟩ ⟨2, 2, 2⟩ 0 0 scratch).failure = none ∧
      Access.write Buffer.stencil_shifts 173 ∈
        (interp prolongate_ddf_eno_3d_rf2_c100_o3
          ⟨⟨⟨-3, -2, -2⟩, ⟨3, 2, 2⟩, ⟨false, true, true⟩⟩, crsedata⟩ 0
          ⟨⟨⟨0, 0, 0⟩, ⟨0, 0, 0⟩, ⟨false, true, true⟩⟩, finedata⟩ 0 1
          ⟨⟨0, 0, 0⟩, ⟨0, 0, 0⟩, ⟨false, true, true⟩⟩ ⟨2, 2, 2⟩ 0 0 scratch).log := by
  intro crsedata finedata scratch
  have hsrc : CoarseBox_int prolongate_ddf_eno_3d_rf2_c100_o3
      ⟨⟨0, 0, 0⟩, ⟨0, 0, 0⟩, ⟨false, true, true⟩⟩ 2 =
        .ok ⟨⟨-2, -2, -2⟩, ⟨2, 2, 2⟩, ⟨false, true, true⟩⟩ := by rfl
  have h : interp prolongate_ddf_eno_3d_rf2_c100_o3
        ⟨⟨⟨-3, -2, -2⟩, ⟨3, 2, 2⟩, ⟨false, true, true⟩⟩, crsedata⟩ 0
        ⟨⟨⟨0, 0, 0⟩, ⟨0, 0, 0⟩, ⟨false, true, true⟩⟩, finedata⟩ 0 1
        ⟨⟨0, 0, 0⟩, ⟨0, 0, 0⟩, ⟨false, true, true⟩⟩ ⟨2, 2, 2⟩ 0 0 scratch =
      Outcome.completed
        (interp prolongate_ddf_eno_3d_rf2_c100_o3
          ⟨⟨⟨-3, -2, -2⟩, ⟨3, 2, 2⟩, ⟨false, true, true⟩⟩, crsedata⟩ 0
          ⟨⟨⟨0, 0, 0⟩, ⟨0, 0, 0⟩, ⟨false, true, true⟩⟩, finedata⟩ 0 1
          ⟨⟨0, 0, 0⟩, ⟨0, 0, 0⟩, ⟨false, true, true⟩⟩ ⟨2, 2, 2⟩ 0 0 scratch).fine
        (interp prolongate_ddf_eno_3d_rf2_c100_o3
          ⟨⟨⟨-3, -2, -2⟩, ⟨3, 2, 2⟩, ⟨false, true, true⟩⟩, crsedata⟩ 0
          ⟨⟨⟨0, 0, 0⟩, ⟨0, 0, 0⟩, ⟨false, true, true⟩⟩, finedata⟩ 0 1
          ⟨⟨0, 0, 0⟩, ⟨0, 0, 0⟩, ⟨false, true, true⟩⟩ ⟨2, 2, 2⟩ 0 0 scratch).log := rfl
  refine ⟨hsrc, by decide, rfl, ?_⟩
  obtain ⟨src, hs, hall⟩ := interp_completed_shift_stores _ _ _ _ _ _ _ _ _ _ _ _ _ h (by decide)
  rw [hsrc] at hs
  cases hs
  have := hall 0 (by decide) ⟨2, 2, 2⟩ (by decide)
  have e : ((0 : ℕ) : ℤ) * Box.numPts ⟨⟨-2, -2, -2⟩, ⟨2, 2, 2⟩, ⟨false, true, true⟩⟩ +
      (diffbox_of prolongate_ddf_eno_3d_rf2_c100_o3
        ⟨⟨-2, -2, -2⟩, ⟨2, 2, 2⟩, ⟨false, true, true⟩⟩).index ⟨2, 2, 2⟩ = 173 := by decide
  rw [e] at this
  exact this

/-! ### Stencil extent of the 1D operators versus `required_ghosts` -/

/-- Vertex-centred polynomial operator, odd order, stride 1: every offset read is within
`required_ghosts` of the centre. -/
theorem interp1d_VC_POLY_reads_le (ORDER : ℕ) (hodd : ORDER % 2 = 1) (u : ℤ → ℚ)
    (shift off : ℤ) (hoff : off = 0 ∨ off = 1) (e : ℤ)
    (he : e ∈ (interp1d_VC_POLY ORDER u 1 shift off).2) :
    |e| ≤ (interp1d_VC_POLY_required_ghosts ORDER : ℤ) := by
  unfold interp1d_VC_POLY at he
  unfold interp1d_VC_POLY_required_ghosts
  rw [abs_le]
  rcases hoff with h0 | h0 <;> subst h0
  · simp only [if_true, List.mem_singleton] at he
    subst he
    constructor <;> omega
  · simp only [one_ne_zero, if_false, accumulate_snd, List.nil_append, List.mem_flatMap,
      List.mem_range, List.mem_cons, List.mem_singleton, mul_one, List.not_mem_nil,
      or_false] at he
    obtain ⟨i, hi, rfl | rfl⟩ := he <;> constructor <;> omega

/-- Vertex-centred Hermite operator, odd order, stride 1: every offset read is within
`required_ghosts` of the centre. -/
theorem interp1d_VC_HERMITE_reads_le (ORDER : ℕ) (hodd : ORDER % 2 = 1) (u : ℤ → ℚ)
    (shift off : ℤ) (hoff : off = 0 ∨ off = 1) (e : ℤ)
    (he : e ∈ (interp1d_VC_HERMITE ORDER u 1 shift off).2) :
    |e| ≤ (interp1d_VC_HERMITE_required_ghosts ORDER : ℤ) := by
  unfold interp1d_VC_HERMITE at he
  unfold interp1d_VC_HERMITE_required_ghosts
  rw [abs_le]
  rcases hoff with h0 | h0 <;> subst h0
  · simp only [if_true, List.mem_singleton] at he
    subst he
    constructor <;> omega
  · simp only [one_ne_zero, if_false, accumulate_snd, List.nil_append, List.mem_flatMap,
      List.mem_range, List.mem_cons, List.mem_singleton, mul_one, List.not_mem_nil,
      or_false] at he
    obtain ⟨i, hi, rfl | rfl⟩ := he <;> constructor <;> omega

/-- Cell-centred conservative operator, stride 1: every offset read is within
`required_ghosts` of the centre. -/
theorem interp1d_CC_CONS_reads_le (ORDER : ℕ) (u : ℤ → ℚ) (shift off : ℤ) (e : ℤ)
    (he : e ∈ (interp1d_CC_CONS ORDER u 1 shift off).2) :
    |e| ≤ (interp1d_CC_CONS_required_ghosts ORDER : ℤ) := by
  unfold interp1d_CC_CONS at he
  unfold interp1d_CC_CONS_required_ghosts
  rw [abs_le]
  by_cases h0 : off = 0
  · simp only [h0, if_true, accumulate_snd, List.mem_append, List.mem_flatMap,
      List.mem_range, List.mem_cons, List.mem_singleton, mul_one, List.not_mem_nil,
      or_false] at he
    obtain rfl | ⟨i, hi, rfl | rfl⟩ := he <;> constructor <;> omega
  · simp only [h0, if_false, accumulate_snd, List.mem_append, List.mem_flatMap,
      List.mem_range, List.mem_cons, List.mem_singleton, mul_one, List.not_mem_nil,
      or_false] at he
    obtain rfl | ⟨i, hi, rfl | rfl⟩ := he <;> constructor <;> omega

/-- The deprecated vertex-centred conservative operator of order 1 reads the offsets
`-1` and `0` for offset 1, although its `required_ghosts` is 0. -/
theorem interp1d_VC_CONS_1_reads (u : ℤ → ℚ) (shift : ℤ) :
    (interp1d_VC_CONS 1 u 1 shift 1).2 = [-1, 0] ∧ interp1d_VC_CONS_required_ghosts 1 = 0 := by
  constructor
  · simp [interp1d_VC_CONS, accumulate_snd, List.range_succ]
  · rfl

set_option maxHeartbeats 4000000 in
/-- C7, evaluated at a failing input.  For the instance `prolongate_cons_3d_rf2_c000_o1`
(vertex centering, cons family, order 1 on every axis), the one-point nodal target
`[1,1]³` and a coarse array whose box is exactly `CoarseBox(target, 2) = [0,1]³`, whatever
the data: no assertion fails, and the second access of the x-sweep, made for the fine
point `(1, 0, 0)` between the coarse points 0 and 1, reads element `-1` of the coarse
array, which is the index of no point of the coarse box. -/
theorem xsweep_reads_outside_CoarseBox_VC_CONS :
    ∀ (crsedata finedata : ℤ → ℚ) (scratch : Scratch),
      CoarseBox_int prolongate_cons_3d_rf2_c000_o1
          ⟨⟨1, 1, 1⟩, ⟨1, 1, 1⟩, ⟨true, true, true⟩⟩ 2 =
        .ok ⟨⟨0, 0, 0⟩, ⟨1, 1, 1⟩, ⟨true, true, true⟩⟩ ∧
      (interp prolongate_cons_3d_rf2_c000_o1
          ⟨⟨⟨0, 0, 0⟩, ⟨1, 1, 1⟩, ⟨true, true, true⟩⟩, crsedata⟩ 0
          ⟨⟨⟨1, 1, 1⟩, ⟨1, 1, 1⟩, ⟨true, true, true⟩⟩, finedata⟩ 0 1
          ⟨⟨1, 1, 1⟩, ⟨1, 1, 1⟩, ⟨true, true, true⟩⟩ ⟨2, 2, 2⟩ 0 0 scratch).failure = none ∧
      Access.read Buffer.crse (-1) ∈
        (interp prolongate_cons_3d_rf2_c000_o1
          ⟨⟨⟨0, 0, 0⟩, ⟨1, 1, 1⟩, ⟨true, true, true⟩⟩, crsedata⟩ 0
          ⟨⟨⟨1, 1, 1⟩, ⟨1, 1, 1⟩, ⟨true, true, true⟩⟩, finedata⟩ 0 1
          ⟨⟨1, 1, 1⟩, ⟨1, 1, 1⟩, ⟨true, true, true⟩⟩ ⟨2, 2, 2⟩ 0 0 scratch).log ∧
      ¬ ∃ v : IntVect, Box.contains ⟨⟨0, 0, 0⟩, ⟨1, 1, 1⟩, ⟨true, true, true⟩⟩ v ∧
        (-1 : ℤ) = FArrayBox.dataPtr
            ⟨⟨⟨0, 0, 0⟩, ⟨1, 1, 1⟩, ⟨true, true, true⟩⟩, crsedata⟩ 0 +
          Box.index ⟨⟨0, 0, 0⟩, ⟨1, 1, 1⟩, ⟨true, true, true⟩⟩ v := by
  intro crsedata finedata scratch
  refine ⟨rfl, rfl, ?_, ?_⟩
  · exact List.getElem?_mem (show _[1]? = some _ from rfl)
  · rintro ⟨v, hv, h⟩
    have hb := Box.index_bounds _ v hv
    simp only [FArrayBox.dataPtr] at h
    omega

/-- C8, evaluated at a failing input.  For the instance
`prolongate_ddf_eno_3d_rf2_c111_o3` (cell centering, eno family, order 2 on every axis),
the cell-centred target `[0,1]³` inside the destination box and a coarse array whose box
is exactly `CoarseBox(target, 2) = [-2,2]³`, whatever the data: the divided-difference
loop runs over `diffbox = [-3,3]³`, whose first index is outside the coarse box, so
`assert(crsebox.contains(ind))` fails and `interp` aborts instead of completing. -/
theorem interp_aborts_on_CoarseBox_ENO :
    ∀ (crsedata finedata : ℤ → ℚ) (scratch : Scratch),
      CoarseBox_int prolongate_ddf_eno_3d_rf2_c111_o3
          ⟨⟨0, 0, 0⟩, ⟨1, 1, 1⟩, ⟨false, false, false⟩⟩ 2 =
        .ok ⟨⟨-2, -2, -2⟩, ⟨2, 2, 2⟩, ⟨false, false, false⟩⟩ ∧
      diffbox_of prolongate_ddf_eno_3d_rf2_c111_o3
          ⟨⟨-2, -2, -2⟩, ⟨2, 2, 2⟩, ⟨false, false, false⟩⟩ =
        ⟨⟨-3, -3, -3⟩, ⟨3, 3, 3⟩, ⟨false, false, false⟩⟩ ∧
      ¬ Box.contains ⟨⟨-2, -2, -2⟩, ⟨2, 2, 2⟩, ⟨false, false, false⟩⟩ ⟨-3, -3, -3⟩ ∧
      interp prolongate_ddf_eno_3d_rf2_c111_o3
          ⟨⟨⟨-2, -2, -2⟩, ⟨2, 2, 2⟩, ⟨false, false, false⟩⟩, crsedata⟩ 0
          ⟨⟨⟨0, 0, 0⟩, ⟨1, 1, 1⟩, ⟨false, false, false⟩⟩, finedata⟩ 0 1
          ⟨⟨0, 0, 0⟩, ⟨1, 1, 1⟩, ⟨false, false, false⟩⟩ ⟨2, 2, 2⟩ 0 0 scratch =
        .aborted .crsebox_contains_ind finedata := by
  intro crsedata finedata scratch
  exact ⟨rfl, rfl, by decide, rfl⟩

/-- Closed form of `CoarseBox`. -/
theorem CoarseBox_closed_form (op : prolongate_3d_rf2) (fine : Box) (ratio : IntVect) :
    CoarseBox op fine ratio =
      (if ratio.x = 2 ∧ ratio.y = 2 ∧ ratio.z = 2 then
        Except.ok
          { smallend :=
              ⟨(fine.coarsen 2).smallend.x -
                  (interp1d_required_ghosts op.CENTI op.INTPI op.ORDERI : ℕ),
                (fine.coarsen 2).smallend.y -
                  (interp1d_required_ghosts op.CENTJ op.INTPJ op.ORDERJ : ℕ),
                (fine.coarsen 2).smallend.z -
                  (interp1d_required_ghosts op.CENTK op.INTPK op.ORDERK : ℕ)⟩
            bigend :=
              ⟨(fine.coarsen 2).bigend.x +
                  (interp1d_required_ghosts op.CENTI op.INTPI op.ORDERI : ℕ),
                (fine.coarsen 2).bigend.y +
                  (interp1d_required_ghosts op.CENTJ op.INTPJ op.ORDERJ : ℕ),
                (fine.coarsen 2).bigend.z +
                  (interp1d_required_ghosts op.CENTK op.INTPK op.ORDERK : ℕ)⟩
            btype := fine.btype }
      else Except.error Failure.ratio_is_2) := by
  unfold CoarseBox
  by_cases h : ratio.x = 2 ∧ ratio.y = 2 ∧ ratio.z = 2
  · have h' : ratio.getVect 0 = 2 ∧ ratio.getVect 1 = 2 ∧ ratio.getVect 2 = 2 := h
    simp only [h, h', not_true_eq_false, if_false, if_true]
    simp [List.range_succ, Box.grow, IntVect.setVect, IntVect.getVect, Box.coarsen,
      prolongate_3d_rf2.required_ghosts, prolongate_3d_rf2.CENT, prolongate_3d_rf2.INTP,
      prolongate_3d_rf2.order]
  · have h' : ¬ (ratio.getVect 0 = 2 ∧ ratio.getVect 1 = 2 ∧ ratio.getVect 2 = 2) := h
    simp only [h, h', not_false_eq_true, if_false, if_true]

/-- C9: `CoarseBox(fine, ratio)` with ratio 2 on every axis is the factor-2 coarsening of
`fine` grown, on both sides of each axis `d`, by the `required_ghosts` of axis `d`'s own
(centering, family, order) descriptor, with the index type of `fine`; with any other
ratio the assertion `ratio.getVect()[d] == 2` fails.  The overload taking an `int` ratio
behaves in the same way. -/
theorem CoarseBox_eq (op : prolongate_3d_rf2) (fine : Box) (ratio : IntVect) :
    CoarseBox op fine ratio =
        (if ratio.x = 2 ∧ ratio.y = 2 ∧ ratio.z = 2 then
          Except.ok
            { smallend :=
                ⟨(fine.coarsen 2).smallend.x -
                    (interp1d_required_ghosts op.CENTI op.INTPI op.ORDERI : ℕ),
                  (fine.coarsen 2).smallend.y -
                    (interp1d_required_ghosts op.CENTJ op.INTPJ op.ORDERJ : ℕ),
                  (fine.coarsen 2).smallend.z -
                    (interp1d_required_ghosts op.CENTK op.INTPK op.ORDERK : ℕ)⟩
              bigend :=
                ⟨(fine.coarsen 2).bigend.x +
                    (interp1d_required_ghosts op.CENTI op.INTPI op.ORDERI : ℕ),
                  (fine.coarsen 2).bigend.y +
                    (interp1d_required_ghosts op.CENTJ op.INTPJ op.ORDERJ : ℕ),
                  (fine.coarsen 2).bigend.z +
                    (interp1d_required_ghosts op.CENTK op.INTPK op.ORDERK : ℕ)⟩
              btype := fine.btype }
        else Except.error Failure.ratio_is_2) ∧
      (∀ r : ℤ, CoarseBox_int op fine r = CoarseBox op fine ⟨r, r, r⟩) ∧
      (∀ r : ℤ, r ≠ 2 → CoarseBox_int op fine r = Except.error Failure.ratio_is_2) := by
  refine ⟨CoarseBox_closed_form op fine ratio, fun r => rfl, fun r hr => ?_⟩
  unfold CoarseBox_int
  rw [CoarseBox_closed_form]
  simp [hr]

/-! ### The divided-difference stage needs more than `CoarseBox` -/

theorem divided_differences_loop_aborts (op : prolongate_3d_rf2) (crse : ℤ → ℚ)
    (crseptr : ℤ) (crsebox diffbox : Box) (inds : List IntVect) (st : EnoState)
    (h : ∃ ind ∈ inds, ¬ crsebox.contains ind) :
    divided_differences_loop op crse crseptr crsebox diffbox inds st =
      .error .crsebox_contains_ind := by
  induction inds generalizing st with
  | nil =>
    obtain ⟨ind, hind, _⟩ := h
    cases hind
  | cons ind inds ih =>
    simp only [divided_differences_loop]
    by_cases hc : crsebox.contains ind
    · simp only [hc, not_true_eq_false, if_false]
      apply ih
      obtain ⟨ind', hmem, hnot⟩ := h
      rcases List.mem_cons.1 hmem with rfl | h'
      · exact absurd hc hnot
      · exact ⟨ind', h', hnot⟩
    · simp only [hc, not_false_eq_true, if_true]

theorem targets_two (source_region target_region : Box)
    (hb : source_region.btype = target_region.btype) :
    targets source_region target_region 2 = target_region := by
  obtain ⟨⟨a1, a2, a3⟩, ⟨b1, b2, b3⟩, t⟩ := source_region
  obtain ⟨⟨c1, c2, c3⟩, ⟨d1, d2, d3⟩, t'⟩ := target_region
  simp only at hb
  subst hb
  simp only [targets, Box.setRange, IntVect.setVect, IntVect.getVect, Box.length, Box.mk.injEq,
    IntVect.mk.injEq, true_and, and_true]
  omega

theorem diffbox_of_eq (op : prolongate_3d_rf2) (b : Box) :
    diffbox_of op b =
      { smallend :=
          ⟨b.smallend.x - (if op.use_shift 0 = true then ((op.order 0 / 2 : ℕ) : ℤ) else 0),
            b.smallend.y - (if op.use_shift 1 = true then ((op.order 1 / 2 : ℕ) : ℤ) else 0),
            b.smallend.z - (if op.use_shift 2 = true then ((op.order 2 / 2 : ℕ) : ℤ) else 0)⟩
        bigend :=
          ⟨b.bigend.x + (if op.use_shift 0 = true then ((op.order 0 / 2 : ℕ) : ℤ) else 0),
            b.bigend.y + (if op.use_shift 1 = true then ((op.order 1 / 2 : ℕ) : ℤ) else 0),
            b.bigend.z + (if op.use_shift 2 = true then ((op.order 2 / 2 : ℕ) : ℤ) else 0)⟩
        btype := b.btype } := by
  obtain ⟨⟨a1, a2, a3⟩, ⟨b1, b2, b3⟩, t⟩ := b
  unfold diffbox_of
  simp only [List.range_succ, List.range_zero, List.nil_append, List.cons_append,
    List.foldl_cons, List.foldl_nil]
  by_cases h0 : op.use_shift 0 = true <;> by_cases h1 : op.use_shift 1 = true <;>
    by_cases h2 : op.use_shift 2 = true <;>
    simp only [h0, h1, h2, if_true, if_false, Box.setRange, IntVect.setVect, IntVect.getVect,
      Box.length, Box.mk.injEq, IntVect.mk.injEq, true_and, and_true, sub_zero, add_zero,
      Bool.false_eq_true] <;>
    omega

theorem CoarseBox_int_two (op : prolongate_3d_rf2) (fine crse : Box)
    (h : CoarseBox_int op fine 2 = .ok crse) :
    crse.smallend.x = fine.smallend.x / 2 - (op.required_ghosts 0 : ℤ) ∧
      crse.smallend.y = fine.smallend.y / 2 - (op.required_ghosts 1 : ℤ) ∧
      crse.smallend.z = fine.smallend.z / 2 - (op.required_ghosts 2 : ℤ) ∧
      fine.bigend.x / 2 + (op.required_ghosts 0 : ℤ) ≤ crse.bigend.x ∧
      fine.bigend.y / 2 + (op.required_ghosts 1 : ℤ) ≤ crse.bigend.y ∧
      fine.bigend.z / 2 + (op.required_ghosts 2 : ℤ) ≤ crse.bigend.z ∧
      crse.btype = fine.btype := by
  unfold CoarseBox_int at h
  rw [CoarseBox_closed_form] at h
  simp only [and_self, if_true] at h
  have h' := Except.ok.inj h
  subst h'
  simp only [Box.coarsen, coarsen, IntVect.getVect, prolongate_3d_rf2.required_ghosts,
    prolongate_3d_rf2.CENT, prolongate_3d_rf2.INTP, prolongate_3d_rf2.order,
    Int.fdiv_eq_ediv _ (show (0 : ℤ) ≤ 2 by norm_num)]
  refine ⟨trivial, trivial, trivial, ?_, ?_, ?_, trivial⟩ <;> split_ifs <;> omega

theorem Box.smallend_mem_points (b : Box) (h : b.ok) : b.smallend ∈ b.points := by
  rw [Box.mem_points]
  unfold Box.ok at h
  unfold Box.contains
  omega

/-- Whenever an axis is eno of order at least 2, a call of `interp` on a non-empty target
with at least one component and a coarse array whose box is exactly
`CoarseBox(fine_region, 2)` aborts in the divided-difference loop, whatever the data. -/
theorem interp_aborts_of_eno (op : prolongate_3d_rf2) (crse : FArrayBox) (crse_comp : ℕ)
    (fine : FArrayBox) (fine_comp ncomp : ℕ) (fine_region : Box) (scratch : Scratch)
    (hinter : fine_region.inter fine.box = fine_region) (hok : fine_region.ok)
    (hn : 0 < ncomp)
    (heno : (op.INTPI = interpolation_t.eno ∧ 2 ≤ op.ORDERI) ∨
      (op.INTPJ = interpolation_t.eno ∧ 2 ≤ op.ORDERJ) ∨
      (op.INTPK = interpolation_t.eno ∧ 2 ≤ op.ORDERK))
    (hbox : CoarseBox_int op fine_region 2 = .ok crse.box) :
    interp op crse crse_comp fine fine_comp ncomp fine_region ⟨2, 2, 2⟩ 0 0 scratch =
      .aborted .crsebox_contains_ind fine.data := by
  obtain ⟨c1, c2, c3, c4, c5, c6, c7⟩ := CoarseBox_int_two op fine_region crse.box hbox
  have huse : op.USE_SHIFT = true := by
    unfold prolongate_3d_rf2.USE_SHIFT prolongate_3d_rf2.use_shift
    rcases heno with ⟨h1, h2⟩ | ⟨h1, h2⟩ | ⟨h1, h2⟩
    · have : op.ORDERI > 0 := by omega
      simp [prolongate_3d_rf2.INTP, prolongate_3d_rf2.order, h1, this]
    · have : op.ORDERJ > 0 := by omega
      simp [prolongate_3d_rf2.INTP, prolongate_3d_rf2.order, h1, this]
    · have : op.ORDERK > 0 := by omega
      simp [prolongate_3d_rf2.INTP, prolongate_3d_rf2.order, h1, this]
  have hcok : crse.box.ok := by
    unfold Box.ok at hok ⊢
    omega
  have hdok : (diffbox_of op crse.box).ok := by
    rw [diffbox_of_eq]
    unfold Box.ok at hcok ⊢
    simp only
    refine ⟨?_, ?_, ?_⟩ <;> split_ifs <;> omega
  have hout : ¬ crse.box.contains (diffbox_of op crse.box).smallend := by
    rw [diffbox_of_eq]
    unfold Box.contains
    simp only [prolongate_3d_rf2.use_shift, prolongate_3d_rf2.INTP, prolongate_3d_rf2.order]
    rcases heno with ⟨h1, h2⟩ | ⟨h1, h2⟩ | ⟨h1, h2⟩
    · have : op.ORDERI > 0 := by omega
      simp only [h1, this, decide_True, Bool.and_self, if_true]
      omega
    · have : op.ORDERJ > 0 := by omega
      simp only [h1, this, decide_True, Bool.and_self, if_true]
      omega
    · have : op.ORDERK > 0 := by omega
      simp only [h1, this, decide_True, Bool.and_self, if_true]
      omega
  obtain ⟨m, rfl⟩ : ∃ m, ncomp = m + 1 := ⟨ncomp - 1, by omega⟩
  have hrange : List.range (m + 1) = 0 :: (List.range m).map Nat.succ :=
    List.range_succ_eq_map m
  have heno_res : interp_eno op crse crse_comp (m + 1) crse.box scratch =
      .error .crsebox_contains_ind := by
    unfold interp_eno
    rw [if_pos huse, hrange]
    simp only [eno_stage]
    rw [divided_differences_loop_aborts op crse.data _ crse.box _ _ _
      ⟨_, Box.smallend_mem_points _ hdok, hout⟩]
  unfold interp
  have hr : (⟨2, 2, 2⟩ : IntVect).getVect 0 = 2 ∧ (⟨2, 2, 2⟩ : IntVect).getVect 1 = 2 ∧
      (⟨2, 2, 2⟩ : IntVect).getVect 2 = 2 := ⟨rfl, rfl, rfl⟩
  simp only [hr, and_self, not_true_eq_false, if_false, hinter, hbox,
    targets_two crse.box fine_region c7, heno_res]

/-! ### Stencil extent for an arbitrary stride -/

theorem interp1d_VC_POLY_reads_stride (ORDER : ℕ) (hodd : ORDER % 2 = 1) (u : ℤ → ℚ)
    (di shift off : ℤ) (hoff : off = 0 ∨ off = 1) (x : ℤ)
    (hx : x ∈ (interp1d_VC_POLY ORDER u di shift off).2) :
    ∃ e : ℤ, |e| ≤ (interp1d_VC_POLY_required_ghosts ORDER : ℤ) ∧ x = e * di := by
  unfold interp1d_VC_POLY at hx
  unfold interp1d_VC_POLY_required_ghosts
  rcases hoff with h0 | h0 <;> subst h0
  · simp only [if_true, List.mem_singleton] at hx
    exact ⟨0, by rw [abs_le]; constructor <;> omega, by simp [hx]⟩
  · simp only [one_ne_zero, if_false, accumulate_snd, List.nil_append, List.mem_flatMap,
      List.mem_range, List.mem_cons, List.mem_singleton, List.not_mem_nil, or_false] at hx
    obtain ⟨i, hi, rfl | rfl⟩ := hx
    · exact ⟨_, by rw [abs_le]; constructor <;> omega, rfl⟩
    · exact ⟨_, by rw [abs_le]; constructor <;> omega, rfl⟩

theorem interp1d_VC_HERMITE_reads_stride (ORDER : ℕ) (hodd : ORDER % 2 = 1) (u : ℤ → ℚ)
    (di shift off : ℤ) (hoff : off = 0 ∨ off = 1) (x : ℤ)
    (hx : x ∈ (interp1d_VC_HERMITE ORDER u di shift off).2) :
    ∃ e : ℤ, |e| ≤ (interp1d_VC_HERMITE_required_ghosts ORDER : ℤ) ∧ x = e * di := by
  unfold interp1d_VC_HERMITE at hx
  unfold interp1d_VC_HERMITE_required_ghosts
  rcases hoff with h0 | h0 <;> subst h0
  · simp only [if_true, List.mem_singleton] at hx
    exact ⟨0, by rw [abs_le]; constructor <;> omega, by simp [hx]⟩
  · simp only [one_ne_zero, if_false, accumulate_snd, List.nil_append, List.mem_flatMap,
      List.mem_range, List.mem_cons, List.mem_singleton, List.not_mem_nil, or_false] at hx
    obtain ⟨i, hi, rfl | rfl⟩ := hx
    · exact ⟨_, by rw [abs_le]; constructor <;> omega, rfl⟩
    · exact ⟨_, by rw [abs_le]; constructor <;> omega, rfl⟩

theorem interp1d_CC_POLY_reads_stride (ORDER : ℕ) (u : ℤ → ℚ) (di shift off : ℤ) (x : ℤ)
    (hx : x ∈ (interp1d_CC_POLY ORDER u di shift off).2) :
    ∃ e : ℤ, |e| ≤ (interp1d_CC_POLY_required_ghosts ORDER : ℤ) ∧ x = e * di := by
  unfold interp1d_CC_POLY at hx
  unfold interp1d_CC_POLY_required_ghosts
  by_cases h0 : off = 0
  · simp only [h0, if_true, accumulate_snd, List.nil_append, List.mem_flatMap, List.mem_range,
      List.mem_singleton] at hx
    obtain ⟨i, hi, rfl⟩ := hx
    exact ⟨_, by rw [abs_le]; constructor <;> omega, rfl⟩
  · simp only [h0, if_false, accumulate_snd, List.nil_append, List.mem_flatMap, List.mem_range,
      List.mem_singleton] at hx
    obtain ⟨i, hi, rfl⟩ := hx
    exact ⟨_, by rw [abs_le]; constructor <;> split_ifs <;> omega, rfl⟩

theorem interp1d_CC_CONS_reads_stride (ORDER : ℕ) (u : ℤ → ℚ) (di shift off : ℤ) (x : ℤ)
    (hx : x ∈ (interp1d_CC_CONS ORDER u di shift off).2) :
    ∃ e : ℤ, |e| ≤ (interp1d_CC_CONS_required_ghosts ORDER : ℤ) ∧ x = e * di := by
  unfold interp1d_CC_CONS at hx
  unfold interp1d_CC_CONS_required_ghosts
  by_cases h0 : off = 0
  · simp only [h0, if_true, accumulate_snd, List.mem_append, List.mem_flatMap,
      List.mem_range, List.mem_cons, List.mem_singleton, List.not_mem_nil, or_false] at hx
    obtain rfl | ⟨i, hi, rfl | rfl⟩ := hx
    · exact ⟨_, by rw [abs_le]; constructor <;> omega, rfl⟩
    · exact ⟨_, by rw [abs_le]; constructor <;> omega, rfl⟩
    · exact ⟨_, by rw [abs_le]; constructor <;> omega, rfl⟩
  · simp only [h0, if_false, accumulate_snd, List.mem_append, List.mem_flatMap,
      List.mem_range, List.mem_cons, List.mem_singleton, List.not_mem_nil, or_false] at hx
    obtain rfl | ⟨i, hi, rfl | rfl⟩ := hx
    · exact ⟨_, by rw [abs_le]; constructor <;> omega, rfl⟩
    · exact ⟨_, by rw [abs_le]; constructor <;> omega, rfl⟩
    · exact ⟨_, by rw [abs_le]; constructor <;> omega, rfl⟩

theorem interp1d_CC_ENO_reads_stride (ORDER : ℕ) (u : ℤ → ℚ) (di shift off : ℤ)
    (hlo : -((ORDER / 2 : ℕ) : ℤ) ≤ shift) (hhi : shift ≤ ((ORDER / 2 : ℕ) : ℤ)) (x : ℤ)
    (hx : x ∈ (interp1d_CC_ENO ORDER u di shift off).2) :
    ∃ e : ℤ, |e| ≤ (interp1d_CC_ENO_required_ghosts ORDER : ℤ) ∧ x = e * di := by
  unfold interp1d_CC_ENO at hx
  unfold interp1d_CC_ENO_required_ghosts
  by_cases h0 : off = 0
  · simp only [h0, if_true, accumulate_snd, List.nil_append, List.mem_flatMap, List.mem_range,
      List.mem_singleton] at hx
    obtain ⟨i, hi, rfl⟩ := hx
    exact ⟨_, by rw [abs_le]; constructor <;> omega, rfl⟩
  · simp only [h0, if_false, accumulate_snd, List.nil_append, List.mem_flatMap, List.mem_range,
      List.mem_singleton] at hx
    obtain ⟨i, hi, rfl⟩ := hx
    exact ⟨_, by rw [abs_le]; constructor <;> omega, rfl⟩

/-- For every axis descriptor other than (vertex, cons), with an odd order on a vertex
axis and a shift of magnitude at most `ORDER / 2`, every element offset read by the 1D
operator is `e * di` with `|e| ≤ required_ghosts`. -/
theorem interp1d_reads_stride (CENT : centering_t) (INTP : interpolation_t) (ORDER : ℕ)
    (hgood : ¬ (CENT = centering_t.vertex ∧ INTP = interpolation_t.cons))
    (hodd : CENT = centering_t.vertex → ORDER % 2 = 1) (u : ℤ → ℚ) (di shift off : ℤ)
    (hoff : off = 0 ∨ off = 1)
    (hlo : -((ORDER / 2 : ℕ) : ℤ) ≤ shift) (hhi : shift ≤ ((ORDER / 2 : ℕ) : ℤ)) (x : ℤ)
    (hx : x ∈ (interp1d CENT INTP ORDER u di shift off).2) :
    ∃ e : ℤ, |e| ≤ (interp1d_required_ghosts CENT INTP ORDER : ℤ) ∧ x = e * di := by
  cases CENT <;> cases INTP <;> simp only [interp1d, interp1d_required_ghosts] at hx ⊢
  · exact interp1d_VC_POLY_reads_stride ORDER (hodd rfl) u di shift off hoff x hx
  · exact interp1d_VC_HERMITE_reads_stride ORDER (hodd rfl) u di shift off hoff x hx
  · exact absurd ⟨rfl, rfl⟩ hgood
  · cases hx
  · exact interp1d_CC_POLY_reads_stride ORDER u di shift off x hx
  · cases hx
  · exact interp1d_CC_CONS_reads_stride ORDER u di shift off x hx
  · exact interp1d_CC_ENO_reads_stride ORDER u di shift off hlo hhi x hx

/-! ### Ghost sufficiency of a sweep that uses no shifts -/

theorem and_0x1_cases (x : ℤ) : and_0x1 x = 0 ∨ and_0x1 x = 1 := by
  unfold and_0x1
  omega

/-- Moving `e` steps of stride `di` from the element of index `c` reaches the element
whose index along direction `D` is larger by `e`. -/
theorem interp3d_di_index (D : ℕ) (hD : D < 3) (crsebox finebox : Box) (c : IntVect)
    (e : ℤ) :
    crsebox.index c + e * interp3d_di D crsebox finebox =
      crsebox.index (c.setVect D (c.getVect D + e)) := by
  have hD3 : D = 0 ∨ D = 1 ∨ D = 2 := by omega
  rcases hD3 with rfl | rfl | rfl
  · simp only [interp3d_di, if_true, Box.index, IntVect.setVect, IntVect.getVect]
    ring
  · simp only [interp3d_di, one_ne_zero, if_false, Box.index, IntVect.setVect,
      IntVect.getVect]
    ring
  · simp only [interp3d_di, OfNat.ofNat_ne_zero, if_false, Box.index, IntVect.setVect,
      IntVect.getVect]
    ring

theorem interp3d_ptr_eq (D : ℕ) (crseptr : ℤ) (crsebox : Box) (i j k : ℤ) :
    interp3d_ptr D crseptr crsebox i j k =
      crseptr + crsebox.index (interp3d_crseind D i j k) := by
  simp only [interp3d_ptr]
  rw [Box.index_strided]

/-- The coarse index of a target point, moved by at most `required_ghosts` along the
sweep direction, is a point of the source box when the assertions of `interp3d` hold. -/
theorem interp3d_crseind_inside (CENT : centering_t) (INTP : interpolation_t)
    (ORDER D : ℕ) (hD : D < 3) (crsebox finebox targetbox : Box)
    (hasserts : interp3d_asserts CENT INTP ORDER D crsebox finebox targetbox = none)
    (p : IntVect) (hp : targetbox.contains p) (e : ℤ)
    (he : |e| ≤ (interp1d_required_ghosts CENT INTP ORDER : ℤ)) :
    crsebox.contains ((interp3d_crseind D p.x p.y p.z).setVect D
      ((interp3d_crseind D p.x p.y p.z).getVect D + e)) := by
  obtain ⟨_, _, _, _, hlo, _, hhi, _⟩ := interp3d_asserts_none _ _ _ _ _ _ _ hasserts
  rw [abs_le] at he
  have hD3 : D = 0 ∨ D = 1 ∨ D = 2 := by omega
  unfold Box.contains at hp ⊢
  unfold IntVect.allLE at hlo hhi
  rcases hD3 with rfl | rfl | rfl <;>
    simp only [interp3d_crseind, IntVect.setVect, IntVect.getVect, coarsen, div_floor,
      if_true, if_false, one_ne_zero, OfNat.ofNat_ne_zero, OfNat.ofNat_ne_one,
      OfNat.one_ne_ofNat, OfNat.zero_ne_ofNat, zero_ne_one,
      Int.fdiv_eq_ediv _ (show (0 : ℤ) ≤ 2 by norm_num)] at hlo hhi ⊢ <;>
    omega

/-- Reads of one kernel call of a sweep without shifts: when the assertions of
`interp3d` hold and the axis descriptor is not (vertex, cons), every element read is the
element of a point of the source box. -/
theorem interp3d_kernel_reads_inside (CENT : centering_t) (INTP : interpolation_t)
    (ORDER D : ℕ) (hD : D < 3)
    (hgood : ¬ (CENT = centering_t.vertex ∧ INTP = interpolation_t.cons))
    (hodd : CENT = centering_t.vertex → ORDER % 2 = 1)
    (crse : ℤ → ℚ) (crseptr : ℤ) (crsebox : Box) (shifts : ℤ → ℤ) (sptr : ℤ) (sbox : Box)
    (fineptr : ℤ) (finebox targetbox : Box)
    (hasserts : interp3d_asserts CENT INTP ORDER D crsebox finebox targetbox = none)
    (p : IntVect) (hp : targetbox.contains p) (a : ℤ)
    (ha : a ∈ (interp3d_kernel CENT INTP ORDER D false crse crseptr crsebox shifts sptr sbox
      fineptr finebox (interp3d_di D crsebox finebox) p.x p.y p.z).crse_reads) :
    ∃ v, crsebox.contains v ∧ a = crseptr + crsebox.index v := by
  simp only [interp3d_kernel, interp3d_shift, Bool.false_eq_true, if_false, List.mem_map]
    at ha
  obtain ⟨x, hx, rfl⟩ := ha
  have hx' : ∃ e : ℤ, |e| ≤ (interp1d_required_ghosts CENT INTP ORDER : ℤ) ∧
      x = e * interp3d_di D crsebox finebox := by
    split_ifs at hx
    · rcases List.mem_append.1 hx with hx | hx
      · exact interp1d_reads_stride CENT INTP ORDER hgood hodd _ _ 0 0 (Or.inl rfl)
          (by omega) (by omega) x hx
      · exact interp1d_reads_stride CENT INTP ORDER hgood hodd _ _ 0 1 (Or.inr rfl)
          (by omega) (by omega) x hx
    · exact interp1d_reads_stride CENT INTP ORDER hgood hodd _ _ 0 _ (and_0x1_cases _)
        (by omega) (by omega) x hx
  obtain ⟨e, he, rfl⟩ := hx'
  refine ⟨_, interp3d_crseind_inside CENT INTP ORDER D hD crsebox finebox targetbox hasserts
    p hp e he, ?_⟩
  rw [interp3d_ptr_eq, add_assoc, interp3d_di_index D hD]

/-- Reads of a completed sweep without shifts: every read is made from the source array,
at the element of a point of the source box. -/
theorem interp3d_reads_inside (CENT : centering_t) (INTP : interpolation_t)
    (ORDER D : ℕ) (hD : D < 3)
    (hgood : ¬ (CENT = centering_t.vertex ∧ INTP = interpolation_t.cons))
    (hodd : CENT = centering_t.vertex → ORDER % 2 = 1) (src : Buffer)
    (crse : ℤ → ℚ) (crseptr : ℤ) (crsebox : Box) (shifts : ℤ → ℤ) (sptr : ℤ) (sbox : Box)
    (dst : Buffer) (fine : ℤ → ℚ) (fineptr : ℤ) (finebox targetbox : Box)
    (r : (ℤ → ℚ) × List Access)
    (h : interp3d CENT INTP ORDER D false src crse crseptr crsebox shifts sptr sbox dst
      fine fineptr finebox targetbox = .ok r) :
    ∀ b a, Access.read b a ∈ r.2 →
      b = src ∧ ∃ v, crsebox.contains v ∧ a = crseptr + crsebox.index v := by
  obtain ⟨hasserts, rfl⟩ := interp3d_ok _ _ _ _ _ _ _ _ _ _ _ _ _ _ _ _ _ _ h
  intro b a hmem
  rw [interp3d_loop_log] at hmem
  simp only [List.mem_flatMap, KernelStep.accesses, List.mem_append, List.mem_map,
    List.mem_singleton] at hmem
  obtain ⟨p, hp, (⟨e, he, heq⟩ | ⟨e, he, heq⟩) | heq⟩ := hmem
  · simp [interp3d_kernel] at he
  · obtain ⟨rfl, rfl⟩ := Access.read.inj heq
    exact ⟨rfl, interp3d_kernel_reads_inside CENT INTP ORDER D hD hgood hodd crse crseptr
      crsebox shifts sptr sbox fineptr finebox targetbox hasserts p
      ((Box.mem_points _ _).1 hp) _ he⟩
  · cases heq

/-- Ghost sufficiency where it holds: for an operator without shifts (no eno axis of
positive order) and without a (vertex, cons) axis, whose vertex axes have odd order,
every read of a completed call of `interp` is made at the element of a point of the box
of the array read: the coarse box in the x-sweep, `targets[0]` in the y-sweep and
`targets[1]` in the z-sweep. -/
theorem interp_reads_inside (op : prolongate_3d_rf2) (crse : FArrayBox) (crse_comp : ℕ)
    (fine : FArrayBox) (fine_comp ncomp : ℕ) (fine_region : Box) (ratio : IntVect)
    (actual_comp actual_state : ℤ) (scratch : Scratch) (fine' : ℤ → ℚ) (log : List Access)
    (hshift : op.USE_SHIFT = false)
    (hgood : ∀ d, ¬ (op.CENT d = centering_t.vertex ∧ op.INTP d = interpolation_t.cons))
    (hodd : ∀ d, op.CENT d = centering_t.vertex → op.order d % 2 = 1)
    (h : interp op crse crse_comp fine fine_comp ncomp fine_region ratio actual_comp
      actual_state scratch = .completed fine' log) :
    ∃ source_region, CoarseBox_int op fine_region 2 = .ok source_region ∧
      ∀ b a, Access.read b a ∈ log → ∃ comp < ncomp, ∃ v,
        (b = Buffer.crse ∧ crse.box.contains v ∧
          a = crse.dataPtr (crse_comp + comp) + crse.box.index v) ∨
        (b = Buffer.tmp0 ∧ (targets source_region fine_region 0).contains v ∧
          a = (comp : ℤ) * (targets source_region fine_region 0).numPts +
            (targets source_region fine_region 0).index v) ∨
        (b = Buffer.tmp1 ∧ (targets source_region fine_region 1).contains v ∧
          a = (comp : ℤ) * (targets source_region fine_region 1).numPts +
            (targets source_region fine_region 1).index v) := by
  obtain ⟨_, _, _, _, source_region, eno, x, y, hsrc, _, heno, hx, hy, hz⟩ :=
    interp_completed _ _ _ _ _ _ _ _ _ _ _ _ _ h
  refine ⟨source_region, hsrc, ?_⟩
  have hu : op.use_shift 0 = false ∧ op.use_shift 1 = false ∧ op.use_shift 2 = false := by
    unfold prolongate_3d_rf2.USE_SHIFT at hshift
    simp only [Bool.or_eq_false_iff] at hshift
    exact ⟨hshift.1.1, hshift.1.2, hshift.2⟩
  have heno_log : eno.log = [] := by
    unfold interp_eno at heno
    rw [if_neg (by simp [hshift])] at heno
    cases heno
    rfl
  have hQ := for_comps_log_forall
    (fun ev => ∀ b a, ev = Access.read b a → ∃ comp < ncomp, ∃ v,
        (b = Buffer.crse ∧ crse.box.contains v ∧
          a = crse.dataPtr (crse_comp + comp) + crse.box.index v) ∨
        (b = Buffer.tmp0 ∧ (targets source_region fine_region 0).contains v ∧
          a = (comp : ℤ) * (targets source_region fine_region 0).numPts +
            (targets source_region fine_region 0).index v) ∨
        (b = Buffer.tmp1 ∧ (targets source_region fine_region 1).contains v ∧
          a = (comp : ℤ) * (targets source_region fine_region 1).numPts +
            (targets source_region fine_region 1).index v))
  have h1 := hQ _ _ _ _ hx (by simp [heno_log]) (fun c hc m q hq ev hmem b a hev => by
    subst hev
    unfold interp_x at hq
    rw [hu.1] at hq
    obtain ⟨rfl, v, hv, rfl⟩ := interp3d_reads_inside op.CENTI op.INTPI op.ORDERI 0
      (by norm_num) (hgood 0) (hodd 0) _ _ _ _ _ _ _ _ _ _ _ _ q hq _ _ hmem
    exact ⟨c, List.mem_range.1 hc, v, Or.inl ⟨rfl, hv, rfl⟩⟩)
  have h2 := hQ _ _ _ _ hy h1 (fun c hc m q hq ev hmem b a hev => by
    subst hev
    unfold interp_y at hq
    rw [hu.2.1] at hq
    obtain ⟨rfl, v, hv, rfl⟩ := interp3d_reads_inside op.CENTJ op.INTPJ op.ORDERJ 1
      (by norm_num) (hgood 1) (hodd 1) _ _ _ _ _ _ _ _ _ _ _ _ q hq _ _ hmem
    exact ⟨c, List.mem_range.1 hc, v, Or.inr (Or.inl ⟨rfl, hv, rfl⟩)⟩)
  have h3 := hQ _ _ _ _ hz h2 (fun c hc m q hq ev hmem b a hev => by
    subst hev
    unfold interp_z at hq
    rw [hu.2.2] at hq
    obtain ⟨rfl, v, hv, rfl⟩ := interp3d_reads_inside op.CENTK op.INTPK op.ORDERK 2
      (by norm_num) (hgood 2) (hodd 2) _ _ _ _ _ _ _ _ _ _ _ _ q hq _ _ hmem
    exact ⟨c, List.mem_range.1 hc, v, Or.inr (Or.inr ⟨rfl, hv, rfl⟩)⟩)
  intro b a hmem
  exact h3 _ hmem b a rfl

/-! ## Precondition failures of `interp` (C11) -/

/-- A component loop whose sweep never fails returns. -/
theorem for_comps_never_fails
    (sweep : ℕ → (ℤ → ℚ) → Except Failure ((ℤ → ℚ) × List Access))
    (hs : ∀ c m, ∃ q, sweep c m = .ok q) (comps : List ℕ) (st : (ℤ → ℚ) × List Access) :
    ∃ r, for_comps sweep comps st = .ok r := by
  induction comps generalizing st with
  | nil => exact ⟨st, rfl⟩
  | cons c cs ih =>
    obtain ⟨q, hq⟩ := hs c st.1
    unfold for_comps
    rw [hq]
    exact ih _

/-- When the assertions of a sweep do not depend on the component or on the destination
array (`fails` is their common verdict), a component loop that fails does so at its first
component: the destination array reported with the failure is the initial one. -/
theorem for_comps_error_fst (sweep : ℕ → (ℤ → ℚ) → Except Failure ((ℤ → ℚ) × List Access))
    (fails : Option Failure)
    (hs : ∀ c m, (∀ f, fails = some f → sweep c m = .error f) ∧
      (fails = none → ∃ q, sweep c m = .ok q))
    (comps : List ℕ) (st : (ℤ → ℚ) × List Access) (e : Failure × (ℤ → ℚ))
    (h : for_comps sweep comps st = .error e) : e.2 = st.1 := by
  cases hf : fails with
  | none =>
    obtain ⟨r, hr⟩ := for_comps_never_fails sweep (fun c m => (hs c m).2 hf) comps st
    rw [hr] at h
    cases h
  | some f =>
    cases comps with
    | nil => simp [for_comps] at h
    | cons c cs =>
      unfold for_comps at h
      rw [(hs c st.1).1 f hf] at h
      simp only [Except.error.injEq] at h
      rw [← h]

/-- A component loop that returns has run the sweep of its first component. -/
theorem for_comps_cons_ok (sweep : ℕ → (ℤ → ℚ) → Except Failure ((ℤ → ℚ) × List Access))
    (c : ℕ) (cs : List ℕ) (st r : (ℤ → ℚ) × List Access)
    (h : for_comps sweep (c :: cs) st = .ok r) : ∃ q, sweep c st.1 = .ok q := by
  unfold for_comps at h
  cases hq : sweep c st.1 with
  | error f => rw [hq] at h; simp at h
  | ok q => exact ⟨q, rfl⟩

/-- No partial write: whenever a call of `interp` aborts, on whatever assertion, the
destination array is still the one that was passed in.  The only sweep that writes to the
destination is the last one, and its assertions are the same for every component. -/
theorem interp_aborted_fine (op : prolongate_3d_rf2) (crse : FArrayBox) (crse_comp : ℕ)
    (fine : FArrayBox) (fine_comp ncomp : ℕ) (fine_region : Box) (ratio : IntVect)
    (actual_comp actual_state : ℤ) (scratch : Scratch) (f : Failure) (d : ℤ → ℚ)
    (h : interp op crse crse_comp fine fine_comp ncomp fine_region ratio actual_comp
      actual_state scratch = .aborted f d) : d = fine.data := by
  unfold interp at h
  split_ifs at h with h1 h2 h3
  all_goals first | (cases h; rfl) | skip
  by_cases h4 : fine_region.inter fine.box = fine_region
  swap
  · simp only [h4, not_false_eq_true, if_true] at h
    cases h; rfl
  simp only [h4, not_true_eq_false, if_false] at h
  split at h
  · cases h; rfl
  rename_i source_region hsrc
  split_ifs at h with h5
  all_goals first | (cases h; rfl) | skip
  split at h
  · cases h; rfl
  split at h
  · cases h; rfl
  split at h
  · cases h; rfl
  split at h
  · rename_i e he
    cases h
    refine for_comps_error_fst _
      (interp3d_asserts op.CENTK op.INTPK op.ORDERK 2
        (targets source_region fine_region 1) fine.box fine_region) ?_ _ _ e he
    intro c m
    unfold interp_z interp3d
    constructor
    · intro f hf; simp only [hf]
    · intro hf; simp only [hf]; exact ⟨_, rfl⟩
  · cases h

/-- A region that equals its intersection with a box has its corners inside the box. -/
theorem Box.corners_of_inter_eq (a b : Box) (h : a.inter b = a) :
    b.smallend.allLE a.smallend ∧ a.bigend.allLE b.bigend := by
  obtain ⟨⟨a1, a2, a3⟩, ⟨b1, b2, b3⟩, t⟩ := a
  obtain ⟨⟨c1, c2, c3⟩, ⟨d1, d2, d3⟩, t'⟩ := b
  simp only [Box.inter, Box.mk.injEq, IntVect.mk.injEq, and_true] at h
  simp only [IntVect.allLE]
  omega

/-- What the assertions of the x-sweep establish about the coarse array: its box contains
`CoarseBox(fine_region, 2)`, except that the upper x index is only checked up to
`coarsen(fine_region.hi.x, 2) + required_ghosts`. -/
theorem interp_x_asserts (op : prolongate_3d_rf2) (crse : FArrayBox) (crse_comp : ℕ)
    (shifts : ℤ → ℤ) (fine_region src : Box) (comp : ℕ) (tmp0 : ℤ → ℚ)
    (q : (ℤ → ℚ) × List Access)
    (hsrc : CoarseBox_int op fine_region 2 = .ok src)
    (h : interp_x op crse crse_comp shifts src fine_region comp tmp0 = .ok q) :
    crse.box.smallend.allLE src.smallend ∧
      (src.bigend.setVect 0
        (coarsen fine_region.bigend.x 2 + (op.required_ghosts 0 : ℕ))).allLE
        crse.box.bigend := by
  unfold interp_x at h
  obtain ⟨-, -, -, -, hlo, -, hhi, -⟩ := interp3d_asserts_none _ _ _ _ _ _ _
    (interp3d_ok _ _ _ _ _ _ _ _ _ _ _ _ _ _ _ _ _ _ h).1
  obtain ⟨e1, e2, e3, -, -, -, -⟩ := CoarseBox_int_two op fine_region src hsrc
  obtain ⟨⟨a1, a2, a3⟩, ⟨b1, b2, b3⟩, t⟩ := src
  obtain ⟨⟨c1, c2, c3⟩, ⟨d1, d2, d3⟩, t'⟩ := fine_region
  simp only [targets, Box.setRange, IntVect.setVect, IntVect.getVect, IntVect.allLE, Box.length,
    coarsen, Int.fdiv_eq_ediv _ (show (0 : ℤ) ≤ 2 by norm_num), if_true,
    prolongate_3d_rf2.required_ghosts, prolongate_3d_rf2.CENT, prolongate_3d_rf2.INTP,
    prolongate_3d_rf2.order] at hlo hhi e1 e2 e3 ⊢
  constructor <;> omega

set_option maxHeartbeats 4000000 in
/-- C11, counterexample: a call of `interp` can return although the coarse array's box does
not contain `CoarseBox(fine_region, 2)`.  First case: instance `prolongate_3d_rf2_c000_o1`
(vertex centering, poly, order 1), one component, nodal target `[0,1]×[0,0]×[0,0]`;
`CoarseBox` is `[-1,2]×[-1,1]×[-1,1]` (the nodal upper index 1 is coarsened upwards), the
coarse box `[-1,1]³` does not contain it, and no assertion fails, because `interp3d`
compares `coarsen(1, 2) + 1 = 1` with the upper x index of the coarse box.  Second case:
instance `prolongate_3d_rf2_c111_o1` called with `ncomp = 0`; no sweep runs, so no bound
is asserted, and the call returns with a one-cell coarse box. -/
theorem interp_completes_outside_CoarseBox :
    (CoarseBox_int prolongate_3d_rf2_c000_o1
          ⟨⟨0, 0, 0⟩, ⟨1, 0, 0⟩, ⟨true, true, true⟩⟩ 2 =
        .ok ⟨⟨-1, -1, -1⟩, ⟨2, 1, 1⟩, ⟨true, true, true⟩⟩ ∧
      ¬ IntVect.allLE ⟨2, 1, 1⟩
        (Box.bigend ⟨⟨-1, -1, -1⟩, ⟨1, 1, 1⟩, ⟨true, true, true⟩⟩) ∧
      (interp prolongate_3d_rf2_c000_o1
          ⟨⟨⟨-1, -1, -1⟩, ⟨1, 1, 1⟩, ⟨true, true, true⟩⟩, fun a => (a : ℚ)⟩ 0
          ⟨⟨⟨0, 0, 0⟩, ⟨1, 0, 0⟩, ⟨true, true, true⟩⟩, fun _ => 0⟩ 0 1
          ⟨⟨0, 0, 0⟩, ⟨1, 0, 0⟩, ⟨true, true, true⟩⟩ ⟨2, 2, 2⟩ 0 0
          ⟨fun _ => 0, fun _ => 0, fun _ => 0, fun _ => 0⟩).failure = none) ∧
    (CoarseBox_int prolongate_3d_rf2_c111_o1
          ⟨⟨0, 0, 0⟩, ⟨1, 1, 1⟩, ⟨false, false, false⟩⟩ 2 =
        .ok ⟨⟨-1, -1, -1⟩, ⟨1, 1, 1⟩, ⟨false, false, false⟩⟩ ∧
      ¬ IntVect.allLE ⟨1, 1, 1⟩
        (Box.bigend ⟨⟨0, 0, 0⟩, ⟨0, 0, 0⟩, ⟨false, false, false⟩⟩) ∧
      interp prolongate_3d_rf2_c111_o1
          ⟨⟨⟨0, 0, 0⟩, ⟨0, 0, 0⟩, ⟨false, false, false⟩⟩, fun _ => 0⟩ 0
          ⟨⟨⟨0, 0, 0⟩, ⟨1, 1, 1⟩, ⟨false, false, false⟩⟩, fun _ => 0⟩ 0 0
          ⟨⟨0, 0, 0⟩, ⟨1, 1, 1⟩, ⟨false, false, false⟩⟩ ⟨2, 2, 2⟩ 0 0
          ⟨fun _ => 0, fun _ => 0, fun _ => 0, fun _ => 0⟩ =
        Outcome.completed (fun _ => 0) []) := by
  refine ⟨⟨rfl, by decide, rfl⟩, rfl, by decide, rfl⟩

/-- C11 (amended): `interp` aborts, with the destination array untouched, whenever the
refinement ratio is not 2 on some axis, or `fine_region` is not contained in the
destination's box, or at least one component is requested and the coarse array's box does
not contain the region `src = CoarseBox(fine_region, 2)` with its upper x index replaced by
`coarsen(fine_region.hi.x, 2) + required_ghosts` (which is the upper x index of `src`
unless axis x is vertex centred and `fine_region.hi.x` is odd).  The failure found may be
any assertion of `interp` that comes earlier in program order. -/
theorem interp_fails_before_any_write (op : prolongate_3d_rf2) (crse : FArrayBox)
    (crse_comp : ℕ) (fine : FArrayBox) (fine_comp ncomp : ℕ) (fine_region : Box)
    (ratio : IntVect) (actual_comp actual_state : ℤ) (scratch : Scratch) (src : Box)
    (hsrc : CoarseBox_int op fine_region 2 = .ok src)
    (h : ¬ (ratio.getVect 0 = 2 ∧ ratio.getVect 1 = 2 ∧ ratio.getVect 2 = 2) ∨
      ¬ (fine.box.smallend.allLE fine_region.smallend ∧
          fine_region.bigend.allLE fine.box.bigend) ∨
      (0 < ncomp ∧
        ¬ (crse.box.smallend.allLE src.smallend ∧
          (src.bigend.setVect 0
            (coarsen fine_region.bigend.x 2 + (op.required_ghosts 0 : ℕ))).allLE
            crse.box.bigend))) :
    ∃ f, interp op crse crse_comp fine fine_comp ncomp fine_region ratio actual_comp
      actual_state scratch = .aborted f fine.data := by
  cases ho : interp op crse crse_comp fine fine_comp ncomp fine_region ratio actual_comp
      actual_state scratch with
  | aborted f d =>
    rw [interp_aborted_fine _ _ _ _ _ _ _ _ _ _ _ _ _ ho]
    exact ⟨f, rfl⟩
  | completed fine' log =>
    exfalso
    obtain ⟨hr, -, -, hi, s, eno, x, y, hs, -, -, hx, -, -⟩ :=
      interp_completed _ _ _ _ _ _ _ _ _ _ _ _ _ ho
    rcases h with h | h | ⟨hn, h⟩
    · exact h hr
    · exact h (Box.corners_of_inter_eq _ _ hi)
    · rw [hsrc] at hs
      cases hs
      obtain ⟨n, rfl⟩ : ∃ n, ncomp = n + 1 := ⟨ncomp - 1, by omega⟩
      rw [List.range_succ_eq_map] at hx
      obtain ⟨q, hq⟩ := for_comps_cons_ok _ _ _ _ _ hx
      exact h (interp_x_asserts _ _ _ _ _ _ _ _ _ hsrc hq)

set_option maxHeartbeats 4000000 in
/-- C11 (amended), at a concrete input: instance `prolongate_3d_rf2_c111_o1`, the
cell-centred target `[0,1]³`, one component, and a coarse array of the single cell
`(0,0,0)`, which does not contain `CoarseBox(target, 2) = [-1,1]³`. -/
theorem interp_fails_before_any_write_witness :
    CoarseBox_int prolongate_3d_rf2_c111_o1
        ⟨⟨0, 0, 0⟩, ⟨1, 1, 1⟩, ⟨false, false, false⟩⟩ 2 =
      .ok ⟨⟨-1, -1, -1⟩, ⟨1, 1, 1⟩, ⟨false, false, false⟩⟩ ∧
    (0 < 1 ∧ ¬ (IntVect.allLE ⟨0, 0, 0⟩ ⟨-1, -1, -1⟩ ∧
      IntVect.allLE (IntVect.setVect ⟨1, 1, 1⟩ 0
        (coarsen 1 2 + (prolongate_3d_rf2_c111_o1.required_ghosts 0 : ℕ))) ⟨0, 0, 0⟩)) ∧
    ∃ f, interp prolongate_3d_rf2_c111_o1
        ⟨⟨⟨0, 0, 0⟩, ⟨0, 0, 0⟩, ⟨false, false, false⟩⟩, fun _ => 0⟩ 0
        ⟨⟨⟨0, 0, 0⟩, ⟨1, 1, 1⟩, ⟨false, false, false⟩⟩, fun _ => 0⟩ 0 1
        ⟨⟨0, 0, 0⟩, ⟨1, 1, 1⟩, ⟨false, false, false⟩⟩ ⟨2, 2, 2⟩ 0 0
        ⟨fun _ => 0, fun _ => 0, fun _ => 0, fun _ => 0⟩ =
      Outcome.aborted f (fun _ => 0) :=
  ⟨rfl, ⟨by decide, by decide⟩,
    interp_fails_before_any_write prolongate_3d_rf2_c111_o1
      ⟨⟨⟨0, 0, 0⟩, ⟨0, 0, 0⟩, ⟨false, false, false⟩⟩, fun _ => 0⟩ 0
      ⟨⟨⟨0, 0, 0⟩, ⟨1, 1, 1⟩, ⟨false, false, false⟩⟩, fun _ => 0⟩ 0 1
      ⟨⟨0, 0, 0⟩, ⟨1, 1, 1⟩, ⟨false, false, false⟩⟩ ⟨2, 2, 2⟩ 0 0
      ⟨fun _ => 0, fun _ => 0, fun _ => 0, fun _ => 0⟩
      ⟨⟨-1, -1, -1⟩, ⟨1, 1, 1⟩, ⟨false, false, false⟩⟩ (by rfl)
      (Or.inr (Or.inr ⟨by decide, by decide⟩))⟩

/-! ## Stencil-shift selection (C12, C13, C14) -/

/-- Invariant of the shift search after the candidates `L`: either nothing was visited, or
the running `min_shift` is a visited candidate, `min_dd` is its divided difference, and
that divided difference does not exceed the penalised divided difference of any visited
candidate.  Divided differences are magnitudes, hence not negative. -/
theorem choose_stencil_shift_invariant (diffptr : ℤ → ℚ) (diffbox : Box) (ind : IntVect)
    (hdd : ∀ a, 0 ≤ diffptr a) (L : List IntVect) :
    let st := L.foldl
      (fun (st : ShiftSearch) (shift : IntVect) =>
        let ind1 : IntVect := ⟨ind.x + shift.x, ind.y + shift.y, ind.z + shift.z⟩
        let penalty : ℚ := ((|shift.x| + |shift.y| + |shift.z| : ℤ) : ℚ) * (1 / 10)
        let dd := diffptr (diffbox.index ind1)
        if lt_min_dd ((1 + penalty) * dd) st.min_dd = true then
          { min_shift := shift, min_dd := some dd, reads := st.reads ++ [diffbox.index ind1] }
        else { st with reads := st.reads ++ [diffbox.index ind1] })
      { min_shift := ⟨0, 0, 0⟩, min_dd := none, reads := [] }
    (L = [] ∧ st.min_dd = none ∧ st.min_shift = ⟨0, 0, 0⟩) ∨
      (st.min_shift ∈ L ∧
        st.min_dd = some (diffptr (diffbox.index
          ⟨ind.x + st.min_shift.x, ind.y + st.min_shift.y, ind.z + st.min_shift.z⟩)) ∧
        ∀ c ∈ L, diffptr (diffbox.index
            ⟨ind.x + st.min_shift.x, ind.y + st.min_shift.y, ind.z + st.min_shift.z⟩) ≤
          (1 + ((|c.x| + |c.y| + |c.z| : ℤ) : ℚ) * (1 / 10)) *
            diffptr (diffbox.index ⟨ind.x + c.x, ind.y + c.y, ind.z + c.z⟩)) := by
  induction L using List.reverseRecOn with
  | nil => left; exact ⟨rfl, rfl, rfl⟩
  | append_singleton l a ih =>
    right
    simp only [List.foldl_append, List.foldl_cons, List.foldl_nil]
    simp only at ih
    generalize l.foldl _ _ = st at ih ⊢
    have hpen : ∀ c : IntVect, diffptr (diffbox.index ⟨ind.x + c.x, ind.y + c.y, ind.z + c.z⟩) ≤
        (1 + ((|c.x| + |c.y| + |c.z| : ℤ) : ℚ) * (1 / 10)) *
          diffptr (diffbox.index ⟨ind.x + c.x, ind.y + c.y, ind.z + c.z⟩) := by
      intro c
      have h1 : (0 : ℚ) ≤ ((|c.x| + |c.y| + |c.z| : ℤ) : ℚ) * (1 / 10) := by positivity
      nlinarith [hdd (diffbox.index ⟨ind.x + c.x, ind.y + c.y, ind.z + c.z⟩)]
    rcases ih with ⟨hl, hn, -⟩ | ⟨hm, hd, hall⟩
    · subst hl
      simp only [hn, lt_min_dd, if_true, List.nil_append, List.mem_singleton, true_and,
        forall_eq]
      exact hpen a
    · rw [hd]
      simp only [lt_min_dd, decide_eq_true_eq]
      split_ifs with hlt
      · refine ⟨by simp, rfl, ?_⟩
        intro c hc
        rcases List.mem_append.1 hc with hc | hc
        · exact le_trans (le_trans (hpen a) (le_of_lt hlt)) (hall c hc)
        · rw [List.mem_singleton] at hc; subst hc; exact hpen c
      · refine ⟨List.mem_append_left _ hm, rfl, ?_⟩
        intro c hc
        rcases List.mem_append.1 hc with hc | hc
        · exact hall c hc
        · rw [List.mem_singleton] at hc; subst hc; exact not_lt.1 hlt

/-- The candidates of the shift search are the triples within the radii. -/
theorem mem_shift_candidates (radius c : IntVect) :
    c ∈ shift_candidates radius ↔
      (-radius.x ≤ c.x ∧ c.x ≤ radius.x) ∧ (-radius.y ≤ c.y ∧ c.y ≤ radius.y) ∧
        (-radius.z ≤ c.z ∧ c.z ≤ radius.z) := by
  unfold shift_candidates
  simp only [List.mem_flatMap, List.mem_map, mem_intRange]
  constructor
  · rintro ⟨k, hk, j, hj, i, hi, rfl⟩
    exact ⟨hi, hj, hk⟩
  · rintro ⟨h1, h2, h3⟩
    exact ⟨c.z, h3, c.y, h2, c.x, h1, rfl⟩

/-- C12, counterexample: the selected shift need not minimise the penalised divided
difference.  Radius 2 along x (eno order 4), index 2, stored divided differences
9, 19/2, 11, 100, 100 at the indices 0..4.  The search accepts shift -2 (penalised value
`1.2 * 9 = 54/5`) and keeps its unpenalised value 9 in `min_dd`; shift -1, with the
strictly smaller penalised value `1.1 * 19/2 = 209/20`, is rejected because
`209/20 < 9` is false, and so are the other candidates.  The selected shift is -2. -/
theorem choose_stencil_shift_not_minimal :
    (choose_stencil_shift
        (fun a => if a = 0 then 9 else if a = 1 then 19 / 2 else if a = 2 then 11 else 100)
        ⟨⟨0, 0, 0⟩, ⟨4, 0, 0⟩, ⟨false, false, false⟩⟩ ⟨2, 0, 0⟩ ⟨2, 0, 0⟩).min_shift =
      ⟨-2, 0, 0⟩ ∧
    (⟨-1, 0, 0⟩ : IntVect) ∈ shift_candidates ⟨2, 0, 0⟩ ∧
    (1 + ((|(-1 : ℤ)| + |(0 : ℤ)| + |(0 : ℤ)| : ℤ) : ℚ) * (1 / 10)) *
        (fun a : ℤ => if a = 0 then (9 : ℚ) else if a = 1 then 19 / 2 else
          if a = 2 then 11 else 100)
          (Box.index ⟨⟨0, 0, 0⟩, ⟨4, 0, 0⟩, ⟨false, false, false⟩⟩ ⟨2 + -1, 0 + 0, 0 + 0⟩) <
      (1 + ((|(-2 : ℤ)| + |(0 : ℤ)| + |(0 : ℤ)| : ℤ) : ℚ) * (1 / 10)) *
        (fun a : ℤ => if a = 0 then (9 : ℚ) else if a = 1 then 19 / 2 else
          if a = 2 then 11 else 100)
          (Box.index ⟨⟨0, 0, 0⟩, ⟨4, 0, 0⟩, ⟨false, false, false⟩⟩ ⟨2 + -2, 0 + 0, 0 + 0⟩) := by
  have hc : shift_candidates ⟨2, 0, 0⟩ =
      [⟨-2, 0, 0⟩, ⟨-1, 0, 0⟩, ⟨0, 0, 0⟩, ⟨1, 0, 0⟩, ⟨2, 0, 0⟩] := by decide
  refine ⟨?_, by decide, ?_⟩
  · simp only [choose_stencil_shift, hc, List.foldl_cons, List.foldl_nil, lt_min_dd,
      Box.index, Box.length, IntVect.getVect]
    norm_num
  · norm_num [Box.index, Box.length, IntVect.getVect]

/-! ### The shift search in rounded arithmetic -/

/-- In exact arithmetic the rounded shift search is the shift search of the driver. -/
theorem choose_stencil_shift_rounded_exact (diffptr : ℤ → ℚ) (diffbox : Box)
    (radius ind : IntVect) :
    choose_stencil_shift_rounded RealArithmetic.exact diffptr diffbox radius ind =
      choose_stencil_shift diffptr diffbox radius ind := rfl

/-- Exact arithmetic is a rounding. -/
theorem RealArithmetic.exact_rounds : RealArithmetic.exact.rounds :=
  ⟨fun _ _ h => h, rfl, rfl, by norm_num [RealArithmetic.exact]⟩

/-- The computed penalised value of a representable divided difference that is not
negative is not below the divided difference itself. -/
theorem le_penalised_dd (A : RealArithmetic) (hA : A.rounds) (shift : IntVect) (dd : ℚ)
    (h0 : 0 ≤ dd) (hfl : A.fl dd = dd) : dd ≤ penalised_dd A shift dd := by
  obtain ⟨hmono, hz, hone, ht⟩ := hA
  unfold penalised_dd
  have hn : (0 : ℚ) ≤ ((|shift.x| + |shift.y| + |shift.z| : ℤ) : ℚ) * A.tenth := by
    have : (0 : ℚ) ≤ ((|shift.x| + |shift.y| + |shift.z| : ℤ) : ℚ) := by positivity
    exact mul_nonneg this ht
  have hp : 0 ≤ A.fl (((|shift.x| + |shift.y| + |shift.z| : ℤ) : ℚ) * A.tenth) := by
    rw [← hz]
    exact hmono _ _ hn
  have hs : 1 ≤ A.fl (1 + A.fl (((|shift.x| + |shift.y| + |shift.z| : ℤ) : ℚ) * A.tenth)) := by
    rw [← hone]
    apply hmono
    rw [hone]
    linarith
  have hprod : dd ≤
      A.fl (1 + A.fl (((|shift.x| + |shift.y| + |shift.z| : ℤ) : ℚ) * A.tenth)) * dd := by
    nlinarith
  calc dd = A.fl dd := hfl.symm
    _ ≤ _ := hmono _ _ hprod

/-- Invariant of the rounded shift search after the candidates `L`. -/
theorem choose_stencil_shift_rounded_invariant (A : RealArithmetic) (hA : A.rounds)
    (diffptr : ℤ → ℚ) (diffbox : Box) (ind : IntVect)
    (hdd : ∀ a, 0 ≤ diffptr a ∧ A.fl (diffptr a) = diffptr a) (L : List IntVect) :
    let st := L.foldl
      (fun (st : ShiftSearch) (shift : IntVect) =>
        let ind1 : IntVect := ⟨ind.x + shift.x, ind.y + shift.y, ind.z + shift.z⟩
        let dd := diffptr (diffbox.index ind1)
        if lt_min_dd (penalised_dd A shift dd) st.min_dd = true then
          { min_shift := shift, min_dd := some dd, reads := st.reads ++ [diffbox.index ind1] }
        else { st with reads := st.reads ++ [diffbox.index ind1] })
      { min_shift := ⟨0, 0, 0⟩, min_dd := none, reads := [] }
    (L = [] ∧ st.min_dd = none ∧ st.min_shift = ⟨0, 0, 0⟩) ∨
      (st.min_shift ∈ L ∧
        st.min_dd = some (diffptr (diffbox.index
          ⟨ind.x + st.min_shift.x, ind.y + st.min_shift.y, ind.z + st.min_shift.z⟩)) ∧
        ∀ c ∈ L, diffptr (diffbox.index
            ⟨ind.x + st.min_shift.x, ind.y + st.min_shift.y, ind.z + st.min_shift.z⟩) ≤
          penalised_dd A c (diffptr (diffbox.index ⟨ind.x + c.x, ind.y + c.y, ind.z + c.z⟩))) := by
  induction L using List.reverseRecOn with
  | nil => left; exact ⟨rfl, rfl, rfl⟩
  | append_singleton l a ih =>
    right
    simp only [List.foldl_append, List.foldl_cons, List.foldl_nil]
    simp only at ih
    generalize l.foldl _ _ = st at ih ⊢
    have hpen : ∀ c : IntVect, diffptr (diffbox.index ⟨ind.x + c.x, ind.y + c.y, ind.z + c.z⟩) ≤
        penalised_dd A c (diffptr (diffbox.index ⟨ind.x + c.x, ind.y + c.y, ind.z + c.z⟩)) :=
      fun c => le_penalised_dd A hA c _ (hdd _).1 (hdd _).2
    rcases ih with ⟨hl, hn, -⟩ | ⟨hm, hd, hall⟩
    · subst hl
      simp only [hn, lt_min_dd, if_true, List.nil_append, List.mem_singleton, true_and,
        forall_eq]
      exact hpen a
    · rw [hd]
      simp only [lt_min_dd, decide_eq_true_eq]
      split_ifs with hlt
      · refine ⟨by simp, rfl, ?_⟩
        intro c hc
        rcases List.mem_append.1 hc with hc | hc
        · exact le_trans (le_trans (hpen a) (le_of_lt hlt)) (hall c hc)
        · rw [List.mem_singleton] at hc; subst hc; exact hpen c
      · refine ⟨List.mem_append_left _ hm, rfl, ?_⟩
        intro c hc
        rcases List.mem_append.1 hc with hc | hc
        · exact hall c hc
        · rw [List.mem_singleton] at hc; subst hc; exact not_lt.1 hlt

theorem round_half_even_bounds (q : ℚ) :
    q - 1 / 2 ≤ (round_half_even q : ℚ) ∧ (round_half_even q : ℚ) ≤ q + 1 / 2 := by
  have h1 := Int.floor_le q
  have h2 := Int.lt_floor_add_one q
  unfold round_half_even
  split_ifs with ha hb hc
  · constructor <;> linarith
  · push_cast; constructor <;> linarith
  · constructor <;> linarith
  · push_cast; constructor <;> linarith

theorem round_half_even_mono (p q : ℚ) (h : p ≤ q) : round_half_even p ≤ round_half_even q := by
  by_contra hlt
  have hlt : round_half_even q + 1 ≤ round_half_even p := by omega
  have hq : ((round_half_even q + 1 : ℤ) : ℚ) ≤ (round_half_even p : ℚ) := by exact_mod_cast hlt
  push_cast at hq
  have b1 := round_half_even_bounds p
  have b2 := round_half_even_bounds q
  have e : p = q := by linarith [b1.2, b2.1]
  subst e
  omega

theorem round_half_even_intCast (n : ℤ) : round_half_even (n : ℚ) = n := by
  unfold round_half_even
  simp

theorem binary64_round_nonneg_zero : binary64_round_nonneg 0 = 0 := by
  unfold binary64_round_nonneg
  simp [round_half_even]

/-- Rounding with a fixed exponent is monotone. -/
theorem round_scaled_mono (e : ℤ) (x y : ℚ) (h : x ≤ y) :
    (round_half_even (x / 2 ^ e) : ℚ) * 2 ^ e ≤ (round_half_even (y / 2 ^ e) : ℚ) * 2 ^ e := by
  have hpos : (0 : ℚ) < 2 ^ e := zpow_pos (by norm_num) e
  have h1 : x / 2 ^ e ≤ y / 2 ^ e := div_le_div_of_nonneg_right h (le_of_lt hpos)
  have h2 : (round_half_even (x / 2 ^ e) : ℚ) ≤ (round_half_even (y / 2 ^ e) : ℚ) := by
    exact_mod_cast round_half_even_mono _ _ h1
  exact mul_le_mul_of_nonneg_right h2 (le_of_lt hpos)

/-- The rounded value of a positive number stays in the binade of the number, its upper
end included. -/
theorem binary64_round_nonneg_binade (x : ℚ) (hx : 0 < x) :
    (2 : ℚ) ^ Int.log 2 x ≤ binary64_round_nonneg x ∧
      binary64_round_nonneg x ≤ (2 : ℚ) ^ (Int.log 2 x + 1) := by
  have hlo : ((2 : ℕ) : ℚ) ^ Int.log 2 x ≤ x := Int.zpow_log_le_self (by norm_num) hx
  have hhi : x < ((2 : ℕ) : ℚ) ^ (Int.log 2 x + 1) := Int.lt_zpow_succ_log_self (by norm_num) x
  simp only [Nat.cast_ofNat] at hlo hhi
  unfold binary64_round_nonneg
  set k := Int.log 2 x with hk
  have hpos : (0 : ℚ) < 2 ^ (k - 52) := zpow_pos (by norm_num) _
  have e1 : (2 : ℚ) ^ k = ((2 ^ 52 : ℤ) : ℚ) * 2 ^ (k - 52) := by
    have : k = 52 + (k - 52) := by ring
    conv_lhs => rw [this, zpow_add₀ (by norm_num : (2 : ℚ) ≠ 0)]
    norm_num
  have e2 : (2 : ℚ) ^ (k + 1) = ((2 ^ 53 : ℤ) : ℚ) * 2 ^ (k - 52) := by
    have : k + 1 = 53 + (k - 52) := by ring
    conv_lhs => rw [this, zpow_add₀ (by norm_num : (2 : ℚ) ≠ 0)]
    norm_num
  have s1 : ((2 ^ 52 : ℤ) : ℚ) ≤ x / 2 ^ (k - 52) := by
    rw [le_div_iff₀ hpos, ← e1]; exact hlo
  have s2 : x / 2 ^ (k - 52) ≤ ((2 ^ 53 : ℤ) : ℚ) := by
    rw [div_le_iff₀ hpos, ← e2]; exact le_of_lt hhi
  have r1 := round_half_even_mono _ _ s1
  have r2 := round_half_even_mono _ _ s2
  rw [round_half_even_intCast] at r1 r2
  have q1 : ((2 ^ 52 : ℤ) : ℚ) ≤ (round_half_even (x / 2 ^ (k - 52)) : ℚ) := by exact_mod_cast r1
  have q2 : (round_half_even (x / 2 ^ (k - 52)) : ℚ) ≤ ((2 ^ 53 : ℤ) : ℚ) := by exact_mod_cast r2
  rw [e1, e2]
  exact ⟨mul_le_mul_of_nonneg_right q1 (le_of_lt hpos),
    mul_le_mul_of_nonneg_right q2 (le_of_lt hpos)⟩

theorem binary64_round_nonneg_nonneg (x : ℚ) (hx : 0 ≤ x) : 0 ≤ binary64_round_nonneg x := by
  rcases eq_or_lt_of_le hx with h | h
  · rw [← h, binary64_round_nonneg_zero]
  · exact le_trans (le_of_lt (zpow_pos (by norm_num) _)) (binary64_round_nonneg_binade x h).1

/-- Rounding to 53 bits is monotone on the numbers that are not negative. -/
theorem binary64_round_nonneg_mono (x y : ℚ) (hx : 0 ≤ x) (h : x ≤ y) :
    binary64_round_nonneg x ≤ binary64_round_nonneg y := by
  rcases eq_or_lt_of_le hx with h0 | h0
  · rw [← h0, binary64_round_nonneg_zero]
    exact binary64_round_nonneg_nonneg y (le_trans hx h)
  · have hy : 0 < y := lt_of_lt_of_le h0 h
    have hk : Int.log 2 x ≤ Int.log 2 y := Int.log_mono_right h0 h
    rcases eq_or_lt_of_le hk with he | hlt
    · unfold binary64_round_nonneg
      rw [he]
      exact round_scaled_mono _ x y h
    · have b1 := (binary64_round_nonneg_binade x h0).2
      have b2 := (binary64_round_nonneg_binade y hy).1
      have b3 : (2 : ℚ) ^ (Int.log 2 x + 1) ≤ 2 ^ Int.log 2 y :=
        zpow_le_zpow_right₀ (by norm_num) (by omega)
      linarith

/-- The rounding of binary64 is monotone. -/
theorem binary64_round_mono (x y : ℚ) (h : x ≤ y) : binary64_round x ≤ binary64_round y := by
  unfold binary64_round
  split_ifs with hx hy hy
  · have := binary64_round_nonneg_mono (-y) (-x) (by linarith) (by linarith)
    linarith
  · have h1 := binary64_round_nonneg_nonneg (-x) (by linarith)
    have h2 := binary64_round_nonneg_nonneg y (by linarith)
    linarith
  · linarith
  · exact binary64_round_nonneg_mono x y (by linarith) h

/-- A positive number with a significand of at most 53 bits is returned unchanged. -/
theorem binary64_round_representable (m : ℤ) (e : ℤ) (hm : 2 ^ 52 ≤ m ∧ m < 2 ^ 53) :
    binary64_round ((m : ℚ) * 2 ^ e) = (m : ℚ) * 2 ^ e := by
  have hpos : (0 : ℚ) < 2 ^ e := zpow_pos (by norm_num) e
  have hm0 : (0 : ℚ) < (m : ℚ) := by
    have : (0 : ℤ) < m := by omega
    exact_mod_cast this
  have hx : (0 : ℚ) < (m : ℚ) * 2 ^ e := mul_pos hm0 hpos
  have hlog : Int.log 2 ((m : ℚ) * 2 ^ e) = 52 + e := by
    apply le_antisymm
    · have h2 : (m : ℚ) * 2 ^ e < ((2 : ℕ) : ℚ) ^ (53 + e) := by
        rw [Nat.cast_ofNat, zpow_add₀ (by norm_num : (2 : ℚ) ≠ 0)]
        have : (m : ℚ) < 2 ^ (53 : ℤ) := by
          have := hm.2
          norm_num
          exact_mod_cast this
        exact mul_lt_mul_of_pos_right this hpos
      have := (Int.lt_zpow_iff_log_lt (by norm_num : 1 < 2) hx).1 h2
      omega
    · have h1 : ((2 : ℕ) : ℚ) ^ (52 + e) ≤ (m : ℚ) * 2 ^ e := by
        rw [Nat.cast_ofNat, zpow_add₀ (by norm_num : (2 : ℚ) ≠ 0)]
        have : (2 : ℚ) ^ (52 : ℤ) ≤ (m : ℚ) := by
          have := hm.1
          norm_num
          exact_mod_cast this
        exact mul_le_mul_of_nonneg_right this (le_of_lt hpos)
      exact (Int.zpow_le_iff_le_log (by norm_num : 1 < 2) hx).1 h1
  unfold binary64_round
  rw [if_neg (by linarith)]
  unfold binary64_round_nonneg
  rw [hlog]
  have he : 52 + e - 52 = e := by ring
  rw [he, mul_div_assoc, div_self (ne_of_gt hpos), mul_one, round_half_even_intCast]

/-- The arithmetic of `double` is a rounding in the sense of `RealArithmetic.rounds`. -/
theorem RealArithmetic.binary64_rounds : RealArithmetic.binary64.rounds := by
  refine ⟨binary64_round_mono, ?_, ?_, ?_⟩
  · show binary64_round 0 = 0
    unfold binary64_round
    rw [if_neg (by norm_num), binary64_round_nonneg_zero]
  · show binary64_round 1 = 1
    have h := binary64_round_representable (2 ^ 52) (-52) (by norm_num)
    have e : (((2 ^ 52 : ℤ) : ℚ)) * 2 ^ (-52 : ℤ) = 1 := by norm_num
    rw [e] at h
    exact h
  · show (0 : ℚ) ≤ 3602879701896397 / 36028797018963968
    norm_num

/-- An integer closer than 1/2 to a number is the rounded number. -/
theorem round_half_even_of_near (q : ℚ) (n : ℤ) (h : |q - n| < 1 / 2) :
    round_half_even q = n := by
  have b := round_half_even_bounds q
  rw [abs_lt] at h
  have h1 : ((round_half_even q : ℤ) : ℚ) < (n : ℚ) + 1 := by linarith
  have h2 : (n : ℚ) < ((round_half_even q : ℤ) : ℚ) + 1 := by linarith
  have h3 : round_half_even q < n + 1 := by exact_mod_cast h1
  have h4 : n < round_half_even q + 1 := by exact_mod_cast h2
  omega

/-- The rounding of a positive number of the binade `[2 ^ k, 2 ^ (k + 1))`. -/
theorem binary64_round_of_near (x : ℚ) (k n : ℤ) (h1 : (2 : ℚ) ^ k ≤ x)
    (h2 : x < (2 : ℚ) ^ (k + 1)) (hn : |x / 2 ^ (k - 52) - n| < 1 / 2) :
    binary64_round x = (n : ℚ) * 2 ^ (k - 52) := by
  have hx : 0 < x := lt_of_lt_of_le (zpow_pos (by norm_num) k) h1
  have hlog : Int.log 2 x = k := by
    apply le_antisymm
    · have := (Int.lt_zpow_iff_log_lt (by norm_num : 1 < 2) hx).1
        (by rw [Nat.cast_ofNat]; exact h2)
      omega
    · exact (Int.zpow_le_iff_le_log (by norm_num : 1 < 2) hx).1
        (by rw [Nat.cast_ofNat]; exact h1)
  unfold binary64_round
  rw [if_neg (by linarith)]
  unfold binary64_round_nonneg
  rw [hlog, round_half_even_of_near _ n hn]

/-- The sum `1 + CCTK_REAL(0.1)` in `double` is the `double` nearest to 1.1. -/
theorem binary64_one_add_tenth :
    binary64_round (1 + binary64_round (((1 : ℤ) : ℚ) * RealArithmetic.binary64.tenth)) =
      4953959590107546 / 4503599627370496 := by
  have e1 : ((1 : ℤ) : ℚ) * RealArithmetic.binary64.tenth =
      ((7205759403792794 : ℤ) : ℚ) * 2 ^ (-56 : ℤ) := by
    norm_num [RealArithmetic.binary64]
  rw [e1, binary64_round_representable 7205759403792794 (-56) (by norm_num)]
  rw [binary64_round_of_near _ 0 4953959590107546 (by norm_num) (by norm_num)
    (by rw [abs_lt]; constructor <;> norm_num)]
  norm_num

/-- The value `(1 + penalty) * dd` that `double` arithmetic computes for a shift of one
cell and `dd = 3` is the `double` above 3.3, `7430939385161319 / 2 ^ 51`. -/
theorem penalised_dd_binary64_3 :
    penalised_dd RealArithmetic.binary64 ⟨1, 0, 0⟩ 3 = 7430939385161319 / 2251799813685248 := by
  unfold penalised_dd
  simp only [abs_one, abs_zero, add_zero]
  have h := binary64_one_add_tenth
  simp only [RealArithmetic.binary64] at h ⊢
  rw [h]
  have e : (4953959590107546 / 4503599627370496 : ℚ) * 3 =
      ((7430939385161319 : ℤ) : ℚ) * 2 ^ (-51 : ℤ) := by norm_num
  rw [e, binary64_round_representable 7430939385161319 (-51) (by norm_num)]
  norm_num

/-- Without a shift the penalised value is the divided difference itself. -/
theorem penalised_dd_binary64_4 :
    penalised_dd RealArithmetic.binary64 ⟨0, 0, 0⟩ 4 = 4 := by
  obtain ⟨-, hz, hone, -⟩ := RealArithmetic.binary64_rounds
  unfold penalised_dd
  simp only [abs_zero, add_zero, Int.cast_zero, zero_mul, hz, hone, one_mul]
  have e : (4 : ℚ) = ((2 ^ 52 : ℤ) : ℚ) * 2 ^ (-50 : ℤ) := by norm_num
  show binary64_round 4 = 4
  rw [e, binary64_round_representable (2 ^ 52) (-50) (by norm_num)]

/-- The shift search on three divided differences that are `double` values: 3.3000000000000003
at the shift -1, 4 at the shift 0 and 3 at the shift +1 (radius 1 along x).  In `double`
arithmetic the penalised value of the shift +1 is computed as 3.3000000000000003, which is
not smaller than `min_dd`, and the search keeps the shift -1; in exact arithmetic the
penalised value is 33/10, which is smaller, and the search selects +1. -/
theorem choose_stencil_shift_rounded_differs :
    (choose_stencil_shift_rounded RealArithmetic.binary64
        (fun a => if a = 0 then 7430939385161319 / 2251799813685248 else
          if a = 1 then 4 else 3)
        ⟨⟨0, 0, 0⟩, ⟨2, 0, 0⟩, ⟨false, false, false⟩⟩ ⟨1, 0, 0⟩ ⟨1, 0, 0⟩).min_shift =
      ⟨-1, 0, 0⟩ ∧
    (choose_stencil_shift
        (fun a => if a = 0 then 7430939385161319 / 2251799813685248 else
          if a = 1 then 4 else 3)
        ⟨⟨0, 0, 0⟩, ⟨2, 0, 0⟩, ⟨false, false, false⟩⟩ ⟨1, 0, 0⟩ ⟨1, 0, 0⟩).min_shift =
      ⟨1, 0, 0⟩ := by
  have hc : shift_candidates ⟨1, 0, 0⟩ = [⟨-1, 0, 0⟩, ⟨0, 0, 0⟩, ⟨1, 0, 0⟩] := by decide
  constructor
  · simp only [choose_stencil_shift_rounded, hc, List.foldl_cons, List.foldl_nil, lt_min_dd,
      Box.index, Box.length, IntVect.getVect]
    norm_num [penalised_dd_binary64_3, penalised_dd_binary64_4]
  · simp only [choose_stencil_shift, hc, List.foldl_cons, List.foldl_nil, lt_min_dd,
      Box.index, Box.length, IntVect.getVect]
    norm_num

/-- C12 (amended): the bound that the shift search guarantees, in the arithmetic of
`CCTK_REAL`.  For every arithmetic `A` that rounds monotonically and is exact on 0 and 1
(exact arithmetic and the arithmetic of `double` are such), stored divided differences
that are not negative and are values of the format (`fl dd = dd`), and radii that are not
negative: the selected shift is one of the candidates, and its own (unpenalised) divided
difference does not exceed the penalised value `(1 + penalty) * dd` of any candidate as
the code computes it (`penalised_dd`: penalty, sum and product each rounded).  The running
minimum `min_dd` stores the unpenalised value, and a candidate replaces it only if its
computed penalised value is strictly smaller. -/
theorem choose_stencil_shift_bound (A : RealArithmetic) (hA : A.rounds)
    (diffptr : ℤ → ℚ) (diffbox : Box) (radius ind : IntVect)
    (hr : 0 ≤ radius.x ∧ 0 ≤ radius.y ∧ 0 ≤ radius.z)
    (hdd : ∀ a, 0 ≤ diffptr a ∧ A.fl (diffptr a) = diffptr a) :
    (choose_stencil_shift_rounded A diffptr diffbox radius ind).min_shift ∈
        shift_candidates radius ∧
      ∀ c ∈ shift_candidates radius,
        diffptr (diffbox.index
            ⟨ind.x + (choose_stencil_shift_rounded A diffptr diffbox radius ind).min_shift.x,
              ind.y + (choose_stencil_shift_rounded A diffptr diffbox radius ind).min_shift.y,
              ind.z + (choose_stencil_shift_rounded A diffptr diffbox radius ind).min_shift.z⟩) ≤
          penalised_dd A c (diffptr (diffbox.index ⟨ind.x + c.x, ind.y + c.y, ind.z + c.z⟩)) := by
  have h0 : (⟨0, 0, 0⟩ : IntVect) ∈ shift_candidates radius := by
    rw [mem_shift_candidates]; simp only; omega
  rcases choose_stencil_shift_rounded_invariant A hA diffptr diffbox ind hdd
    (shift_candidates radius) with ⟨hnil, -, -⟩ | ⟨hm, -, hall⟩
  · rw [hnil] at h0; cases h0
  · exact ⟨hm, hall⟩

/-- C12 (amended), at a concrete input in the arithmetic of `double`: radius 1 along x,
index 1, divided differences 3.3000000000000003, 4 and 3 at the elements 0, 1 and 2. -/
theorem choose_stencil_shift_bound_witness :
    RealArithmetic.binary64.rounds ∧ (0 ≤ (1 : ℤ) ∧ 0 ≤ (0 : ℤ) ∧ 0 ≤ (0 : ℤ)) ∧
      (∀ a : ℤ,
        (0 : ℚ) ≤ (if a = 0 then 7430939385161319 / 2251799813685248 else
          if a = 1 then 4 else 3) ∧
        RealArithmetic.binary64.fl (if a = 0 then 7430939385161319 / 2251799813685248 else
          if a = 1 then 4 else 3) =
          (if a = 0 then 7430939385161319 / 2251799813685248 else if a = 1 then 4 else 3)) ∧
      ((choose_stencil_shift_rounded RealArithmetic.binary64
            (fun a => if a = 0 then 7430939385161319 / 2251799813685248 else
              if a = 1 then 4 else 3)
            ⟨⟨0, 0, 0⟩, ⟨2, 0, 0⟩, ⟨false, false, false⟩⟩ ⟨1, 0, 0⟩ ⟨1, 0, 0⟩).min_shift ∈
          shift_candidates ⟨1, 0, 0⟩ ∧
        ∀ c ∈ shift_candidates ⟨1, 0, 0⟩,
          (fun a : ℤ => if a = 0 then (7430939385161319 / 2251799813685248 : ℚ) else
              if a = 1 then 4 else 3)
            (Box.index ⟨⟨0, 0, 0⟩, ⟨2, 0, 0⟩, ⟨false, false, false⟩⟩
              ⟨1 + (choose_stencil_shift_rounded RealArithmetic.binary64
                  (fun a => if a = 0 then 7430939385161319 / 2251799813685248 else
                    if a = 1 then 4 else 3)
                  ⟨⟨0, 0, 0⟩, ⟨2, 0, 0⟩, ⟨false, false, false⟩⟩ ⟨1, 0, 0⟩
                  ⟨1, 0, 0⟩).min_shift.x,
                0 + (choose_stencil_shift_rounded RealArithmetic.binary64
                  (fun a => if a = 0 then 7430939385161319 / 2251799813685248 else
                    if a = 1 then 4 else 3)
                  ⟨⟨0, 0, 0⟩, ⟨2, 0, 0⟩, ⟨false, false, false⟩⟩ ⟨1, 0, 0⟩
                  ⟨1, 0, 0⟩).min_shift.y,
                0 + (choose_stencil_shift_rounded RealArithmetic.binary64
                  (fun a => if a = 0 then 7430939385161319 / 2251799813685248 else
                    if a = 1 then 4 else 3)
                  ⟨⟨0, 0, 0⟩, ⟨2, 0, 0⟩, ⟨false, false, false⟩⟩ ⟨1, 0, 0⟩
                  ⟨1, 0, 0⟩).min_shift.z⟩) ≤
            penalised_dd RealArithmetic.binary64 c
              ((fun a : ℤ => if a = 0 then (7430939385161319 / 2251799813685248 : ℚ) else
                  if a = 1 then 4 else 3)
                (Box.index ⟨⟨0, 0, 0⟩, ⟨2, 0, 0⟩, ⟨false, false, false⟩⟩
                  ⟨1 + c.x, 0 + c.y, 0 + c.z⟩))) :=
  have hdd : ∀ a : ℤ,
      (0 : ℚ) ≤ (if a = 0 then 7430939385161319 / 2251799813685248 else
        if a = 1 then 4 else 3) ∧
      RealArithmetic.binary64.fl (if a = 0 then 7430939385161319 / 2251799813685248 else
        if a = 1 then 4 else 3) =
        (if a = 0 then 7430939385161319 / 2251799813685248 else if a = 1 then 4 else 3) := by
    intro a
    have e0 : (7430939385161319 / 2251799813685248 : ℚ) =
        ((7430939385161319 : ℤ) : ℚ) * 2 ^ (-51 : ℤ) := by norm_num
    have e1 : (4 : ℚ) = ((2 ^ 52 : ℤ) : ℚ) * 2 ^ (-50 : ℤ) := by norm_num
    have e2 : (3 : ℚ) = ((6755399441055744 : ℤ) : ℚ) * 2 ^ (-51 : ℤ) := by norm_num
    have r0 := binary64_round_representable 7430939385161319 (-51) (by norm_num)
    have r1 := binary64_round_representable (2 ^ 52) (-50) (by norm_num)
    have r2 := binary64_round_representable 6755399441055744 (-51) (by norm_num)
    rw [← e0] at r0
    rw [← e1] at r1
    rw [← e2] at r2
    split_ifs
    · exact ⟨by norm_num, r0⟩
    · exact ⟨by norm_num, r1⟩
    · exact ⟨by norm_num, r2⟩
  ⟨RealArithmetic.binary64_rounds, by decide, hdd,
    choose_stencil_shift_bound RealArithmetic.binary64 RealArithmetic.binary64_rounds
      (fun a => if a = 0 then 7430939385161319 / 2251799813685248 else if a = 1 then 4 else 3)
      ⟨⟨0, 0, 0⟩, ⟨2, 0, 0⟩, ⟨false, false, false⟩⟩ ⟨1, 0, 0⟩ ⟨1, 0, 0⟩ (by decide) hdd⟩

/-- The loop `for (int i = lo; i <= hi; ++i)` starts at `lo` when `lo <= hi`. -/
theorem intRange_cons (lo hi : ℤ) (h : lo ≤ hi) : intRange lo hi = lo :: intRange (lo + 1) hi := by
  unfold intRange
  have e : (hi + 1 - lo).toNat = (hi + 1 - (lo + 1)).toNat + 1 := by omega
  rw [e, List.range_succ_eq_map, List.map_cons, List.map_map]
  simp only [Nat.cast_zero, add_zero, List.cons.injEq, true_and]
  apply List.map_congr_left
  intro n _
  simp only [Function.comp, Nat.succ_eq_add_one, Nat.cast_add, Nat.cast_one]
  omega

/-- The first candidate of the shift search is the corner `(-diradius, -djradius, -dkradius)`. -/
theorem shift_candidates_head (radius : IntVect)
    (hr : 0 ≤ radius.x ∧ 0 ≤ radius.y ∧ 0 ≤ radius.z) :
    ∃ rest, shift_candidates radius = ⟨-radius.x, -radius.y, -radius.z⟩ :: rest := by
  unfold shift_candidates
  rw [intRange_cons (-radius.z) radius.z (by omega), List.flatMap_cons,
    intRange_cons (-radius.y) radius.y (by omega), List.flatMap_cons,
    intRange_cons (-radius.x) radius.x (by omega), List.map_cons]
  exact ⟨_, rfl⟩

/-- When all divided differences are equal (and not negative), the shift search keeps
its first candidate: no later candidate passes the strict comparison, whatever its
penalty, and the comparison with the initial `min_dd` (plus infinity) always succeeds.
The shift selected is the corner `(-diradius, -djradius, -dkradius)`, not `(0, 0, 0)`. -/
theorem choose_stencil_shift_all_equal (v : ℚ) (hv : 0 ≤ v) (diffbox : Box)
    (radius ind : IntVect) (hr : 0 ≤ radius.x ∧ 0 ≤ radius.y ∧ 0 ≤ radius.z) :
    (choose_stencil_shift (fun _ => v) diffbox radius ind).min_shift =
      ⟨-radius.x, -radius.y, -radius.z⟩ := by
  obtain ⟨rest, hrest⟩ := shift_candidates_head radius hr
  unfold choose_stencil_shift
  rw [hrest, List.foldl_cons]
  simp only [lt_min_dd, if_true]
  have key : ∀ (L : List IntVect) (st : ShiftSearch), st.min_dd = some v →
      (L.foldl
        (fun (st : ShiftSearch) (shift : IntVect) =>
          if lt_min_dd ((1 + ((|shift.x| + |shift.y| + |shift.z| : ℤ) : ℚ) * (1 / 10)) * v)
              st.min_dd = true then
            { min_shift := shift, min_dd := some v,
              reads := st.reads ++
                [diffbox.index ⟨ind.x + shift.x, ind.y + shift.y, ind.z + shift.z⟩] }
          else
            { st with
              reads := st.reads ++
                [diffbox.index ⟨ind.x + shift.x, ind.y + shift.y, ind.z + shift.z⟩] })
        st).min_shift = st.min_shift := by
    intro L
    induction L with
    | nil => intro st _; rfl
    | cons c L ih =>
      intro st hst
      rw [List.foldl_cons]
      have hno : ¬ (1 + ((|c.x| + |c.y| + |c.z| : ℤ) : ℚ) * (1 / 10)) * v < v := by
        have h1 : (0 : ℚ) ≤ ((|c.x| + |c.y| + |c.z| : ℤ) : ℚ) * (1 / 10) := by positivity
        nlinarith
      have hstep : lt_min_dd ((1 + ((|c.x| + |c.y| + |c.z| : ℤ) : ℚ) * (1 / 10)) * v)
          st.min_dd = false := by
        rw [hst]; simp only [lt_min_dd, decide_eq_false_iff_not]; exact hno
      rw [hstep]
      simp only [Bool.false_eq_true, if_false]
      exact ih _ hst
  exact key rest _ rfl

set_option maxHeartbeats 8000000 in
set_option maxRecDepth 100000 in
/-- C13, evaluated at a failing input.  Instance `prolongate_ddf_eno_3d_rf2_c111_o3` (cell
centering, eno of order 2 on every axis, radii `(1, 1, 1)`), constant coarse data 7 on the
coarse box `[-2,2]³`, `diffbox = [-1,1]³`, coarse index `(0, 0, 0)`.  The
divided-difference loop returns; every stored divided difference is 0, so every
candidate, the zero shift included, attains the minimal penalised value 0; the shift
selected is `(-1, -1, -1)`, the first candidate visited, and not `(0, 0, 0)`. -/
theorem choose_stencil_shift_ties_not_centred :
    match divided_differences_loop prolongate_ddf_eno_3d_rf2_c111_o3
        (fun _ => 7) 0
        ⟨⟨-2, -2, -2⟩, ⟨2, 2, 2⟩, ⟨false, false, false⟩⟩
        ⟨⟨-1, -1, -1⟩, ⟨1, 1, 1⟩, ⟨false, false, false⟩⟩
        (Box.points ⟨⟨-1, -1, -1⟩, ⟨1, 1, 1⟩, ⟨false, false, false⟩⟩)
        ⟨fun _ => 0, fun _ => 0, []⟩ with
    | .ok st =>
      (∀ p ∈ Box.points ⟨⟨-1, -1, -1⟩, ⟨1, 1, 1⟩, ⟨false, false, false⟩⟩,
        st.divided_differences
          (Box.index ⟨⟨-1, -1, -1⟩, ⟨1, 1, 1⟩, ⟨false, false, false⟩⟩ p) = 0) ∧
      (choose_stencil_shift st.divided_differences
          ⟨⟨-1, -1, -1⟩, ⟨1, 1, 1⟩, ⟨false, false, false⟩⟩ ⟨1, 1, 1⟩ ⟨0, 0, 0⟩).min_shift =
        ⟨-1, -1, -1⟩
    | .error _ => False := by
  have hp : Box.points ⟨⟨-1, -1, -1⟩, ⟨1, 1, 1⟩, ⟨false, false, false⟩⟩ =
      shift_candidates ⟨1, 1, 1⟩ := by decide
  have hc : shift_candidates ⟨1, 1, 1⟩ =
      [⟨-1, -1, -1⟩, ⟨0, -1, -1⟩, ⟨1, -1, -1⟩, ⟨-1, 0, -1⟩, ⟨0, 0, -1⟩, ⟨1, 0, -1⟩,
        ⟨-1, 1, -1⟩, ⟨0, 1, -1⟩, ⟨1, 1, -1⟩, ⟨-1, -1, 0⟩, ⟨0, -1, 0⟩, ⟨1, -1, 0⟩,
        ⟨-1, 0, 0⟩, ⟨0, 0, 0⟩, ⟨1, 0, 0⟩, ⟨-1, 1, 0⟩, ⟨0, 1, 0⟩, ⟨1, 1, 0⟩,
        ⟨-1, -1, 1⟩, ⟨0, -1, 1⟩, ⟨1, -1, 1⟩, ⟨-1, 0, 1⟩, ⟨0, 0, 1⟩, ⟨1, 0, 1⟩,
        ⟨-1, 1, 1⟩, ⟨0, 1, 1⟩, ⟨1, 1, 1⟩] := by decide
  rw [hp, hc]
  simp only [divided_differences_loop, prolongate_ddf_eno_3d_rf2_c111_o3, Box.contains,
    Box.index, Box.length, IntVect.getVect, divided_difference_1d, divided_difference_1d_ENO,
    divided_difference_weights, accumulate_fst, accumulate_snd]
  norm_num [List.range_succ, choose_stencil_shift, hc, lt_min_dd, Box.index, Box.length,
    IntVect.getVect, Function.update_apply]

set_option maxHeartbeats 4000000 in
/-- C14, evaluated at the input of the claim.  Instance `prolongate_ddf_eno_3d_rf2_c100_o3`
(eno of order 2 along x, no shifts along y and z, radii `(1, 0, 0)`); the coarse cells
`0..5` along x hold `[0, 0, 0, 10, 10, 10]`, continued by 0 to the left and by 10 to the
right (coarse box `[-4,9]`, element `a` is cell `a - 4`); `diffbox = [-1,6]`.  The
divided-difference loop returns, and the shifts selected for the cells `0..5` are
`-1, -1, -1, +1, 0, -1`: the two cells next to the jump get `-1` and `+1`, but of the
cells away from the jump only cell 4 gets the centred shift 0; the cells 0, 1 and 5,
whose three candidates all have divided difference 0, get the first candidate `-1`. -/
theorem eno_shifts_at_jump :
    match divided_differences_loop prolongate_ddf_eno_3d_rf2_c100_o3
        (fun a => if a ≤ 6 then 0 else 10) 0
        ⟨⟨-4, 0, 0⟩, ⟨9, 0, 0⟩, ⟨false, false, false⟩⟩
        ⟨⟨-1, 0, 0⟩, ⟨6, 0, 0⟩, ⟨false, false, false⟩⟩
        (Box.points ⟨⟨-1, 0, 0⟩, ⟨6, 0, 0⟩, ⟨false, false, false⟩⟩)
        ⟨fun _ => 0, fun _ => 0, []⟩ with
    | .ok st =>
      (Box.points ⟨⟨0, 0, 0⟩, ⟨5, 0, 0⟩, ⟨false, false, false⟩⟩).map
        (fun ind => (choose_stencil_shift st.divided_differences
          ⟨⟨-1, 0, 0⟩, ⟨6, 0, 0⟩, ⟨false, false, false⟩⟩ ⟨1, 0, 0⟩ ind).min_shift) =
        [⟨-1, 0, 0⟩, ⟨-1, 0, 0⟩, ⟨-1, 0, 0⟩, ⟨1, 0, 0⟩, ⟨0, 0, 0⟩, ⟨-1, 0, 0⟩]
    | .error _ => False := by
  have hp : Box.points ⟨⟨-1, 0, 0⟩, ⟨6, 0, 0⟩, ⟨false, false, false⟩⟩ =
      [⟨-1, 0, 0⟩, ⟨0, 0, 0⟩, ⟨1, 0, 0⟩, ⟨2, 0, 0⟩, ⟨3, 0, 0⟩, ⟨4, 0, 0⟩, ⟨5, 0, 0⟩,
        ⟨6, 0, 0⟩] := by decide
  have hq : Box.points ⟨⟨0, 0, 0⟩, ⟨5, 0, 0⟩, ⟨false, false, false⟩⟩ =
      [⟨0, 0, 0⟩, ⟨1, 0, 0⟩, ⟨2, 0, 0⟩, ⟨3, 0, 0⟩, ⟨4, 0, 0⟩, ⟨5, 0, 0⟩] := by decide
  have hc : shift_candidates ⟨1, 0, 0⟩ = [⟨-1, 0, 0⟩, ⟨0, 0, 0⟩, ⟨1, 0, 0⟩] := by decide
  rw [hp, hq]
  simp only [divided_differences_loop, prolongate_ddf_eno_3d_rf2_c100_o3, Box.contains,
    Box.index, Box.length, IntVect.getVect, divided_difference_1d, divided_difference_1d_ENO,
    divided_difference_weights, accumulate_fst, accumulate_snd]
  norm_num [List.range_succ, choose_stencil_shift, hc, lt_min_dd, Box.index, Box.length,
    IntVect.getVect, Function.update_apply]

/-! ## Packed shifts and the shift map (C15, C16) -/

/-- The three bytes of the packed shift do not overlap: the bitwise "or" is a sum. -/
theorem pack_shifts_eq (s : IntVect) :
    pack_shifts s =
      ((uint8_t s.x + 256 * uint8_t s.y + 65536 * uint8_t s.z : ℕ) : ℤ) := by
  have hx : uint8_t s.x < 256 := by unfold uint8_t; omega
  have hy : uint8_t s.y < 256 := by unfold uint8_t; omega
  have hz : uint8_t s.z < 256 := by unfold uint8_t; omega
  unfold pack_shifts
  generalize uint8_t s.x = a at hx
  generalize uint8_t s.y = b at hy
  generalize uint8_t s.z = c at hz
  have h2 : a <<< 0 ||| b <<< 8 = 2 ^ 8 * b + a := by
    rw [Nat.shiftLeft_zero, Nat.or_comm, Nat.shiftLeft_eq, Nat.mul_comm b]
    exact (Nat.mul_add_lt_is_or (by omega) b).symm
  have h3 : (a <<< 0 ||| b <<< 8) ||| c <<< 16 = 2 ^ 16 * c + (2 ^ 8 * b + a) := by
    rw [h2, Nat.or_comm, Nat.shiftLeft_eq, Nat.mul_comm c]
    exact (Nat.mul_add_lt_is_or (by omega) c).symm
  rw [h3]
  congr 1
  omega

/-- C15: the packed shift round-trips.  For every shift triple whose components lie in
`[-128, 127]` (in particular in `[-ORDER/2, +ORDER/2]`), extracting axis `D` from the packed
integer, `int8_t(packed >> 8 * D)`, gives back component `D`, for `D = 0, 1, 2`. -/
theorem unpack_pack_shifts (s : IntVect)
    (h : (-128 ≤ s.x ∧ s.x ≤ 127) ∧ (-128 ≤ s.y ∧ s.y ≤ 127) ∧ (-128 ≤ s.z ∧ s.z ≤ 127)) :
    unpack_shift (pack_shifts s) 0 = s.x ∧ unpack_shift (pack_shifts s) 1 = s.y ∧
      unpack_shift (pack_shifts s) 2 = s.z := by
  rw [pack_shifts_eq]
  have hx : ((uint8_t s.x : ℕ) : ℤ) = s.x % 256 := by unfold uint8_t; omega
  have hy : ((uint8_t s.y : ℕ) : ℤ) = s.y % 256 := by unfold uint8_t; omega
  have hz : ((uint8_t s.z : ℕ) : ℤ) = s.z % 256 := by unfold uint8_t; omega
  generalize uint8_t s.x = a at hx
  generalize uint8_t s.y = b at hy
  generalize uint8_t s.z = c at hz
  have e0 : ∀ N : ℕ, (N : ℤ) >>> (0 : ℤ) = ((N / 2 ^ 0 : ℕ) : ℤ) := fun N => by
    rw [← Nat.shiftRight_eq_div_pow]; exact Int.shiftRight_coe_nat N 0
  have e8 : ∀ N : ℕ, (N : ℤ) >>> (8 : ℤ) = ((N / 2 ^ 8 : ℕ) : ℤ) := fun N => by
    rw [← Nat.shiftRight_eq_div_pow]; exact Int.shiftRight_coe_nat N 8
  have e16 : ∀ N : ℕ, (N : ℤ) >>> (16 : ℤ) = ((N / 2 ^ 16 : ℕ) : ℤ) := fun N => by
    rw [← Nat.shiftRight_eq_div_pow]; exact Int.shiftRight_coe_nat N 16
  simp only [unpack_shift, int8_t, if_true, one_ne_zero, if_false,
    OfNat.ofNat_ne_zero, OfNat.ofNat_ne_one, e0, e8, e16]
  refine ⟨?_, ?_, ?_⟩ <;> omega

/-- C15, at a concrete input: the triple `(-1, 1, -128)`. -/
theorem unpack_pack_shifts_witness :
    ((-128 ≤ (-1 : ℤ) ∧ (-1 : ℤ) ≤ 127) ∧ (-128 ≤ (1 : ℤ) ∧ (1 : ℤ) ≤ 127) ∧
        (-128 ≤ (-128 : ℤ) ∧ (-128 : ℤ) ≤ 127)) ∧
      unpack_shift (pack_shifts ⟨-1, 1, -128⟩) 0 = -1 ∧
      unpack_shift (pack_shifts ⟨-1, 1, -128⟩) 1 = 1 ∧
      unpack_shift (pack_shifts ⟨-1, 1, -128⟩) 2 = -128 :=
  ⟨by decide, unpack_pack_shifts ⟨-1, 1, -128⟩ (by decide)⟩

/-- The selection loop changes the shift map only at the store positions
`shiftptr + diffbox.index(ind)` of the indices `ind` of the source region. -/
theorem choose_shifts_loop_frame (op : prolongate_3d_rf2) (shiftptr : ℤ)
    (source_region diffbox : Box) (st : EnoState) (a : ℤ)
    (h : ∀ ind ∈ source_region.points, a ≠ shiftptr + diffbox.index ind) :
    (choose_shifts_loop op shiftptr source_region diffbox st).stencil_shifts a =
      st.stencil_shifts a := by
  unfold choose_shifts_loop
  simp only
  generalize source_region.points = pts at h
  induction pts generalizing st with
  | nil => rfl
  | cons p pts ih =>
    rw [List.foldl_cons, ih _ (fun ind hind => h ind (List.mem_cons_of_mem _ hind))]
    exact Function.update_noteq (h p (List.mem_cons_self _ _)) _ _

/-- The element of the shift map read by the kernel of `interp3d`, in terms of
`shiftbox.index`: the fine indices of the directions already interpolated (`d ≤ D`) are
coarsened, the others are taken as they are. -/
theorem interp3d_shiftind_eq (D : ℕ) (stencil_shifts_ptr : ℤ) (stencil_shifts_box : Box)
    (i j k : ℤ) :
    interp3d_shiftind D stencil_shifts_ptr stencil_shifts_box i j k =
      stencil_shifts_ptr + stencil_shifts_box.index
        ⟨if 0 > D then i else div_floor i 2, if 1 > D then j else div_floor j 2,
          if 2 > D then k else div_floor k 2⟩ := by
  simp only [interp3d_shiftind]
  rw [Box.index_strided]

/-- For every operator that uses shifts (some axis is eno of order at least 2) and every
non-empty source region, the shift of the first coarse index `ind = source_region.lo` is
stored at `shiftptr + diffbox.index(ind)`, which is strictly beyond the position
`shiftptr + shiftbox.index(ind)` that the x-sweep reads for the fine point
`(2 * ind.x, ind.y, ind.z)`. -/
theorem shift_store_beyond_read (op : prolongate_3d_rf2) (source_region : Box)
    (hok : source_region.ok) (shiftptr : ℤ)
    (heno : (op.INTPI = interpolation_t.eno ∧ 2 ≤ op.ORDERI) ∨
      (op.INTPJ = interpolation_t.eno ∧ 2 ≤ op.ORDERJ) ∨
      (op.INTPK = interpolation_t.eno ∧ 2 ≤ op.ORDERK)) :
    interp3d_shiftind 0 shiftptr source_region (2 * source_region.smallend.x)
        source_region.smallend.y source_region.smallend.z <
      shiftptr + (diffbox_of op source_region).index source_region.smallend := by
  rw [interp3d_shiftind_eq, diffbox_of_eq]
  obtain ⟨⟨a1, a2, a3⟩, ⟨b1, b2, b3⟩, t⟩ := source_region
  simp only [Box.ok] at hok
  obtain ⟨h1, h2, h3⟩ := hok
  have hdiv : div_floor (2 * a1) 2 = a1 := by
    simp only [div_floor, Int.fdiv_eq_ediv _ (show (0 : ℤ) ≤ 2 by norm_num)]
    omega
  simp only [Box.index, Box.length, IntVect.getVect, hdiv, gt_iff_lt, lt_self_iff_false,
    if_false, Nat.lt_one_iff, Nat.ofNat_pos, if_true, zero_lt_one, sub_self, mul_zero,
    add_zero, prolongate_3d_rf2.use_shift, prolongate_3d_rf2.INTP, prolongate_3d_rf2.order,
    Bool.and_eq_true, decide_eq_true_eq]
  set rx : ℤ := (if op.INTPI = interpolation_t.eno ∧ op.ORDERI > 0 then
    ((op.ORDERI / 2 : ℕ) : ℤ) else 0) with hrx
  set ry : ℤ := (if op.INTPJ = interpolation_t.eno ∧ op.ORDERJ > 0 then
    ((op.ORDERJ / 2 : ℕ) : ℤ) else 0) with hry
  set rz : ℤ := (if op.INTPK = interpolation_t.eno ∧ op.ORDERK > 0 then
    ((op.ORDERK / 2 : ℕ) : ℤ) else 0) with hrz
  have hx0 : 0 ≤ rx := by rw [hrx]; split_ifs <;> omega
  have hy0 : 0 ≤ ry := by rw [hry]; split_ifs <;> omega
  have hz0 : 0 ≤ rz := by rw [hrz]; split_ifs <;> omega
  have hpos : 1 ≤ rx ∨ 1 ≤ ry ∨ 1 ≤ rz := by
    rcases heno with ⟨e, o⟩ | ⟨e, o⟩ | ⟨e, o⟩
    · left; rw [hrx, if_pos ⟨e, by omega⟩]; omega
    · right; left; rw [hry, if_pos ⟨e, by omega⟩]; omega
    · right; right; rw [hrz, if_pos ⟨e, by omega⟩]; omega
  have e1 : a1 - (a1 - rx) = rx := by ring
  have e2 : a2 - (a2 - ry) = ry := by ring
  have e3 : a3 - (a3 - rz) = rz := by ring
  rw [e1, e2, e3]
  have hL1 : 1 ≤ b1 + rx - (a1 - rx) + 1 := by omega
  have hL2 : 1 ≤ b2 + ry - (a2 - ry) + 1 := by omega
  have hA : 0 ≤ (b1 + rx - (a1 - rx) + 1) * ry := by positivity
  have hB : 0 ≤ (b1 + rx - (a1 - rx) + 1) * (b2 + ry - (a2 - ry) + 1) * rz := by positivity
  rcases hpos with h | h | h
  · linarith
  · nlinarith
  · nlinarith [mul_le_mul hL1 hL2 (by norm_num) (by linarith)]

/-- C16, evaluated at a failing input.  Instance `prolongate_ddf_eno_3d_rf2_c111_o3` (cell
centering, eno of order 2 on every axis), cell-centred target `[0,1]³`, component 0:
`source_region = CoarseBox(target, 2) = [-2,2]³` and `diffbox = [-3,3]³`.  The fine point
`(0, -2, -2)` of the x-sweep maps to the coarse index `(0, -2, -2)` of the source region.
The kernel reads its shift at position 2 of the shift map (`shiftbox = source_region`
strides), the selection loop stores the shift of that index at position 59 (`diffbox`
strides) and leaves position 2 as it was before the loop; the shift of the last index
`(2, 2, 2)` is stored at position 285, beyond the 125 elements of the component's
slice. -/
theorem shift_store_differs_from_read :
    CoarseBox_int prolongate_ddf_eno_3d_rf2_c111_o3
        ⟨⟨0, 0, 0⟩, ⟨1, 1, 1⟩, ⟨false, false, false⟩⟩ 2 =
      .ok ⟨⟨-2, -2, -2⟩, ⟨2, 2, 2⟩, ⟨false, false, false⟩⟩ ∧
    diffbox_of prolongate_ddf_eno_3d_rf2_c111_o3
        ⟨⟨-2, -2, -2⟩, ⟨2, 2, 2⟩, ⟨false, false, false⟩⟩ =
      ⟨⟨-3, -3, -3⟩, ⟨3, 3, 3⟩, ⟨false, false, false⟩⟩ ∧
    Box.contains
      (targets ⟨⟨-2, -2, -2⟩, ⟨2, 2, 2⟩, ⟨false, false, false⟩⟩
        ⟨⟨0, 0, 0⟩, ⟨1, 1, 1⟩, ⟨false, false, false⟩⟩ 0) ⟨0, -2, -2⟩ ∧
    Box.contains ⟨⟨-2, -2, -2⟩, ⟨2, 2, 2⟩, ⟨false, false, false⟩⟩ ⟨0, -2, -2⟩ ∧
    interp3d_crseind 0 0 (-2) (-2) = ⟨0, -2, -2⟩ ∧
    interp3d_shiftind 0 0 ⟨⟨-2, -2, -2⟩, ⟨2, 2, 2⟩, ⟨false, false, false⟩⟩ 0 (-2) (-2) = 2 ∧
    0 + Box.index ⟨⟨-3, -3, -3⟩, ⟨3, 3, 3⟩, ⟨false, false, false⟩⟩ ⟨0, -2, -2⟩ = 59 ∧
    (∀ st : EnoState,
      (choose_shifts_loop prolongate_ddf_eno_3d_rf2_c111_o3 0
          ⟨⟨-2, -2, -2⟩, ⟨2, 2, 2⟩, ⟨false, false, false⟩⟩
          ⟨⟨-3, -3, -3⟩, ⟨3, 3, 3⟩, ⟨false, false, false⟩⟩ st).stencil_shifts 2 =
        st.stencil_shifts 2) ∧
    Box.numPts ⟨⟨-2, -2, -2⟩, ⟨2, 2, 2⟩, ⟨false, false, false⟩⟩ = 125 ∧
    0 + Box.index ⟨⟨-3, -3, -3⟩, ⟨3, 3, 3⟩, ⟨false, false, false⟩⟩ ⟨2, 2, 2⟩ = 285 := by
  refine ⟨by rfl, by decide, by decide, by decide, by decide, by decide, by decide, ?_, by decide,
    by decide⟩
  intro st
  apply choose_shifts_loop_frame
  intro ind hind
  rw [Box.mem_points] at hind
  simp only [Box.contains, Box.index, Box.length, IntVect.getVect] at hind ⊢
  omega

/-! ## Ghost widths and coefficient tables (C17, C18) -/

/-- The ghost width `(ORDER + 1) / 2` (integer division) is the ceiling of `ORDER / 2`. -/
theorem half_up_eq_ceil (ORDER : ℕ) : (ORDER + 1) / 2 = ⌈(ORDER : ℚ) / 2⌉₊ := by
  symm
  rcases Nat.even_or_odd' ORDER with ⟨k, rfl | rfl⟩
  · have e : (2 * k + 1) / 2 = k := by omega
    rw [e]
    have : ((2 * k : ℕ) : ℚ) / 2 = (k : ℚ) := by push_cast; ring
    rw [this, Nat.ceil_natCast]
  · have e : (2 * k + 1 + 1) / 2 = k + 1 := by omega
    rw [e, Nat.ceil_eq_iff (by omega)]
    push_cast
    constructor <;> linarith

/-- C17, counterexample: the ghost width of the cell-centred eno operator is `ORDER`, not
`ORDER / 2`: 2 for order 2 and 4 for order 4. -/
theorem required_ghosts_CC_ENO_not_half :
    interp1d_required_ghosts .cell .eno 2 = 2 ∧ interp1d_required_ghosts .cell .eno 4 = 4 ∧
      interp1d_required_ghosts .cell .eno 2 ≠ 2 / 2 ∧
      interp1d_required_ghosts .cell .eno 4 ≠ 4 / 2 := by
  decide

/-- C17 (amended): for every order, `required_ghosts` is the ceiling of `ORDER / 2` for the
vertex-centred poly and hermite operators, `(ORDER + 1) / 2` for the cell-centred poly
operator, `ORDER / 2` for the cell-centred cons operator at every even order (the
tabulated orders 0, 2, 4, 6 are even; the source has `(ORDER + 1) / 2`), and `ORDER` for
the cell-centred eno operator, whose shifted stencils reach `ORDER / 2` cells farther. -/
theorem required_ghosts_eq (ORDER n : ℕ) :
    interp1d_required_ghosts .vertex .poly ORDER = ⌈(ORDER : ℚ) / 2⌉₊ ∧
      interp1d_required_ghosts .vertex .hermite ORDER = ⌈(ORDER : ℚ) / 2⌉₊ ∧
      interp1d_required_ghosts .cell .poly ORDER = (ORDER + 1) / 2 ∧
      interp1d_required_ghosts .cell .cons (2 * n) = 2 * n / 2 ∧
      interp1d_required_ghosts .cell .eno ORDER = ORDER := by
  refine ⟨half_up_eq_ceil ORDER, half_up_eq_ceil ORDER, rfl, ?_, rfl⟩
  simp only [interp1d_required_ghosts, interp1d_CC_CONS_required_ghosts]
  omega

/-- The tables of the vertex-centred poly family are palindromic. -/
theorem coeffs1d_VC_POLY_palindromic (ORDER i : ℕ) (hi : i ≤ ORDER) :
    (coeffs1d_VC_POLY ORDER).getD i 0 = (coeffs1d_VC_POLY ORDER).getD (ORDER - i) 0 := by
  rcases le_or_lt ORDER 7 with hO | hO
  · interval_cases ORDER <;> interval_cases i <;> simp [coeffs1d_VC_POLY]
  · obtain ⟨m, rfl⟩ : ∃ m, ORDER = m + 8 := ⟨ORDER - 8, by omega⟩
    simp [coeffs1d_VC_POLY]

/-- The tables of the vertex-centred hermite family are palindromic. -/
theorem coeffs1d_VC_HERMITE_palindromic (ORDER i : ℕ) (hi : i ≤ ORDER) :
    (coeffs1d_VC_HERMITE ORDER).getD i 0 = (coeffs1d_VC_HERMITE ORDER).getD (ORDER - i) 0 := by
  rcases le_or_lt ORDER 7 with hO | hO
  · interval_cases ORDER <;> interval_cases i <;> simp [coeffs1d_VC_HERMITE]
  · obtain ⟨m, rfl⟩ : ∃ m, ORDER = m + 8 := ⟨ORDER - 8, by omega⟩
    simp [coeffs1d_VC_HERMITE]

/-- The tables of the cell-centred cons family: `c[i] + c[ORDER - i]` is 0 away from the
centre and 2 at the centre of a tabulated order (the centre coefficient is 1). -/
theorem coeffs1d_CC_CONS_antipalindromic (ORDER i : ℕ) (hi : i ≤ ORDER) :
    (coeffs1d_CC_CONS ORDER).getD i 0 + (coeffs1d_CC_CONS ORDER).getD (ORDER - i) 0 =
      if 2 * i = ORDER ∧ coeffs1d_CC_CONS ORDER ≠ [] then 2 else 0 := by
  rcases le_or_lt ORDER 7 with hO | hO
  · interval_cases ORDER <;> interval_cases i <;> simp [coeffs1d_CC_CONS] <;> norm_num
  · obtain ⟨m, rfl⟩ : ∃ m, ORDER = m + 8 := ⟨ORDER - 8, by omega⟩
    simp [coeffs1d_CC_CONS]

/-- The rows of the cell-centred eno family: row `r` and the mirrored row `ORDER - r`
satisfy `c_r[i] + c_(ORDER - r)[ORDER - i] = 0` except at the coefficient of the centre
cell, `i = ORDER - r`, where the sum is 2. -/
theorem coeffs1d_CC_ENO_mirror (ORDER r i : ℕ) (hr : r ≤ ORDER) (hi : i ≤ ORDER) :
    ((coeffs1d_CC_ENO ORDER).getD r []).getD i 0 +
        ((coeffs1d_CC_ENO ORDER).getD (ORDER - r) []).getD (ORDER - i) 0 =
      if i = ORDER - r ∧ coeffs1d_CC_ENO ORDER ≠ [] then 2 else 0 := by
  rcases le_or_lt ORDER 4 with hO | hO
  · interval_cases ORDER <;> interval_cases r <;> interval_cases i <;>
      simp [coeffs1d_CC_ENO] <;> norm_num
  · obtain ⟨m, rfl⟩ : ∃ m, ORDER = m + 5 := ⟨ORDER - 5, by omega⟩
    simp [coeffs1d_CC_ENO]

/-- The centre coefficient of a tabulated cons table is 1. -/
theorem coeffs1d_CC_CONS_centre (ORDER : ℕ) (h : coeffs1d_CC_CONS ORDER ≠ []) :
    (coeffs1d_CC_CONS ORDER).getD (ORDER / 2) 0 = 1 := by
  rcases le_or_lt ORDER 7 with hO | hO
  · interval_cases ORDER <;> simp [coeffs1d_CC_CONS] at h ⊢
  · obtain ⟨m, rfl⟩ : ∃ m, ORDER = m + 8 := ⟨ORDER - 8, by omega⟩
    simp [coeffs1d_CC_CONS] at h

/-- The centred row `r = ORDER / 2` of a tabulated eno table is the cons table of the same
order. -/
theorem coeffs1d_CC_ENO_centred_row (ORDER : ℕ) (h : coeffs1d_CC_ENO ORDER ≠ []) :
    (coeffs1d_CC_ENO ORDER).getD (ORDER / 2) [] = coeffs1d_CC_CONS ORDER := by
  rcases le_or_lt ORDER 4 with hO | hO
  · interval_cases ORDER <;> simp [coeffs1d_CC_ENO, coeffs1d_CC_CONS] at h ⊢
  · obtain ⟨m, rfl⟩ : ∃ m, ORDER = m + 5 := ⟨ORDER - 5, by omega⟩
    simp [coeffs1d_CC_ENO] at h

/-- The tabulated tables of the cell-centred poly family of order at least 1 are neither
palindromic nor antipalindromic: the first and the last coefficient differ, and they are
not opposite. -/
theorem coeffs1d_CC_POLY_no_symmetry (ORDER : ℕ) (h1 : 1 ≤ ORDER)
    (h : coeffs1d_CC_POLY ORDER ≠ []) :
    (∃ i, i ≤ ORDER ∧
      (coeffs1d_CC_POLY ORDER).getD i 0 ≠ (coeffs1d_CC_POLY ORDER).getD (ORDER - i) 0) ∧
    (∃ i, i ≤ ORDER ∧
      (coeffs1d_CC_POLY ORDER).getD i 0 ≠ -(coeffs1d_CC_POLY ORDER).getD (ORDER - i) 0) := by
  rcases le_or_lt ORDER 4 with hO | hO
  · interval_cases ORDER
    all_goals
      refine ⟨⟨0, by omega, ?_⟩, ⟨0, by omega, ?_⟩⟩ <;>
        simp [coeffs1d_CC_POLY] <;> norm_num
  · obtain ⟨m, rfl⟩ : ∃ m, ORDER = m + 5 := ⟨ORDER - 5, by omega⟩
    simp [coeffs1d_CC_POLY] at h

/-- C18, counterexample: not every table is palindromic or antipalindromic.  Cell-centred
poly, order 1: `c[0] = 1/4` but `c[1] = 3/4`.  Cell-centred cons, order 2: the centre
coefficient `c[1] = 1` is not `-c[1]`.  Eno, order 2, leftmost stencil (row 0):
`c[0] = -1/8` but `-c[2] = -5/8`. -/
theorem coeffs_not_all_symmetric :
    (coeffs1d_CC_POLY 1).getD 0 0 ≠ (coeffs1d_CC_POLY 1).getD (1 - 0) 0 ∧
      (coeffs1d_CC_CONS 2).getD 1 0 ≠ -(coeffs1d_CC_CONS 2).getD (2 - 1) 0 ∧
      ((coeffs1d_CC_ENO 2).getD 0 []).getD 0 0 ≠
        -((coeffs1d_CC_ENO 2).getD 0 []).getD (2 - 0) 0 := by
  simp only [coeffs1d_CC_POLY, coeffs1d_CC_CONS, coeffs1d_CC_ENO, List.getD_cons_zero,
    List.getD_cons_succ]
  norm_num

/-- C18 (amended): the tables of the vertex-centred poly and hermite families are exactly
palindromic, `c[i] = c[ORDER - i]` for `i ≤ ORDER`.  The tables of the cell-centred cons
family are antipalindromic away from the centre, `c[j] + c[ORDER - j] = 0` for
`j ≠ ORDER / 2`, with centre coefficient `c[ORDER / 2] = 1`.  The rows of the eno family
are antipalindromic in mirrored pairs: row `r` against the mirrored row `ORDER - r`,
`c_r[j] + c_(ORDER - r)[ORDER - j] = 0` except at the coefficient of the centre cell,
where the sum is 2; the centred row `r = ORDER / 2` is the cons table.  The tabulated
tables of the cell-centred poly family of order at least 1 are neither palindromic nor
antipalindromic. -/
theorem coeffs_symmetry (ORDER ORDERc ORDERp i j r : ℕ) (hi : i ≤ ORDER) (hj : j ≤ ORDERc)
    (hr : r ≤ ORDERc) (hp : 1 ≤ ORDERp) :
    (coeffs1d_VC_POLY ORDER).getD i 0 = (coeffs1d_VC_POLY ORDER).getD (ORDER - i) 0 ∧
      (coeffs1d_VC_HERMITE ORDER).getD i 0 = (coeffs1d_VC_HERMITE ORDER).getD (ORDER - i) 0 ∧
      (coeffs1d_CC_CONS ORDERc).getD j 0 + (coeffs1d_CC_CONS ORDERc).getD (ORDERc - j) 0 =
        (if 2 * j = ORDERc ∧ coeffs1d_CC_CONS ORDERc ≠ [] then 2 else 0) ∧
      ((coeffs1d_CC_ENO ORDERc).getD r []).getD j 0 +
          ((coeffs1d_CC_ENO ORDERc).getD (ORDERc - r) []).getD (ORDERc - j) 0 =
        (if j = ORDERc - r ∧ coeffs1d_CC_ENO ORDERc ≠ [] then 2 else 0) ∧
      (coeffs1d_CC_CONS ORDERc ≠ [] → (coeffs1d_CC_CONS ORDERc).getD (ORDERc / 2) 0 = 1) ∧
      (coeffs1d_CC_ENO ORDERc ≠ [] →
        (coeffs1d_CC_ENO ORDERc).getD (ORDERc / 2) [] = coeffs1d_CC_CONS ORDERc) ∧
      (coeffs1d_CC_POLY ORDERp ≠ [] →
        (∃ k, k ≤ ORDERp ∧
          (coeffs1d_CC_POLY ORDERp).getD k 0 ≠ (coeffs1d_CC_POLY ORDERp).getD (ORDERp - k) 0) ∧
        (∃ k, k ≤ ORDERp ∧
          (coeffs1d_CC_POLY ORDERp).getD k 0 ≠
            -(coeffs1d_CC_POLY ORDERp).getD (ORDERp - k) 0)) :=
  ⟨coeffs1d_VC_POLY_palindromic ORDER i hi, coeffs1d_VC_HERMITE_palindromic ORDER i hi,
    coeffs1d_CC_CONS_antipalindromic ORDERc j hj, coeffs1d_CC_ENO_mirror ORDERc r j hr hj,
    coeffs1d_CC_CONS_centre ORDERc, coeffs1d_CC_ENO_centred_row ORDERc,
    coeffs1d_CC_POLY_no_symmetry ORDERp hp⟩

/-- C18 (amended), at a concrete input: vertex-centred order 3 at `i = 1`, cell-centred
cons and eno of order 2 at `j = 0`, row `r = 0`, and cell-centred poly of order 2. -/
theorem coeffs_symmetry_witness :
    ((1 : ℕ) ≤ 3 ∧ (0 : ℕ) ≤ 2 ∧ (0 : ℕ) ≤ 2 ∧ (1 : ℕ) ≤ 2) ∧
      coeffs1d_CC_CONS 2 ≠ [] ∧ coeffs1d_CC_ENO 2 ≠ [] ∧ coeffs1d_CC_POLY 2 ≠ [] ∧
      (coeffs1d_VC_POLY 3).getD 1 0 = (coeffs1d_VC_POLY 3).getD (3 - 1) 0 ∧
      (coeffs1d_VC_HERMITE 3).getD 1 0 = (coeffs1d_VC_HERMITE 3).getD (3 - 1) 0 ∧
      (coeffs1d_CC_CONS 2).getD 0 0 + (coeffs1d_CC_CONS 2).getD (2 - 0) 0 =
        (if 2 * 0 = 2 ∧ coeffs1d_CC_CONS 2 ≠ [] then 2 else 0) ∧
      ((coeffs1d_CC_ENO 2).getD 0 []).getD 0 0 +
          ((coeffs1d_CC_ENO 2).getD (2 - 0) []).getD (2 - 0) 0 =
        (if 0 = 2 - 0 ∧ coeffs1d_CC_ENO 2 ≠ [] then 2 else 0) ∧
      (coeffs1d_CC_CONS 2).getD (2 / 2) 0 = 1 ∧
      (coeffs1d_CC_ENO 2).getD (2 / 2) [] = coeffs1d_CC_CONS 2 ∧
      (∃ k, k ≤ 2 ∧
        (coeffs1d_CC_POLY 2).getD k 0 ≠ (coeffs1d_CC_POLY 2).getD (2 - k) 0) ∧
      (∃ k, k ≤ 2 ∧
        (coeffs1d_CC_POLY 2).getD k 0 ≠ -(coeffs1d_CC_POLY 2).getD (2 - k) 0) :=
  have hc : coeffs1d_CC_CONS 2 ≠ [] := by simp [coeffs1d_CC_CONS]
  have he : coeffs1d_CC_ENO 2 ≠ [] := by simp [coeffs1d_CC_ENO]
  have hq : coeffs1d_CC_POLY 2 ≠ [] := by simp [coeffs1d_CC_POLY]
  have h := coeffs_symmetry 3 2 2 1 0 0 (by decide) (by decide) (by decide) (by decide)
  ⟨by decide, hc, he, hq, h.1, h.2.1, h.2.2.1, h.2.2.2.1, h.2.2.2.2.1 hc, h.2.2.2.2.2.1 he,
    (h.2.2.2.2.2.2 hq).1, (h.2.2.2.2.2.2 hq).2⟩

/-! ## Mirror symmetry of the cell-centred operators (C19) -/

/-- A sum over `i = 0, …, n` can be taken in the opposite order. -/
theorem list_range_sum_reflect (n : ℕ) (f : ℕ → ℚ) :
    ((List.range (n + 1)).map (fun i => f (n - i))).sum = ((List.range (n + 1)).map f).sum := by
  have bridge : ∀ (g : ℕ → ℚ) (m : ℕ),
      ((List.range m).map g).sum = ∑ i in Finset.range m, g i := by
    intro g m
    induction m with
    | zero => simp
    | succ m ih => simp [List.range_succ, Finset.sum_range_succ, ih]
  rw [bridge, bridge, ← Finset.sum_range_reflect f (n + 1)]
  apply Finset.sum_congr rfl
  intro i _
  simp only [add_tsub_cancel_right]

/-- C19: offset 1 is the mirror image of offset 0 for the cell-centred operators.  For
every order, every input `u`, stride and shift: `interp1d<CC, POLY, ORDER>` at offset 1
on `u` gives what it gives at offset 0 on the reflected input `u'[m] = u[-m]`, and
`interp1d<CC, ENO, ORDER>` at offset 1 with shift `s` on `u` gives what it gives at
offset 0 with shift `-s` on `u'`. -/
theorem interp1d_CC_offset_mirror (ORDER : ℕ) (u : ℤ → ℚ) (di shift : ℤ) :
    (interp1d_CC_POLY ORDER u di shift 1).1 =
        (interp1d_CC_POLY ORDER (fun m => u (-m)) di shift 0).1 ∧
      (interp1d_CC_ENO ORDER u di shift 1).1 =
        (interp1d_CC_ENO ORDER (fun m => u (-m)) di (-shift) 0).1 := by
  constructor
  · simp only [interp1d_CC_POLY, one_ne_zero, if_false, if_true, accumulate_fst, zero_add]
    rw [← list_range_sum_reflect ORDER
      (fun i => (coeffs1d_CC_POLY ORDER).getD i 0 *
        u (-(((i : ℤ) - (((ORDER + 1) / 2 : ℕ) : ℤ)) * di)))]
    congr 1
    apply List.map_congr_left
    intro i hi
    rw [List.mem_range] at hi
    congr 2
    have hc : ((ORDER - i : ℕ) : ℤ) = (ORDER : ℤ) - i := by omega
    rw [hc]
    have h2 : (2 : ℤ) * (((ORDER + 1) / 2 : ℕ) : ℤ) =
        (ORDER : ℤ) + (if ORDER % 2 ≠ 0 then 1 else 0) := by
      split_ifs <;> omega
    have : (i : ℤ) - (((ORDER + 1) / 2 : ℕ) : ℤ) + (if ORDER % 2 ≠ 0 then 1 else 0) =
        -((ORDER : ℤ) - i - (((ORDER + 1) / 2 : ℕ) : ℤ)) := by linarith
    rw [this]; ring
  · simp only [interp1d_CC_ENO, one_ne_zero, if_false, if_true, accumulate_fst, zero_add]
    have hrow : ((ORDER / 2 : ℕ) : ℤ) + (-1) * shift = ((ORDER / 2 : ℕ) : ℤ) + 1 * (-shift) := by
      ring
    rw [hrow]
    rw [← list_range_sum_reflect ORDER
      (fun i => (if 0 ≤ ((ORDER / 2 : ℕ) : ℤ) + 1 * (-shift) then
            (coeffs1d_CC_ENO ORDER).getD (((ORDER / 2 : ℕ) : ℤ) + 1 * (-shift)).toNat []
          else []).getD i 0 *
        u (-(((i : ℤ) - ((((ORDER + 1) / 2 : ℕ) : ℤ) - (-shift))) * di)))]
    congr 1
    apply List.map_congr_left
    intro i hi
    rw [List.mem_range] at hi
    congr 2
    have hc : ((ORDER - i : ℕ) : ℤ) = (ORDER : ℤ) - i := by omega
    rw [hc]
    ring

/-! ## Choice of the operator (C20) -/

/-- C20, evaluated at failing inputs.  With `prolongation_type = "ddf"` and index type
`[0,0,0]`, every `prolongation_order` is served by `prolongate_ddf_3d_rf2_c000_o1`, the
operator of order 1: order 3 is not served by `prolongate_ddf_3d_rf2_c000_o3`, and an
order without operator (2, say) raises no error.  With
`prolongation_type = "conservative"`, `prolongation_order = 1` and index type `[1,1,1]`
the result is `prolongate_cons_3d_rf2_c111_o0`, of order 0 on every axis, and not
`prolongate_cons_3d_rf2_c111_o1`. -/
theorem get_interpolator_serves_other_order :
    (∀ prolongation_order : ℤ,
      get_interpolator .unset "ddf" prolongation_order (0, 0, 0) =
        .ok (prolongate_ddf_3d_rf2_c000_o1, .ddf)) ∧
    prolongate_ddf_3d_rf2_c000_o1.order 0 = 1 ∧
    prolongate_ddf_3d_rf2_c000_o3.order 0 = 3 ∧
    prolongate_ddf_3d_rf2_c000_o1 ≠ prolongate_ddf_3d_rf2_c000_o3 ∧
    get_interpolator .unset "conservative" 1 (1, 1, 1) =
      .ok (prolongate_cons_3d_rf2_c111_o0, .conservative) ∧
    prolongate_cons_3d_rf2_c111_o0.order 0 = 0 ∧
    prolongate_cons_3d_rf2_c111_o1.order 0 = 2 ∧
    prolongate_cons_3d_rf2_c111_o0 ≠ prolongate_cons_3d_rf2_c111_o1 := by
  refine ⟨fun _ => rfl, rfl, rfl, by decide, rfl, rfl, rfl, by decide⟩

/-- For `prolongation_type = "interpolate"` the choice is as specified: every order other
than 1 and 3 raises the error, and order 1 is served by the poly operator of order 1 of
the index type asked for. -/
theorem get_interpolator_interpolate (prolongation_order : ℤ) (a b c : ℕ)
    (h : a ≤ 1 ∧ b ≤ 1 ∧ c ≤ 1) :
    (prolongation_order ≠ 1 → prolongation_order ≠ 3 →
      get_interpolator .unset "interpolate" prolongation_order (a, b, c) =
        .error .unsupported_combination) ∧
    (∃ op, get_interpolator .unset "interpolate" 1 (a, b, c) = .ok (op, .interpolate) ∧
      op.ORDERI = 1 ∧ op.ORDERJ = 1 ∧ op.ORDERK = 1 ∧ op.INTPI = .poly ∧
      op.CENTI = (if a = 0 then .vertex else .cell) ∧
      op.CENTJ = (if b = 0 then .vertex else .cell) ∧
      op.CENTK = (if c = 0 then .vertex else .cell)) := by
  obtain ⟨ha, hb, hc⟩ := h
  interval_cases a <;> interval_cases b <;> interval_cases c <;>
    refine ⟨?_, ⟨_, rfl, rfl, rfl, rfl, rfl, rfl, rfl, rfl⟩⟩ <;>
    · intro h1 h3
      simp [get_interpolator, h1, h3]

/-! ## Worked examples of the 1D operators (C21, C22) -/

/-- C21: the vertex-centred poly operator of order 1 (linear interpolation).  For every
input, stride and shift, offset 0 returns `crseptr[0]` and offset 1 returns the mean of the
two adjacent samples `crseptr[0]` and `crseptr[di]`; for the samples `[10, 20]` with
stride 1 these are exactly 10 and 15. -/
theorem interp1d_VC_POLY_1_linear :
    (∀ (u : ℤ → ℚ) (di shift : ℤ),
      (interp1d_VC_POLY 1 u di shift 0).1 = u 0 ∧
        (interp1d_VC_POLY 1 u di shift 1).1 = (u 0 + u di) / 2) ∧
    (interp1d_VC_POLY 1 (fun m => if m = 0 then 10 else if m = 1 then 20 else 0) 1 0 0).1 = 10 ∧
    (interp1d_VC_POLY 1 (fun m => if m = 0 then 10 else if m = 1 then 20 else 0) 1 0 1).1 = 15 := by
  have key : ∀ (u : ℤ → ℚ) (di shift : ℤ),
      (interp1d_VC_POLY 1 u di shift 0).1 = u 0 ∧
        (interp1d_VC_POLY 1 u di shift 1).1 = (u 0 + u di) / 2 := by
    intro u di shift
    constructor
    · simp [interp1d_VC_POLY]
    · simp only [interp1d_VC_POLY, one_ne_zero, if_false, accumulate_fst, coeffs1d_VC_POLY]
      norm_num [List.range_succ]
      ring
  refine ⟨key, ?_, ?_⟩
  · rw [(key _ 1 0).1]; norm_num
  · rw [(key _ 1 0).2]; norm_num

/-- C22: the cell-centred cons operator of order 2 (stencil `[+1/8, +1, -1/8]`) on the coarse
cells `[1, 2, 3, 4, 5, 6]`, applied at the interior cell of value 3 (the pointer is at that
cell, stride 1, cell `m` relative to it holds `3 + m`): the left and right sub-cell outputs
are `y0 = 11/4` and `y1 = 13/4`; they average to 3, sum to 6, and differ by the slope
contribution `(4 - 2) / 4 = 1/2`. -/
theorem interp1d_CC_CONS_2_example :
    (interp1d_CC_CONS 2 (fun m => if -2 ≤ m ∧ m ≤ 3 then 3 + (m : ℚ) else 0) 1 0 0).1 = 11 / 4 ∧
    (interp1d_CC_CONS 2 (fun m => if -2 ≤ m ∧ m ≤ 3 then 3 + (m : ℚ) else 0) 1 0 1).1 = 13 / 4 ∧
    (interp1d_CC_CONS 2 (fun m => if -2 ≤ m ∧ m ≤ 3 then 3 + (m : ℚ) else 0) 1 0 0).1 / 2 +
      (interp1d_CC_CONS 2 (fun m => if -2 ≤ m ∧ m ≤ 3 then 3 + (m : ℚ) else 0) 1 0 1).1 / 2 = 3 ∧
    (interp1d_CC_CONS 2 (fun m => if -2 ≤ m ∧ m ≤ 3 then 3 + (m : ℚ) else 0) 1 0 0).1 +
      (interp1d_CC_CONS 2 (fun m => if -2 ≤ m ∧ m ≤ 3 then 3 + (m : ℚ) else 0) 1 0 1).1 = 6 ∧
    (interp1d_CC_CONS 2 (fun m => if -2 ≤ m ∧ m ≤ 3 then 3 + (m : ℚ) else 0) 1 0 1).1 -
      (interp1d_CC_CONS 2 (fun m => if -2 ≤ m ∧ m ≤ 3 then 3 + (m : ℚ) else 0) 1 0 0).1 =
        (4 - 2) / 4 := by
  have h0 : (interp1d_CC_CONS 2
      (fun m => if -2 ≤ m ∧ m ≤ 3 then 3 + (m : ℚ) else 0) 1 0 0).1 = 11 / 4 := by
    simp only [interp1d_CC_CONS, if_true, accumulate_fst, coeffs1d_CC_CONS]
    norm_num [List.range_succ]
  have h1 : (interp1d_CC_CONS 2
      (fun m => if -2 ≤ m ∧ m ≤ 3 then 3 + (m : ℚ) else 0) 1 0 1).1 = 13 / 4 := by
    simp only [interp1d_CC_CONS, one_ne_zero, if_false, accumulate_fst, coeffs1d_CC_CONS]
    norm_num [List.range_succ]
  rw [h0, h1]
  norm_num

/-! ## Axes without shift selection (C23) -/

/-- The selection loop searches within the radii `shift_radius`. -/
theorem choose_shifts_loop_radius (op : prolongate_3d_rf2) (shiftptr : ℤ)
    (source_region diffbox : Box) (st : EnoState) :
    choose_shifts_loop op shiftptr source_region diffbox st =
      source_region.points.foldl
        (fun st ind =>
          let s := choose_stencil_shift st.divided_differences diffbox (shift_radius op) ind
          { st with
            stencil_shifts :=
              Function.update st.stencil_shifts (shiftptr + diffbox.index ind)
                (pack_shifts s.min_shift)
            log := st.log ++ s.reads.map (Access.read Buffer.divided_differences) ++
              [Access.write Buffer.stencil_shifts (shiftptr + diffbox.index ind)] })
        st := rfl

/-- The eno operator of order 0 returns `crseptr[0]`, for every shift and offset whose
table row exists (row `0 ± shift = 0`). -/
theorem interp1d_CC_ENO_0 (u : ℤ → ℚ) (di off : ℤ) : (interp1d_CC_ENO 0 u di 0 off).1 = u 0 := by
  by_cases h : off = 0
  · subst h
    simp [interp1d_CC_ENO, accumulate_fst, coeffs1d_CC_ENO, List.range_succ]
  · simp [interp1d_CC_ENO, accumulate_fst, coeffs1d_CC_ENO, h, List.range_succ]

/-- C23: an axis `d` whose family is eno with order 0 has no shift selection.  The axis
does not use shifts (`USE_SHIFT` is false for its sweep) and its search radius is 0, so
every candidate of the shift search has component 0 along `d`; the kernel of the sweep
along `d` reads nothing from the shift map, calls the 1D operator with shift 0 whatever the
shift map contains, and stores the source element `crseptr[crsebox.index(crseind)]`; and
the 1D operator returns `crseptr[0]` for both offsets. -/
theorem eno_order_0_no_shift (op : prolongate_3d_rf2) (d : ℕ) (hd : d < 3)
    (hC : op.CENT d = centering_t.cell) (hI : op.INTP d = interpolation_t.eno)
    (hO : op.order d = 0) :
    op.use_shift d = false ∧
      (shift_radius op).getVect d = 0 ∧
      (∀ c ∈ shift_candidates (shift_radius op), c.getVect d = 0) ∧
      (∀ (crse : ℤ → ℚ) (crseptr : ℤ) (crsebox : Box) (shifts : ℤ → ℤ) (sptr : ℤ)
          (sbox : Box) (fineptr : ℤ) (finebox : Box) (di i j k : ℤ),
        interp3d_shift d (op.use_shift d) shifts sptr sbox i j k = 0 ∧
          (interp3d_kernel (op.CENT d) (op.INTP d) (op.order d) d (op.use_shift d) crse
              crseptr crsebox shifts sptr sbox fineptr finebox di i j k).shift_reads = [] ∧
          (interp3d_kernel (op.CENT d) (op.INTP d) (op.order d) d (op.use_shift d) crse
              crseptr crsebox shifts sptr sbox fineptr finebox di i j k).res =
            crse (interp3d_ptr d crseptr crsebox i j k)) ∧
      (∀ (u : ℤ → ℚ) (di off : ℤ), (interp1d_CC_ENO 0 u di 0 off).1 = u 0) := by
  have hu : op.use_shift d = false := by
    simp [prolongate_3d_rf2.use_shift, hO]
  have hr : (shift_radius op).getVect d = 0 := by
    interval_cases d <;> simp [shift_radius, IntVect.getVect, hu]
  refine ⟨hu, hr, ?_, ?_, interp1d_CC_ENO_0⟩
  · intro c hc
    rw [mem_shift_candidates] at hc
    interval_cases d <;> simp only [IntVect.getVect] at hr ⊢ <;> omega
  · intro crse crseptr crsebox shifts sptr sbox fineptr finebox di i j k
    refine ⟨by simp [interp3d_shift, hu], by simp [interp3d_kernel, hu], ?_⟩
    simp only [interp3d_kernel, interp3d_shift, hu, hC, hI, hO, interp1d, Bool.false_eq_true,
      if_false, interp1d_CC_ENO_0, add_zero, ite_self]

/-- C23, at a concrete input: the z axis of `prolongate_ddf_eno_3d_rf2_c001_o1` (cell, eno,
order 0). -/
theorem eno_order_0_no_shift_witness :
    (2 < 3 ∧ prolongate_ddf_eno_3d_rf2_c001_o1.CENT 2 = centering_t.cell ∧
      prolongate_ddf_eno_3d_rf2_c001_o1.INTP 2 = interpolation_t.eno ∧
      prolongate_ddf_eno_3d_rf2_c001_o1.order 2 = 0) ∧
    (prolongate_ddf_eno_3d_rf2_c001_o1.use_shift 2 = false ∧
      (shift_radius prolongate_ddf_eno_3d_rf2_c001_o1).getVect 2 = 0 ∧
      (∀ c ∈ shift_candidates (shift_radius prolongate_ddf_eno_3d_rf2_c001_o1),
        c.getVect 2 = 0) ∧
      (∀ (crse : ℤ → ℚ) (crseptr : ℤ) (crsebox : Box) (shifts : ℤ → ℤ) (sptr : ℤ)
          (sbox : Box) (fineptr : ℤ) (finebox : Box) (di i j k : ℤ),
        interp3d_shift 2 (prolongate_ddf_eno_3d_rf2_c001_o1.use_shift 2) shifts sptr sbox
            i j k = 0 ∧
          (interp3d_kernel (prolongate_ddf_eno_3d_rf2_c001_o1.CENT 2)
              (prolongate_ddf_eno_3d_rf2_c001_o1.INTP 2)
              (prolongate_ddf_eno_3d_rf2_c001_o1.order 2) 2
              (prolongate_ddf_eno_3d_rf2_c001_o1.use_shift 2) crse crseptr crsebox shifts
              sptr sbox fineptr finebox di i j k).shift_reads = [] ∧
          (interp3d_kernel (prolongate_ddf_eno_3d_rf2_c001_o1.CENT 2)
              (prolongate_ddf_eno_3d_rf2_c001_o1.INTP 2)
              (prolongate_ddf_eno_3d_rf2_c001_o1.order 2) 2
              (prolongate_ddf_eno_3d_rf2_c001_o1.use_shift 2) crse crseptr crsebox shifts
              sptr sbox fineptr finebox di i j k).res =
            crse (interp3d_ptr 2 crseptr crsebox i j k)) ∧
      (∀ (u : ℤ → ℚ) (di off : ℤ), (interp1d_CC_ENO 0 u di 0 off).1 = u 0)) :=
  ⟨by decide,
    eno_order_0_no_shift prolongate_ddf_eno_3d_rf2_c001_o1 2 (by decide) (by decide)
      (by decide) (by decide)⟩

/-! ## Candidates of the shift search (C24, C29) -/

/-- The shift search evaluates every candidate: the elements of the divided-difference
array that it reads are those of all candidates, in the order of the loop nest. -/
theorem choose_stencil_shift_reads (diffptr : ℤ → ℚ) (diffbox : Box) (radius ind : IntVect) :
    (choose_stencil_shift diffptr diffbox radius ind).reads =
      (shift_candidates radius).map
        (fun c => diffbox.index ⟨ind.x + c.x, ind.y + c.y, ind.z + c.z⟩) := by
  unfold choose_stencil_shift
  have key : ∀ (L : List IntVect) (st : ShiftSearch),
      (L.foldl
        (fun (st : ShiftSearch) (shift : IntVect) =>
          let ind1 : IntVect := ⟨ind.x + shift.x, ind.y + shift.y, ind.z + shift.z⟩
          let penalty : ℚ := ((|shift.x| + |shift.y| + |shift.z| : ℤ) : ℚ) * (1 / 10)
          let dd := diffptr (diffbox.index ind1)
          if lt_min_dd ((1 + penalty) * dd) st.min_dd = true then
            { min_shift := shift, min_dd := some dd, reads := st.reads ++ [diffbox.index ind1] }
          else { st with reads := st.reads ++ [diffbox.index ind1] })
        st).reads =
      st.reads ++ L.map (fun c => diffbox.index ⟨ind.x + c.x, ind.y + c.y, ind.z + c.z⟩) := by
    intro L
    induction L with
    | nil => intro st; simp
    | cons c L ih =>
      intro st
      rw [List.foldl_cons, ih]
      simp only
      split_ifs <;> simp
  rw [key]
  simp

/-- The shift selected is one of the candidates visited (or the initial `(0, 0, 0)` when
there is no candidate), whatever the divided differences. -/
theorem choose_stencil_shift_mem (diffptr : ℤ → ℚ) (diffbox : Box) (radius ind : IntVect) :
    (choose_stencil_shift diffptr diffbox radius ind).min_shift ∈ shift_candidates radius ∨
      (shift_candidates radius = [] ∧
        (choose_stencil_shift diffptr diffbox radius ind).min_shift = ⟨0, 0, 0⟩) := by
  unfold choose_stencil_shift
  generalize shift_candidates radius = L
  induction L using List.reverseRecOn with
  | nil => right; exact ⟨rfl, rfl⟩
  | append_singleton l a ih =>
    left
    simp only [List.foldl_append, List.foldl_cons, List.foldl_nil]
    split_ifs with h
    · simp
    · rcases ih with ih | ⟨hl, h0⟩
      · exact List.mem_append_left _ ih
      · exfalso
        subst hl
        simp [lt_min_dd] at h

/-- C24, counterexample: diagonal candidates are explored and can be selected.  Instance
`prolongate_ddf_eno_3d_rf2_c111_o3` (eno of order 2 on every axis) has the search radii
`(1, 1, 1)`; the triple `(1, 1, 0)`, with two non-zero components, is a candidate, its
divided difference (element 17 of `diffbox = [-1,1]³` for the coarse index `(0, 0, 0)`) is
read, and with the divided differences 0 at that element and 1 elsewhere it is the shift
selected. -/
theorem diagonal_shift_selected :
    shift_radius prolongate_ddf_eno_3d_rf2_c111_o3 = ⟨1, 1, 1⟩ ∧
    (⟨1, 1, 0⟩ : IntVect) ∈ shift_candidates ⟨1, 1, 1⟩ ∧
    Box.index ⟨⟨-1, -1, -1⟩, ⟨1, 1, 1⟩, ⟨false, false, false⟩⟩ ⟨0 + 1, 0 + 1, 0 + 0⟩ = 17 ∧
    (17 : ℤ) ∈ (choose_stencil_shift (fun a => if a = 17 then 0 else 1)
        ⟨⟨-1, -1, -1⟩, ⟨1, 1, 1⟩, ⟨false, false, false⟩⟩ ⟨1, 1, 1⟩ ⟨0, 0, 0⟩).reads ∧
    (choose_stencil_shift (fun a => if a = 17 then 0 else 1)
        ⟨⟨-1, -1, -1⟩, ⟨1, 1, 1⟩, ⟨false, false, false⟩⟩ ⟨1, 1, 1⟩ ⟨0, 0, 0⟩).min_shift =
      ⟨1, 1, 0⟩ := by
  have hc : shift_candidates ⟨1, 1, 1⟩ =
      [⟨-1, -1, -1⟩, ⟨0, -1, -1⟩, ⟨1, -1, -1⟩, ⟨-1, 0, -1⟩, ⟨0, 0, -1⟩, ⟨1, 0, -1⟩,
        ⟨-1, 1, -1⟩, ⟨0, 1, -1⟩, ⟨1, 1, -1⟩, ⟨-1, -1, 0⟩, ⟨0, -1, 0⟩, ⟨1, -1, 0⟩,
        ⟨-1, 0, 0⟩, ⟨0, 0, 0⟩, ⟨1, 0, 0⟩, ⟨-1, 1, 0⟩, ⟨0, 1, 0⟩, ⟨1, 1, 0⟩,
        ⟨-1, -1, 1⟩, ⟨0, -1, 1⟩, ⟨1, -1, 1⟩, ⟨-1, 0, 1⟩, ⟨0, 0, 1⟩, ⟨1, 0, 1⟩,
        ⟨-1, 1, 1⟩, ⟨0, 1, 1⟩, ⟨1, 1, 1⟩] := by decide
  refine ⟨by decide, by decide, by decide, ?_, ?_⟩
  · rw [choose_stencil_shift_reads, hc]
    decide
  · simp only [choose_stencil_shift, hc, List.foldl_cons, List.foldl_nil, lt_min_dd,
      Box.index, Box.length, IntVect.getVect]
    norm_num

/-- C24 (amended): the shift search explores the full box of candidates, diagonals
included.  The candidates are exactly the triples `(di, dj, dk)` with `|di| ≤ diradius`,
`|dj| ≤ djradius`, `|dk| ≤ dkradius`, there are
`(2 diradius + 1) (2 djradius + 1) (2 dkradius + 1)` of them, and the divided difference
of every one of them is read, whatever the data. -/
theorem shift_candidates_full_box (op : prolongate_3d_rf2) (diffptr : ℤ → ℚ) (diffbox : Box)
    (ind : IntVect) :
    (∀ c : IntVect, c ∈ shift_candidates (shift_radius op) ↔
      (-(shift_radius op).x ≤ c.x ∧ c.x ≤ (shift_radius op).x) ∧
        (-(shift_radius op).y ≤ c.y ∧ c.y ≤ (shift_radius op).y) ∧
        (-(shift_radius op).z ≤ c.z ∧ c.z ≤ (shift_radius op).z)) ∧
      (shift_candidates (shift_radius op)).length =
        (2 * (shift_radius op).x + 1).toNat * (2 * (shift_radius op).y + 1).toNat *
          (2 * (shift_radius op).z + 1).toNat ∧
      (choose_stencil_shift diffptr diffbox (shift_radius op) ind).reads =
        (shift_candidates (shift_radius op)).map
          (fun c => diffbox.index ⟨ind.x + c.x, ind.y + c.y, ind.z + c.z⟩) := by
  refine ⟨mem_shift_candidates _, ?_, choose_stencil_shift_reads _ _ _ _⟩
  simp only [shift_candidates, intRange, List.length_flatMap, List.length_map, List.length_range,
    List.map_const', List.sum_replicate, smul_eq_mul, Function.comp_def, List.map_map]
  have e : ∀ r : ℤ, (r + 1 - -r).toNat = (2 * r + 1).toNat := fun r => by congr 1; ring
  rw [e, e, e]
  ring

/-- The selection loop does not change the divided differences. -/
theorem choose_shifts_foldl_divided_differences (op : prolongate_3d_rf2) (shiftptr : ℤ)
    (diffbox : Box) (L : List IntVect) (st : EnoState) :
    (L.foldl
        (fun (st : EnoState) ind =>
          let s := choose_stencil_shift st.divided_differences diffbox (shift_radius op) ind
          { st with
            stencil_shifts :=
              Function.update st.stencil_shifts (shiftptr + diffbox.index ind)
                (pack_shifts s.min_shift)
            log := st.log ++ s.reads.map (Access.read Buffer.divided_differences) ++
              [Access.write Buffer.stencil_shifts (shiftptr + diffbox.index ind)] })
        st).divided_differences = st.divided_differences := by
  induction L generalizing st with
  | nil => rfl
  | cons p L ih => rw [List.foldl_cons, ih]

/-- What the selection loop stores: for every coarse index `ind` of the source region
(inside `diffbox`), the element `shiftptr[diffbox.index(ind)]` of the shift map holds the
packed shift selected for `ind` from the divided differences. -/
theorem choose_shifts_loop_stored (op : prolongate_3d_rf2) (shiftptr : ℤ)
    (source_region diffbox : Box) (st : EnoState)
    (hsub : ∀ p ∈ source_region.points, diffbox.contains p) (ind : IntVect)
    (hind : ind ∈ source_region.points) :
    (choose_shifts_loop op shiftptr source_region diffbox st).stencil_shifts
        (shiftptr + diffbox.index ind) =
      pack_shifts
        (choose_stencil_shift st.divided_differences diffbox (shift_radius op) ind).min_shift := by
  rw [choose_shifts_loop_radius]
  have hnd := source_region.nodup_points
  generalize source_region.points = L at hsub hind hnd
  induction L using List.reverseRecOn with
  | nil => cases hind
  | append_singleton l a ih =>
    rw [List.foldl_append, List.foldl_cons, List.foldl_nil]
    simp only
    rw [choose_shifts_foldl_divided_differences]
    rw [List.nodup_append] at hnd
    obtain ⟨hl, -, hdis⟩ := hnd
    by_cases ha : ind = a
    · subst ha
      rw [Function.update_same]
    · have hin : ind ∈ l := by
        rcases List.mem_append.1 hind with h | h
        · exact h
        · exact absurd (List.mem_singleton.1 h) ha
      have hne : shiftptr + diffbox.index ind ≠ shiftptr + diffbox.index a := by
        intro h
        have h' : diffbox.index ind = diffbox.index a := by omega
        exact ha (Box.index_inj diffbox ind a (hsub ind hind)
          (hsub a (List.mem_append_right _ (List.mem_singleton_self a))) h')
      rw [Function.update_noteq hne]
      exact ih (fun p hp => hsub p (List.mem_append_left _ hp)) hin hl

/-- The source region lies inside `diffbox`. -/
theorem diffbox_of_contains (op : prolongate_3d_rf2) (source_region : Box) (p : IntVect)
    (hp : source_region.contains p) : (diffbox_of op source_region).contains p := by
  rw [diffbox_of_eq]
  simp only [Box.contains] at hp ⊢
  have h0 : ∀ d, (0 : ℤ) ≤ (if op.use_shift d = true then ((op.order d / 2 : ℕ) : ℤ) else 0) := by
    intro d; split_ifs <;> omega
  have hx := h0 0
  have hy := h0 1
  have hz := h0 2
  omega

/-- Packing and unpacking a shift triple with components in `[-128, 127]` gives the
triple back, component by component. -/
theorem unpack_shift_pack_shifts (s : IntVect)
    (h : (-128 ≤ s.x ∧ s.x ≤ 127) ∧ (-128 ≤ s.y ∧ s.y ≤ 127) ∧ (-128 ≤ s.z ∧ s.z ≤ 127))
    (d : ℕ) (hd : d < 3) : unpack_shift (pack_shifts s) d = s.getVect d := by
  rw [pack_shifts_eq]
  have hx : ((uint8_t s.x : ℕ) : ℤ) = s.x % 256 := by unfold uint8_t; omega
  have hy : ((uint8_t s.y : ℕ) : ℤ) = s.y % 256 := by unfold uint8_t; omega
  have hz : ((uint8_t s.z : ℕ) : ℤ) = s.z % 256 := by unfold uint8_t; omega
  generalize uint8_t s.x = a at hx
  generalize uint8_t s.y = b at hy
  generalize uint8_t s.z = c at hz
  have e0 : ∀ N : ℕ, (N : ℤ) >>> (0 : ℤ) = ((N / 2 ^ 0 : ℕ) : ℤ) := fun N => by
    rw [← Nat.shiftRight_eq_div_pow]; exact Int.shiftRight_coe_nat N 0
  have e8 : ∀ N : ℕ, (N : ℤ) >>> (8 : ℤ) = ((N / 2 ^ 8 : ℕ) : ℤ) := fun N => by
    rw [← Nat.shiftRight_eq_div_pow]; exact Int.shiftRight_coe_nat N 8
  have e16 : ∀ N : ℕ, (N : ℤ) >>> (16 : ℤ) = ((N / 2 ^ 16 : ℕ) : ℤ) := fun N => by
    rw [← Nat.shiftRight_eq_div_pow]; exact Int.shiftRight_coe_nat N 16
  interval_cases d <;>
    simp only [unpack_shift, int8_t, if_true, one_ne_zero, if_false, OfNat.ofNat_ne_zero,
      OfNat.ofNat_ne_one, e0, e8, e16, IntVect.getVect] <;>
    omega

/-- The radii of the shift search are not negative, and the radius of axis `d` is
`ORDER / 2` or 0 according to whether the axis uses shifts. -/
theorem shift_radius_getVect (op : prolongate_3d_rf2) (d : ℕ) (hd : d < 3) :
    (shift_radius op).getVect d =
      if op.use_shift d = true then ((op.order d / 2 : ℕ) : ℤ) else 0 := by
  interval_cases d <;> rfl

/-- C29: the shift-range invariant.  For every operator (orders up to 254, so that a
shift fits a signed byte), every content of the divided-difference array and every coarse
index `ind` of the source region: the selection loop stores at
`shiftptr[diffbox.index(ind)]` the packed shift selected for `ind`; unpacking component
`d` of it gives the selected component back; and that component lies in
`[-ORDER_d / 2, +ORDER_d / 2]` when axis `d` uses shifts (eno, order > 0) and is 0
otherwise.  Hence the assertions `-ORDER / 2 <= shift <= +ORDER / 2` hold for every shift
that was selected. -/
theorem selected_shift_in_range (op : prolongate_3d_rf2) (shiftptr : ℤ) (source_region : Box)
    (st : EnoState) (ind : IntVect) (d : ℕ) (hd : d < 3)
    (hind : source_region.contains ind)
    (hord : op.ORDERI ≤ 254 ∧ op.ORDERJ ≤ 254 ∧ op.ORDERK ≤ 254) :
    (choose_shifts_loop op shiftptr source_region (diffbox_of op source_region)
          st).stencil_shifts (shiftptr + (diffbox_of op source_region).index ind) =
        pack_shifts (choose_stencil_shift st.divided_differences
          (diffbox_of op source_region) (shift_radius op) ind).min_shift ∧
      unpack_shift (pack_shifts (choose_stencil_shift st.divided_differences
          (diffbox_of op source_region) (shift_radius op) ind).min_shift) d =
        (choose_stencil_shift st.divided_differences
          (diffbox_of op source_region) (shift_radius op) ind).min_shift.getVect d ∧
      (op.use_shift d = true →
        -((op.order d / 2 : ℕ) : ℤ) ≤ (choose_stencil_shift st.divided_differences
            (diffbox_of op source_region) (shift_radius op) ind).min_shift.getVect d ∧
          (choose_stencil_shift st.divided_differences
            (diffbox_of op source_region) (shift_radius op) ind).min_shift.getVect d ≤
              ((op.order d / 2 : ℕ) : ℤ)) ∧
      (op.use_shift d = false →
        (choose_stencil_shift st.divided_differences
          (diffbox_of op source_region) (shift_radius op) ind).min_shift.getVect d = 0) := by
  have hmem := choose_stencil_shift_mem st.divided_differences (diffbox_of op source_region)
    (shift_radius op) ind
  have hbox : (-(shift_radius op).x ≤ (choose_stencil_shift st.divided_differences
        (diffbox_of op source_region) (shift_radius op) ind).min_shift.x ∧
      (choose_stencil_shift st.divided_differences
        (diffbox_of op source_region) (shift_radius op) ind).min_shift.x ≤ (shift_radius op).x) ∧
      (-(shift_radius op).y ≤ (choose_stencil_shift st.divided_differences
        (diffbox_of op source_region) (shift_radius op) ind).min_shift.y ∧
      (choose_stencil_shift st.divided_differences
        (diffbox_of op source_region) (shift_radius op) ind).min_shift.y ≤ (shift_radius op).y) ∧
      (-(shift_radius op).z ≤ (choose_stencil_shift st.divided_differences
        (diffbox_of op source_region) (shift_radius op) ind).min_shift.z ∧
      (choose_stencil_shift st.divided_differences
        (diffbox_of op source_region) (shift_radius op) ind).min_shift.z ≤ (shift_radius op).z) := by
    have h0 : (⟨0, 0, 0⟩ : IntVect) ∈ shift_candidates (shift_radius op) := by
      rw [mem_shift_candidates]
      have hx := shift_radius_getVect op 0 (by norm_num)
      have hy := shift_radius_getVect op 1 (by norm_num)
      have hz := shift_radius_getVect op 2 (by norm_num)
      simp only [IntVect.getVect] at hx hy hz
      rw [hx, hy, hz]
      simp only
      refine ⟨?_, ?_, ?_⟩ <;> split_ifs <;> omega
    rcases hmem with h | ⟨h, -⟩
    · exact (mem_shift_candidates _ _).1 h
    · rw [h] at h0; cases h0
  refine ⟨choose_shifts_loop_stored op shiftptr source_region _ st
    (fun p hp => diffbox_of_contains op _ p ((Box.mem_points _ _).1 hp)) ind
    ((Box.mem_points _ _).2 hind), ?_⟩
  generalize (choose_stencil_shift st.divided_differences
    (diffbox_of op source_region) (shift_radius op) ind).min_shift = s at hbox ⊢
  have hx := shift_radius_getVect op 0 (by norm_num)
  have hy := shift_radius_getVect op 1 (by norm_num)
  have hz := shift_radius_getVect op 2 (by norm_num)
  simp only [IntVect.getVect, prolongate_3d_rf2.order] at hx hy hz
  obtain ⟨o1, o2, o3⟩ := hord
  have bx : (shift_radius op).x ≤ 127 := by rw [hx]; split_ifs <;> omega
  have by' : (shift_radius op).y ≤ 127 := by rw [hy]; split_ifs <;> omega
  have bz : (shift_radius op).z ≤ 127 := by rw [hz]; split_ifs <;> omega
  refine ⟨?_, ?_, ?_⟩
  · exact unpack_shift_pack_shifts s (by omega) d hd
  · intro hu
    have hr := shift_radius_getVect op d hd
    rw [if_pos hu] at hr
    rw [← hr]
    interval_cases d <;> simp only [IntVect.getVect] <;> omega
  · intro hu
    have hr := shift_radius_getVect op d hd
    rw [if_neg (by simp [hu])] at hr
    interval_cases d <;> simp only [IntVect.getVect] at hr ⊢ <;> omega

/-- C29, at a concrete input: instance `prolongate_ddf_eno_3d_rf2_c111_o3`, source region
`[0,1]³`, coarse index `(0, 0, 0)`, axis 0. -/
theorem selected_shift_in_range_witness :
    (0 < 3 ∧ Box.contains ⟨⟨0, 0, 0⟩, ⟨1, 1, 1⟩, ⟨false, false, false⟩⟩ ⟨0, 0, 0⟩ ∧
      (prolongate_ddf_eno_3d_rf2_c111_o3.ORDERI ≤ 254 ∧
        prolongate_ddf_eno_3d_rf2_c111_o3.ORDERJ ≤ 254 ∧
        prolongate_ddf_eno_3d_rf2_c111_o3.ORDERK ≤ 254)) ∧
    prolongate_ddf_eno_3d_rf2_c111_o3.use_shift 0 = true ∧
    -((prolongate_ddf_eno_3d_rf2_c111_o3.order 0 / 2 : ℕ) : ℤ) ≤
      (choose_stencil_shift (fun a => |(a : ℚ)|)
        (diffbox_of prolongate_ddf_eno_3d_rf2_c111_o3
          ⟨⟨0, 0, 0⟩, ⟨1, 1, 1⟩, ⟨false, false, false⟩⟩)
        (shift_radius prolongate_ddf_eno_3d_rf2_c111_o3) ⟨0, 0, 0⟩).min_shift.getVect 0 ∧
    (choose_stencil_shift (fun a => |(a : ℚ)|)
        (diffbox_of prolongate_ddf_eno_3d_rf2_c111_o3
          ⟨⟨0, 0, 0⟩, ⟨1, 1, 1⟩, ⟨false, false, false⟩⟩)
        (shift_radius prolongate_ddf_eno_3d_rf2_c111_o3) ⟨0, 0, 0⟩).min_shift.getVect 0 ≤
      ((prolongate_ddf_eno_3d_rf2_c111_o3.order 0 / 2 : ℕ) : ℤ) :=
  ⟨by decide, by decide,
    (selected_shift_in_range prolongate_ddf_eno_3d_rf2_c111_o3 0
      ⟨⟨0, 0, 0⟩, ⟨1, 1, 1⟩, ⟨false, false, false⟩⟩ ⟨fun a => |(a : ℚ)|, fun _ => 0, []⟩
      ⟨0, 0, 0⟩ 0 (by decide) (by decide) (by decide)).2.2.1 (by decide)⟩

/-! ## Sub-cell exactness of the conservative stencils (C25) -/

set_option maxHeartbeats 4000000 in
/-- Sub-cell exactness of the cell-centred cons operator. -/
theorem interp1d_CC_CONS_subcell (ORDER : ℕ)
    (hO : ORDER = 0 ∨ ORDER = 2 ∨ ORDER = 4 ∨ ORDER = 6) (shift : ℤ)
    (F : Polynomial ℚ) (hF : F.natDegree ≤ ORDER + 1) :
    (interp1d_CC_CONS ORDER (fun m => F.eval ((m : ℚ) + 1) - F.eval (m : ℚ)) 1 shift 0).1 =
        (F.eval (1 / 2) - F.eval 0) / (1 / 2) ∧
      (interp1d_CC_CONS ORDER (fun m => F.eval ((m : ℚ) + 1) - F.eval (m : ℚ)) 1 shift 1).1 =
        (F.eval 1 - F.eval (1 / 2)) / (1 / 2) := by
  rcases hO with h | h | h | h <;> subst h
  all_goals
    constructor
    all_goals
      simp only [interp1d_CC_CONS, one_ne_zero, if_false, if_true, accumulate_fst,
        eval_eq_sum_of_natDegree_le F _ hF, coeffs1d_CC_CONS]
      norm_num [Finset.sum_range_succ, List.range_succ]
      try ring

set_option maxHeartbeats 4000000 in
/-- Sub-cell exactness of the cell-centred eno operator, for every shift. -/
theorem interp1d_CC_ENO_subcell (ORDER : ℕ) (hO : ORDER = 0 ∨ ORDER = 2 ∨ ORDER = 4)
    (shift : ℤ) (hlo : -((ORDER / 2 : ℕ) : ℤ) ≤ shift) (hhi : shift ≤ ((ORDER / 2 : ℕ) : ℤ))
    (F : Polynomial ℚ) (hF : F.natDegree ≤ ORDER + 1) :
    (interp1d_CC_ENO ORDER (fun m => F.eval ((m : ℚ) + 1) - F.eval (m : ℚ)) 1 shift 0).1 =
        (F.eval (1 / 2) - F.eval 0) / (1 / 2) ∧
      (interp1d_CC_ENO ORDER (fun m => F.eval ((m : ℚ) + 1) - F.eval (m : ℚ)) 1 shift 1).1 =
        (F.eval 1 - F.eval (1 / 2)) / (1 / 2) := by
  have hs : (ORDER = 0 ∧ shift = 0) ∨
      (ORDER = 2 ∧ (shift = -1 ∨ shift = 0 ∨ shift = 1)) ∨
      (ORDER = 4 ∧ (shift = -2 ∨ shift = -1 ∨ shift = 0 ∨ shift = 1 ∨ shift = 2)) := by
    rcases hO with h | h | h <;> subst h <;> omega
  rcases hs with ⟨h, k⟩ | ⟨h, k | k | k⟩ | ⟨h, k | k | k | k | k⟩ <;> subst h <;> subst k
  all_goals
    constructor
    all_goals
      simp only [interp1d_CC_ENO, one_ne_zero, if_false, if_true, accumulate_fst,
        eval_eq_sum_of_natDegree_le F _ hF, coeffs1d_CC_ENO]
      norm_num [Finset.sum_range_succ, List.range_succ, show Int.toNat 2 = 2 from rfl,
        show Int.toNat 3 = 3 from rfl, show Int.toNat 4 = 4 from rfl]
      try ring

/-- An antiderivative of a polynomial of degree at most `n` has degree at most `n + 1`. -/
theorem natDegree_le_of_derivative (F p : Polynomial ℚ) (n : ℕ) (hFp : F.derivative = p)
    (hp : p.natDegree ≤ n) : F.natDegree ≤ n + 1 := by
  by_cases h0 : F.natDegree = 0
  · omega
  · have h := Polynomial.natDegree_eq_of_degree_eq_some
      (Polynomial.degree_derivative_eq F (Nat.pos_of_ne_zero h0))
    rw [hFp] at h
    omega

/-- C25: sub-cell exactness of the conservative stencils.  Let `p` be a polynomial of
degree at most `ORDER` and `F` an antiderivative of `p`, so that
`u[m] = F(m + 1) - F(m)` is the average of `p` over the cell `[m, m + 1]`.  For
`interp1d<CC, CONS, ORDER>` with `ORDER` in 0, 2, 4, 6, and for
`interp1d<CC, ENO, ORDERe>` with `ORDERe` in 0, 2, 4 and every shift in
`[-ORDERe / 2, ORDERe / 2]` (with a polynomial `pe` of degree at most `ORDERe`), the
offset-0 output is the average `(F(1/2) - F(0)) / (1/2)` of `p` over the left half-cell
and the offset-1 output is the average `(F(1) - F(1/2)) / (1/2)` over the right
half-cell. -/
theorem conservative_subcell_exact (ORDER ORDERe : ℕ)
    (hO : ORDER = 0 ∨ ORDER = 2 ∨ ORDER = 4 ∨ ORDER = 6)
    (hOe : ORDERe = 0 ∨ ORDERe = 2 ∨ ORDERe = 4) (shift : ℤ)
    (hlo : -((ORDERe / 2 : ℕ) : ℤ) ≤ shift) (hhi : shift ≤ ((ORDERe / 2 : ℕ) : ℤ))
    (p F pe Fe : Polynomial ℚ) (hp : p.natDegree ≤ ORDER) (hF : F.derivative = p)
    (hpe : pe.natDegree ≤ ORDERe) (hFe : Fe.derivative = pe) :
    ((interp1d_CC_CONS ORDER (fun m => F.eval ((m : ℚ) + 1) - F.eval (m : ℚ)) 1 0 0).1 =
        (F.eval (1 / 2) - F.eval 0) / (1 / 2) ∧
      (interp1d_CC_CONS ORDER (fun m => F.eval ((m : ℚ) + 1) - F.eval (m : ℚ)) 1 0 1).1 =
        (F.eval 1 - F.eval (1 / 2)) / (1 / 2)) ∧
    ((interp1d_CC_ENO ORDERe (fun m => Fe.eval ((m : ℚ) + 1) - Fe.eval (m : ℚ)) 1 shift 0).1 =
        (Fe.eval (1 / 2) - Fe.eval 0) / (1 / 2) ∧
      (interp1d_CC_ENO ORDERe (fun m => Fe.eval ((m : ℚ) + 1) - Fe.eval (m : ℚ)) 1 shift 1).1 =
        (Fe.eval 1 - Fe.eval (1 / 2)) / (1 / 2)) :=
  ⟨interp1d_CC_CONS_subcell ORDER hO 0 F (natDegree_le_of_derivative F p ORDER hF hp),
    interp1d_CC_ENO_subcell ORDERe hOe shift hlo hhi Fe
      (natDegree_le_of_derivative Fe pe ORDERe hFe hpe)⟩

/-- C25, at a concrete input: cons of order 2 with `p = 3 X ^ 2` (`F = X ^ 3`), eno of
order 2 with shift -1 and the same polynomial. -/
theorem conservative_subcell_exact_witness :
    (((2 : ℕ) = 0 ∨ (2 : ℕ) = 2 ∨ (2 : ℕ) = 4 ∨ (2 : ℕ) = 6) ∧
      ((2 : ℕ) = 0 ∨ (2 : ℕ) = 2 ∨ (2 : ℕ) = 4) ∧
      -(((2 : ℕ) / 2 : ℕ) : ℤ) ≤ (-1 : ℤ) ∧ (-1 : ℤ) ≤ (((2 : ℕ) / 2 : ℕ) : ℤ) ∧
      (Polynomial.derivative (Polynomial.X ^ 3 : Polynomial ℚ)).natDegree ≤ 2) ∧
    ((interp1d_CC_CONS 2 (fun m => (Polynomial.X ^ 3 : Polynomial ℚ).eval ((m : ℚ) + 1) -
          (Polynomial.X ^ 3 : Polynomial ℚ).eval (m : ℚ)) 1 0 0).1 =
        ((Polynomial.X ^ 3 : Polynomial ℚ).eval (1 / 2) -
          (Polynomial.X ^ 3 : Polynomial ℚ).eval 0) / (1 / 2) ∧
      (interp1d_CC_CONS 2 (fun m => (Polynomial.X ^ 3 : Polynomial ℚ).eval ((m : ℚ) + 1) -
          (Polynomial.X ^ 3 : Polynomial ℚ).eval (m : ℚ)) 1 0 1).1 =
        ((Polynomial.X ^ 3 : Polynomial ℚ).eval 1 -
          (Polynomial.X ^ 3 : Polynomial ℚ).eval (1 / 2)) / (1 / 2)) ∧
    ((interp1d_CC_ENO 2 (fun m => (Polynomial.X ^ 3 : Polynomial ℚ).eval ((m : ℚ) + 1) -
          (Polynomial.X ^ 3 : Polynomial ℚ).eval (m : ℚ)) 1 (-1) 0).1 =
        ((Polynomial.X ^ 3 : Polynomial ℚ).eval (1 / 2) -
          (Polynomial.X ^ 3 : Polynomial ℚ).eval 0) / (1 / 2) ∧
      (interp1d_CC_ENO 2 (fun m => (Polynomial.X ^ 3 : Polynomial ℚ).eval ((m : ℚ) + 1) -
          (Polynomial.X ^ 3 : Polynomial ℚ).eval (m : ℚ)) 1 (-1) 1).1 =
        ((Polynomial.X ^ 3 : Polynomial ℚ).eval 1 -
          (Polynomial.X ^ 3 : Polynomial ℚ).eval (1 / 2)) / (1 / 2)) :=
  have hd : (Polynomial.derivative (Polynomial.X ^ 3 : Polynomial ℚ)).natDegree ≤ 2 :=
    le_trans (Polynomial.natDegree_derivative_le _)
      (Nat.sub_le_sub_right (Polynomial.natDegree_X_pow_le 3) 1)
  ⟨⟨by decide, by decide, by decide, by decide, hd⟩,
    conservative_subcell_exact 2 2 (by decide) (by decide) (-1) (by decide) (by decide)
      (Polynomial.derivative (Polynomial.X ^ 3)) (Polynomial.X ^ 3)
      (Polynomial.derivative (Polynomial.X ^ 3)) (Polynomial.X ^ 3) hd rfl hd rfl⟩

/-! ## The hermite family (C26, C27) -/

/-- C26: the hermite operator is the poly operator.  For every order, stride, shift, offset
and input, `interp1d<VC, HERMITE, ORDER>` returns the value of `interp1d<VC, POLY, ORDER>`
and reads the same elements, and its ghost width is the same; the tables
`coeffs1d<VC, HERMITE, …>` are not used: the table of order 5 differs from the poly table
of order 5, yet the operators of order 5 agree.  Consequently an operator instance of
the hermite family computes what the instance of the poly family with the same
centerings and orders computes. -/
theorem interp1d_VC_HERMITE_eq_POLY :
    (∀ (ORDER : ℕ) (u : ℤ → ℚ) (di shift off : ℤ),
      interp1d_VC_HERMITE ORDER u di shift off = interp1d_VC_POLY ORDER u di shift off) ∧
    (∀ (ORDER : ℕ) (u : ℤ → ℚ) (di shift off : ℤ),
      interp1d .vertex .hermite ORDER u di shift off =
        interp1d .vertex .poly ORDER u di shift off) ∧
    (∀ ORDER : ℕ, interp1d_required_ghosts .vertex .hermite ORDER =
      interp1d_required_ghosts .vertex .poly ORDER) ∧
    coeffs1d_VC_HERMITE 5 ≠ coeffs1d_VC_POLY 5 ∧
    (∀ (crse : FArrayBox) (crse_comp : ℕ) (fine : FArrayBox) (fine_comp ncomp : ℕ)
        (fine_region : Box) (ratio : IntVect) (actual_comp actual_state : ℤ)
        (scratch : Scratch),
      interp prolongate_ddfh_3d_rf2_c000_o5 crse crse_comp fine fine_comp ncomp fine_region
          ratio actual_comp actual_state scratch =
        interp prolongate_ddf_3d_rf2_c000_o5 crse crse_comp fine fine_comp ncomp fine_region
          ratio actual_comp actual_state scratch) := by
  refine ⟨fun _ _ _ _ _ => rfl, fun _ _ _ _ _ => rfl, fun _ => rfl, ?_,
    fun _ _ _ _ _ _ _ _ _ _ => rfl⟩
  simp only [coeffs1d_VC_HERMITE, coeffs1d_VC_POLY, ne_eq, List.cons.injEq, not_and]
  norm_num

/-- C27, counterexample: the hermite table of order 5 does not reproduce the polynomial
`X ^ 4` of degree 4: the weighted sum of the samples at `-2, …, 3` is `107/512`, while
`(1/2) ^ 4 = 1/16`. -/
theorem coeffs1d_VC_HERMITE_5_not_exact :
    (Polynomial.X ^ 4 : Polynomial ℚ).natDegree ≤ 5 ∧
    ((List.range (5 + 1)).map (fun i : ℕ => (coeffs1d_VC_HERMITE 5).getD i 0 *
      (Polynomial.X ^ 4 : Polynomial ℚ).eval ((i : ℚ) - ((5 - 1) / 2 : ℕ)))).sum = 107 / 512 ∧
    (Polynomial.X ^ 4 : Polynomial ℚ).eval (1 / 2) = 1 / 16 := by
  refine ⟨le_trans (Polynomial.natDegree_X_pow_le 4) (by norm_num), ?_, ?_⟩
  · simp only [coeffs1d_VC_HERMITE, Polynomial.eval_pow, Polynomial.eval_X]
    norm_num [List.range_succ]
  · norm_num

set_option maxHeartbeats 4000000 in
/-- C27 (amended): the hermite tables of the orders 1 and 3 reproduce all polynomials up to
their order, the table of order 5 only those up to degree 3: for `ORDER` in 1, 3, 5 and
every polynomial `p` of degree at most `min ORDER 3`, the weighted sum of the table over
the `ORDER + 1` samples `p(i - (ORDER - 1) / 2)` equals `p(1/2)`. -/
theorem coeffs1d_VC_HERMITE_exact (ORDER : ℕ) (hO : ORDER = 1 ∨ ORDER = 3 ∨ ORDER = 5)
    (p : Polynomial ℚ) (hp : p.natDegree ≤ min ORDER 3) :
    ((List.range (ORDER + 1)).map (fun i : ℕ => (coeffs1d_VC_HERMITE ORDER).getD i 0 *
      p.eval ((i : ℚ) - ((ORDER - 1) / 2 : ℕ)))).sum = p.eval (1 / 2) := by
  rcases hO with h | h | h <;> subst h
  · have hp1 : p.natDegree ≤ 1 := by simpa using hp
    simp only [eval_eq_sum_of_natDegree_le p _ hp1, coeffs1d_VC_HERMITE]
    norm_num [Finset.sum_range_succ, List.range_succ]
    ring
  · have hp1 : p.natDegree ≤ 3 := by simpa using hp
    simp only [eval_eq_sum_of_natDegree_le p _ hp1, coeffs1d_VC_HERMITE]
    norm_num [Finset.sum_range_succ, List.range_succ]
    ring
  · have hp1 : p.natDegree ≤ 3 := by simpa using hp
    simp only [eval_eq_sum_of_natDegree_le p _ hp1, coeffs1d_VC_HERMITE]
    norm_num [Finset.sum_range_succ, List.range_succ]
    ring

/-- C27 (amended), at a concrete input: order 5 and the polynomial `X ^ 3`. -/
theorem coeffs1d_VC_HERMITE_exact_witness :
    ((5 : ℕ) = 1 ∨ (5 : ℕ) = 3 ∨ (5 : ℕ) = 5) ∧
      (Polynomial.X ^ 3 : Polynomial ℚ).natDegree ≤ min 5 3 ∧
      ((List.range (5 + 1)).map (fun i : ℕ => (coeffs1d_VC_HERMITE 5).getD i 0 *
        (Polynomial.X ^ 3 : Polynomial ℚ).eval ((i : ℚ) - ((5 - 1) / 2 : ℕ)))).sum =
          (Polynomial.X ^ 3 : Polynomial ℚ).eval (1 / 2) :=
  ⟨by decide, Polynomial.natDegree_X_pow_le 3,
    coeffs1d_VC_HERMITE_exact 5 (by decide) (Polynomial.X ^ 3)
      (Polynomial.natDegree_X_pow_le 3)⟩

/-! ## The intermediate regions of `interp` (C28) -/

/-- A component loop that fails reports the failure of one of its sweeps. -/
theorem for_comps_error_sweep (sweep : ℕ → (ℤ → ℚ) → Except Failure ((ℤ → ℚ) × List Access))
    (comps : List ℕ) (st : (ℤ → ℚ) × List Access) (e : Failure × (ℤ → ℚ))
    (h : for_comps sweep comps st = .error e) : ∃ c m, sweep c m = .error e.1 := by
  induction comps generalizing st with
  | nil => simp [for_comps] at h
  | cons c cs ih =>
    unfold for_comps at h
    cases hq : sweep c st.1 with
    | error f =>
      rw [hq] at h
      simp only [Except.error.injEq] at h
      exact ⟨c, st.1, by rw [hq, ← h]⟩
    | ok q =>
      rw [hq] at h
      exact ih _ h

/-- The assertions of `interp3d` are its own: a sweep never reports a failure of the
assertion `targets[dim - 1] == target_region` of `interp`. -/
theorem interp3d_error_ne (CENT : centering_t) (INTP : interpolation_t) (ORDER D : ℕ)
    (USE_SHIFT : Bool) (src : Buffer) (crse : ℤ → ℚ) (crseptr : ℤ) (crsebox : Box)
    (shifts : ℤ → ℤ) (sptr : ℤ) (sbox : Box) (dst : Buffer) (fine : ℤ → ℚ) (fineptr : ℤ)
    (finebox targetbox : Box) (f : Failure)
    (h : interp3d CENT INTP ORDER D USE_SHIFT src crse crseptr crsebox shifts sptr sbox dst
      fine fineptr finebox targetbox = .error f) :
    f ≠ Failure.targets_last_eq_target_region := by
  intro hcontra
  subst hcontra
  unfold interp3d at h
  split at h
  · rename_i f' hf
    cases h
    unfold interp3d_asserts at hf
    dsimp only at hf
    split_ifs at hf <;> simp at hf
  · cases h

/-- The divided-difference stage fails only on `assert(crsebox.contains(ind))`. -/
theorem divided_differences_loop_error (op : prolongate_3d_rf2) (crse : ℤ → ℚ)
    (crseptr : ℤ) (crsebox diffbox : Box) (inds : List IntVect) (st : EnoState) (f : Failure)
    (h : divided_differences_loop op crse crseptr crsebox diffbox inds st = .error f) :
    f = Failure.crsebox_contains_ind := by
  induction inds generalizing st with
  | nil => simp [divided_differences_loop] at h
  | cons ind inds ih =>
    simp only [divided_differences_loop] at h
    by_cases hc : crsebox.contains ind
    · simp only [hc, not_true_eq_false, if_false] at h
      exact ih _ h
    · simp only [hc, not_false_eq_true, if_true, Except.error.injEq] at h
      exact h.symm

/-- The block "Find ENO stencil offsets" fails only on `assert(crsebox.contains(ind))`. -/
theorem eno_stage_error (op : prolongate_3d_rf2) (crse : FArrayBox) (crse_comp : ℕ)
    (source_region : Box) (comps : List ℕ) (st : EnoState) (f : Failure)
    (h : eno_stage op crse crse_comp source_region comps st = .error f) :
    f = Failure.crsebox_contains_ind := by
  induction comps generalizing st with
  | nil => simp [eno_stage] at h
  | cons c cs ih =>
    simp only [eno_stage] at h
    split at h
    · rename_i f' hf
      cases h
      exact divided_differences_loop_error _ _ _ _ _ _ _ _ hf
    · exact ih _ h

/-- C28: the intermediate regions of `interp`.  For every source and target region,
`targets[0]` is the source region with its axis-0 range replaced by the target's,
`targets[1]` is `targets[0]` with its axis-1 range replaced by the target's, and
`targets[2]` is `targets[1]` with its axis-2 range replaced by the target's, i.e. the
target's corners with the index type of the source region.  With
`source_region = CoarseBox(target_region, 2)`, which has the index type of the target,
`targets[2]` is the target region, and no call of `interp` fails on
`assert(targets[dim - 1] == target_region)`. -/
theorem interp_targets (op : prolongate_3d_rf2) (source_region target_region : Box) :
    targets source_region target_region 0 =
        { smallend := ⟨target_region.smallend.x, source_region.smallend.y,
            source_region.smallend.z⟩
          bigend := ⟨target_region.bigend.x, source_region.bigend.y, source_region.bigend.z⟩
          btype := source_region.btype } ∧
      targets source_region target_region 1 =
        { smallend := ⟨target_region.smallend.x, target_region.smallend.y,
            source_region.smallend.z⟩
          bigend := ⟨target_region.bigend.x, target_region.bigend.y, source_region.bigend.z⟩
          btype := source_region.btype } ∧
      targets source_region target_region 2 =
        { smallend := target_region.smallend
          bigend := target_region.bigend
          btype := source_region.btype } ∧
      (∃ src, CoarseBox_int op target_region 2 = .ok src ∧
        targets src target_region 2 = target_region) ∧
      (∀ (crse : FArrayBox) (crse_comp : ℕ) (fine : FArrayBox) (fine_comp ncomp : ℕ)
          (fine_region : Box) (ratio : IntVect) (actual_comp actual_state : ℤ)
          (scratch : Scratch),
        (interp op crse crse_comp fine fine_comp ncomp fine_region ratio actual_comp
          actual_state scratch).failure ≠ some Failure.targets_last_eq_target_region) := by
  have hsrc : ∀ t : Box, ∃ src, CoarseBox_int op t 2 = .ok src := by
    intro t
    unfold CoarseBox_int
    rw [CoarseBox_closed_form]
    simp only [and_self, if_true]
    exact ⟨_, rfl⟩
  have htwo : ∀ t src : Box, CoarseBox_int op t 2 = .ok src → targets src t 2 = t := by
    intro t src h
    exact targets_two src t (CoarseBox_int_two op t src h).2.2.2.2.2.2
  refine ⟨?_, ?_, ?_, ?_, ?_⟩
  · obtain ⟨⟨a1, a2, a3⟩, ⟨b1, b2, b3⟩, t⟩ := source_region
    obtain ⟨⟨c1, c2, c3⟩, ⟨d1, d2, d3⟩, t'⟩ := target_region
    simp only [targets, Box.setRange, IntVect.setVect, IntVect.getVect, Box.length,
      Box.mk.injEq, IntVect.mk.injEq, true_and, and_true, if_true]
    omega
  · obtain ⟨⟨a1, a2, a3⟩, ⟨b1, b2, b3⟩, t⟩ := source_region
    obtain ⟨⟨c1, c2, c3⟩, ⟨d1, d2, d3⟩, t'⟩ := target_region
    simp only [targets, Box.setRange, IntVect.setVect, IntVect.getVect, Box.length,
      Box.mk.injEq, IntVect.mk.injEq, true_and, and_true, if_true]
    omega
  · obtain ⟨⟨a1, a2, a3⟩, ⟨b1, b2, b3⟩, t⟩ := source_region
    obtain ⟨⟨c1, c2, c3⟩, ⟨d1, d2, d3⟩, t'⟩ := target_region
    simp only [targets, Box.setRange, IntVect.setVect, IntVect.getVect, Box.length,
      Box.mk.injEq, IntVect.mk.injEq, true_and, and_true, if_true]
    omega
  · obtain ⟨src, h⟩ := hsrc target_region
    exact ⟨src, h, htwo _ _ h⟩
  · intro crse crse_comp fine fine_comp ncomp fine_region ratio actual_comp actual_state
      scratch
    unfold interp
    split_ifs with h1 h2 h3
    all_goals first | (simp [Outcome.failure]; done) | skip
    by_cases h4 : fine_region.inter fine.box = fine_region
    swap
    · simp [h4, Outcome.failure]
    simp only [h4, not_true_eq_false, if_false]
    split
    · rename_i f hf
      obtain ⟨src, h⟩ := hsrc fine_region
      rw [h] at hf
      cases hf
    rename_i source_region hs
    rw [if_neg (by rw [not_not]; exact htwo _ _ hs)]
    split
    · rename_i f hf
      simp only [Outcome.failure, ne_eq, Option.some.injEq]
      unfold interp_eno at hf
      split_ifs at hf
      rw [eno_stage_error _ _ _ _ _ _ _ hf]; simp
    split
    · rename_i e he
      obtain ⟨c, m, hc⟩ := for_comps_error_sweep _ _ _ _ he
      simp only [Outcome.failure, ne_eq, Option.some.injEq]
      exact interp3d_error_ne _ _ _ _ _ _ _ _ _ _ _ _ _ _ _ _ _ _ hc
    split
    · rename_i e he
      obtain ⟨c, m, hc⟩ := for_comps_error_sweep _ _ _ _ he
      simp only [Outcome.failure, ne_eq, Option.some.injEq]
      exact interp3d_error_ne _ _ _ _ _ _ _ _ _ _ _ _ _ _ _ _ _ _ hc
    split
    · rename_i e he
      obtain ⟨c, m, hc⟩ := for_comps_error_sweep _ _ _ _ he
      simp only [Outcome.failure, ne_eq, Option.some.injEq]
      exact interp3d_error_ne _ _ _ _ _ _ _ _ _ _ _ _ _ _ _ _ _ _ hc
    · simp [Outcome.failure]

/-! ## The eno operator with shift 0 (C30) -/

/-- C30: with shift 0 the eno operator is the cons operator.  For the orders 0, 2 and 4,
every input, stride and offset (0: left sub-cell; otherwise: right sub-cell),
`interp1d<CC, ENO, ORDER>` called with shift 0 returns the value that
`interp1d<CC, CONS, ORDER>` returns. -/
theorem interp1d_CC_ENO_shift_0_eq_CONS (ORDER : ℕ) (hO : ORDER = 0 ∨ ORDER = 2 ∨ ORDER = 4)
    (u : ℤ → ℚ) (di shift off : ℤ) :
    (interp1d_CC_ENO ORDER u di 0 off).1 = (interp1d_CC_CONS ORDER u di shift off).1 := by
  by_cases h : off = 0
  · subst h
    rcases hO with h | h | h <;> subst h
    all_goals
      simp only [interp1d_CC_ENO, interp1d_CC_CONS, if_true, accumulate_fst,
        coeffs1d_CC_ENO, coeffs1d_CC_CONS]
      norm_num [List.range_succ, show Int.toNat 2 = 2 from rfl]
      try ring
  · rcases hO with h' | h' | h' <;> subst h'
    all_goals
      simp only [interp1d_CC_ENO, interp1d_CC_CONS, h, if_false, accumulate_fst,
        coeffs1d_CC_ENO, coeffs1d_CC_CONS]
      norm_num [List.range_succ, show Int.toNat 2 = 2 from rfl]
      try ring

/-- C30, at a concrete input: order 2, offset 1. -/
theorem interp1d_CC_ENO_shift_0_eq_CONS_witness :
    ((2 : ℕ) = 0 ∨ (2 : ℕ) = 2 ∨ (2 : ℕ) = 4) ∧
      ∀ (u : ℤ → ℚ) (di : ℤ),
        (interp1d_CC_ENO 2 u di 0 1).1 = (interp1d_CC_CONS 2 u di 0 1).1 :=
  ⟨by decide, fun u di => interp1d_CC_ENO_shift_0_eq_CONS 2 (by decide) u di 0 1⟩

/-! ## The operators served by the driver (C31, C32, C33) -/

/-- At the first call the static variable is set from the keyword, and the call continues
as a call with the variable already set. -/
theorem get_interpolator_unset (ty : String) (ord : ℤ) (idx : ℕ × ℕ × ℕ) :
    get_interpolator .unset ty ord idx =
      if ty = "interpolate" then get_interpolator .interpolate ty ord idx
      else if ty = "conservative" then get_interpolator .conservative ty ord idx
      else if ty = "ddf" then get_interpolator .ddf ty ord idx
      else .error .assert_0 := by
  unfold get_interpolator
  split_ifs <;> simp_all

/-- The operators returned once the static variable is set, by family: centering, 1D
family and order of every axis. -/
theorem get_interpolator_returns_set (st : interp_t) (ty : String) (ord : ℤ) (I J K : ℕ)
    (hI : I ≤ 1) (hJ : J ≤ 1) (hK : K ≤ 1) (op : prolongate_3d_rf2) (st1 : interp_t)
    (hst : st ≠ .unset)
    (h : get_interpolator st ty ord (I, J, K) = .ok (op, st1)) :
    op.CENTI = (if I = 0 then .vertex else .cell) ∧
    op.CENTJ = (if J = 0 then .vertex else .cell) ∧
    op.CENTK = (if K = 0 then .vertex else .cell) ∧
    ((st1 = .interpolate ∧ (ord = 1 ∨ ord = 3) ∧
        op.INTPI = .poly ∧ op.INTPJ = .poly ∧ op.INTPK = .poly ∧
        (op.ORDERI : ℤ) = ord ∧ (op.ORDERJ : ℤ) = ord ∧ (op.ORDERK : ℤ) = ord) ∨
      (st1 = .conservative ∧ ord = 1 ∧
        op.INTPI = .cons ∧ op.INTPJ = .cons ∧ op.INTPK = .cons ∧
        op.ORDERI = 0 ∧ op.ORDERJ = 0 ∧ op.ORDERK = 0) ∨
      (st1 = .ddf ∧
        op.INTPI = (if I = 0 then .poly else .cons) ∧
        op.INTPJ = (if J = 0 then .poly else .cons) ∧
        op.INTPK = (if K = 0 then .poly else .cons) ∧
        op.ORDERI = (if I = 0 then 1 else 0) ∧
        op.ORDERJ = (if J = 0 then 1 else 0) ∧
        op.ORDERK = (if K = 0 then 1 else 0))) := by
  interval_cases I <;> interval_cases J <;> interval_cases K <;>
    cases st <;> simp only [ne_eq, not_true_eq_false, not_false_eq_true] at hst <;>
    simp only [get_interpolator, reduceCtorEq, if_false] at h <;>
    first
    | (cases h; exact ⟨rfl, rfl, rfl, Or.inr (Or.inr ⟨rfl, rfl, rfl, rfl, rfl, rfl, rfl⟩)⟩)
    | (split at h <;> first | (cases h; decide) | cases h)

/-- Every operator that `get_interpolator` returns for index types in {0, 1}: the axis
centerings follow the index type; `interpolate` serves the poly family with the requested
order 1 or 3, `conservative` serves order 1 by the cons family of order 0 on every axis,
and `ddf` serves poly of order 1 on vertex axes and cons of order 0 on cell axes. -/
theorem get_interpolator_returns (st : interp_t) (ty : String) (ord : ℤ) (I J K : ℕ)
    (hI : I ≤ 1) (hJ : J ≤ 1) (hK : K ≤ 1) (op : prolongate_3d_rf2) (st1 : interp_t)
    (h : get_interpolator st ty ord (I, J, K) = .ok (op, st1)) :
    op.CENTI = (if I = 0 then .vertex else .cell) ∧
    op.CENTJ = (if J = 0 then .vertex else .cell) ∧
    op.CENTK = (if K = 0 then .vertex else .cell) ∧
    ((st1 = .interpolate ∧ (ord = 1 ∨ ord = 3) ∧
        op.INTPI = .poly ∧ op.INTPJ = .poly ∧ op.INTPK = .poly ∧
        (op.ORDERI : ℤ) = ord ∧ (op.ORDERJ : ℤ) = ord ∧ (op.ORDERK : ℤ) = ord) ∨
      (st1 = .conservative ∧ ord = 1 ∧
        op.INTPI = .cons ∧ op.INTPJ = .cons ∧ op.INTPK = .cons ∧
        op.ORDERI = 0 ∧ op.ORDERJ = 0 ∧ op.ORDERK = 0) ∨
      (st1 = .ddf ∧
        op.INTPI = (if I = 0 then .poly else .cons) ∧
        op.INTPJ = (if J = 0 then .poly else .cons) ∧
        op.INTPK = (if K = 0 then .poly else .cons) ∧
        op.ORDERI = (if I = 0 then 1 else 0) ∧
        op.ORDERJ = (if J = 0 then 1 else 0) ∧
        op.ORDERK = (if K = 0 then 1 else 0))) := by
  by_cases hst : st = .unset
  · subst hst
    rw [get_interpolator_unset] at h
    split_ifs at h
    · exact get_interpolator_returns_set _ ty ord I J K hI hJ hK op st1 (by decide) h
    · exact get_interpolator_returns_set _ ty ord I J K hI hJ hK op st1 (by decide) h
    · exact get_interpolator_returns_set _ ty ord I J K hI hJ hK op st1 (by decide) h
  · exact get_interpolator_returns_set st ty ord I J K hI hJ hK op st1 hst h

/-- C31: the operator returned by `get_interpolator` has the centerings of the index type.
For every value of the static variable, every keyword, every order and every index type
`[I, J, K]` with entries in {0, 1}: if `get_interpolator` returns an operator, then
`(CENTI, CENTJ, CENTK)` of that operator is `(I, J, K)` read as 0 = vertex, 1 = cell. -/
theorem get_interpolator_centering (interp : interp_t) (prolongation_type : String)
    (prolongation_order : ℤ) (I J K : ℕ) (hI : I ≤ 1) (hJ : J ≤ 1) (hK : K ≤ 1)
    (op : prolongate_3d_rf2) (interp1 : interp_t)
    (h : get_interpolator interp prolongation_type prolongation_order (I, J, K) =
      .ok (op, interp1)) :
    op.CENTI = (if I = 0 then .vertex else .cell) ∧
    op.CENTJ = (if J = 0 then .vertex else .cell) ∧
    op.CENTK = (if K = 0 then .vertex else .cell) := by
  obtain ⟨h1, h2, h3, -⟩ := get_interpolator_returns interp prolongation_type
    prolongation_order I J K hI hJ hK op interp1 h
  exact ⟨h1, h2, h3⟩

/-- C31, at a concrete input: the keyword `conservative`, order 1 and the index type
`[0, 1, 1]` return `prolongate_cons_3d_rf2_c011_o0`, whose centerings are vertex, cell,
cell. -/
theorem get_interpolator_centering_witness :
    get_interpolator .unset "conservative" 1 (0, 1, 1) =
        .ok (prolongate_cons_3d_rf2_c011_o0, .conservative) ∧
      prolongate_cons_3d_rf2_c011_o0.CENTI = .vertex ∧
      prolongate_cons_3d_rf2_c011_o0.CENTJ = .cell ∧
      prolongate_cons_3d_rf2_c011_o0.CENTK = .cell :=
  ⟨rfl, get_interpolator_centering .unset "conservative" 1 0 1 1 (by decide) (by decide)
    (by decide) prolongate_cons_3d_rf2_c011_o0 .conservative rfl⟩

set_option maxHeartbeats 4000000 in
/-- C32, evaluated at a failing input.  The keyword `conservative` with order 1 and the
vertex index type `[0, 0, 0]` returns `prolongate_cons_3d_rf2_c000_o0` (vertex centering,
cons family, order 0 on every axis).  For the nodal target `[0,1] × [0,0] × [0,0]`, whose
source region `CoarseBox(target, 2)` is the same box, and a coarse array holding the
constant 7 everywhere: the call completes, the fine point 0 (on a coarse point) receives
7, and the fine point 1 (between two coarse points) receives 0, the empty sum over the
table `coeffs1` of order 0. -/
theorem interp_constant_lost_VC_CONS :
    get_interpolator .unset "conservative" 1 (0, 0, 0) =
        .ok (prolongate_cons_3d_rf2_c000_o0, .conservative) ∧
      CoarseBox_int prolongate_cons_3d_rf2_c000_o0
          ⟨⟨0, 0, 0⟩, ⟨1, 0, 0⟩, ⟨true, true, true⟩⟩ 2 =
        .ok ⟨⟨0, 0, 0⟩, ⟨1, 0, 0⟩, ⟨true, true, true⟩⟩ ∧
      ∀ (finedata : ℤ → ℚ) (scratch : Scratch),
      (interp prolongate_cons_3d_rf2_c000_o0
          ⟨⟨⟨0, 0, 0⟩, ⟨1, 0, 0⟩, ⟨true, true, true⟩⟩, fun _ => 7⟩ 0
          ⟨⟨⟨0, 0, 0⟩, ⟨1, 0, 0⟩, ⟨true, true, true⟩⟩, finedata⟩ 0 1
          ⟨⟨0, 0, 0⟩, ⟨1, 0, 0⟩, ⟨true, true, true⟩⟩ ⟨2, 2, 2⟩ 0 0 scratch).failure = none ∧
      (interp prolongate_cons_3d_rf2_c000_o0
          ⟨⟨⟨0, 0, 0⟩, ⟨1, 0, 0⟩, ⟨true, true, true⟩⟩, fun _ => 7⟩ 0
          ⟨⟨⟨0, 0, 0⟩, ⟨1, 0, 0⟩, ⟨true, true, true⟩⟩, finedata⟩ 0 1
          ⟨⟨0, 0, 0⟩, ⟨1, 0, 0⟩, ⟨true, true, true⟩⟩ ⟨2, 2, 2⟩ 0 0 scratch).fine 0 = 7 ∧
      (interp prolongate_cons_3d_rf2_c000_o0
          ⟨⟨⟨0, 0, 0⟩, ⟨1, 0, 0⟩, ⟨true, true, true⟩⟩, fun _ => 7⟩ 0
          ⟨⟨⟨0, 0, 0⟩, ⟨1, 0, 0⟩, ⟨true, true, true⟩⟩, finedata⟩ 0 1
          ⟨⟨0, 0, 0⟩, ⟨1, 0, 0⟩, ⟨true, true, true⟩⟩ ⟨2, 2, 2⟩ 0 0 scratch).fine 1 = 0 := by
  refine ⟨rfl, rfl, ?_⟩
  intro finedata scratch
  refine ⟨rfl, ?_, ?_⟩
  · calc _ = (0 + 1 / 1 * (0 + 1 / 1 * (0 + 1 / 1 * 7)) : ℚ) := rfl
      _ = 7 := by norm_num
  · calc _ = (0 + 1 / 1 * (0 + 1 / 1 * 0) : ℚ) := rfl
      _ = 0 := by norm_num

/-- C33, evaluated at a failing input.  The keyword `conservative` with order 1 and the
vertex index type `[0, 0, 0]` returns `prolongate_cons_3d_rf2_c000_o0`, all three axes of
which have vertex centering and the cons family; with the index type `[0, 1, 1]` the
operator returned has such an axis along x. -/
theorem get_interpolator_returns_vertex_cons :
    get_interpolator .unset "conservative" 1 (0, 0, 0) =
        .ok (prolongate_cons_3d_rf2_c000_o0, .conservative) ∧
      (prolongate_cons_3d_rf2_c000_o0.CENTI = .vertex ∧
        prolongate_cons_3d_rf2_c000_o0.INTPI = .cons) ∧
      (prolongate_cons_3d_rf2_c000_o0.CENTJ = .vertex ∧
        prolongate_cons_3d_rf2_c000_o0.INTPJ = .cons) ∧
      (prolongate_cons_3d_rf2_c000_o0.CENTK = .vertex ∧
        prolongate_cons_3d_rf2_c000_o0.INTPK = .cons) ∧
      get_interpolator .unset "conservative" 1 (0, 1, 1) =
        .ok (prolongate_cons_3d_rf2_c011_o0, .conservative) ∧
      prolongate_cons_3d_rf2_c011_o0.CENTI = .vertex ∧
      prolongate_cons_3d_rf2_c011_o0.INTPI = .cons := by
  refine ⟨rfl, ⟨rfl, rfl⟩, ⟨rfl, rfl⟩, ⟨rfl, rfl⟩, rfl, rfl, rfl⟩

/-! ## Divided differences and symmetric loops (C34, C35, C36) -/

/-- C34, counterexample: for the eno family of order 2 and the linear samples `u[m] = m`
(stride 1) the divided difference is 0, whereas every finite difference of order
`2 / 2 = 1` of these samples has magnitude 1: the value computed is the magnitude of no
first finite difference of the samples. -/
theorem finite_difference_linear_ne :
    (divided_difference_1d_ENO 2 (fun m => (m : ℚ)) 1).1 = 0 ∧
      ¬ ∃ a : ℤ, (divided_difference_1d_ENO 2 (fun m => (m : ℚ)) 1).1 =
        |finite_difference (2 / 2) (fun m => (m : ℚ)) a| := by
  have h0 : (divided_difference_1d_ENO 2 (fun m => (m : ℚ)) 1).1 = 0 := by
    simp only [divided_difference_1d_ENO, accumulate_fst, divided_difference_weights]
    norm_num [List.range_succ]
  refine ⟨h0, ?_⟩
  rintro ⟨a, ha⟩
  rw [h0] at ha
  norm_num [finite_difference] at ha

/-- C34, amended: for the eno family of order `ORDER` (0, 2, 4 or 6), every input and
every stride, the divided difference at a coarse index is the magnitude of the finite
difference of order `ORDER` of the coarse samples along the axis, taken over the
`ORDER + 1` samples from `ORDER / 2` below the index to `ORDER / 2` above it. -/
theorem divided_difference_1d_ENO_eq_finite_difference (ORDER : ℕ)
    (hO : ORDER = 0 ∨ ORDER = 2 ∨ ORDER = 4 ∨ ORDER = 6) (u : ℤ → ℚ) (di : ℤ) :
    (divided_difference_1d_ENO ORDER u di).1 =
      |finite_difference ORDER (fun m => u (m * di)) (-((ORDER / 2 : ℕ) : ℤ))| := by
  rcases hO with h | h | h | h <;> subst h
  all_goals
    simp only [divided_difference_1d_ENO, accumulate_fst, divided_difference_weights,
      finite_difference]
    norm_num [List.range_succ]
    try (congr 1; ring)

/-- C34, amended, at a concrete input: order 2, stride 1. -/
theorem divided_difference_1d_ENO_eq_finite_difference_witness :
    ((2 : ℕ) = 0 ∨ (2 : ℕ) = 2 ∨ (2 : ℕ) = 4 ∨ (2 : ℕ) = 6) ∧
      ∀ (u : ℤ → ℚ),
        (divided_difference_1d_ENO 2 u 1).1 =
          |finite_difference 2 (fun m => u (m * 1)) (-((2 / 2 : ℕ) : ℤ))| :=
  ⟨by decide, fun u => divided_difference_1d_ENO_eq_finite_difference 2 (by decide) u 1⟩

/-- C35: for `ORDER` in {2, 4, 6}, every input `u` and stride `di`,
`divided_difference_1d<ENO, ORDER>` returns
`|Σ_{i=0..ORDER} (-1)^i * C(ORDER, i) * u[(i - ORDER/2) * di]|`; it returns 0 when the
samples are those of a polynomial of degree below `ORDER` (`u[m * di] = p(m)`); and for
every family other than eno, every order and every input the divided difference is 0. -/
theorem divided_difference_1d_eq_binomial (ORDER : ℕ)
    (hO : ORDER = 2 ∨ ORDER = 4 ∨ ORDER = 6) (u : ℤ → ℚ) (di : ℤ) :
    (divided_difference_1d .eno ORDER u di).1 =
        |∑ i in Finset.range (ORDER + 1),
          (-1 : ℚ) ^ i * (ORDER.choose i : ℚ) * u (((i : ℤ) - ((ORDER / 2 : ℕ) : ℤ)) * di)| ∧
      (∀ p : Polynomial ℚ, p.natDegree < ORDER → (∀ m : ℤ, u (m * di) = p.eval (m : ℚ)) →
        (divided_difference_1d .eno ORDER u di).1 = 0) ∧
      ∀ (INTP : interpolation_t) (ORDER1 : ℕ) (v : ℤ → ℚ) (dj : ℤ), INTP ≠ .eno →
        (divided_difference_1d INTP ORDER1 v dj).1 = 0 := by
  refine ⟨?_, ?_, ?_⟩
  · rcases hO with h | h | h <;> subst h
    all_goals
      simp only [divided_difference_1d, divided_difference_1d_ENO, accumulate_fst,
        divided_difference_weights]
      norm_num [List.range_succ, Finset.sum_range_succ, Nat.choose]
      congr 1
      try ring
  · intro p hp hu
    have hp1 : p.natDegree ≤ ORDER - 1 := by omega
    rcases hO with h | h | h <;> subst h
    all_goals
      simp only [divided_difference_1d, divided_difference_1d_ENO, accumulate_fst,
        divided_difference_weights, hu, eval_eq_sum_of_natDegree_le p _ hp1]
      norm_num [List.range_succ, Finset.sum_range_succ]
      try ring
  · intro INTP ORDER1 v dj h
    cases INTP <;> first | rfl | exact absurd rfl h

/-- C35, at a concrete input: order 2 and the samples `u[m] = m` of the polynomial `X`. -/
theorem divided_difference_1d_eq_binomial_witness :
    ((2 : ℕ) = 2 ∨ (2 : ℕ) = 4 ∨ (2 : ℕ) = 6) ∧
      (Polynomial.X : Polynomial ℚ).natDegree < 2 ∧
      (∀ m : ℤ, (fun e : ℤ => (e : ℚ)) (m * 1) = (Polynomial.X : Polynomial ℚ).eval (m : ℚ)) ∧
      (divided_difference_1d .eno 2 (fun e : ℤ => (e : ℚ)) 1).1 = 0 :=
  ⟨by decide, by simp, by simp,
    (divided_difference_1d_eq_binomial 2 (by decide) (fun e : ℤ => (e : ℚ)) 1).2.1
      Polynomial.X (by simp) (by simp)⟩

/-- C36: the loops over half of a symmetric table equal the sums written out in full, for
every tabulated order, every input and every stride: (a) `interp1d<VC, POLY, ORDER>` at
offset 1 is `Σ_{i=0..ORDER} cs[i] * u[(i - i0) * di]` with `i0 = (ORDER + 1) / 2 - 1`;
(b) `interp1d<CC, CONS, ORDER>` is `Σ_i cs[i] * u[(i - i0) * di]` at offset 0 and
`Σ_i cs[i] * u[-(i - i0) * di]` at offset 1, with `i0 = (ORDER + 1) / 2`;
(c) `divided_difference_1d<ENO, ORDER>` is `|Σ_i ws[i] * u[(i - ORDER/2) * di]|`. -/
theorem symmetric_loops_eq_full_sums :
    (∀ ORDER ∈ [1, 3, 5, 7], ∀ (u : ℤ → ℚ) (di shift : ℤ),
      (interp1d_VC_POLY ORDER u di shift 1).1 =
        full_sum ORDER (coeffs1d_VC_POLY ORDER) (((ORDER + 1) / 2 : ℕ) - 1) u di) ∧
    (∀ ORDER ∈ [0, 2, 4, 6], ∀ (u : ℤ → ℚ) (di shift : ℤ),
      (interp1d_CC_CONS ORDER u di shift 0).1 =
          full_sum ORDER (coeffs1d_CC_CONS ORDER) ((ORDER + 1) / 2 : ℕ) u di ∧
        (interp1d_CC_CONS ORDER u di shift 1).1 =
          full_sum ORDER (coeffs1d_CC_CONS ORDER) ((ORDER + 1) / 2 : ℕ) u (-di)) ∧
    (∀ ORDER ∈ [0, 2, 4, 6], ∀ (u : ℤ → ℚ) (di : ℤ),
      (divided_difference_1d_ENO ORDER u di).1 =
        |full_sum ORDER ((divided_difference_weights (ORDER + 1)).map (fun w => (w : ℚ)))
          (ORDER / 2 : ℕ) u di|) := by
  refine ⟨?_, ?_, ?_⟩
  · intro ORDER hO u di shift
    simp only [List.mem_cons, List.mem_singleton, List.not_mem_nil, or_false] at hO
    rcases hO with h | h | h | h <;> subst h
    all_goals
      simp only [interp1d_VC_POLY, one_ne_zero, if_false, accumulate_fst, coeffs1d_VC_POLY,
        full_sum]
      norm_num [List.range_succ]
      try ring
  · intro ORDER hO u di shift
    simp only [List.mem_cons, List.mem_singleton, List.not_mem_nil, or_false] at hO
    rcases hO with h | h | h | h <;> subst h
    all_goals
      simp only [interp1d_CC_CONS, one_ne_zero, if_false, if_true, accumulate_fst,
        coeffs1d_CC_CONS, full_sum]
      norm_num [List.range_succ]
      try (constructor <;> ring)
  · intro ORDER hO u di
    simp only [List.mem_cons, List.mem_singleton, List.not_mem_nil, or_false] at hO
    rcases hO with h | h | h | h <;> subst h
    all_goals
      simp only [divided_difference_1d_ENO, accumulate_fst, divided_difference_weights,
        full_sum]
      norm_num [List.range_succ]
      try (congr 1; ring)

/-- C36, at concrete orders: poly of order 3, cons of order 2 and eno of order 4. -/
theorem symmetric_loops_eq_full_sums_witness :
    (3 ∈ [1, 3, 5, 7] ∧ ∀ (u : ℤ → ℚ) (di : ℤ),
      (interp1d_VC_POLY 3 u di 0 1).1 =
        full_sum 3 (coeffs1d_VC_POLY 3) (((3 + 1) / 2 : ℕ) - 1) u di) ∧
    (2 ∈ [0, 2, 4, 6] ∧ ∀ (u : ℤ → ℚ) (di : ℤ),
      (interp1d_CC_CONS 2 u di 0 0).1 =
          full_sum 2 (coeffs1d_CC_CONS 2) ((2 + 1) / 2 : ℕ) u di ∧
        (interp1d_CC_CONS 2 u di 0 1).1 =
          full_sum 2 (coeffs1d_CC_CONS 2) ((2 + 1) / 2 : ℕ) u (-di)) ∧
    (4 ∈ [0, 2, 4, 6] ∧ ∀ (u : ℤ → ℚ) (di : ℤ),
      (divided_difference_1d_ENO 4 u di).1 =
        |full_sum 4 ((divided_difference_weights (4 + 1)).map (fun w => (w : ℚ)))
          (4 / 2 : ℕ) u di|) :=
  ⟨⟨by decide, fun u di => symmetric_loops_eq_full_sums.1 3 (by decide) u di 0⟩,
    ⟨by decide, fun u di => symmetric_loops_eq_full_sums.2.1 2 (by decide) u di 0⟩,
    ⟨by decide, fun u di => symmetric_loops_eq_full_sums.2.2 4 (by decide) u di⟩⟩

/-! ## The index split of the kernel (C37) -/

/-- Division by 2 rounding towards minus infinity. -/
theorem div_floor_two (f : ℤ) : div_floor f 2 = f / 2 := by
  unfold div_floor
  exact Int.fdiv_eq_ediv f (by norm_num)

/-- C37: the kernel of `interp3d` splits the fine index along the sweep direction `D` into
a coarse index and an offset.  For every fine index `(i, j, k)`, negative entries
included: the offset is 0 or 1, the entry along `D` equals `2 * c + off` for the coarse
index `c = div_floor(f, 2)` and `off = f & 1`, and the entries along the other two
directions are passed on unchanged. -/
theorem interp3d_index_split (D : ℕ) (hD : D < 3) (i j k : ℤ) :
    (interp3d_off D i j k = 0 ∨ interp3d_off D i j k = 1) ∧
      (⟨i, j, k⟩ : IntVect).getVect D =
        2 * (interp3d_crseind D i j k).getVect D + interp3d_off D i j k ∧
      ∀ d, d < 3 → d ≠ D →
        (interp3d_crseind D i j k).getVect d = (⟨i, j, k⟩ : IntVect).getVect d := by
  interval_cases D <;>
    simp only [interp3d_off, interp3d_crseind, and_0x1, div_floor_two, IntVect.getVect] <;>
    refine ⟨by omega, by norm_num; omega, ?_⟩ <;>
    intro d hd hne <;> interval_cases d <;> simp_all

/-- C37, at a concrete input: the sweep along z at the fine index `(5, -4, -3)`. -/
theorem interp3d_index_split_witness :
    (2 : ℕ) < 3 ∧ (interp3d_off 2 5 (-4) (-3) = 0 ∨ interp3d_off 2 5 (-4) (-3) = 1) ∧
      (⟨5, -4, -3⟩ : IntVect).getVect 2 =
        2 * (interp3d_crseind 2 5 (-4) (-3)).getVect 2 + interp3d_off 2 5 (-4) (-3) ∧
      ∀ d, d < 3 → d ≠ 2 →
        (interp3d_crseind 2 5 (-4) (-3)).getVect d = (⟨5, -4, -3⟩ : IntVect).getVect d :=
  ⟨by decide, interp3d_index_split 2 (by decide) 5 (-4) (-3)⟩

/-! ## The index map of `rten` (C38, C39) -/

/-- The first index of a row: row `a` has `M - a` entries. -/
theorem triangle_index_succ (M a : ℤ) :
    triangle_index M (a + 1) (a + 1) = triangle_index M a a + (M - a) := by
  unfold triangle_index
  have h : (a + 1) * (2 * M - 1 - (a + 1)) = a * (2 * M - 1 - a) + 2 * (M - 1 - a) := by ring
  rw [h, Int.add_mul_ediv_left _ _ (by norm_num : (2 : ℤ) ≠ 0)]
  ring

/-- Within a row the packed index grows with the column. -/
theorem triangle_index_col (M a b : ℤ) :
    triangle_index M a b = triangle_index M a a + (b - a) := by
  unfold triangle_index
  ring

/-- The first entry has the packed index 0. -/
theorem triangle_index_zero (M : ℤ) : triangle_index M 0 0 = 0 := by
  simp [triangle_index]

/-- The first index of a row does not decrease from one row to a later one. -/
theorem triangle_index_row_mono (M : ℤ) (n : ℕ) (a : ℤ) (h : a + n ≤ M) :
    triangle_index M a a ≤ triangle_index M (a + n) (a + n) := by
  induction n with
  | zero => simp
  | succ n ih =>
    have h1 : a + (n : ℤ) ≤ M := by push_cast at h; omega
    have h2 := triangle_index_succ M (a + n)
    have h3 : a + ((n + 1 : ℕ) : ℤ) = a + n + 1 := by push_cast; ring
    rw [h3, h2]
    have := ih h1
    push_cast at h
    omega

/-- The first indices of the rows are ordered like the rows. -/
theorem triangle_index_row_le (M a c : ℤ) (hac : a ≤ c) (hc : c ≤ M) :
    triangle_index M a a ≤ triangle_index M c c := by
  obtain ⟨n, hn⟩ := Int.eq_ofNat_of_zero_le (show 0 ≤ c - a by omega)
  have h := triangle_index_row_mono M n a (by omega)
  have hc2 : a + (n : ℤ) = c := by omega
  rwa [hc2] at h

/-- Entries of the table are numbered row by row: the order of the packed indices is the
lexicographic order of the entries. -/
theorem triangle_index_lt (M a b c d : ℤ) (_hab : a ≤ b) (hb : b < M) (hcd : c ≤ d)
    (_hd : d < M) (h : a < c ∨ (a = c ∧ b < d)) :
    triangle_index M a b < triangle_index M c d := by
  rw [triangle_index_col M a b, triangle_index_col M c d]
  rcases h with h | ⟨rfl, h⟩
  · have h1 := triangle_index_succ M a
    have h2 := triangle_index_row_le M (a + 1) c (by omega) (by omega)
    omega
  · omega

/-- Two entries with the same packed index are equal. -/
theorem triangle_index_inj (M a b c d : ℤ) (hab : a ≤ b) (hb : b < M) (hcd : c ≤ d)
    (hd : d < M) (h : triangle_index M a b = triangle_index M c d) : a = c ∧ b = d := by
  by_contra hne
  have hcases : (a < c ∨ (a = c ∧ b < d)) ∨ (c < a ∨ (c = a ∧ d < b)) := by omega
  rcases hcases with h1 | h1
  · have := triangle_index_lt M a b c d hab hb hcd hd h1
    omega
  · have := triangle_index_lt M c d a b hcd hd hab hb h1
    omega

/-- The packed indices are ordered like the entries, row by row. -/
theorem triangle_index_le_iff (M a b c d : ℤ) (hab : a ≤ b) (hb : b < M) (hcd : c ≤ d)
    (hd : d < M) :
    triangle_index M a b ≤ triangle_index M c d ↔ a < c ∨ (a = c ∧ b ≤ d) := by
  constructor
  · intro h
    by_contra hne
    have h1 : c < a ∨ (c = a ∧ d < b) := by omega
    have := triangle_index_lt M c d a b hcd hd hab hb h1
    omega
  · intro h
    by_cases hbd : a = c ∧ b = d
    · obtain ⟨rfl, rfl⟩ := hbd
      exact le_refl _
    · have h1 : a < c ∨ (a = c ∧ b < d) := by omega
      exact le_of_lt (triangle_index_lt M a b c d hab hb hcd hd h1)

/-- The number of entries of the table. -/
theorem triangle_index_total (M : ℤ) :
    triangle_index M M M = M * (M + 1) / 2 := by
  unfold triangle_index
  have h : M * (M + 1) = M * (2 * M - 1 - M) + 2 * M := by ring
  rw [h, Int.add_mul_ediv_left _ _ (by norm_num : (2 : ℤ) ≠ 0)]

/-- Every packed index is in `[0, M * (M + 1) / 2)`. -/
theorem triangle_index_bounds (M a b : ℤ) (ha : 0 ≤ a) (hab : a ≤ b) (hb : b < M) :
    0 ≤ triangle_index M a b ∧ triangle_index M a b < M * (M + 1) / 2 := by
  rw [← triangle_index_total, triangle_index_col M a b]
  have h0 := triangle_index_row_le M 0 a ha (by omega)
  rw [triangle_index_zero] at h0
  have h1 := triangle_index_succ M a
  have h2 := triangle_index_row_le M (a + 1) M (by omega) (le_refl _)
  constructor <;> omega

/-- Every number below the number of entries is the packed index of an entry. -/
theorem triangle_index_surj (M : ℤ) (hM0 : 0 ≤ M) (n : ℕ)
    (hn : (n : ℤ) < M * (M + 1) / 2) :
    ∃ a b : ℤ, 0 ≤ a ∧ a ≤ b ∧ b < M ∧ triangle_index M a b = n := by
  rw [← triangle_index_total] at hn
  induction n with
  | zero =>
    have hM : 0 < M := by
      by_contra hM
      have hM1 : M = 0 := by omega
      rw [hM1, triangle_index_zero] at hn
      simp at hn
    exact ⟨0, 0, le_refl _, le_refl _, hM, by simp [triangle_index_zero]⟩
  | succ n ih =>
    obtain ⟨a, b, ha, hab, hb, h⟩ := ih (by push_cast at hn; omega)
    by_cases hb1 : b + 1 < M
    · refine ⟨a, b + 1, ha, by omega, hb1, ?_⟩
      rw [triangle_index_col] at h ⊢
      push_cast
      omega
    · have hbM : b = M - 1 := by omega
      have h1 := triangle_index_succ M a
      rw [triangle_index_col] at h
      by_cases ha1 : a + 1 < M
      · refine ⟨a + 1, a + 1, by omega, le_refl _, ha1, ?_⟩
        push_cast
        omega
      · have haM : a + 1 = M := by omega
        rw [haM] at h1
        push_cast at hn
        omega
/-- The comparison `D * i + j <= D * k + l` of `rten::loop` is the lexicographic
comparison of the index pairs when `j` and `l` are in `[0, D)`. -/
theorem rten_lex_iff (D i j k l : ℤ) (hj : 0 ≤ j ∧ j < D) (hl : 0 ≤ l ∧ l < D) :
    D * i + j ≤ D * k + l ↔ i < k ∨ (i = k ∧ j ≤ l) := by
  have hD : 0 ≤ D := by omega
  constructor
  · intro h
    by_contra hne
    have h1 : k < i ∨ (k = i ∧ l < j) := by omega
    rcases h1 with h1 | ⟨rfl, h1⟩
    · have h2 : D * (k + 1) ≤ D * i := mul_le_mul_of_nonneg_left (by omega) hD
      rw [mul_add, mul_one] at h2
      omega
    · omega
  · rintro (h | ⟨rfl, h⟩)
    · have h2 : D * (i + 1) ≤ D * k := mul_le_mul_of_nonneg_left (by omega) hD
      rw [mul_add, mul_one] at h2
      omega
    · omega

/-- The first stage of `rten::ind`: the number of an index pair `a < b` in `[0, D)`. -/
theorem rten_pair_index (D a b : ℤ) (ha : 0 ≤ a) (hab : a < b) (hb : b < D) :
    (a * (2 * D - 3 - a)).tdiv 2 + b - 1 = triangle_index (D - 1) a (b - 1) := by
  have h0 : 0 ≤ a * (2 * D - 3 - a) := mul_nonneg ha (by omega)
  rw [Int.tdiv_eq_ediv h0 (by norm_num)]
  unfold triangle_index
  have h : 2 * (D - 1) - 1 - a = 2 * D - 3 - a := by ring
  rw [h]
  ring

/-- The constant `N0` is the number of index pairs `a < b` in `[0, D)`. -/
theorem rten_N0_eq (D : ℤ) (hD : 1 ≤ D) : rten.N0 D = (D - 1) * (D - 1 + 1) / 2 := by
  unfold rten.N0
  rw [Int.tdiv_eq_ediv (mul_nonneg (by omega) (by omega)) (by norm_num)]
  congr 1
  ring

/-- For `D ≥ 2` there is at least one index pair. -/
theorem rten_N0_pos (D : ℤ) (hD : 2 ≤ D) : 0 < rten.N0 D := by
  rw [rten_N0_eq D (by omega)]
  have h := triangle_index_bounds (D - 1) 0 0 (le_refl _) (le_refl _) (by omega)
  rw [triangle_index_zero] at h
  exact h.2

/-- The constant `N` is the number of pairs `p ≤ q` of pair numbers. -/
theorem rten_N_eq (D : ℤ) (hD : 2 ≤ D) : rten.N D = rten.N0 D * (rten.N0 D + 1) / 2 := by
  have h := rten_N0_pos D hD
  unfold rten.N
  rw [Int.tdiv_eq_ediv (mul_nonneg (by omega) (by omega)) (by norm_num)]

/-- The number of an index pair is in `[0, N0)`. -/
theorem rten_pair_bounds (D a b : ℤ) (hD : 2 ≤ D) (ha : 0 ≤ a) (hab : a < b) (hb : b < D) :
    0 ≤ triangle_index (D - 1) a (b - 1) ∧ triangle_index (D - 1) a (b - 1) < rten.N0 D := by
  rw [rten_N0_eq D (by omega)]
  exact triangle_index_bounds (D - 1) a (b - 1) ha (by omega) (by omega)

/-- The second stage of `rten::ind`: the number of a pair of pair numbers. -/
theorem rten_ind_eq (D i j k l : ℤ) (hD : 2 ≤ D) (hi : 0 ≤ i ∧ i < D) (hj : 0 ≤ j ∧ j < D)
    (hk : 0 ≤ k ∧ k < D) (hl : 0 ≤ l ∧ l < D) (hij : i ≠ j) (hkl : k ≠ l) :
    rten.ind D i j k l =
      triangle_index (rten.N0 D)
        (min (triangle_index (D - 1) (min i j) (max i j - 1))
          (triangle_index (D - 1) (min k l) (max k l - 1)))
        (max (triangle_index (D - 1) (min i j) (max i j - 1))
          (triangle_index (D - 1) (min k l) (max k l - 1))) := by
  have h1 : 0 ≤ min i j ∧ min i j < max i j ∧ max i j < D := by
    rcases le_total i j with h | h
    · rw [min_eq_left h, max_eq_right h]; omega
    · rw [min_eq_right h, max_eq_left h]; omega
  have h2 : 0 ≤ min k l ∧ min k l < max k l ∧ max k l < D := by
    rcases le_total k l with h | h
    · rw [min_eq_left h, max_eq_right h]; omega
    · rw [min_eq_right h, max_eq_left h]; omega
  have b1 := rten_pair_bounds D _ _ hD h1.1 h1.2.1 h1.2.2
  have b2 := rten_pair_bounds D _ _ hD h2.1 h2.2.1 h2.2.2
  unfold rten.ind
  rw [if_neg (by omega)]
  simp only [rten_pair_index D _ _ h1.1 h1.2.1 h1.2.2, rten_pair_index D _ _ h2.1 h2.2.1 h2.2.2]
  generalize triangle_index (D - 1) (min i j) (max i j - 1) = p at b1 ⊢
  generalize triangle_index (D - 1) (min k l) (max k l - 1) = q at b2 ⊢
  have h3 : 0 ≤ min p q ∧ min p q ≤ max p q ∧ max p q < rten.N0 D := by
    rcases le_total p q with h | h
    · rw [min_eq_left h, max_eq_right h]; omega
    · rw [min_eq_right h, max_eq_left h]; omega
  have h0 : 0 ≤ min p q * (2 * rten.N0 D - 1 - min p q) := mul_nonneg h3.1 (by omega)
  rw [Int.tdiv_eq_ediv h0 (by norm_num)]
  rfl

/-- Every value of `rten::ind` for indices in `[0, D)` is in `[0, N)`. -/
theorem rten_ind_bounds (D i j k l : ℤ) (hD : 2 ≤ D) (hi : 0 ≤ i ∧ i < D)
    (hj : 0 ≤ j ∧ j < D) (hk : 0 ≤ k ∧ k < D) (hl : 0 ≤ l ∧ l < D) :
    0 ≤ rten.ind D i j k l ∧ rten.ind D i j k l < rten.N D := by
  have hN0 := rten_N0_pos D hD
  rw [rten_N_eq D hD]
  by_cases h : i = j ∨ k = l
  · unfold rten.ind
    rw [if_pos h]
    have h := triangle_index_bounds (rten.N0 D) 0 0 (le_refl _) (le_refl _) hN0
    rw [triangle_index_zero] at h
    exact h
  · rw [rten_ind_eq D i j k l hD hi hj hk hl (by tauto) (by tauto)]
    have h1 : 0 ≤ min i j ∧ min i j < max i j ∧ max i j < D := by
      rcases le_total i j with h' | h'
      · rw [min_eq_left h', max_eq_right h']; omega
      · rw [min_eq_right h', max_eq_left h']; omega
    have h2 : 0 ≤ min k l ∧ min k l < max k l ∧ max k l < D := by
      rcases le_total k l with h' | h'
      · rw [min_eq_left h', max_eq_right h']; omega
      · rw [min_eq_right h', max_eq_left h']; omega
    have b1 := rten_pair_bounds D _ _ hD h1.1 h1.2.1 h1.2.2
    have b2 := rten_pair_bounds D _ _ hD h2.1 h2.2.1 h2.2.2
    generalize triangle_index (D - 1) (min i j) (max i j - 1) = p at b1 ⊢
    generalize triangle_index (D - 1) (min k l) (max k l - 1) = q at b2 ⊢
    apply triangle_index_bounds
    · rcases le_total p q with h' | h'
      · rw [min_eq_left h']; omega
      · rw [min_eq_right h']; omega
    · exact min_le_max
    · rcases le_total p q with h' | h'
      · rw [max_eq_right h']; omega
      · rw [max_eq_left h']; omega

/-- The product formed by a stage of `rten::ind` for a row `a` in `[0, M)` lies between 0
and `M * (M + 1)`. -/
theorem triangle_product_bounds (M a : ℤ) (ha : 0 ≤ a) (haM : a < M) :
    0 ≤ a * (2 * M - 1 - a) ∧ a * (2 * M - 1 - a) ≤ M * (M + 1) := by
  constructor
  · exact mul_nonneg ha (by omega)
  · nlinarith [sq_nonneg (M - a)]

/-- No intermediate value of `rten::ind` exceeds the products `D * (D - 1)` and
`N0 * (N0 + 1)` from which the constant expressions `N0` and `N` are computed: for indices
in `[0, D)` the computation in `int` does not overflow whenever the template compiles. -/
theorem rten_ind_products (D i j k l : ℤ) (hD : 2 ≤ D) (hi : 0 ≤ i ∧ i < D)
    (hj : 0 ≤ j ∧ j < D) (hk : 0 ≤ k ∧ k < D) (hl : 0 ≤ l ∧ l < D) (hij : i ≠ j)
    (hkl : k ≠ l) :
    (0 ≤ min i j * (2 * D - 3 - min i j) ∧ min i j * (2 * D - 3 - min i j) ≤ D * (D - 1)) ∧
    (0 ≤ min k l * (2 * D - 3 - min k l) ∧ min k l * (2 * D - 3 - min k l) ≤ D * (D - 1)) ∧
    (0 ≤ min (triangle_index (D - 1) (min i j) (max i j - 1))
          (triangle_index (D - 1) (min k l) (max k l - 1)) *
        (2 * rten.N0 D - 1 - min (triangle_index (D - 1) (min i j) (max i j - 1))
          (triangle_index (D - 1) (min k l) (max k l - 1))) ∧
      min (triangle_index (D - 1) (min i j) (max i j - 1))
          (triangle_index (D - 1) (min k l) (max k l - 1)) *
        (2 * rten.N0 D - 1 - min (triangle_index (D - 1) (min i j) (max i j - 1))
          (triangle_index (D - 1) (min k l) (max k l - 1))) ≤
        rten.N0 D * (rten.N0 D + 1)) := by
  have h1 : 0 ≤ min i j ∧ min i j < max i j ∧ max i j < D := by
    rcases le_total i j with h | h
    · rw [min_eq_left h, max_eq_right h]; omega
    · rw [min_eq_right h, max_eq_left h]; omega
  have h2 : 0 ≤ min k l ∧ min k l < max k l ∧ max k l < D := by
    rcases le_total k l with h | h
    · rw [min_eq_left h, max_eq_right h]; omega
    · rw [min_eq_right h, max_eq_left h]; omega
  have b1 := rten_pair_bounds D _ _ hD h1.1 h1.2.1 h1.2.2
  have b2 := rten_pair_bounds D _ _ hD h2.1 h2.2.1 h2.2.2
  have e : ∀ a : ℤ, a * (2 * D - 3 - a) = a * (2 * (D - 1) - 1 - a) := fun a => by ring
  have eD : D * (D - 1) = (D - 1) * (D - 1 + 1) := by ring
  refine ⟨?_, ?_, ?_⟩
  · rw [e, eD]
    exact triangle_product_bounds (D - 1) _ h1.1 (by omega)
  · rw [e, eD]
    exact triangle_product_bounds (D - 1) _ h2.1 (by omega)
  · generalize triangle_index (D - 1) (min i j) (max i j - 1) = p at b1 ⊢
    generalize triangle_index (D - 1) (min k l) (max k l - 1) = q at b2 ⊢
    apply triangle_product_bounds
    · rcases le_total p q with h | h
      · rw [min_eq_left h]; omega
      · rw [min_eq_right h]; omega
    · rcases le_total p q with h | h
      · rw [min_eq_left h]; omega
      · rw [min_eq_right h]; omega

/-- The value of `rten::ind` at a canonical quadruple. -/
theorem rten_ind_canonical (D i j k l : ℤ) (h : rten.canonical D i j k l) :
    rten.ind D i j k l =
        triangle_index (rten.N0 D) (triangle_index (D - 1) i (j - 1))
          (triangle_index (D - 1) k (l - 1)) ∧
      triangle_index (D - 1) i (j - 1) ≤ triangle_index (D - 1) k (l - 1) := by
  obtain ⟨hi, hij, hj, hk, hkl, hl, hlex⟩ := h
  have hD : 2 ≤ D := by omega
  have hle : triangle_index (D - 1) i (j - 1) ≤ triangle_index (D - 1) k (l - 1) := by
    rw [triangle_index_le_iff (D - 1) i (j - 1) k (l - 1) (by omega) (by omega) (by omega)
      (by omega)]
    have := (rten_lex_iff D i j k l (by omega) (by omega)).1 hlex
    omega
  refine ⟨?_, hle⟩
  rw [rten_ind_eq D i j k l hD (by omega) (by omega) (by omega) (by omega) (by omega)
    (by omega)]
  rw [min_eq_left (le_of_lt hij), max_eq_right (le_of_lt hij), min_eq_left (le_of_lt hkl),
    max_eq_right (le_of_lt hkl), min_eq_left hle, max_eq_right hle]
/-- Exchanging the indices of the second pair does not change the storage slot. -/
theorem rten_ind_swap34 (D i j k l : ℤ) : rten.ind D i j l k = rten.ind D i j k l := by
  unfold rten.ind
  by_cases h : i = j ∨ k = l
  · rw [if_pos h, if_pos (by tauto)]
  · rw [if_neg h, if_neg (by tauto)]
    simp only [min_comm l k, max_comm l k]

/-- Exchanging the indices of the first pair does not change the storage slot. -/
theorem rten_ind_swap12 (D i j k l : ℤ) : rten.ind D j i k l = rten.ind D i j k l := by
  unfold rten.ind
  by_cases h : i = j ∨ k = l
  · rw [if_pos h, if_pos (by tauto)]
  · rw [if_neg h, if_neg (by tauto)]
    simp only [min_comm j i, max_comm j i]

/-- Exchanging the two index pairs does not change the storage slot. -/
theorem rten_ind_swap_pairs (D i j k l : ℤ) : rten.ind D k l i j = rten.ind D i j k l := by
  unfold rten.ind
  by_cases h : i = j ∨ k = l
  · rw [if_pos h, if_pos (by tauto)]
  · rw [if_neg h, if_neg (by tauto)]
    simp only []
    generalize (min i j * (2 * D - 3 - min i j)).tdiv 2 + max i j - 1 = p
    generalize (min k l * (2 * D - 3 - min k l)).tdiv 2 + max k l - 1 = q
    rw [min_comm q p, max_comm q p]

/-- Exchanging the indices of the second pair flips the sign. -/
theorem rten_sign_swap34 (i j k l : ℤ) : rten.sign i j l k = - rten.sign i j k l := by
  unfold rten.sign
  by_cases h : i = j ∨ k = l
  · rw [if_pos h, if_pos (by tauto)]; simp
  · rw [if_neg h, if_neg (by tauto)]
    have hkl : k ≠ l := by tauto
    rcases lt_or_gt_of_ne hkl with h2 | h2 <;> by_cases h1 : i < j <;>
      simp [h1, h2, not_lt.2 (le_of_lt h2)]

/-- Exchanging the indices of the first pair flips the sign. -/
theorem rten_sign_swap12 (i j k l : ℤ) : rten.sign j i k l = - rten.sign i j k l := by
  unfold rten.sign
  by_cases h : i = j ∨ k = l
  · rw [if_pos h, if_pos (by tauto)]; simp
  · rw [if_neg h, if_neg (by tauto)]
    have hij : i ≠ j := by tauto
    rcases lt_or_gt_of_ne hij with h1 | h1 <;> by_cases h2 : k < l <;>
      simp [h1, h2, not_lt.2 (le_of_lt h1)]

/-- Exchanging the two index pairs keeps the sign. -/
theorem rten_sign_swap_pairs (i j k l : ℤ) : rten.sign k l i j = rten.sign i j k l := by
  unfold rten.sign
  by_cases h : i = j ∨ k = l
  · rw [if_pos h, if_pos (by tauto)]
  · rw [if_neg h, if_neg (by tauto)]
    by_cases h1 : i < j <;> by_cases h2 : k < l <;> simp [h1, h2]

/-- C38: the pair symmetries of the Riemann-tensor container.  For every `D`, every
stored content `elts` over a ring and all indices `i, j, k, l` (in `[0, D)` or not):
`rten(i,j,k,l) = -rten(i,j,l,k)`, `rten(i,j,k,l) = -rten(j,i,k,l)`,
`rten(i,j,k,l) = rten(k,l,i,j)`, and `rten(i,j,k,l) = 0` whenever `i = j` or `k = l`. -/
theorem rten_pair_symmetries {T : Type} [Ring T] (D : ℤ) (r : rten T D) (i j k l : ℤ) :
    r.call i j k l = - r.call i j l k ∧
      r.call i j k l = - r.call j i k l ∧
      r.call i j k l = r.call k l i j ∧
      r.call i i k l = 0 ∧ r.call i j k k = 0 := by
  refine ⟨?_, ?_, ?_, ?_, ?_⟩
  · unfold rten.call
    rw [rten_ind_swap34 D i j k l, rten_sign_swap34 i j k l]
    push_cast
    rw [neg_mul, neg_neg]
  · unfold rten.call
    rw [rten_ind_swap12 D i j k l, rten_sign_swap12 i j k l]
    push_cast
    rw [neg_mul, neg_neg]
  · unfold rten.call
    rw [rten_ind_swap_pairs D i j k l, rten_sign_swap_pairs i j k l]
  · simp [rten.call, rten.sign]
  · simp [rten.call, rten.sign]
/-- The quadruples visited by `rten::loop` are the canonical ones. -/
theorem rten_mem_loop (D i j k l : ℤ) :
    (i, j, k, l) ∈ rten.loop D ↔ rten.canonical D i j k l := by
  unfold rten.loop rten.canonical
  simp only [List.mem_flatMap, mem_intRange]
  constructor
  · rintro ⟨i1, hi, j1, hj, k1, hk, l1, hl, h⟩
    split_ifs at h with hc
    · simp only [List.mem_singleton, Prod.mk.injEq] at h
      obtain ⟨rfl, rfl, rfl, rfl⟩ := h
      refine ⟨by omega, by omega, by omega, by omega, by omega, by omega, hc⟩
    · simp at h
  · rintro ⟨hi, hij, hj, hk, hkl, hl, hc⟩
    refine ⟨i, by omega, j, by omega, k, by omega, l, by omega, ?_⟩
    rw [if_pos hc]
    exact List.mem_singleton_self _

/-- No quadruple is visited twice by `rten::loop`. -/
theorem rten_nodup_loop (D : ℤ) : (rten.loop D).Nodup := by
  unfold rten.loop
  rw [List.nodup_flatMap]
  refine ⟨fun i _ => ?_, ?_⟩
  · rw [List.nodup_flatMap]
    refine ⟨fun j _ => ?_, ?_⟩
    · rw [List.nodup_flatMap]
      refine ⟨fun k _ => ?_, ?_⟩
      · rw [List.nodup_flatMap]
        refine ⟨fun l _ => ?_, ?_⟩
        · split_ifs
          · exact List.nodup_singleton _
          · exact List.nodup_nil
        · refine List.Pairwise.imp_of_mem ?_ (nodup_intRange (k + 1) (D - 1))
          intro l l1 _ _ hne
          simp only [Function.onFun, List.disjoint_left]
          intro q hq hq1
          split_ifs at hq hq1 <;> simp_all
      · refine List.Pairwise.imp_of_mem ?_ (nodup_intRange 0 (D - 1))
        intro k k1 _ _ hne
        simp only [Function.onFun, List.disjoint_left, List.mem_flatMap]
        rintro q ⟨l, _, hq⟩ ⟨l1, _, hq1⟩
        split_ifs at hq hq1 <;> simp_all
    · refine List.Pairwise.imp_of_mem ?_ (nodup_intRange (i + 1) (D - 1))
      intro j j1 _ _ hne
      simp only [Function.onFun, List.disjoint_left, List.mem_flatMap]
      rintro q ⟨k, _, l, _, hq⟩ ⟨k1, _, l1, _, hq1⟩
      split_ifs at hq hq1 <;> simp_all
  · refine List.Pairwise.imp_of_mem ?_ (nodup_intRange 0 (D - 1))
    intro i i1 _ _ hne
    simp only [Function.onFun, List.disjoint_left, List.mem_flatMap]
    rintro q ⟨j, _, k, _, l, _, hq⟩ ⟨j1, _, k1, _, l1, _, hq1⟩
    split_ifs at hq hq1 <;> simp_all

/-- Two canonical quadruples with the same value of `rten::ind` are equal. -/
theorem rten_ind_inj (D i j k l i1 j1 k1 l1 : ℤ) (h : rten.canonical D i j k l)
    (h1 : rten.canonical D i1 j1 k1 l1) (he : rten.ind D i j k l = rten.ind D i1 j1 k1 l1) :
    i = i1 ∧ j = j1 ∧ k = k1 ∧ l = l1 := by
  obtain ⟨e, hle⟩ := rten_ind_canonical D i j k l h
  obtain ⟨e1, hle1⟩ := rten_ind_canonical D i1 j1 k1 l1 h1
  obtain ⟨hi, hij, hj, hk, hkl, hl, -⟩ := h
  obtain ⟨hi1, hij1, hj1, hk1, hkl1, hl1, -⟩ := h1
  have hD : 2 ≤ D := by omega
  rw [e, e1] at he
  have bk := rten_pair_bounds D k l hD hk hkl hl
  have bk1 := rten_pair_bounds D k1 l1 hD hk1 hkl1 hl1
  obtain ⟨hp, hq⟩ := triangle_index_inj (rten.N0 D) _ _ _ _ hle bk.2 hle1 bk1.2 he
  have a := triangle_index_inj (D - 1) i (j - 1) i1 (j1 - 1) (by omega) (by omega) (by omega)
    (by omega) hp
  have b := triangle_index_inj (D - 1) k (l - 1) k1 (l1 - 1) (by omega) (by omega) (by omega)
    (by omega) hq
  omega

/-- Every number in `[0, N)` is the value of `rten::ind` at a canonical quadruple. -/
theorem rten_ind_surj (D n : ℤ) (hD : 2 ≤ D) (hn : 0 ≤ n ∧ n < rten.N D) :
    ∃ i j k l : ℤ, rten.canonical D i j k l ∧ rten.ind D i j k l = n := by
  have hN0 := rten_N0_pos D hD
  obtain ⟨m, rfl⟩ := Int.eq_ofNat_of_zero_le hn.1
  rw [rten_N_eq D hD] at hn
  obtain ⟨p, q, hp, hpq, hq, e⟩ := triangle_index_surj (rten.N0 D) (le_of_lt hN0) m hn.2
  have hM : rten.N0 D = (D - 1) * (D - 1 + 1) / 2 := rten_N0_eq D (by omega)
  obtain ⟨pn, rfl⟩ := Int.eq_ofNat_of_zero_le hp
  obtain ⟨qn, rfl⟩ := Int.eq_ofNat_of_zero_le (le_trans hp hpq)
  obtain ⟨i, j, hi, hij, hj, ep⟩ := triangle_index_surj (D - 1) (by omega) pn (by omega)
  obtain ⟨k, l, hk, hkl, hl, eq⟩ := triangle_index_surj (D - 1) (by omega) qn (by omega)
  have hlex : i < k ∨ (i = k ∧ j ≤ l) := by
    rw [← triangle_index_le_iff (D - 1) i j k l hij hj hkl hl, ep, eq]
    exact hpq
  have hc : rten.canonical D i (j + 1) k (l + 1) := by
    refine ⟨hi, by omega, by omega, hk, by omega, by omega, ?_⟩
    rw [rten_lex_iff D i (j + 1) k (l + 1) (by omega) (by omega)]
    omega
  refine ⟨i, j + 1, k, l + 1, hc, ?_⟩
  rw [(rten_ind_canonical D i (j + 1) k (l + 1) hc).1]
  simp only [add_sub_cancel_right]
  rw [ep, eq, e]

/-- C39: `rten::ind` numbers the canonical quadruples.  For every `D ≥ 2`: every value
of `ind` for indices in `[0, D)` is in `[0, N)`; on the canonical quadruples (`i < j`,
`k < l`, `D * i + j ≤ D * k + l`) `ind` is injective and takes every value in `[0, N)`,
where `N0 = D * (D - 1) / 2` and `N = N0 * (N0 + 1) / 2`; `rten::loop` visits exactly
the canonical quadruples, each once; and after `set` at a canonical quadruple,
`operator()` returns the stored value there and the value it returned before at every
other canonical quadruple. -/
theorem rten_ind_bijective {T : Type} [Ring T] (D : ℤ) (hD : 2 ≤ D) :
    (∀ i j k l : ℤ, (0 ≤ i ∧ i < D) → (0 ≤ j ∧ j < D) → (0 ≤ k ∧ k < D) → (0 ≤ l ∧ l < D) →
      0 ≤ rten.ind D i j k l ∧ rten.ind D i j k l < rten.N D) ∧
    (∀ i j k l i1 j1 k1 l1 : ℤ, rten.canonical D i j k l → rten.canonical D i1 j1 k1 l1 →
      rten.ind D i j k l = rten.ind D i1 j1 k1 l1 → (i, j, k, l) = (i1, j1, k1, l1)) ∧
    (∀ n : ℤ, 0 ≤ n → n < rten.N D →
      ∃ i j k l : ℤ, rten.canonical D i j k l ∧ rten.ind D i j k l = n) ∧
    rten.N0 D = D * (D - 1) / 2 ∧ rten.N D = rten.N0 D * (rten.N0 D + 1) / 2 ∧
    (rten.loop D).Nodup ∧
    (∀ i j k l : ℤ, (i, j, k, l) ∈ rten.loop D ↔ rten.canonical D i j k l) ∧
    (∀ (r : rten T D) (x : T) (i j k l : ℤ), rten.canonical D i j k l →
      (r.set i j k l x).call i j k l = x ∧
      ∀ i1 j1 k1 l1 : ℤ, rten.canonical D i1 j1 k1 l1 → (i1, j1, k1, l1) ≠ (i, j, k, l) →
        (r.set i j k l x).call i1 j1 k1 l1 = r.call i1 j1 k1 l1) := by
  refine ⟨fun i j k l hi hj hk hl => rten_ind_bounds D i j k l hD hi hj hk hl, ?_,
    fun n h0 h1 => rten_ind_surj D n hD ⟨h0, h1⟩, ?_, rten_N_eq D hD, rten_nodup_loop D,
    rten_mem_loop D, ?_⟩
  · intro i j k l i1 j1 k1 l1 h h1 he
    obtain ⟨rfl, rfl, rfl, rfl⟩ := rten_ind_inj D i j k l i1 j1 k1 l1 h h1 he
    rfl
  · unfold rten.N0
    exact Int.tdiv_eq_ediv (mul_nonneg (by omega) (by omega)) (by norm_num)
  · intro r x i j k l h
    have hs : ∀ a b c d : ℤ, rten.canonical D a b c d → rten.sign a b c d = 1 := by
      intro a b c d hc
      obtain ⟨_, hab, _, _, hcd, _, _⟩ := hc
      unfold rten.sign
      rw [if_neg (by omega)]
      simp [hab, hcd]
    refine ⟨?_, ?_⟩
    · unfold rten.call rten.set
      rw [hs i j k l h]
      simp
    · intro i1 j1 k1 l1 h1 hne
      unfold rten.call rten.set
      have hi : rten.ind D i1 j1 k1 l1 ≠ rten.ind D i j k l := by
        intro he
        obtain ⟨rfl, rfl, rfl, rfl⟩ := rten_ind_inj D i1 j1 k1 l1 i j k l h1 h he
        exact hne rfl
      simp only [Function.update_noteq hi]

/-- C39, at a concrete input: `D = 3`, where `N0 = 3` and `N = 6`; storing 7 at the
canonical quadruple `(0, 2, 1, 2)` of a container of integers and reading it back. -/
theorem rten_ind_bijective_witness :
    (2 : ℤ) ≤ 3 ∧ rten.N0 3 = 3 * (3 - 1) / 2 ∧ (rten.loop 3).Nodup ∧
      rten.canonical 3 0 2 1 2 ∧
      ((⟨fun _ => 0⟩ : rten ℤ 3).set 0 2 1 2 7).call 0 2 1 2 = 7 :=
  ⟨by decide, (@rten_ind_bijective ℤ _ 3 (by decide)).2.2.2.1,
    (@rten_ind_bijective ℤ _ 3 (by decide)).2.2.2.2.2.1, by decide,
    ((@rten_ind_bijective ℤ _ 3 (by decide)).2.2.2.2.2.2.2 ⟨fun _ => 0⟩ 7 0 2 1 2
      (by decide)).1⟩

/-! ## Integer powers by repeated squaring (C40) -/

/-- Invariant of the loop of `detail::pown`: started in the state `(r, y, n)` with
`0 ≤ n < 2 ^ fuel`, the loop ends within `fuel` iterations with `r * y ^ n`. -/
theorem detail.pown_loop_eq {T : Type} [Monoid T] (fuel : ℕ) (r y : T) (n : ℕ)
    (hn : n < 2 ^ fuel) :
    detail.pown_loop fuel r y (n : ℤ) = some (r * y ^ n) := by
  induction fuel generalizing r y n with
  | zero =>
    have h0 : n = 0 := by simpa using hn
    subst h0
    simp [detail.pown_loop]
  | succ fuel ih =>
    unfold detail.pown_loop
    by_cases h0 : n = 0
    · subst h0
      simp
    · have hn0 : (n : ℤ) ≠ 0 := by exact_mod_cast h0
      rw [if_neg hn0]
      have hshift : (n : ℤ) >>> (1 : ℕ) = ((n / 2 : ℕ) : ℤ) := by
        rw [Int.shiftRight_eq_div_pow]
        norm_num
      have hlt : n / 2 < 2 ^ fuel := by
        rw [pow_succ] at hn
        omega
      rw [hshift, ih _ _ _ hlt]
      congr 1
      have hsplit : n = 2 * (n / 2) + n % 2 := (Nat.div_add_mod n 2).symm
      have hyy : (y * y) ^ (n / 2) = y ^ (2 * (n / 2)) := by
        rw [pow_mul, pow_two]
      rw [hyy]
      unfold and_0x1
      rcases Nat.mod_two_eq_zero_or_one n with hm | hm
      · have hz : (n : ℤ) % 2 = 0 := by omega
        rw [if_neg (by simp [hz])]
        conv_rhs => rw [hsplit, hm, add_zero]
      · have hz : (n : ℤ) % 2 = 1 := by omega
        rw [if_pos (by simp [hz])]
        conv_rhs => rw [hsplit, hm, add_comm, pow_add, pow_one]
        rw [mul_assoc]

/-- C40: `pown(x, n)` is the integer power.  The loop of `detail::pown` ends for every
exponent `n ≥ 0`: `fuel` iterations are enough as soon as `|n| < 2 ^ fuel` (31 iterations
for every `int`), and such a bound exists for every `n`.  With the loop run to its end,
`pown(x, n)` returns `x ^ n` for `n ≥ 0`, in particular `pown(x, 0) = 1`, and
`1 / x ^ (-n)` for `n < 0` and `x ≠ 0` (the exponent `-n` is computed without overflow,
that is `n > INT_MIN`). -/
theorem pown_eq_pow {T : Type} [Field T] (x : T) (n : ℤ) :
    (∀ fuel : ℕ, |n| < 2 ^ fuel →
      (0 ≤ n → pown fuel x n = some (x ^ n.toNat)) ∧
        (n < 0 → x ≠ 0 → pown fuel x n = some (1 / x ^ (-n).toNat))) ∧
      (∃ fuel : ℕ, |n| < 2 ^ fuel) ∧
      ∀ fuel : ℕ, pown fuel x 0 = some 1 := by
  have key : ∀ (fuel : ℕ) (m : ℤ), 0 ≤ m → m < 2 ^ fuel →
      detail.pown fuel x m = some (x ^ m.toNat) := by
    intro fuel m hm hlt
    obtain ⟨k, rfl⟩ := Int.eq_ofNat_of_zero_le hm
    unfold detail.pown
    rw [detail.pown_loop_eq fuel 1 x k (by exact_mod_cast hlt)]
    simp
  refine ⟨?_, ?_, ?_⟩
  · intro fuel hfuel
    rw [abs_lt] at hfuel
    refine ⟨?_, ?_⟩
    · intro h
      unfold pown
      rw [if_pos h]
      exact key fuel n h hfuel.2
    · intro h _
      unfold pown
      rw [if_neg (by omega), key fuel (-n) (by omega) (by omega)]
      rfl
  · refine ⟨n.natAbs, ?_⟩
    rw [Int.abs_eq_natAbs]
    exact_mod_cast Nat.lt_two_pow n.natAbs
  · intro fuel
    unfold pown
    rw [if_pos (le_refl _)]
    have := key fuel 0 (le_refl _) (by positivity)
    simpa using this

/-- C40, at concrete inputs: `pown(2, -3) = 1 / 2 ^ 3` and `pown(3, 5) = 3 ^ 5` over the
rationals, with loops of 2 and 3 iterations. -/
theorem pown_eq_pow_witness :
    |(-3 : ℤ)| < 2 ^ 2 ∧ (-3 : ℤ) < 0 ∧ (2 : ℚ) ≠ 0 ∧
      pown 2 (2 : ℚ) (-3) = some (1 / 2 ^ (-(-3 : ℤ)).toNat) ∧
      |(5 : ℤ)| < 2 ^ 3 ∧ (0 : ℤ) ≤ 5 ∧ pown 3 (3 : ℚ) 5 = some (3 ^ (5 : ℤ).toNat) :=
  ⟨by decide, by decide, by norm_num,
    ((pown_eq_pow (2 : ℚ) (-3)).1 2 (by decide)).2 (by decide) (by norm_num),
    by decide, by decide, ((pown_eq_pow (3 : ℚ) 5).1 3 (by decide)).1 (by decide)⟩

end CarpetX
